import Mathlib

/-!
# multifile: segmented byte streams over capacity-bounded handles

A shallow embedding of `multiwriter.go` and `multireader.go`.

Modelling conventions
* Go `int` values (cursor, pool counter, transfer counts) are `Int`; the
  arithmetic on them is exact as long as the values stay inside 64 bits.
* Go `uint64` values (capacity, byteswritten, bytesread) are `Nat` and every
  operation on them reduces modulo `2 ^ 64` explicitly.
* `len(p)` of a slice is the length of the list; the conversion
  `uint64(len(p))` is exact because a slice length is a non-negative `int`.
* An `io.Writer` / `io.Reader` is a function on an explicit world state `W`
  (everything outside the stream: file contents, file offsets, ...).
* A pool is a value of some type `P` together with its method table
  (`WriterPooler` / `ReaderPooler`); the stream stores `Option P`, `none`
  being the nil interface.
* A call that recurses is given fuel; running out of fuel and the Go run-time
  panics are reported as a `Fault`.
-/

namespace Multifile

/-! ## Errors and machine integers -/

/-- The three sentinel errors of the package, and any other error value
(produced by a handle or by the file system). -/
inductive Error where
  | ErrOOC
  | ErrCreatePool
  | ErrPoolExhausted
  | other (code : Nat)
  deriving DecidableEq, Repr

/-- Abnormal ends of a call: the model ran out of fuel (the Go call would still
be running), or the Go run time panicked. -/
inductive Fault where
  | outOfFuel
  | indexOutOfRange
  | sliceBounds
  deriving DecidableEq, Repr

abbrev Byte := Nat

/-- Conversion `uint64(n)` of a Go `int`. -/
def uint64 (n : Int) : Nat := (n % 2 ^ 64).toNat

/-- Addition of `uint64` values. -/
def u64add (a b : Nat) : Nat := (a + b) % 2 ^ 64

/-- Subtraction of `uint64` values. -/
def u64sub (a b : Nat) : Nat := (a + (2 ^ 64 - b % 2 ^ 64)) % 2 ^ 64

/-! ## File system primitives and the naming scheme -/

/-- A non-nil `*os.File`. -/
structure File where
  fd : Nat
  deriving DecidableEq, Repr

/-- The primitives of `os`, `path/filepath` and `math` that the file pools call,
over a world state `W`. `Log10Floor x` stands for
`int(math.Floor(math.Log10(float64(x))))`. -/
structure FileSys (W : Type) where
  Join : String → String → String
  Log10Floor : Int → Int
  MkdirAll : String → W → Option Error × W
  Open : String → W → Except Error File × W
  OpenFile : String → W → Except Error File × W
  Close : File → W → Option Error × W
  Sync : File → W → Option Error × W
  Stat : File → W → Except Error Int × W
  ReadFile : File → List Byte → W → (List Byte × Int × Option Error) × W
  WriteFile : File → List Byte → W → (Int × Option Error) × W

/-- Decimal digits of `n`, least significant first (`fuel` bounds the number of
digits produced). -/
def decimalRev : Nat → Nat → List Char
  | 0, _ => []
  | fuel + 1, n =>
    Nat.digitChar (n % 10) :: (if n / 10 = 0 then [] else decimalRev fuel (n / 10))

/-- Decimal digits of `n`, as `%d` prints a non-negative integer. -/
def decimal (n : Nat) : List Char := (decimalRev (n + 1) n).reverse

/-- The verb `%0<digits>d` of `fmt.Sprintf` applied to a non-negative integer:
for a width `digits ≥ 0` the decimal digits are left-padded with zeros to that
width; a negative `digits` is read by `fmt` as the flag `-` followed by the
width `-digits`, which pads with blanks on the right. Widths beyond `10 ^ 6` in
absolute value, which `fmt` reports as bad (it prints `%!(BADWIDTH)` before the
number), are not reproduced: the constructors compute such a width only for a
pool size below 2, and a pool with two or more segments has a width between 1
and 19. -/
def sprintfPad (digits : Int) (index : Nat) : List Char :=
  if 0 ≤ digits then
    List.replicate (digits.toNat - (decimal index).length) '0' ++ decimal index
  else
    decimal index ++ List.replicate ((-digits).toNat - (decimal index).length) ' '

/-! ## Handles, segments and pools -/

/-- An `io.Writer`: `Write p` returns the count and the error. -/
structure Writer (W : Type) where
  Write : List Byte → W → (Int × Option Error) × W

/-- An `io.Reader`: `Read p` is given the buffer and returns the bytes it stored
at the start of the buffer, the count and the error. -/
structure Reader (W : Type) where
  Read : List Byte → W → (List Byte × Int × Option Error) × W

/-- The buffer `p` after a handle stored `d` at its start: a callee cannot
change the length of the caller's slice. -/
def overlay (d p : List Byte) : List Byte := d.take p.length ++ p.drop d.length

structure ConstrainedWriter (W : Type) where
  w : Writer W
  capacity : Nat
  byteswritten : Nat

structure ConstrainedReader (W : Type) where
  r : Reader W
  capacity : Nat
  bytesread : Nat

/-- The interface `WriterPooler`, for a pool whose state has type `P`. On an
error the segment returned in Go is discarded by the only caller, so the result
is either an error or a segment. -/
structure WriterPooler (W P : Type) where
  NewConstrainedWriter : P → W → Except Error (ConstrainedWriter W) × P × W
  Close : P → W → Option Error × P × W

/-- The interface `ReaderPooler`, for a pool whose state has type `P`. -/
structure ReaderPooler (W P : Type) where
  NewConstrainedReader : P → W → Except Error (ConstrainedReader W) × P × W
  Close : P → W → Option Error × P × W

structure MultiWriter (W P : Type) where
  index : Int
  cws : List (ConstrainedWriter W)
  pool : Option P

structure MultiReader (W P : Type) where
  index : Int
  crs : List (ConstrainedReader W)
  pool : Option P

/-! ## File pools -/

structure FileReaderPool where
  Path : String
  NameComponent : String
  Extension : String
  ShortExtension : String
  counter : Int
  PoolSize : Int
  FileCapacity : Nat
  digits : Int
  activefile : Option File
  deriving DecidableEq, Repr

structure FileWriterPool where
  Path : String
  NameComponent : String
  Extension : String
  ShortExtension : String
  counter : Int
  PoolSize : Int
  FileCapacity : Nat
  digits : Int
  activefile : Option File
  deriving DecidableEq, Repr

variable {W : Type}

def NewFileReaderPool (fs : FileSys W) (path namecomponent extension shortextension : String)
    (poolsize : Int) : Except Error FileReaderPool :=
  if poolsize = 0 ∨ namecomponent = "" ∨ extension = "" then
    .error .ErrCreatePool
  else
    .ok { Path := path, NameComponent := namecomponent, Extension := extension,
          ShortExtension := shortextension, counter := 0, PoolSize := poolsize,
          FileCapacity := 0, digits := fs.Log10Floor (poolsize - 1) + 1, activefile := none }

def NewFileWriterPool (fs : FileSys W) (path namecomponent extension shortextension : String)
    (poolsize : Int) (capacity : Nat) : Except Error FileWriterPool :=
  if poolsize = 0 ∨ capacity = 0 ∨ namecomponent = "" ∨ extension = "" then
    .error .ErrCreatePool
  else
    .ok { Path := path, NameComponent := namecomponent, Extension := extension,
          ShortExtension := shortextension, counter := 0, PoolSize := poolsize,
          FileCapacity := capacity, digits := fs.Log10Floor (poolsize - 1) + 1,
          activefile := none }

/-- The file name before it is joined to the directory: `%s.%s` for index 0,
`%s.%s%0<digits>d` otherwise. -/
def segmentName (namecomponent extension shortextension : String) (digits : Int)
    (index : Int) : String :=
  if index = 0 then
    namecomponent ++ "." ++ extension
  else
    namecomponent ++ "." ++ shortextension ++ String.mk (sprintfPad digits index.toNat)

def FileReaderPool.GetFileName (fs : FileSys W) (f : FileReaderPool) (index : Int) :
    Except Error String :=
  if index < 0 ∨ index > f.PoolSize then
    .error .ErrPoolExhausted
  else
    .ok (fs.Join f.Path
      (segmentName f.NameComponent f.Extension f.ShortExtension f.digits index))

def FileWriterPool.GetFileName (fs : FileSys W) (f : FileWriterPool) (index : Int) :
    Except Error String :=
  if index < 0 ∨ index > f.PoolSize then
    .error .ErrPoolExhausted
  else
    .ok (fs.Join f.Path
      (segmentName f.NameComponent f.Extension f.ShortExtension f.digits index))

/-- The previously opened file is closed, its result ignored. -/
def closeActive (fs : FileSys W) (activefile : Option File) (s : W) : W :=
  match activefile with
  | none => s
  | some file => (fs.Close file s).2

def FileReaderPool.NewConstrainedReader (fs : FileSys W) (f : FileReaderPool) (s : W) :
    Except Error (ConstrainedReader W) × FileReaderPool × W :=
  let f := { f with counter := f.counter + 1 }
  if f.counter > f.PoolSize then
    (.error .ErrPoolExhausted, { f with counter := f.counter - 1 }, s)
  else
    match f.GetFileName fs (f.counter - 1) with
    | .error err => (.error err, { f with counter := f.counter - 1 }, s)
    | .ok fpath =>
      let s := closeActive fs f.activefile s
      match fs.Open fpath s with
      | (.error err, s) => (.error err, { f with activefile := none, counter := f.counter - 1 }, s)
      | (.ok file, s) =>
        let f := { f with activefile := some file }
        match fs.Stat file s with
        | (.error err, s) => (.error err, f, s)
        | (.ok size, s) =>
          let f := { f with FileCapacity := uint64 size }
          (.ok { r := ⟨fs.ReadFile file⟩, capacity := f.FileCapacity, bytesread := 0 }, f, s)

def FileReaderPool.Close (fs : FileSys W) (f : FileReaderPool) (s : W) :
    Option Error × FileReaderPool × W :=
  match f.activefile with
  | some file => ((fs.Close file s).1, f, (fs.Close file s).2)
  | none => (none, f, s)

def FileWriterPool.NewConstrainedWriter (fs : FileSys W) (f : FileWriterPool) (s : W) :
    Except Error (ConstrainedWriter W) × FileWriterPool × W :=
  let f := { f with counter := f.counter + 1 }
  if f.counter > f.PoolSize then
    (.error .ErrPoolExhausted, { f with counter := f.counter - 1 }, s)
  else
    let made : Option Error × W := if f.counter = (1 : Int) then fs.MkdirAll f.Path s else (none, s)
    match made with
    | (some err, s) => (.error err, { f with counter := f.counter - 1 }, s)
    | (none, s) =>
      match f.GetFileName fs (f.counter - 1) with
      | .error err => (.error err, { f with counter := f.counter - 1 }, s)
      | .ok fpath =>
        let s := closeActive fs f.activefile s
        match fs.OpenFile fpath s with
        | (.error err, s) =>
          (.error err, { f with activefile := none, counter := f.counter - 1 }, s)
        | (.ok file, s) =>
          let f := { f with activefile := some file }
          (.ok { w := ⟨fs.WriteFile file⟩, capacity := f.FileCapacity, byteswritten := 0 }, f, s)

def FileWriterPool.Close (fs : FileSys W) (f : FileWriterPool) (s : W) :
    Option Error × FileWriterPool × W :=
  match f.activefile with
  | some file =>
    let s := (fs.Sync file s).2
    ((fs.Close file s).1, f, (fs.Close file s).2)
  | none => (some .ErrPoolExhausted, f, s)

def FileReaderPool.Pooler (fs : FileSys W) : ReaderPooler W FileReaderPool where
  NewConstrainedReader := FileReaderPool.NewConstrainedReader fs
  Close := FileReaderPool.Close fs

def FileWriterPool.Pooler (fs : FileSys W) : WriterPooler W FileWriterPool where
  NewConstrainedWriter := FileWriterPool.NewConstrainedWriter fs
  Close := FileWriterPool.Close fs

/-! ## The write side -/

variable {P : Type}

def NewMultiWriter (p : Option P) : MultiWriter W P :=
  { index := 0, cws := [], pool := p }

def MultiWriter.AddConstrainedWriter (m : MultiWriter W P) (w : Writer W) (capacity : Nat) :
    MultiWriter W P :=
  { m with cws := m.cws ++ [{ w := w, capacity := capacity, byteswritten := 0 }] }

def MultiWriter.AddConstrainedWriterFromPool (I : WriterPooler W P) (m : MultiWriter W P)
    (s : W) : Option Error × MultiWriter W P × W :=
  match m.pool with
  | none => (some .ErrPoolExhausted, m, s)
  | some pool =>
    match I.NewConstrainedWriter pool s with
    | (.error err, pool, s) => (some err, { m with pool := some pool }, s)
    | (.ok c, pool, s) => (none, { m with cws := m.cws ++ [c], pool := some pool }, s)

/-- Lines 64-82 of `Write`: the checks before a segment is used. The result is
either the early return of `Write` or the state with which it goes on. -/
def MultiWriter.acquire (I : WriterPooler W P) (m : MultiWriter W P) (s : W) :
    ((Int × Option Error) × MultiWriter W P × W) ⊕ (MultiWriter W P × W) :=
  let first : Option Error × MultiWriter W P × W :=
    if m.cws.length = 0 then m.AddConstrainedWriterFromPool I s else (none, m, s)
  match first with
  | (some err, m, s) => .inl ((0, some err), m, s)
  | (none, m, s) =>
    if m.index < 0 then
      .inl ((0, some .ErrOOC), m, s)
    else if m.index ≥ m.cws.length then
      match m.AddConstrainedWriterFromPool I s with
      | (some err, m, s) => .inl ((0, some err), m, s)
      | (none, m, s) =>
        if m.index ≥ m.cws.length then
          .inl ((0, some .ErrPoolExhausted), m, s)
        else
          .inr (m, s)
    else
      .inr (m, s)

/-- The statement `m.cws[m.index].byteswritten += uint64(n)`. -/
def MultiWriter.addWritten (m : MultiWriter W P) (n : Int) : MultiWriter W P :=
  let bump : ConstrainedWriter W → ConstrainedWriter W :=
    fun c => { c with byteswritten := u64add c.byteswritten (uint64 n) }
  { m with cws := m.cws.modify bump m.index.toNat }

/-- The statement
`if m.cws[m.index].byteswritten == m.cws[m.index].capacity { m.index++ }`. -/
def MultiWriter.advance (m : MultiWriter W P) : MultiWriter W P :=
  match m.cws[m.index.toNat]? with
  | some c => if c.byteswritten = c.capacity then { m with index := m.index + 1 } else m
  | none => m

def MultiWriter.Write (I : WriterPooler W P) :
    Nat → MultiWriter W P → List Byte → W →
      Except Fault ((Int × Option Error) × MultiWriter W P × W)
  | 0, _, _, _ => .error .outOfFuel
  | fuel + 1, m, p, s =>
    match m.acquire I s with
    | .inl r => .ok r
    | .inr (m, s) =>
      match m.cws[m.index.toNat]? with
      | none => .error .indexOutOfRange
      | some c =>
        let bytestowrite := u64sub c.capacity c.byteswritten
        if p.length < bytestowrite then
          match c.w.Write p s with
          | ((n, err), s) => .ok ((n, err), m.addWritten n, s)
        else if p.length = bytestowrite then
          match c.w.Write p s with
          | ((n, err), s) => .ok ((n, err), (m.addWritten n).advance, s)
        else
          match c.w.Write (p.take bytestowrite) s with
          | ((n, some err), s) => .ok ((n, some err), (m.addWritten n).advance, s)
          | ((n, none), s) =>
            if n < 0 ∨ (p.length : Int) < n then
              .error .sliceBounds
            else
              match MultiWriter.Write I fuel (m.addWritten n).advance (p.drop n.toNat) s with
              | .error fault => .error fault
              | .ok ((nn, ee), m, s) => .ok ((n + nn, ee), m, s)

/-- The method `Close` of `MultiWriter`: it calls the pool; on a nil pool the
call panics (`none`). -/
def MultiWriter.Close (I : WriterPooler W P) (m : MultiWriter W P) (s : W) :
    Option (Option Error × MultiWriter W P × W) :=
  match m.pool with
  | none => none
  | some pool =>
    match I.Close pool s with
    | (err, pool, s) => some (err, { m with pool := some pool }, s)

/-! ## The read side -/

def NewMultiReader (p : Option P) : MultiReader W P :=
  { index := 0, crs := [], pool := p }

def MultiReader.AddConstrainedReader (m : MultiReader W P) (r : Reader W) (capacity : Nat) :
    MultiReader W P :=
  { m with crs := m.crs ++ [{ r := r, capacity := capacity, bytesread := 0 }] }

def MultiReader.AddConstrainedReaderFromPool (I : ReaderPooler W P) (m : MultiReader W P)
    (s : W) : Option Error × MultiReader W P × W :=
  match m.pool with
  | none => (some .ErrPoolExhausted, m, s)
  | some pool =>
    match I.NewConstrainedReader pool s with
    | (.error err, pool, s) => (some err, { m with pool := some pool }, s)
    | (.ok c, pool, s) => (none, { m with crs := m.crs ++ [c], pool := some pool }, s)

/-- Lines 58-75 of `Read`: the checks before a segment is used. -/
def MultiReader.acquire (I : ReaderPooler W P) (m : MultiReader W P) (s : W) :
    ((Int × Option Error) × MultiReader W P × W) ⊕ (MultiReader W P × W) :=
  let first : Option Error × MultiReader W P × W :=
    if m.crs.length = 0 then m.AddConstrainedReaderFromPool I s else (none, m, s)
  match first with
  | (some err, m, s) => .inl ((0, some err), m, s)
  | (none, m, s) =>
    if m.index < 0 then
      .inl ((0, some .ErrOOC), m, s)
    else if m.index ≥ m.crs.length then
      match m.AddConstrainedReaderFromPool I s with
      | (some err, m, s) => .inl ((0, some err), m, s)
      | (none, m, s) =>
        if m.index ≥ m.crs.length then
          .inl ((0, some .ErrPoolExhausted), m, s)
        else
          .inr (m, s)
    else
      .inr (m, s)

/-- The statement `m.crs[m.index].bytesread += uint64(n)`. -/
def MultiReader.addRead (m : MultiReader W P) (n : Int) : MultiReader W P :=
  let bump : ConstrainedReader W → ConstrainedReader W :=
    fun c => { c with bytesread := u64add c.bytesread (uint64 n) }
  { m with crs := m.crs.modify bump m.index.toNat }

/-- The statement
`if m.crs[m.index].bytesread == m.crs[m.index].capacity { m.index++ }`. -/
def MultiReader.advance (m : MultiReader W P) : MultiReader W P :=
  match m.crs[m.index.toNat]? with
  | some c => if c.bytesread = c.capacity then { m with index := m.index + 1 } else m
  | none => m

/-- The method `Read`. The first component of the result is the caller's buffer
`p` after the call. -/
def MultiReader.Read (I : ReaderPooler W P) :
    Nat → MultiReader W P → List Byte → W →
      Except Fault ((List Byte × Int × Option Error) × MultiReader W P × W)
  | 0, _, _, _ => .error .outOfFuel
  | fuel + 1, m, p, s =>
    match m.acquire I s with
    | .inl ((n, err), m, s) => .ok ((p, n, err), m, s)
    | .inr (m, s) =>
      match m.crs[m.index.toNat]? with
      | none => .error .indexOutOfRange
      | some c =>
        let bytestoread := u64sub c.capacity c.bytesread
        if p.length < bytestoread then
          match c.r.Read p s with
          | ((d, n, err), s) => .ok ((overlay d p, n, err), m.addRead n, s)
        else if p.length = bytestoread then
          match c.r.Read p s with
          | ((d, n, err), s) => .ok ((overlay d p, n, err), (m.addRead n).advance, s)
        else
          match c.r.Read (p.take bytestoread) s with
          | ((d, n, some err), s) =>
            .ok ((overlay d (p.take bytestoread) ++ p.drop bytestoread, n, some err),
              (m.addRead n).advance, s)
          | ((d, n, none), s) =>
            let p1 := overlay d (p.take bytestoread) ++ p.drop bytestoread
            if n < 0 ∨ (p.length : Int) < n then
              .error .sliceBounds
            else
              match MultiReader.Read I fuel (m.addRead n).advance (p1.drop n.toNat) s with
              | .error fault => .error fault
              | .ok ((p2, nn, ee), m, s) => .ok ((p1.take n.toNat ++ p2, n + nn, ee), m, s)

/-- The method `Close` of `MultiReader`: it calls the pool; on a nil pool the
call panics (`none`). -/
def MultiReader.Close (I : ReaderPooler W P) (m : MultiReader W P) (s : W) :
    Option (Option Error × MultiReader W P × W) :=
  match m.pool with
  | none => none
  | some pool =>
    match I.Close pool s with
    | (err, pool, s) => some (err, { m with pool := some pool }, s)

/-! ## Contracts and invariants -/

/-- The contract of `io.Reader`: the count is between 0 and the length of the
buffer. -/
def ReaderOK (r : Reader W) : Prop :=
  ∀ p s, 0 ≤ (r.Read p s).1.2.1 ∧ (r.Read p s).1.2.1 ≤ (p.length : Int)

/-- The contract of `io.Writer`: the count is between 0 and the length of the
buffer. -/
def WriterOK (w : Writer W) : Prop :=
  ∀ p s, 0 ≤ (w.Write p s).1.1 ∧ (w.Write p s).1.1 ≤ (p.length : Int)

/-- A segment as a stream may hold it: the counter within the capacity, the
capacity a `uint64`, the handle keeping its contract. -/
def ConstrainedReader.OK (c : ConstrainedReader W) : Prop :=
  c.bytesread ≤ c.capacity ∧ c.capacity < 2 ^ 64 ∧ ReaderOK c.r

def ConstrainedWriter.OK (c : ConstrainedWriter W) : Prop :=
  c.byteswritten ≤ c.capacity ∧ c.capacity < 2 ^ 64 ∧ WriterOK c.w

/-- A pool that supplies segments with zero bytes transferred, whose handles keep
the contract. -/
def ReaderPoolOK (I : ReaderPooler W P) : Prop :=
  ∀ pool s c pool2 s2, I.NewConstrainedReader pool s = (.ok c, pool2, s2) →
    c.bytesread = 0 ∧ c.capacity < 2 ^ 64 ∧ ReaderOK c.r

def WriterPoolOK (I : WriterPooler W P) : Prop :=
  ∀ pool s c pool2 s2, I.NewConstrainedWriter pool s = (.ok c, pool2, s2) →
    c.byteswritten = 0 ∧ c.capacity < 2 ^ 64 ∧ WriterOK c.w

/-- The states of a `MultiReader` after any sequence of segment additions, pool
acquisitions and `Read` calls that returned, from a new stream. -/
inductive MultiReader.Reachable (I : ReaderPooler W P) : MultiReader W P → Prop
  | fresh (p : Option P) : MultiReader.Reachable I (NewMultiReader p)
  | add (m : MultiReader W P) (r : Reader W) (capacity : Nat) :
      MultiReader.Reachable I m → ReaderOK r → capacity < 2 ^ 64 →
      MultiReader.Reachable I (m.AddConstrainedReader r capacity)
  | fromPool (m : MultiReader W P) (s : W) :
      MultiReader.Reachable I m →
      MultiReader.Reachable I (m.AddConstrainedReaderFromPool I s).2.1
  | read (m : MultiReader W P) (fuel : Nat) (p : List Byte) (s : W)
      (res : List Byte × Int × Option Error) (m2 : MultiReader W P) (s2 : W) :
      MultiReader.Reachable I m → m.Read I fuel p s = .ok (res, m2, s2) →
      MultiReader.Reachable I m2

/-- The states of a `MultiWriter` after any sequence of segment additions, pool
acquisitions and `Write` calls that returned, from a new stream. -/
inductive MultiWriter.Reachable (I : WriterPooler W P) : MultiWriter W P → Prop
  | fresh (p : Option P) : MultiWriter.Reachable I (NewMultiWriter p)
  | add (m : MultiWriter W P) (w : Writer W) (capacity : Nat) :
      MultiWriter.Reachable I m → WriterOK w → capacity < 2 ^ 64 →
      MultiWriter.Reachable I (m.AddConstrainedWriter w capacity)
  | fromPool (m : MultiWriter W P) (s : W) :
      MultiWriter.Reachable I m →
      MultiWriter.Reachable I (m.AddConstrainedWriterFromPool I s).2.1
  | write (m : MultiWriter W P) (fuel : Nat) (p : List Byte) (s : W)
      (res : Int × Option Error) (m2 : MultiWriter W P) (s2 : W) :
      MultiWriter.Reachable I m → m.Write I fuel p s = .ok (res, m2, s2) →
      MultiWriter.Reachable I m2

/-- The invariant of the read side: the cursor is inside `[0, len]`, every
segment is well formed, the segments before the cursor are full, those after it
are untouched, and the segment at the cursor is full only if it has capacity 0. -/
structure MultiReader.Inv (m : MultiReader W P) : Prop where
  nonneg : 0 ≤ m.index
  le_len : m.index ≤ (m.crs.length : Int)
  segs : ∀ (i : Nat) (c : ConstrainedReader W), m.crs[i]? = some c → c.OK
  before : ∀ (i : Nat) (c : ConstrainedReader W), m.crs[i]? = some c → (i : Int) < m.index → c.bytesread = c.capacity
  after : ∀ (i : Nat) (c : ConstrainedReader W), m.crs[i]? = some c → m.index < (i : Int) → c.bytesread = 0
  cursor : ∀ (c : ConstrainedReader W), m.crs[m.index.toNat]? = some c → c.bytesread = c.capacity → c.capacity = 0

/-- The invariant of the write side. -/
structure MultiWriter.Inv (m : MultiWriter W P) : Prop where
  nonneg : 0 ≤ m.index
  le_len : m.index ≤ (m.cws.length : Int)
  segs : ∀ (i : Nat) (c : ConstrainedWriter W), m.cws[i]? = some c → c.OK
  before : ∀ (i : Nat) (c : ConstrainedWriter W), m.cws[i]? = some c → (i : Int) < m.index → c.byteswritten = c.capacity
  after : ∀ (i : Nat) (c : ConstrainedWriter W), m.cws[i]? = some c → m.index < (i : Int) → c.byteswritten = 0
  cursor : ∀ (c : ConstrainedWriter W), m.cws[m.index.toNat]? = some c → c.byteswritten = c.capacity → c.capacity = 0

/-- Total of the bytes read through all segments of the stream. -/
def MultiReader.total (m : MultiReader W P) : Nat := (m.crs.map (fun c => c.bytesread)).sum

/-- Total of the bytes written through all segments of the stream. -/
def MultiWriter.total (m : MultiWriter W P) : Nat :=
  (m.cws.map (fun c => c.byteswritten)).sum

/-- The stream `n` is the stream `m` with untouched, well-formed segments appended
(and possibly another pool state). -/
def MultiReader.Ext (m n : MultiReader W P) : Prop :=
  n.index = m.index ∧ ∃ ext, n.crs = m.crs ++ ext ∧
    ∀ c ∈ ext, c.bytesread = 0 ∧ c.capacity < 2 ^ 64 ∧ ReaderOK c.r

/-! ## The write side seen as a read side

A writer is a reader that stores nothing in the caller's buffer. Under this
reading `MultiWriter.Write` is `MultiReader.Read`, which lets the facts proved
about `Read` be carried over to `Write`. -/

def Writer.asReader (w : Writer W) : Reader W :=
  ⟨fun p s => (([], (w.Write p s).1.1, (w.Write p s).1.2), (w.Write p s).2)⟩

def ConstrainedWriter.asReader (c : ConstrainedWriter W) : ConstrainedReader W :=
  { r := c.w.asReader, capacity := c.capacity, bytesread := c.byteswritten }

def MultiWriter.asReader (m : MultiWriter W P) : MultiReader W P :=
  { index := m.index, crs := m.cws.map ConstrainedWriter.asReader, pool := m.pool }

def WriterPooler.asReader (I : WriterPooler W P) : ReaderPooler W P where
  NewConstrainedReader := fun pool s =>
    match I.NewConstrainedWriter pool s with
    | (.ok c, pool, s) => (.ok c.asReader, pool, s)
    | (.error e, pool, s) => (.error e, pool, s)
  Close := I.Close

/-! ## In-memory segments -/

/-- The error `io.EOF`. -/
def EOF : Error := .other 0

/-- The contents of the in-memory segments, one slot per segment. -/
abbrev Store := List (List Byte)

/-- The handle of in-memory segment `i` for writing: it appends every byte it is
given to slot `i` and reports all of them written. -/
def memWriter (i : Nat) : Writer Store :=
  ⟨fun p st => ((p.length, none), st.modify (fun x => x ++ p) i)⟩

/-- The handle of in-memory segment `i` for reading, the store holding what is
still unread: it delivers the next bytes of slot `i`, as many as the buffer
takes and the slot has, and reports `io.EOF` when a non-empty buffer gets
nothing. -/
def memReader (i : Nat) : Reader Store :=
  ⟨fun p st =>
    (((st.getD i []).take p.length, (((st.getD i []).take p.length).length : Int),
      if ((st.getD i []).take p.length).length = 0 ∧ 0 < p.length then some EOF else none),
     st.modify (fun x => x.drop p.length) i)⟩

/-- A pool of in-memory segments of capacity `cap`, at most `max` of them. Its
state is the number of segments handed out; a new segment gets a new slot. -/
def memWriterPool (cap max : Nat) : WriterPooler Store Nat where
  NewConstrainedWriter := fun k st =>
    if k < max then
      (.ok { w := memWriter k, capacity := cap % 2 ^ 64, byteswritten := 0 }, k + 1, st ++ [[]])
    else
      (.error .ErrPoolExhausted, k, st)
  Close := fun k st => (none, k, st)

/-- A pool over the slots of the store, at most `max` of them; the capacity of a
segment is the size of its slot when it is handed out. -/
def memReaderPool (max : Nat) : ReaderPooler Store Nat where
  NewConstrainedReader := fun k st =>
    if k < max ∧ k < st.length then
      (.ok { r := memReader k, capacity := uint64 ((st.getD k []).length : Int), bytesread := 0 },
        k + 1, st)
    else
      (.error .ErrPoolExhausted, k, st)
  Close := fun k st => (none, k, st)

/-- The write stream after `Write([1, 2, 3, 4, 5, 6])` on a new stream over
`memWriterPool 4 3`. -/
def demoWritten : MultiWriter Store Nat :=
  { index := 1,
    cws := [{ w := memWriter 0, capacity := 4, byteswritten := 4 },
            { w := memWriter 1, capacity := 4, byteswritten := 2 }],
    pool := some 2 }

/-- The read stream after a `Read` of 5 bytes on a new stream over
`memReaderPool 3` and the store `[[1, 2, 3, 4], [5, 6]]`. -/
def demoRead : MultiReader Store Nat :=
  { index := 1,
    crs := [{ r := memReader 0, capacity := 4, bytesread := 4 },
            { r := memReader 1, capacity := 2, bytesread := 1 }],
    pool := some 2 }

/-! ## Recording the reports of the handles

To speak about "the counts the underlying handles reported" the world is paired
with a record of reports; a recording handle appends its own report to the
record at each call, and a silent pool leaves the record alone. -/

/-- What a handle reported on one call: the count and the error. -/
abbrev Report := Int × Option Error

def Reader.Recording (r : Reader (W × List Report)) : Prop :=
  ∀ p s log, (r.Read p (s, log)).2.2 = log ++ [(r.Read p (s, log)).1.2]

def Writer.Recording (w : Writer (W × List Report)) : Prop :=
  ∀ p s log, (w.Write p (s, log)).2.2 = log ++ [(w.Write p (s, log)).1]

/-- A pool that does not touch the record and supplies recording handles. -/
def ReaderPooler.Silent (I : ReaderPooler (W × List Report) P) : Prop :=
  ∀ pool s log, (I.NewConstrainedReader pool (s, log)).2.2.2 = log ∧
    ∀ c, (I.NewConstrainedReader pool (s, log)).1 = .ok c → c.r.Recording

def WriterPooler.Silent (I : WriterPooler (W × List Report) P) : Prop :=
  ∀ pool s log, (I.NewConstrainedWriter pool (s, log)).2.2.2 = log ∧
    ∀ c, (I.NewConstrainedWriter pool (s, log)).1 = .ok c → c.w.Recording

/-- The handle `r` with its reports recorded. -/
def Reader.recorded (r : Reader W) : Reader (W × List Report) :=
  ⟨fun p sl => ((r.Read p sl.1).1, ((r.Read p sl.1).2, sl.2 ++ [(r.Read p sl.1).1.2]))⟩

/-- The handle `w` with its reports recorded. -/
def Writer.recorded (w : Writer W) : Writer (W × List Report) :=
  ⟨fun p sl => ((w.Write p sl.1).1, ((w.Write p sl.1).2, sl.2 ++ [(w.Write p sl.1).1]))⟩

/-- The result `(n, e)` of a call is explained by the reports `calls` of the
handles it called: `n` is the total of the reported counts, every call but the
last reported no error, and `e` is the error of the last call, unless no handle
reported an error and the call ended in the failed acquisition `acq e`. -/
def Explains (calls : List Report) (n : Int) (e : Option Error) (acq : Option Error → Prop) :
    Prop :=
  n = (calls.map Prod.fst).sum ∧
  (∀ r ∈ calls.dropLast, r.2 = none) ∧
  (calls.getLast?.map Prod.snd = some e ∨ ((∀ r ∈ calls, r.2 = none) ∧ acq e))

/-- A writer on slot `i` that takes bytes only until the slot holds `limit`
bytes, and reports an error when it takes fewer bytes than it is given. -/
def limitWriter (i limit : Nat) : Writer Store :=
  ⟨fun p st =>
    (((((p.take (limit - (st.getD i []).length)).length : Nat) : Int),
      if (p.take (limit - (st.getD i []).length)).length < p.length then some (.other 28)
      else none),
     st.modify (fun x => x ++ p.take (limit - (st.getD i []).length)) i)⟩

/-- The method table of an absent pool: used with `pool := none`, it is never
called; called all the same, it is exhausted. -/
def noWriterPool {W : Type} : WriterPooler W Unit where
  NewConstrainedWriter := fun u s => (.error .ErrPoolExhausted, u, s)
  Close := fun u s => (none, u, s)

def noReaderPool {W : Type} : ReaderPooler W Unit where
  NewConstrainedReader := fun u s => (.error .ErrPoolExhausted, u, s)
  Close := fun u s => (none, u, s)

/-- Two recorded in-memory segments of capacity 4; the second takes one byte
only. -/
def demoLimited : MultiWriter (Store × List Report) Unit :=
  ((NewMultiWriter none).AddConstrainedWriter (memWriter 0).recorded 4).AddConstrainedWriter
    (limitWriter 1 1).recorded 4

/-- The stream `demoLimited` after `Write([1, 2, 3, 4, 5, 6])`. -/
def demoLimitedAfter : MultiWriter (Store × List Report) Unit :=
  { index := 1,
    cws := [{ w := (memWriter 0).recorded, capacity := 4, byteswritten := 4 },
            { w := (limitWriter 1 1).recorded, capacity := 4, byteswritten := 1 }],
    pool := none }

/-- Two recorded in-memory segments for reading, each declared with capacity 4. -/
def demoShort : MultiReader (Store × List Report) Unit :=
  ((NewMultiReader none).AddConstrainedReader (memReader 0).recorded 4).AddConstrainedReader
    (memReader 1).recorded 4

/-- The stream `demoShort` after a `Read` of 6 bytes from the store
`[[1, 2, 3, 4], []]`, whose second slot is empty although declared with 4 bytes. -/
def demoShortAfter : MultiReader (Store × List Report) Unit :=
  { index := 1,
    crs := [{ r := (memReader 0).recorded, capacity := 4, bytesread := 4 },
            { r := (memReader 1).recorded, capacity := 4, bytesread := 0 }],
    pool := none }

/-! ## The transfer of one call, segment by segment

The account section 4.2 of the specification gives of a call whose handles
transfer all they are asked for: the segment at the cursor takes the first
`remaining` bytes of the buffer, the rest goes, in order, to the following
segments, each taken to its capacity before the next is used. -/

/-- The segments from the cursor on, and the world, after `p` was written across
them. -/
def spreadWrite : List (ConstrainedWriter W) → List Byte → W → List (ConstrainedWriter W) × W
  | [], _, s => ([], s)
  | c :: rest, p, s =>
    if p.length ≤ c.capacity - c.byteswritten then
      ({ c with byteswritten := c.byteswritten + p.length } :: rest, (c.w.Write p s).2)
    else
      ({ c with byteswritten := c.capacity } ::
          (spreadWrite rest (p.drop (c.capacity - c.byteswritten))
            (c.w.Write (p.take (c.capacity - c.byteswritten)) s).2).1,
        (spreadWrite rest (p.drop (c.capacity - c.byteswritten))
            (c.w.Write (p.take (c.capacity - c.byteswritten)) s).2).2)

/-- The buffer, the segments from the cursor on, and the world, after the buffer
`p` was read across them. -/
def spreadRead : List (ConstrainedReader W) → List Byte → W →
    List Byte × List (ConstrainedReader W) × W
  | [], p, s => (p, [], s)
  | c :: rest, p, s =>
    if p.length ≤ c.capacity - c.bytesread then
      (overlay (c.r.Read p s).1.1 p, { c with bytesread := c.bytesread + p.length } :: rest,
        (c.r.Read p s).2)
    else
      (overlay (c.r.Read (p.take (c.capacity - c.bytesread)) s).1.1
            (p.take (c.capacity - c.bytesread)) ++
          (spreadRead rest (p.drop (c.capacity - c.bytesread))
            (c.r.Read (p.take (c.capacity - c.bytesread)) s).2).1,
        { c with bytesread := c.capacity } ::
          (spreadRead rest (p.drop (c.capacity - c.bytesread))
            (c.r.Read (p.take (c.capacity - c.bytesread)) s).2).2.1,
        (spreadRead rest (p.drop (c.capacity - c.bytesread))
            (c.r.Read (p.take (c.capacity - c.bytesread)) s).2).2.2)

/-- Along the transfer of `p` every handle transfers all it is asked for and
reports no error, and the segments suffice. -/
def spreadReadOK : List (ConstrainedReader W) → List Byte → W → Prop
  | [], _, _ => False
  | c :: rest, p, s =>
    if p.length ≤ c.capacity - c.bytesread then
      (c.r.Read p s).1.2 = ((p.length : Int), none)
    else
      (c.r.Read (p.take (c.capacity - c.bytesread)) s).1.2
          = (((c.capacity - c.bytesread : Nat) : Int), none) ∧
        spreadReadOK rest (p.drop (c.capacity - c.bytesread))
          (c.r.Read (p.take (c.capacity - c.bytesread)) s).2

/-- The number of segments that a transfer of `len` bytes fills, given what remains
of each segment from the cursor on. -/
def filledSegments : List Nat → Nat → Nat
  | [], _ => 0
  | r :: rest, len =>
    if len < r then 0 else if len = r then 1 else 1 + filledSegments rest (len - r)

/-- The position of the first segment that is not full (the number of segments
if all are full). -/
def MultiWriter.firstNotFull (m : MultiWriter W P) : Nat :=
  (m.cws.takeWhile (fun c => decide (c.byteswritten = c.capacity))).length

def MultiReader.firstNotFull (m : MultiReader W P) : Nat :=
  (m.crs.takeWhile (fun c => decide (c.bytesread = c.capacity))).length

/-- What section 8 of the specification asks of a write of `p` that spans the
boundary of the segment `c` at the cursor (`pre` the segments before it, `post`
the segments after it): all of `p` is written without error, `c` receives
exactly `p[0:remaining]` and is full, the rest of `p` is spread over `post`, and
the cursor has moved past `c` and past every segment of `post` that was filled. -/
def spannedWrite (pre : List (ConstrainedWriter W)) (c : ConstrainedWriter W)
    (post : List (ConstrainedWriter W)) (pl : Option P) (p : List Byte) (s : W) :
    (Int × Option Error) × MultiWriter W P × W :=
  (((p.length : Int), none),
    { index := ((pre.length + 1 +
        filledSegments (post.map (fun x => x.capacity - x.byteswritten))
          (p.length - (c.capacity - c.byteswritten)) : Nat) : Int),
      cws := pre ++ { c with byteswritten := c.capacity } ::
        (spreadWrite post (p.drop (c.capacity - c.byteswritten))
          (c.w.Write (p.take (c.capacity - c.byteswritten)) s).2).1,
      pool := pl },
    (spreadWrite post (p.drop (c.capacity - c.byteswritten))
      (c.w.Write (p.take (c.capacity - c.byteswritten)) s).2).2)

/-- The same for a read into the buffer `p`: the first `remaining` bytes of the
buffer come from `c`, the rest from the segments of `post`. -/
def spannedRead (pre : List (ConstrainedReader W)) (c : ConstrainedReader W)
    (post : List (ConstrainedReader W)) (pl : Option P) (p : List Byte) (s : W) :
    (List Byte × Int × Option Error) × MultiReader W P × W :=
  ((overlay (c.r.Read (p.take (c.capacity - c.bytesread)) s).1.1
        (p.take (c.capacity - c.bytesread)) ++
      (spreadRead post (p.drop (c.capacity - c.bytesread))
        (c.r.Read (p.take (c.capacity - c.bytesread)) s).2).1,
    (p.length : Int), none),
    { index := ((pre.length + 1 +
        filledSegments (post.map (fun x => x.capacity - x.bytesread))
          (p.length - (c.capacity - c.bytesread)) : Nat) : Int),
      crs := pre ++ { c with bytesread := c.capacity } ::
        (spreadRead post (p.drop (c.capacity - c.bytesread))
          (c.r.Read (p.take (c.capacity - c.bytesread)) s).2).2.1,
      pool := pl },
    (spreadRead post (p.drop (c.capacity - c.bytesread))
      (c.r.Read (p.take (c.capacity - c.bytesread)) s).2).2.2)

/-- Four in-memory segments of capacities 1, 1, 0 and 1, the third of capacity
zero, with the cursor on the first. -/
def demoZeroCap : MultiWriter Store Unit :=
  { index := 0,
    cws := [{ w := memWriter 0, capacity := 1, byteswritten := 0 },
            { w := memWriter 1, capacity := 1, byteswritten := 0 },
            { w := memWriter 2, capacity := 0, byteswritten := 0 },
            { w := memWriter 3, capacity := 1, byteswritten := 0 }],
    pool := none }

/-- The stream `demoZeroCap` after `Write([7, 8])`. -/
def demoZeroCapAfter : MultiWriter Store Unit :=
  { index := 2,
    cws := [{ w := memWriter 0, capacity := 1, byteswritten := 1 },
            { w := memWriter 1, capacity := 1, byteswritten := 1 },
            { w := memWriter 2, capacity := 0, byteswritten := 0 },
            { w := memWriter 3, capacity := 1, byteswritten := 0 }],
    pool := none }

/-- A reader that fills every buffer with the byte `b` (an endless source). -/
def constReader {W : Type} (b : Byte) : Reader W :=
  ⟨fun p s => ((List.replicate p.length b, (p.length : Int), none), s)⟩

/-! ## The round trip through in-memory segments -/

/-- `n` in-memory segments of capacity `c` added to a write stream, for the slots
`k`, `k + 1`, ... -/
def addWriters (c : Nat) : Nat → Nat → MultiWriter Store Unit → MultiWriter Store Unit
  | _, 0, m => m
  | k, n + 1, m => addWriters c (k + 1) n (m.AddConstrainedWriter (memWriter k) c)

/-- A new write stream without pool over `N` in-memory segments of capacity `c`. -/
def memWriterStream (N c : Nat) : MultiWriter Store Unit :=
  addWriters c 0 N (NewMultiWriter none)

/-- One read segment per slot of the store, each with the capacity of what its slot
holds, added to a read stream. -/
def addReaders : Nat → Store → MultiReader Store Unit → MultiReader Store Unit
  | _, [], m => m
  | k, x :: xs, m => addReaders (k + 1) xs (m.AddConstrainedReader (memReader k) x.length)

/-- A new read stream without pool over the segments of the store `st`, in the same
order. -/
def memReaderStream (st : Store) : MultiReader Store Unit :=
  addReaders 0 st (NewMultiReader none)

/-- Successive `Write` calls, one per chunk; the results of the calls are not
looked at. -/
def MultiWriter.WriteAll (I : WriterPooler W P) (fuel : Nat) :
    List (List Byte) → MultiWriter W P → W → Except Fault (MultiWriter W P × W)
  | [], m, s => .ok (m, s)
  | p :: ps, m, s =>
    match m.Write I fuel p s with
    | .error f => .error f
    | .ok (_, m2, s2) => MultiWriter.WriteAll I fuel ps m2 s2

/-- Successive `Read` calls, one per buffer size; the result is the concatenation
of the bytes the calls returned (`p[0:n]` of each call). -/
def MultiReader.ReadAll (I : ReaderPooler W P) (fuel : Nat) :
    List Nat → MultiReader W P → W → Except Fault (List Byte × MultiReader W P × W)
  | [], m, s => .ok ([], m, s)
  | k :: ks, m, s =>
    match m.Read I fuel (List.replicate k 0) s with
    | .error f => .error f
    | .ok ((buf, n, _), m2, s2) =>
      match MultiReader.ReadAll I fuel ks m2 s2 with
      | .error f => .error f
      | .ok (out, m3, s3) => .ok (buf.take n.toNat ++ out, m3, s3)

/-- The write segments that go with a store: segment `k + i` has written what slot
`i` holds. -/
def segsOfW (c : Nat) : Nat → Store → List (ConstrainedWriter Store)
  | _, [] => []
  | k, x :: xs => { w := memWriter k, capacity := c, byteswritten := x.length } ::
      segsOfW c (k + 1) xs

/-- The slots after `p` was appended across them, each slot filled to `c` bytes
before the next is used. -/
def fillSlots (c : Nat) : Store → List Byte → Store
  | [], _ => []
  | x :: xs, p =>
    if p.length ≤ c - x.length then (x ++ p) :: xs
    else (x ++ p.take (c - x.length)) :: fillSlots c xs (p.drop (c - x.length))

/-- The room left in the slots. -/
def room (c : Nat) (st : Store) : Nat := (st.map (fun x => c - x.length)).sum

/-- The read segments that go with a list of pairs (capacity, unread bytes):
segment `k + i` has read what is missing in slot `i`. -/
def segsOfR : Nat → List (Nat × List Byte) → List (ConstrainedReader Store)
  | _, [] => []
  | k, z :: zs => { r := memReader k, capacity := z.1, bytesread := z.1 - z.2.length } ::
      segsOfR (k + 1) zs

/-- The pairs (capacity, unread bytes) after `n` bytes were taken from the front. -/
def drainSlots : List (Nat × List Byte) → Nat → List (Nat × List Byte)
  | [], _ => []
  | z :: zs, n =>
    if n ≤ z.2.length then (z.1, z.2.drop n) :: zs
    else (z.1, []) :: drainSlots zs (n - z.2.length)

/-- The write stream `m` over in-memory segments of capacity `c` goes with the
store `st`: the slots before the cursor hold `c` bytes, no slot holds more, and
every segment has written what its slot holds. -/
def WriterTracks (c : Nat) (m : MultiWriter Store Unit) (st : Store) : Prop :=
  ∃ A tail, st = A ++ tail ∧ (∀ a ∈ A, a.length = c) ∧ (∀ x ∈ tail, x.length ≤ c) ∧
    m = { index := (A.length : Int), cws := segsOfW c 0 (A ++ tail), pool := none }

/-- The read stream `m` over in-memory segments goes with the pairs (capacity,
unread bytes) `zs`: the slots before the cursor are read to the end, no slot
holds more than its capacity, and every segment has read what is missing in its
slot. -/
def ReaderTracks (m : MultiReader Store Unit) (zs : List (Nat × List Byte)) : Prop :=
  ∃ A tail, zs = A ++ tail ∧ (∀ a ∈ A, a.2 = []) ∧
    (∀ z ∈ zs, z.2.length ≤ z.1 ∧ z.1 < 2 ^ 64) ∧
    m = { index := (A.length : Int), crs := segsOfR 0 (A ++ tail), pool := none }

/-! ## `filepath.Join` and `filepath.Clean`

The functions of `path/filepath` as they are on Unix, where the separator is
`/` and a path has no volume name. -/

/-- The elements of a path: the text between its separators. -/
def pathElements : List Char → List (List Char)
  | [] => [[]]
  | c :: cs =>
    if c = '/' then [] :: pathElements cs
    else
      match pathElements cs with
      | [] => [[c]]
      | e :: es => (c :: e) :: es

/-- One element in the loop of `Clean`; `out` holds the elements kept so far,
the last one first. An empty element and `.` are dropped; `..` removes the
element before it, unless there is none to remove, in which case it is dropped
in a rooted path and kept otherwise; any other element is kept. -/
def cleanElement (rooted : Bool) (out : List (List Char)) (e : List Char) : List (List Char) :=
  if e = [] ∨ e = ['.'] then out
  else if e = ['.', '.'] then
    match out with
    | [] => if rooted then [] else [e]
    | top :: rest => if top = ['.', '.'] then e :: out else rest
  else e :: out

/-- The elements joined by the separator. -/
def joinElements : List (List Char) → List Char
  | [] => []
  | [e] => e
  | e :: e2 :: es => e ++ '/' :: joinElements (e2 :: es)

/-- The path written from whether it is rooted and the elements kept, the last
one first; the empty path is written `.`. -/
def renderPath (rooted : Bool) (out : List (List Char)) : List Char :=
  if rooted then '/' :: joinElements out.reverse
  else if joinElements out.reverse = [] then ['.'] else joinElements out.reverse

/-- The function `filepath.Clean`. -/
def filepathClean (path : List Char) : List Char :=
  renderPath (decide (path.head? = some '/'))
    ((pathElements path).foldl (cleanElement (decide (path.head? = some '/'))) [])

/-- The function `filepath.Join` for two elements: empty elements are ignored,
the others are joined by the separator and the result is cleaned; if both are
empty the result is the empty string. -/
def filepathJoin (dir name : String) : String :=
  if dir.data = [] then
    if name.data = [] then "" else String.mk (filepathClean name.data)
  else String.mk (filepathClean (dir.data ++ '/' :: name.data))

/-- The last element of a path. -/
def baseName (path : List Char) : List Char := (pathElements path).getLastD []

/-- The number of separators in a path. -/
def separators (path : List Char) : Nat := path.count '/'

/-! ## Concrete handles and file systems -/

/-- A file system that records every call in the world state. `Open` and
`OpenFile` succeed with a new descriptor, `Stat` fails when `statFails` is set
and reports `size` otherwise. `Join` is `filepath.Join` as on Unix.
`Log10Floor x` is the exact value of `⌊log10 x⌋` for `x ≥ 1`, which is what the
Go expression gives for the pool sizes used with this file system; for some
large arguments the rounding of `math.Log10` makes the Go value one less (14 at
`10 ^ 15`), which is not reproduced here. For `x ≤ 0` the Go expression converts
`NaN` or `-Inf` to `int`, which is implementation-dependent; the value taken
here is the one on amd64, the smallest `int64`. -/
def logFs (statFails : Bool) (size : Int) : FileSys (List String) where
  Join := filepathJoin
  Log10Floor := fun x =>
    if x ≤ 0 then -9223372036854775808 else ((decimal x.toNat).length : Int) - 1
  MkdirAll := fun path s => (none, s ++ ["mkdir " ++ path])
  Open := fun path s => (.ok ⟨s.length⟩, s ++ ["open " ++ path])
  OpenFile := fun path s => (.ok ⟨s.length⟩, s ++ ["openfile " ++ path])
  Close := fun _ s => (none, s ++ ["close"])
  Sync := fun _ s => (none, s ++ ["sync"])
  Stat := fun _ s => (if statFails then .error (.other 1) else .ok size, s ++ ["stat"])
  ReadFile := fun _ _ s => (([], 0, some EOF), s ++ ["read"])
  WriteFile := fun _ p s => ((p.length, none), s ++ ["write"])

/-- The configuration shared by two pools of either kind. -/
def FileReaderPool.config (f : FileReaderPool) : String × String × String × String × Int × Int :=
  (f.Path, f.NameComponent, f.Extension, f.ShortExtension, f.PoolSize, f.digits)

def FileWriterPool.config (f : FileWriterPool) : String × String × String × String × Int × Int :=
  (f.Path, f.NameComponent, f.Extension, f.ShortExtension, f.PoolSize, f.digits)

/-- Left-padding of a digit string with zeros to a given width. -/
def padZeros (width : Nat) (ds : List Char) : List Char :=
  List.replicate (width - ds.length) '0' ++ ds

/-- The pool of the naming example: base name `base`, extension `ext`, short
extension `vol`, 150 segments, digit width 3. -/
def pool150 : FileReaderPool :=
  { Path := "dir", NameComponent := "base", Extension := "ext", ShortExtension := "vol",
    counter := 0, PoolSize := 150, FileCapacity := 0, digits := 3, activefile := none }

/-- The write pool of the naming example, with segments of 1024 bytes. -/
def wpool150 : FileWriterPool :=
  { Path := "dir", NameComponent := "base", Extension := "ext", ShortExtension := "vol",
    counter := 0, PoolSize := 150, FileCapacity := 1024, digits := 3, activefile := none }

/-- The naming scheme of section 4.6 for a function `getFileName`, with `joined`
the joining of a file name to the pool's directory: indices outside `[0, M]`
are rejected, index 0 is `N.E`, an index `i > 0` is `N.S` followed by the
digits of `i` padded with zeros to width `D`, and for `1 ≤ i ≤ M - 1` the
padded digits are exactly `D` characters. -/
def NamingScheme (getFileName : Int → Except Error String) (joined : String → String)
    (N E S : String) (M : Int) (D : Nat) : Prop :=
  (∀ i, getFileName i = .error .ErrPoolExhausted ↔ (i < 0 ∨ i > M)) ∧
  getFileName 0 = .ok (joined (N ++ "." ++ E)) ∧
  (∀ i, 0 < i → i ≤ M →
    getFileName i = .ok (joined (N ++ "." ++ S ++ String.mk (padZeros D (decimal i.toNat))))) ∧
  (∀ i, 1 ≤ i → i ≤ M - 1 → (padZeros D (decimal i.toNat)).length = D)

/-! ## Progress of the handles and finite pools -/

/-- A handle makes progress: given a non-empty buffer it transfers at least one
byte or reports an error. -/
def Reader.Progress {W : Type} (r : Reader W) : Prop :=
  ∀ p s, 0 < p.length → 0 < (r.Read p s).1.2.1 ∨ (r.Read p s).1.2.2 ≠ none

def Writer.Progress {W : Type} (w : Writer W) : Prop :=
  ∀ p s, 0 < p.length → 0 < (w.Write p s).1.1 ∨ (w.Write p s).1.2 ≠ none

/-- The handles of the segments a pool supplies make progress. -/
def ReaderPooler.Progress {W P : Type} (I : ReaderPooler W P) : Prop :=
  ∀ pool s c pool2 s2, I.NewConstrainedReader pool s = (.ok c, pool2, s2) → c.r.Progress

def WriterPooler.Progress {W P : Type} (I : WriterPooler W P) : Prop :=
  ∀ pool s c pool2 s2, I.NewConstrainedWriter pool s = (.ok c, pool2, s2) → c.w.Progress

/-- A pool that can supply only finitely many further segments: `left` bounds
their number, and every segment supplied lowers it. -/
def ReaderPooler.Finite {W P : Type} (I : ReaderPooler W P) (left : P → Nat) : Prop :=
  ∀ pool s c pool2 s2, I.NewConstrainedReader pool s = (.ok c, pool2, s2) →
    left pool2 < left pool

def WriterPooler.Finite {W P : Type} (I : WriterPooler W P) (left : P → Nat) : Prop :=
  ∀ pool s c pool2 s2, I.NewConstrainedWriter pool s = (.ok c, pool2, s2) →
    left pool2 < left pool

/-- The number of segments a file pool can still supply. -/
def FileReaderPool.left (f : FileReaderPool) : Nat := (f.PoolSize - f.counter).toNat

def FileWriterPool.left (f : FileWriterPool) : Nat := (f.PoolSize - f.counter).toNat

/-- The segments still available to a call: those from the cursor on, and those
the pool can still supply (none if the pool is absent). -/
def MultiReader.available {W P : Type} (left : P → Nat) (m : MultiReader W P) : Nat :=
  (m.crs.length - m.index.toNat) + (m.pool.map left).getD 0

def MultiWriter.available {W P : Type} (left : P → Nat) (m : MultiWriter W P) : Nat :=
  (m.cws.length - m.index.toNat) + (m.pool.map left).getD 0

/-! ## The shape of a stream -/

/-- The handles and the capacities of the segments of a stream, in order: what
the segments are, apart from their running counts. -/
def MultiReader.layout {W P : Type} (m : MultiReader W P) : List (Reader W × Nat) :=
  m.crs.map (fun c => (c.r, c.capacity))

def MultiWriter.layout {W P : Type} (m : MultiWriter W P) : List (Writer W × Nat) :=
  m.cws.map (fun c => (c.w, c.capacity))

/-- The cursor is on a segment of the list or just past the last one. -/
def MultiReader.InRange {W P : Type} (m : MultiReader W P) : Prop :=
  0 ≤ m.index ∧ m.index ≤ (m.crs.length : Int)

def MultiWriter.InRange {W P : Type} (m : MultiWriter W P) : Prop :=
  0 ≤ m.index ∧ m.index ≤ (m.cws.length : Int)

/-- Whether lines 67-75 of `Read` reach the second check `m.index >= len(m.crs)`,
after a successful acquisition from the pool, and find it true. -/
def MultiReader.secondCheck {W P : Type} (I : ReaderPooler W P) (m : MultiReader W P) (s : W) :
    Bool :=
  let first : Option Error × MultiReader W P × W :=
    if m.crs.length = 0 then m.AddConstrainedReaderFromPool I s else (none, m, s)
  match first with
  | (some _, _, _) => false
  | (none, m, s) =>
    if m.index < 0 then
      false
    else if m.index ≥ m.crs.length then
      match m.AddConstrainedReaderFromPool I s with
      | (some _, _, _) => false
      | (none, m, _) => decide (m.index ≥ m.crs.length)
    else
      false

/-- Whether lines 73-82 of `Write` reach the second check `m.index >= len(m.cws)`,
the branch marked "this should never occur", and find it true. -/
def MultiWriter.secondCheck {W P : Type} (I : WriterPooler W P) (m : MultiWriter W P) (s : W) :
    Bool :=
  let first : Option Error × MultiWriter W P × W :=
    if m.cws.length = 0 then m.AddConstrainedWriterFromPool I s else (none, m, s)
  match first with
  | (some _, _, _) => false
  | (none, m, s) =>
    if m.index < 0 then
      false
    else if m.index ≥ m.cws.length then
      match m.AddConstrainedWriterFromPool I s with
      | (some _, _, _) => false
      | (none, m, _) => decide (m.index ≥ m.cws.length)
    else
      false

/-! ## Open handles and sequences of calls on a file pool -/

/-- A file system seen through its handles. `isOpen s h`: the handle `h` is open
in the world `s`; `issued s h`: `h` was returned by an `Open` or `OpenFile`
before `s`. A successful open returns a handle that was not issued before, and
opens it; `Close` closes its handle, whatever it returns; nothing else changes
the handles that are open or issued. -/
structure FileSys.TracksHandles {W : Type} (fs : FileSys W) (isOpen issued : W → File → Prop) :
    Prop where
  open_ok : ∀ path s file s2, fs.Open path s = (.ok file, s2) →
    ¬ issued s file ∧
      ∀ h, (isOpen s2 h ↔ (h = file ∨ isOpen s h)) ∧ (issued s2 h ↔ (h = file ∨ issued s h))
  open_error : ∀ path s e s2, fs.Open path s = (.error e, s2) →
    ∀ h, (isOpen s2 h ↔ isOpen s h) ∧ (issued s2 h ↔ issued s h)
  openFile_ok : ∀ path s file s2, fs.OpenFile path s = (.ok file, s2) →
    ¬ issued s file ∧
      ∀ h, (isOpen s2 h ↔ (h = file ∨ isOpen s h)) ∧ (issued s2 h ↔ (h = file ∨ issued s h))
  openFile_error : ∀ path s e s2, fs.OpenFile path s = (.error e, s2) →
    ∀ h, (isOpen s2 h ↔ isOpen s h) ∧ (issued s2 h ↔ issued s h)
  close : ∀ file s h, (isOpen (fs.Close file s).2 h ↔ (isOpen s h ∧ h ≠ file)) ∧
    (issued (fs.Close file s).2 h ↔ issued s h)
  sync : ∀ file s h, (isOpen (fs.Sync file s).2 h ↔ isOpen s h) ∧
    (issued (fs.Sync file s).2 h ↔ issued s h)
  stat : ∀ file s h, (isOpen (fs.Stat file s).2 h ↔ isOpen s h) ∧
    (issued (fs.Stat file s).2 h ↔ issued s h)
  mkdirAll : ∀ path s h, (isOpen (fs.MkdirAll path s).2 h ↔ isOpen s h) ∧
    (issued (fs.MkdirAll path s).2 h ↔ issued s h)

/-- The pool holds the only open handle: every handle open in the world `s` is
the active file of the pool, and the active file was issued by the file
system. -/
def SingleHandle {W : Type} (isOpen issued : W → File → Prop) (activefile : Option File)
    (s : W) : Prop :=
  (∀ h, isOpen s h → activefile = some h) ∧ (∀ h, activefile = some h → issued s h)

/-- A call on a file pool: `NewConstrainedReader` / `NewConstrainedWriter`, or
`Close`. -/
inductive PoolCall where
  | acquire
  | close
  deriving DecidableEq, Repr

/-- The pool and the world after a sequence of calls, whatever the calls
return. -/
def FileReaderPool.calls {W : Type} (fs : FileSys W) :
    List PoolCall → FileReaderPool → W → FileReaderPool × W
  | [], f, s => (f, s)
  | .acquire :: cs, f, s =>
    FileReaderPool.calls fs cs (f.NewConstrainedReader fs s).2.1 (f.NewConstrainedReader fs s).2.2
  | .close :: cs, f, s => FileReaderPool.calls fs cs (f.Close fs s).2.1 (f.Close fs s).2.2

def FileWriterPool.calls {W : Type} (fs : FileSys W) :
    List PoolCall → FileWriterPool → W → FileWriterPool × W
  | [], f, s => (f, s)
  | .acquire :: cs, f, s =>
    FileWriterPool.calls fs cs (f.NewConstrainedWriter fs s).2.1 (f.NewConstrainedWriter fs s).2.2
  | .close :: cs, f, s => FileWriterPool.calls fs cs (f.Close fs s).2.1 (f.Close fs s).2.2

/-- The world of `handleFs`: the number of handles issued so far, the handles
open, and the number of calls made so far. -/
structure HandleWorld where
  issued : Nat
  opened : List File
  calls : Nat
  deriving DecidableEq, Repr

/-- A file system that issues the handles 0, 1, 2, ... and keeps the list of
those that are open. Its call number `k`, counted over all primitives, fails
exactly when `fails k`. `Join` and `Log10Floor` are those of `logFs`. -/
def handleFs (fails : Nat → Bool) : FileSys HandleWorld where
  Join := filepathJoin
  Log10Floor := fun x =>
    if x ≤ 0 then -9223372036854775808 else ((decimal x.toNat).length : Int) - 1
  MkdirAll := fun _ s =>
    (if fails s.calls then some (.other 2) else none, { s with calls := s.calls + 1 })
  Open := fun _ s =>
    if fails s.calls then (.error (.other 2), { s with calls := s.calls + 1 })
    else (.ok ⟨s.issued⟩,
      { issued := s.issued + 1, opened := ⟨s.issued⟩ :: s.opened, calls := s.calls + 1 })
  OpenFile := fun _ s =>
    if fails s.calls then (.error (.other 2), { s with calls := s.calls + 1 })
    else (.ok ⟨s.issued⟩,
      { issued := s.issued + 1, opened := ⟨s.issued⟩ :: s.opened, calls := s.calls + 1 })
  Close := fun file s =>
    (if fails s.calls then some (.other 2) else none,
      { s with opened := s.opened.filter (fun h => decide (h ≠ file)), calls := s.calls + 1 })
  Sync := fun _ s =>
    (if fails s.calls then some (.other 2) else none, { s with calls := s.calls + 1 })
  Stat := fun _ s =>
    (if fails s.calls then .error (.other 2) else .ok 0, { s with calls := s.calls + 1 })
  ReadFile := fun _ _ s => (([], 0, some EOF), { s with calls := s.calls + 1 })
  WriteFile := fun _ p s => ((p.length, none), { s with calls := s.calls + 1 })

/-! ## Reading the number of a segment off its name -/

/-- The number a list of characters spells: its decimal digits are read in
order, every other character is skipped. -/
def digitsValue (cs : List Char) : Nat :=
  cs.foldl (fun acc ch => if ch.isDigit then 10 * acc + (ch.toNat - 48) else acc) 0

/-! ## A file system that refuses closed handles -/

/-- The error of package `os` for a call on a file that was closed before
(`os.ErrClosed`, "file already closed"). -/
def ErrClosed : Error := .other 3

/-- A file system over `HandleWorld` in which every call succeeds on an open
handle and, as the methods of `os.File` do, `Close`, `Sync`, `Stat`, `Read` and
`Write` answer `ErrClosed` on a handle that is not open. `Open` and `OpenFile`
issue a fresh handle; every call is counted. -/
def closedFs : FileSys HandleWorld where
  Join := filepathJoin
  Log10Floor := fun x =>
    if x ≤ 0 then -9223372036854775808 else ((decimal x.toNat).length : Int) - 1
  MkdirAll := fun _ s => (none, { s with calls := s.calls + 1 })
  Open := fun _ s =>
    (.ok ⟨s.issued⟩,
      { issued := s.issued + 1, opened := ⟨s.issued⟩ :: s.opened, calls := s.calls + 1 })
  OpenFile := fun _ s =>
    (.ok ⟨s.issued⟩,
      { issued := s.issued + 1, opened := ⟨s.issued⟩ :: s.opened, calls := s.calls + 1 })
  Close := fun file s =>
    (if file ∈ s.opened then none else some ErrClosed,
      { s with opened := s.opened.filter (fun h => decide (h ≠ file)), calls := s.calls + 1 })
  Sync := fun file s =>
    (if file ∈ s.opened then none else some ErrClosed, { s with calls := s.calls + 1 })
  Stat := fun file s =>
    (if file ∈ s.opened then .ok 0 else .error ErrClosed, { s with calls := s.calls + 1 })
  ReadFile := fun file _ s =>
    (([], 0, some (if file ∈ s.opened then EOF else ErrClosed)), { s with calls := s.calls + 1 })
  WriteFile := fun file p s =>
    (if file ∈ s.opened then (p.length, none) else (0, some ErrClosed),
      { s with calls := s.calls + 1 })

/-! ## Handles that break the contract of `io.Writer` and `io.Reader` -/

/-- A writer that takes nothing and reports the count -1 with no error. -/
def minusOneWriter : Writer Store := ⟨fun _ st => ((-1, none), st)⟩

/-- A reader that stores nothing and reports the count -1 with no error. -/
def minusOneReader : Reader Store := ⟨fun _ st => (([], -1, none), st)⟩

/-- One recorded segment of capacity 4 on the writer `minusOneWriter`, no pool. -/
def demoMinusOne : MultiWriter (Store × List Report) Unit :=
  (NewMultiWriter none).AddConstrainedWriter minusOneWriter.recorded 4

/-- One recorded segment of capacity 4 on the reader `minusOneReader`, no pool. -/
def demoMinusOneRead : MultiReader (Store × List Report) Unit :=
  (NewMultiReader none).AddConstrainedReader minusOneReader.recorded 4

/-- The stream `demoMinusOne` after `Write([1, 2])`. -/
def demoMinusOneAfter : MultiWriter (Store × List Report) Unit :=
  { index := 0,
    cws := [{ w := minusOneWriter.recorded, capacity := 4,
              byteswritten := 18446744073709551615 }],
    pool := none }

/-- The stream `demoMinusOneRead` after a `Read` into a buffer of 2 bytes. -/
def demoMinusOneReadAfter : MultiReader (Store × List Report) Unit :=
  { index := 0,
    crs := [{ r := minusOneReader.recorded, capacity := 4,
              bytesread := 18446744073709551615 }],
    pool := none }

/-- One recorded in-memory segment of capacity 4, no pool. -/
def demoFull : MultiWriter (Store × List Report) Unit :=
  (NewMultiWriter none).AddConstrainedWriter (memWriter 0).recorded 4

/-- The stream `demoFull` after `Write([1, 2, 3, 4, 5, 6])`. -/
def demoFullAfter : MultiWriter (Store × List Report) Unit :=
  { index := 1,
    cws := [{ w := (memWriter 0).recorded, capacity := 4, byteswritten := 4 }],
    pool := none }

/-! # Verification -/

/-! ## File pools -/

/-- C6. A file pool whose counter has reached `PoolSize` answers
`ErrPoolExhausted` to the request for a further segment, calls no file-system
primitive (the world is returned as it was) and keeps its counter and its open
file: the pool after the call is the pool before the call. -/
theorem exhausted_pool_unchanged (fs : FileSys W) (s : W) :
    (∀ f : FileReaderPool, f.counter = f.PoolSize →
        f.NewConstrainedReader fs s = (.error .ErrPoolExhausted, f, s)) ∧
    (∀ f : FileWriterPool, f.counter = f.PoolSize →
        f.NewConstrainedWriter fs s = (.error .ErrPoolExhausted, f, s)) := by
  constructor
  · intro f h
    cases f
    simp only at h
    simp [FileReaderPool.NewConstrainedReader, h]
  · intro f h
    cases f
    simp only at h
    simp [FileWriterPool.NewConstrainedWriter, h]

/-- Witness of C6 on the recording file system: a pool of size 150 with counter
150 and an open file; the record of calls stays empty. -/
theorem exhausted_pool_unchanged_witness :
    ({ Path := "dir", NameComponent := "base", Extension := "ext", ShortExtension := "vol",
       counter := 150, PoolSize := 150, FileCapacity := 0, digits := 3,
       activefile := some ⟨7⟩ } : FileReaderPool).NewConstrainedReader (logFs false 0) []
      = (.error .ErrPoolExhausted,
         { Path := "dir", NameComponent := "base", Extension := "ext", ShortExtension := "vol",
           counter := 150, PoolSize := 150, FileCapacity := 0, digits := 3,
           activefile := some ⟨7⟩ }, []) :=
  (exhausted_pool_unchanged (logFs false 0) []).1 _ rfl

/-- C7. The read pool keeps the incremented counter when the size query on the
opened file fails: on a pool with counter 0 whose first file opens and whose
`Stat` fails, the call returns the error of `Stat`, the counter is 1 and the
file stays open; the next call closes it and opens index 1, so index 0 is
skipped. -/
theorem stat_failure_keeps_counter :
    (pool150.NewConstrainedReader (logFs true 0) []).1 = .error (.other 1) ∧
    (pool150.NewConstrainedReader (logFs true 0) []).2.1.counter = pool150.counter + 1 ∧
    (pool150.NewConstrainedReader (logFs true 0) []).2.1.activefile = some ⟨0⟩ ∧
    (pool150.NewConstrainedReader (logFs true 0) []).2.2 = ["open dir/base.ext", "stat"] ∧
    ((pool150.NewConstrainedReader (logFs true 0) []).2.1.NewConstrainedReader (logFs true 0)
        (pool150.NewConstrainedReader (logFs true 0) []).2.2).2.2
      = ["open dir/base.ext", "stat", "close", "open dir/base.vol001", "stat"] := by
  refine ⟨rfl, rfl, rfl, rfl, rfl⟩

/-- Every failure of the write pool leaves the counter as it was, and so does
every failure of the read pool after which no file is open (a failure of `Stat`
leaves the file open). -/
theorem failed_acquisition_rolls_back (fs : FileSys W) (s : W) :
    (∀ (f : FileWriterPool) (e : Error), (f.NewConstrainedWriter fs s).1 = .error e →
        (f.NewConstrainedWriter fs s).2.1.counter = f.counter) ∧
    (∀ (f : FileReaderPool) (e : Error), (f.NewConstrainedReader fs s).1 = .error e →
        (f.NewConstrainedReader fs s).2.1.activefile = none →
        (f.NewConstrainedReader fs s).2.1.counter = f.counter) := by
  constructor
  · intro f e
    unfold FileWriterPool.NewConstrainedWriter
    simp only
    split
    · simp
    · split
      · simp
      · split
        · simp
        · split
          · simp
          · simp
  · intro f e
    unfold FileReaderPool.NewConstrainedReader
    simp only
    split
    · simp
    · split
      · simp
      · split
        · simp
        · split
          · simp
          · simp

/-- C8. On the pool of the naming example (150 segments, digit width 3, as
`NewFileReaderPool` and `NewFileWriterPool` build it) `GetFileName` maps index 0
to `base.ext`, index 1 to `base.vol001` and index 149 to `base.vol149`, each
joined to the directory, and it does not reject index 150: it returns
`base.vol150`. -/
theorem getFileName_pool150 :
    NewFileReaderPool (logFs false 0) "dir" "base" "ext" "vol" 150 = .ok pool150 ∧
    NewFileWriterPool (logFs false 0) "dir" "base" "ext" "vol" 150 1024 = .ok wpool150 ∧
    (∀ (W : Type) (fs : FileSys W),
      pool150.GetFileName fs 0 = .ok (fs.Join "dir" "base.ext") ∧
      pool150.GetFileName fs 1 = .ok (fs.Join "dir" "base.vol001") ∧
      pool150.GetFileName fs 149 = .ok (fs.Join "dir" "base.vol149") ∧
      pool150.GetFileName fs 150 = .ok (fs.Join "dir" "base.vol150") ∧
      wpool150.GetFileName fs 0 = .ok (fs.Join "dir" "base.ext") ∧
      wpool150.GetFileName fs 1 = .ok (fs.Join "dir" "base.vol001") ∧
      wpool150.GetFileName fs 149 = .ok (fs.Join "dir" "base.vol149") ∧
      wpool150.GetFileName fs 150 = .ok (fs.Join "dir" "base.vol150")) := by
  refine ⟨rfl, rfl, ?_⟩
  intro W fs
  refine ⟨rfl, rfl, rfl, rfl, rfl, rfl, rfl, rfl⟩

/-! ### The naming scheme -/

theorem decimalRev_length_mono (f : Nat) :
    ∀ (g n m : Nat), n ≤ m → n < f → m < g →
      (decimalRev f n).length ≤ (decimalRev g m).length := by
  induction f with
  | zero => intro g n m _ hn _; omega
  | succ f ih =>
    intro g n m hnm hn hm
    cases g with
    | zero => omega
    | succ g =>
      simp only [decimalRev, List.length_cons]
      by_cases h0 : n / 10 = 0
      · simp [h0]
      · have hm0 : m / 10 ≠ 0 := by omega
        simp only [h0, hm0, if_false]
        have := ih g (n / 10) (m / 10) (by omega) (by omega) (by omega)
        omega

theorem decimal_length_mono (n m : Nat) (h : n ≤ m) :
    (decimal n).length ≤ (decimal m).length := by
  simp only [decimal, List.length_reverse]
  exact decimalRev_length_mono _ _ _ _ h (by omega) (by omega)

theorem padZeros_length (width : Nat) (ds : List Char) (h : ds.length ≤ width) :
    (padZeros width ds).length = width := by
  simp only [padZeros, List.length_append, List.length_replicate]
  omega

theorem sprintfPad_eq_padZeros (D : Nat) (i : Nat) :
    sprintfPad (D : Int) i = padZeros D (decimal i) := by
  simp [sprintfPad, padZeros]

theorem namingScheme_of_get (get : Int → Except Error String) (joined : String → String)
    (N E S : String) (M : Int) (D : Nat) (hM : 2 ≤ M)
    (hD : D = (decimal (M - 1).toNat).length)
    (hget : ∀ i, get i = if i < 0 ∨ i > M then .error .ErrPoolExhausted
      else .ok (joined (segmentName N E S (D : Int) i))) :
    NamingScheme get joined N E S M D := by
  refine ⟨?_, ?_, ?_, ?_⟩
  · intro i
    rw [hget i]
    split
    · simp [*]
    · simp [*]
  · rw [hget 0]
    have h0 : (0 : Int) ≤ M := by omega
    simp [h0, segmentName]
  · intro i h0 hiM
    rw [hget i]
    have h1 : ¬ (i < 0 ∨ i > M) := by omega
    have h2 : i ≠ 0 := by omega
    simp [h1, h2, segmentName, sprintfPad_eq_padZeros]
  · intro i h1 hiM
    apply padZeros_length
    rw [hD]
    apply decimal_length_mono
    omega

/-- C9. For a read pool `f` and a write pool `g` with at least two segments
whose digit width is the number of decimal digits of `PoolSize - 1`,
`GetFileName` follows the naming scheme: it returns `ErrPoolExhausted` exactly
for `i < 0` or `i > PoolSize`, the name `N.E` for index 0, `N.S` followed by the
zero-padded digits of `i` otherwise, the padded digits having exactly `digits`
characters for `1 ≤ i ≤ PoolSize - 1`; and pools with the same configuration
give the same result, whatever their counter and open file. -/
theorem getFileName_naming_scheme (fs : FileSys W) (f : FileReaderPool) (g : FileWriterPool)
    (hf : 2 ≤ f.PoolSize) (hfd : f.digits = ((decimal (f.PoolSize - 1).toNat).length : Nat))
    (hg : 2 ≤ g.PoolSize) (hgd : g.digits = ((decimal (g.PoolSize - 1).toNat).length : Nat)) :
    NamingScheme (f.GetFileName fs) (fs.Join f.Path) f.NameComponent f.Extension
        f.ShortExtension f.PoolSize f.digits.toNat ∧
    NamingScheme (g.GetFileName fs) (fs.Join g.Path) g.NameComponent g.Extension
        g.ShortExtension g.PoolSize g.digits.toNat ∧
    (∀ (f2 : FileReaderPool) (i : Int), f2.config = f.config →
        f2.GetFileName fs i = f.GetFileName fs i) ∧
    (∀ (g2 : FileWriterPool) (i : Int), g2.config = g.config →
        g2.GetFileName fs i = g.GetFileName fs i) := by
  refine ⟨?_, ?_, ?_, ?_⟩
  · apply namingScheme_of_get _ _ _ _ _ _ _ hf
    · rw [hfd]; simp
    · intro i
      simp only [FileReaderPool.GetFileName]
      rw [hfd]; simp
  · apply namingScheme_of_get _ _ _ _ _ _ _ hg
    · rw [hgd]; simp
    · intro i
      simp only [FileWriterPool.GetFileName]
      rw [hgd]; simp
  · intro f2 i h
    simp only [FileReaderPool.config, Prod.mk.injEq] at h
    obtain ⟨h1, h2, h3, h4, h5, h6⟩ := h
    simp only [FileReaderPool.GetFileName, h1, h2, h3, h4, h5, h6]
  · intro g2 i h
    simp only [FileWriterPool.config, Prod.mk.injEq] at h
    obtain ⟨h1, h2, h3, h4, h5, h6⟩ := h
    simp only [FileWriterPool.GetFileName, h1, h2, h3, h4, h5, h6]

/-- Witness of C9: the two pools of 150 segments with digit width 3. -/
theorem getFileName_naming_scheme_witness :
    NamingScheme (pool150.GetFileName (logFs false 0)) ((logFs false 0).Join pool150.Path)
        pool150.NameComponent pool150.Extension pool150.ShortExtension pool150.PoolSize
        pool150.digits.toNat ∧
    NamingScheme (wpool150.GetFileName (logFs false 0)) ((logFs false 0).Join wpool150.Path)
        wpool150.NameComponent wpool150.Extension wpool150.ShortExtension wpool150.PoolSize
        wpool150.digits.toNat ∧
    (∀ (f2 : FileReaderPool) (i : Int), f2.config = pool150.config →
        f2.GetFileName (logFs false 0) i = pool150.GetFileName (logFs false 0) i) ∧
    (∀ (g2 : FileWriterPool) (i : Int), g2.config = wpool150.config →
        g2.GetFileName (logFs false 0) i = wpool150.GetFileName (logFs false 0) i) :=
  getFileName_naming_scheme (logFs false 0) pool150 wpool150 (by decide) (by decide)
    (by decide) (by decide)

/-! ### Construction -/

/-- C10, counterexample. With an empty directory path and an empty short
extension both constructors succeed, so they do not fail whenever one of the
four naming strings is empty. -/
theorem empty_path_and_short_extension_accepted :
    NewFileReaderPool (logFs false 0) "" "base" "ext" "" 150
      = .ok { Path := "", NameComponent := "base", Extension := "ext", ShortExtension := "",
              counter := 0, PoolSize := 150, FileCapacity := 0, digits := 3,
              activefile := none } ∧
    NewFileWriterPool (logFs false 0) "" "base" "ext" "" 150 1024
      = .ok { Path := "", NameComponent := "base", Extension := "ext", ShortExtension := "",
              counter := 0, PoolSize := 150, FileCapacity := 1024, digits := 3,
              activefile := none } ∧
    ¬ (∀ path namecomponent extension shortextension poolsize,
        (path = "" ∨ namecomponent = "" ∨ extension = "" ∨ shortextension = "" ∨
          poolsize = 0) →
        NewFileReaderPool (logFs false 0) path namecomponent extension shortextension poolsize
          = .error .ErrCreatePool) := by
  refine ⟨rfl, rfl, ?_⟩
  intro h
  have := h "" "base" "ext" "" 150 (Or.inl rfl)
  simp [NewFileReaderPool] at this

/-- C10, amended. `NewFileReaderPool` fails with `ErrCreatePool` exactly when the
name component or the extension is empty or the maximum segment count is zero,
and `NewFileWriterPool` exactly in those cases and when the capacity is zero;
in every other case (an empty directory path or short extension included)
construction returns a pool with counter 0, no open file and the given
configuration. -/
theorem construction_validation (fs : FileSys W)
    (path namecomponent extension shortextension : String) (poolsize : Int) (capacity : Nat) :
    (NewFileReaderPool fs path namecomponent extension shortextension poolsize
        = .error .ErrCreatePool ↔ (poolsize = 0 ∨ namecomponent = "" ∨ extension = "")) ∧
    (NewFileWriterPool fs path namecomponent extension shortextension poolsize capacity
        = .error .ErrCreatePool ↔
          (poolsize = 0 ∨ capacity = 0 ∨ namecomponent = "" ∨ extension = "")) ∧
    (¬ (poolsize = 0 ∨ namecomponent = "" ∨ extension = "") →
      ∃ f, NewFileReaderPool fs path namecomponent extension shortextension poolsize = .ok f ∧
        f.counter = 0 ∧ f.activefile = none ∧ f.Path = path ∧
        f.NameComponent = namecomponent ∧ f.Extension = extension ∧
        f.ShortExtension = shortextension ∧ f.PoolSize = poolsize) ∧
    (¬ (poolsize = 0 ∨ capacity = 0 ∨ namecomponent = "" ∨ extension = "") →
      ∃ f, NewFileWriterPool fs path namecomponent extension shortextension poolsize capacity
          = .ok f ∧
        f.counter = 0 ∧ f.activefile = none ∧ f.Path = path ∧
        f.NameComponent = namecomponent ∧ f.Extension = extension ∧
        f.ShortExtension = shortextension ∧ f.PoolSize = poolsize ∧
        f.FileCapacity = capacity) := by
  refine ⟨?_, ?_, ?_, ?_⟩
  · unfold NewFileReaderPool
    split <;> simp [*]
  · unfold NewFileWriterPool
    split <;> simp [*]
  · intro h
    unfold NewFileReaderPool
    rw [if_neg h]
    exact ⟨_, rfl, rfl, rfl, rfl, rfl, rfl, rfl, rfl⟩
  · intro h
    unfold NewFileWriterPool
    rw [if_neg h]
    exact ⟨_, rfl, rfl, rfl, rfl, rfl, rfl, rfl, rfl, rfl⟩

/-! ## Machine arithmetic and lists -/

theorem u64sub_eq (a b : Nat) (h : b ≤ a) (ha : a < 2 ^ 64) : u64sub a b = a - b := by
  unfold u64sub; omega

theorem uint64_eq (n : Int) (h : 0 ≤ n) (hn : n < 2 ^ 64) : uint64 n = n.toNat := by
  unfold uint64; omega

theorem u64add_eq (a b : Nat) (h : a + b < 2 ^ 64) : u64add a b = a + b := by
  unfold u64add; omega

theorem getElem?_modify_some {α : Type} {l : List α} {f : α → α} {i j : Nat} {c : α}
    (h : (l.modify f i)[j]? = some c) :
    ∃ c0, l[j]? = some c0 ∧ c = if i = j then f c0 else c0 := by
  rw [List.getElem?_modify] at h
  cases hj : l[j]? with
  | none => simp [hj] at h
  | some c0 =>
    simp only [hj, Option.map_eq_map, Option.map_some', Option.some.injEq] at h
    exact ⟨c0, rfl, h.symm⟩

theorem sum_map_modify {α : Type} (g : α → Nat) (f : α → α) :
    ∀ (l : List α) (i : Nat) (c : α), l[i]? = some c →
      ((l.modify f i).map g).sum + g c = (l.map g).sum + g (f c) := by
  intro l
  induction l with
  | nil => intro i c h; simp at h
  | cons a l ih =>
    intro i c h
    cases i with
    | zero =>
      simp only [List.getElem?_cons_zero, Option.some.injEq] at h
      subst h
      simp only [List.modify_zero_cons, List.map_cons, List.sum_cons]
      omega
    | succ i =>
      simp only [List.getElem?_cons_succ] at h
      have := ih i c h
      simp only [List.modify_succ_cons, List.map_cons, List.sum_cons]
      omega

/-! ## The read side: invariant -/

section ReadSide

variable {W P : Type} {I : ReaderPooler W P}

theorem MultiReader.Ext.refl (m : MultiReader W P) : m.Ext m :=
  ⟨rfl, [], by simp, by simp⟩

theorem MultiReader.Ext.trans {a b c : MultiReader W P} (h1 : a.Ext b) (h2 : b.Ext c) :
    a.Ext c := by
  obtain ⟨hi1, e1, he1, hf1⟩ := h1
  obtain ⟨hi2, e2, he2, hf2⟩ := h2
  refine ⟨by rw [hi2, hi1], e1 ++ e2, by rw [he2, he1, List.append_assoc], ?_⟩
  intro c hc
  rcases List.mem_append.1 hc with h | h
  · exact hf1 c h
  · exact hf2 c h

theorem MultiReader.Ext.total {m n : MultiReader W P} (h : m.Ext n) : n.total = m.total := by
  obtain ⟨_, ext, he, hf⟩ := h
  have hz : (ext.map (fun c => c.bytesread)).sum = 0 := by
    apply List.sum_eq_zero
    intro x hx
    obtain ⟨c, hc, rfl⟩ := List.mem_map.1 hx
    exact (hf c hc).1
  simp [MultiReader.total, he, hz]

theorem MultiReader.Ext.length_le {m n : MultiReader W P} (h : m.Ext n) :
    m.crs.length ≤ n.crs.length := by
  obtain ⟨_, ext, he, _⟩ := h
  simp [he]

theorem MultiReader.Inv.ext {m n : MultiReader W P} (hm : m.Inv) (h : m.Ext n) : n.Inv := by
  obtain ⟨hi, ext, he, hf⟩ := h
  have key : ∀ i c, n.crs[i]? = some c →
      m.crs[i]? = some c ∨ (m.crs.length ≤ i ∧ c ∈ ext) := by
    intro i c hc
    rw [he] at hc
    by_cases hlt : i < m.crs.length
    · rw [List.getElem?_append_left hlt] at hc
      exact Or.inl hc
    · rw [List.getElem?_append_right (by omega)] at hc
      exact Or.inr ⟨by omega, List.getElem?_mem hc⟩
  have hnn := hm.nonneg
  have hle := hm.le_len
  refine ⟨by rw [hi]; exact hnn, ?_, ?_, ?_, ?_, ?_⟩
  · rw [hi, he, List.length_append]; push_cast; omega
  · intro i c hc
    rcases key i c hc with h | ⟨_, h⟩
    · exact hm.segs i c h
    · have := hf c h
      exact ⟨by rw [this.1]; omega, this.2.1, this.2.2⟩
  · intro i c hc hlt
    rw [hi] at hlt
    rcases key i c hc with h | ⟨h, _⟩
    · exact hm.before i c h hlt
    · omega
  · intro i c hc hlt
    rw [hi] at hlt
    rcases key i c hc with h | ⟨_, h⟩
    · exact hm.after i c h hlt
    · exact (hf c h).1
  · intro c hc hfull
    rw [hi] at hc
    rcases key _ c hc with h | ⟨_, h⟩
    · exact hm.cursor c h hfull
    · rw [← hfull]; exact (hf c h).1

end ReadSide

section ReadSide
variable {W P : Type} {I : ReaderPooler W P}

theorem MultiReader.addFromPool_ext (hI : ReaderPoolOK I) (m : MultiReader W P) (s : W) :
    m.Ext (m.AddConstrainedReaderFromPool I s).2.1 ∧
    ((m.AddConstrainedReaderFromPool I s).1 = none →
      (m.AddConstrainedReaderFromPool I s).2.1.crs.length = m.crs.length + 1) := by
  unfold MultiReader.AddConstrainedReaderFromPool
  cases hp : m.pool with
  | none => simp [MultiReader.Ext.refl]
  | some pool =>
    simp only
    rcases hnew : I.NewConstrainedReader pool s with ⟨r, pool2, s2⟩
    cases r with
    | error err =>
      simp only [reduceCtorEq, false_implies, and_true]
      exact ⟨rfl, [], by simp, by simp⟩
    | ok c =>
      simp only [List.length_append, List.length_singleton, implies_true, and_true]
      refine ⟨rfl, [c], rfl, ?_⟩
      intro c2 hc2
      simp only [List.mem_singleton] at hc2
      subst hc2
      exact hI pool s c2 pool2 s2 hnew

theorem MultiReader.acquire_inl (hI : ReaderPoolOK I) (m : MultiReader W P) (s : W)
    (n : Int) (e : Option Error) (m2 : MultiReader W P) (s2 : W)
    (h : m.acquire I s = .inl ((n, e), m2, s2)) : n = 0 ∧ e ≠ none ∧ m.Ext m2 := by
  unfold MultiReader.acquire at h
  simp only at h
  have hext1 : m.Ext (if m.crs.length = 0 then m.AddConstrainedReaderFromPool I s
      else (none, m, s)).2.1 := by
    split
    · exact (MultiReader.addFromPool_ext hI m s).1
    · exact MultiReader.Ext.refl m
  revert h hext1
  generalize (if m.crs.length = 0 then m.AddConstrainedReaderFromPool I s
      else (none, m, s)) = first
  obtain ⟨err1, m1, s1⟩ := first
  intro h hext1
  simp only at hext1
  cases err1 with
  | some err =>
    simp only [Sum.inl.injEq, Prod.mk.injEq] at h
    obtain ⟨⟨h1, h2⟩, h3, _⟩ := h
    subst h3
    exact ⟨h1.symm, by rw [← h2]; simp, hext1⟩
  | none =>
    simp only at h
    split at h
    · simp only [Sum.inl.injEq, Prod.mk.injEq] at h
      obtain ⟨⟨h1, h2⟩, h3, _⟩ := h
      subst h3
      exact ⟨h1.symm, by rw [← h2]; simp, hext1⟩
    · split at h
      · have hext2 := (MultiReader.addFromPool_ext hI m1 s1).1
        revert h hext2
        generalize m1.AddConstrainedReaderFromPool I s1 = second
        obtain ⟨err2, m3, s3⟩ := second
        intro h hext2
        simp only at hext2
        cases err2 with
        | some err =>
          simp only [Sum.inl.injEq, Prod.mk.injEq] at h
          obtain ⟨⟨h1, h2⟩, h3, _⟩ := h
          subst h3
          exact ⟨h1.symm, by rw [← h2]; simp, hext1.trans hext2⟩
        | none =>
          simp only at h
          split at h
          · simp only [Sum.inl.injEq, Prod.mk.injEq] at h
            obtain ⟨⟨h1, h2⟩, h3, _⟩ := h
            subst h3
            exact ⟨h1.symm, by rw [← h2]; simp, hext1.trans hext2⟩
          · simp at h
      · simp at h

theorem MultiReader.acquire_inr (hI : ReaderPoolOK I) (m : MultiReader W P) (s : W)
    (m2 : MultiReader W P) (s2 : W)
    (h : m.acquire I s = .inr (m2, s2)) :
    m.Ext m2 ∧ 0 ≤ m2.index ∧ m2.index < (m2.crs.length : Int) := by
  unfold MultiReader.acquire at h
  simp only at h
  have hext1 : m.Ext (if m.crs.length = 0 then m.AddConstrainedReaderFromPool I s
      else (none, m, s)).2.1 := by
    split
    · exact (MultiReader.addFromPool_ext hI m s).1
    · exact MultiReader.Ext.refl m
  revert h hext1
  generalize (if m.crs.length = 0 then m.AddConstrainedReaderFromPool I s
      else (none, m, s)) = first
  obtain ⟨err1, m1, s1⟩ := first
  intro h hext1
  simp only at hext1
  cases err1 with
  | some err => simp at h
  | none =>
    simp only at h
    split at h
    · simp at h
    · split at h
      · have hext2 := (MultiReader.addFromPool_ext hI m1 s1).1
        revert h hext2
        generalize m1.AddConstrainedReaderFromPool I s1 = second
        obtain ⟨err2, m3, s3⟩ := second
        intro h hext2
        simp only at hext2
        cases err2 with
        | some err => simp at h
        | none =>
          simp only at h
          split at h
          · simp at h
          · simp only [Sum.inr.injEq, Prod.mk.injEq] at h
            obtain ⟨h3, _⟩ := h
            subst h3
            have hi := hext2.1
            exact ⟨hext1.trans hext2, by omega, by omega⟩
      · simp only [Sum.inr.injEq, Prod.mk.injEq] at h
        obtain ⟨h3, _⟩ := h
        subst h3
        exact ⟨hext1, by omega, by omega⟩
end ReadSide

section ReadSide
variable {W P : Type} {I : ReaderPooler W P}

/-- The segment at the cursor after `n` bytes were counted on it. -/
theorem MultiReader.addRead_getElem? (m : MultiReader W P) (n : Int) (c : ConstrainedReader W)
    (hc : m.crs[m.index.toNat]? = some c) (hn : 0 ≤ n)
    (hle : n ≤ (c.capacity : Int) - c.bytesread) (hcap : c.capacity < 2 ^ 64) :
    (m.addRead n).crs[m.index.toNat]? =
      some { c with bytesread := c.bytesread + n.toNat } := by
  simp only [MultiReader.addRead, List.getElem?_modify_eq, hc, Option.map_eq_map,
    Option.map_some', Option.some.injEq]
  have h1 : uint64 n = n.toNat := uint64_eq n hn (by omega)
  rw [h1, u64add_eq _ _ (by omega)]

theorem MultiReader.advance_addRead (m : MultiReader W P) (n : Int) (c : ConstrainedReader W)
    (hc : m.crs[m.index.toNat]? = some c) (hn : 0 ≤ n)
    (hle : n ≤ (c.capacity : Int) - c.bytesread) (hcap : c.capacity < 2 ^ 64) :
    (m.addRead n).advance =
      if c.bytesread + n.toNat = c.capacity then
        { m.addRead n with index := m.index + 1 }
      else m.addRead n := by
  have h := MultiReader.addRead_getElem? m n c hc hn hle hcap
  have hi : (m.addRead n).index = m.index := rfl
  unfold MultiReader.advance
  rw [hi, h]

theorem MultiReader.Inv.step {m : MultiReader W P} (hm : m.Inv) (n : Int)
    (c : ConstrainedReader W) (hc : m.crs[m.index.toNat]? = some c) (hn : 0 ≤ n)
    (hle : n ≤ (c.capacity : Int) - c.bytesread) :
    ((m.addRead n).advance).Inv ∧
    ((m.addRead n).advance).total = m.total + n.toNat ∧
    m.index ≤ ((m.addRead n).advance).index ∧
    ((m.addRead n).advance).crs.length = m.crs.length := by
  have hok := hm.segs _ c hc
  have hcap := hok.2.1
  have hnn := hm.nonneg
  have hlt : m.index.toNat < m.crs.length := by
    by_contra hcon
    rw [List.getElem?_eq_none (by omega)] at hc
    exact absurd hc (by simp)
  have hget := MultiReader.addRead_getElem? m n c hc hn hle hcap
  have hcrs : (m.addRead n).crs = m.crs.modify
      (fun c => { c with bytesread := u64add c.bytesread (uint64 n) }) m.index.toNat := rfl
  have hbump : u64add c.bytesread (uint64 n) = c.bytesread + n.toNat := by
    rw [uint64_eq n hn (by omega), u64add_eq _ _ (by omega)]
  have hlen : (m.addRead n).crs.length = m.crs.length := by rw [hcrs]; simp
  have htot : (m.addRead n).total = m.total + n.toNat := by
    have := sum_map_modify (fun c : ConstrainedReader W => c.bytesread)
      (fun c => { c with bytesread := u64add c.bytesread (uint64 n) }) m.crs m.index.toNat c hc
    simp only [MultiReader.total, hcrs]
    simp only [hbump] at this
    omega
  -- the segments of the new list
  have key : ∀ (j : Nat) (c2 : ConstrainedReader W), (m.addRead n).crs[j]? = some c2 →
      (j = m.index.toNat ∧ c2 = { c with bytesread := c.bytesread + n.toNat }) ∨
      (j ≠ m.index.toNat ∧ m.crs[j]? = some c2) := by
    intro j c2 h2
    by_cases hj : j = m.index.toNat
    · subst hj
      rw [hget] at h2
      exact Or.inl ⟨rfl, (Option.some.inj h2).symm⟩
    · rw [hcrs, List.getElem?_modify_ne _ _ (Ne.symm hj)] at h2
      exact Or.inr ⟨hj, h2⟩
  have hsegs : ∀ (j : Nat) (c2 : ConstrainedReader W), (m.addRead n).crs[j]? = some c2 →
      c2.OK := by
    intro j c2 h2
    rcases key j c2 h2 with ⟨_, rfl⟩ | ⟨_, h⟩
    · exact ⟨by simp only; omega, hcap, hok.2.2⟩
    · exact hm.segs j c2 h
  rw [MultiReader.advance_addRead m n c hc hn hle hcap]
  split
  · rename_i hfull
    refine ⟨⟨?_, ?_, ?_, ?_, ?_, ?_⟩, htot, ?_, hlen⟩
    · simp only; omega
    · simp only [hlen]; omega
    · exact hsegs
    · intro j c2 h2 hj
      simp only at hj
      rcases key j c2 h2 with ⟨_, rfl⟩ | ⟨hne, h⟩
      · simp only; omega
      · exact hm.before j c2 h (by omega)
    · intro j c2 h2 hj
      simp only at hj
      rcases key j c2 h2 with ⟨hj2, _⟩ | ⟨_, h⟩
      · omega
      · exact hm.after j c2 h (by omega)
    · intro c2 h2 hfull2
      simp only at h2
      rcases key _ c2 h2 with ⟨hj2, _⟩ | ⟨_, h⟩
      · omega
      · have := hm.after _ c2 h (by omega)
        omega
    · simp only; omega
  · rename_i hfull
    have hidx : (m.addRead n).index = m.index := rfl
    refine ⟨⟨?_, ?_, ?_, ?_, ?_, ?_⟩, htot, ?_, hlen⟩
    · rw [hidx]; exact hnn
    · rw [hidx, hlen]; exact hm.le_len
    · exact hsegs
    · intro j c2 h2 hj
      rw [hidx] at hj
      rcases key j c2 h2 with ⟨hj2, _⟩ | ⟨_, h⟩
      · omega
      · exact hm.before j c2 h hj
    · intro j c2 h2 hj
      rw [hidx] at hj
      rcases key j c2 h2 with ⟨hj2, _⟩ | ⟨_, h⟩
      · omega
      · exact hm.after j c2 h hj
    · intro c2 h2 hfull2
      rw [hidx, hget] at h2
      have := Option.some.inj h2
      subst this
      simp only at hfull2
      exact absurd hfull2 hfull
    · rw [hidx]

end ReadSide

theorem overlay_length (d p : List Byte) : (overlay d p).length = p.length := by
  simp only [overlay, List.length_append, List.length_take, List.length_drop]
  omega

section ReadSide
variable {W P : Type} {I : ReaderPooler W P}

/-- What a `Read` that returns does to a state satisfying the invariant. -/
theorem MultiReader.Read_spec (hI : ReaderPoolOK I) :
    ∀ (fuel : Nat) (m : MultiReader W P) (p : List Byte) (s : W) (buf : List Byte) (n : Int)
      (e : Option Error) (m2 : MultiReader W P) (s2 : W),
      m.Inv → m.Read I fuel p s = .ok ((buf, n, e), m2, s2) →
      m2.Inv ∧ 0 ≤ n ∧ n ≤ (p.length : Int) ∧ (m2.total : Int) = m.total + n ∧
        m.index ≤ m2.index ∧ m.crs.length ≤ m2.crs.length ∧ buf.length = p.length := by
  intro fuel
  induction fuel with
  | zero => intro m p s buf n e m2 s2 _ h; simp [MultiReader.Read] at h
  | succ fuel ih =>
    intro m p s buf n e m2 s2 hm h
    simp only [MultiReader.Read] at h
    cases hacq : m.acquire I s with
    | inl r =>
      obtain ⟨⟨n0, e0⟩, m1, s1⟩ := r
      rw [hacq] at h
      simp only [Except.ok.injEq, Prod.mk.injEq] at h
      obtain ⟨⟨hb, hn, _⟩, hm1, _⟩ := h
      obtain ⟨h0, _, hext⟩ := MultiReader.acquire_inl hI m s n0 e0 m1 s1 hacq
      subst hm1 hn hb h0
      have := hext.total
      exact ⟨hm.ext hext, le_refl _, by omega, by omega, by rw [hext.1], hext.length_le, rfl⟩
    | inr r =>
      obtain ⟨m1, s1⟩ := r
      rw [hacq] at h
      simp only at h
      obtain ⟨hext, hlo, hhi⟩ := MultiReader.acquire_inr hI m s m1 s1 hacq
      have hm1 : m1.Inv := hm.ext hext
      have htot1 := hext.total
      have hlen1 := hext.length_le
      have hidx1 := hext.1
      cases hget : m1.crs[m1.index.toNat]? with
      | none => rw [hget] at h; simp at h
      | some c =>
        rw [hget] at h
        simp only at h
        have hok := hm1.segs _ c hget
        have hbr := hok.1
        have hb : u64sub c.capacity c.bytesread = c.capacity - c.bytesread :=
          u64sub_eq _ _ hok.1 hok.2.1
        rw [hb] at h
        split at h
        · -- the buffer is smaller than what remains
          rename_i hlt
          simp only [Except.ok.injEq, Prod.mk.injEq] at h
          obtain ⟨⟨hb2, hn, _⟩, hm2, _⟩ := h
          rw [hn] at hm2
          have hcontract : 0 ≤ n ∧ n ≤ (p.length : Int) := by
            rw [← hn]; exact hok.2.2 p s1
          have hle : n ≤ (c.capacity : Int) - c.bytesread := by omega
          have hadv := MultiReader.advance_addRead m1 n c hget hcontract.1 hle hok.2.1
          rw [if_neg (by omega)] at hadv
          obtain ⟨h1, h2, h3, h4⟩ := hm1.step n c hget hcontract.1 hle
          rw [hadv, hm2] at h1 h2 h3 h4
          exact ⟨h1, hcontract.1, hcontract.2, by omega, by omega, by omega,
            by rw [← hb2, overlay_length]⟩
        · split at h
          · -- the buffer is exactly what remains
            rename_i hnlt heq
            simp only [Except.ok.injEq, Prod.mk.injEq] at h
            obtain ⟨⟨hb2, hn, _⟩, hm2, _⟩ := h
            rw [hn] at hm2
            have hcontract : 0 ≤ n ∧ n ≤ (p.length : Int) := by
              rw [← hn]; exact hok.2.2 p s1
            have hle : n ≤ (c.capacity : Int) - c.bytesread := by omega
            obtain ⟨h1, h2, h3, h4⟩ := hm1.step n c hget hcontract.1 hle
            rw [hm2] at h1 h2 h3 h4
            exact ⟨h1, hcontract.1, hcontract.2, by omega, by omega, by omega,
              by rw [← hb2, overlay_length]⟩
          · -- the buffer is larger than what remains
            rename_i hnlt hne
            rcases hr : c.r.Read (p.take (c.capacity - c.bytesread)) s1 with ⟨⟨d, n1, err⟩, s3⟩
            rw [hr] at h
            have hcontract := hok.2.2 (p.take (c.capacity - c.bytesread)) s1
            rw [hr] at hcontract
            simp only [List.length_take] at hcontract
            have hle : n1 ≤ (c.capacity : Int) - c.bytesread := by omega
            obtain ⟨h1, h2, h3, h4⟩ := hm1.step n1 c hget hcontract.1 hle
            have hp1 : (overlay d (p.take (c.capacity - c.bytesread)) ++
                p.drop (c.capacity - c.bytesread)).length = p.length := by
              simp only [List.length_append, overlay_length, List.length_take,
                List.length_drop]
              omega
            cases err with
            | some err =>
              simp only [Except.ok.injEq, Prod.mk.injEq] at h
              obtain ⟨⟨hb2, hn, _⟩, hm2, _⟩ := h
              subst hn
              rw [hm2] at h1 h2 h3 h4
              exact ⟨h1, hcontract.1, by omega, by omega, by omega, by omega,
                by rw [← hb2, hp1]⟩
            | none =>
              simp only at h
              split at h
              · simp at h
              · rename_i hslice
                cases hrec : MultiReader.Read I fuel (m1.addRead n1).advance
                    ((overlay d (p.take (c.capacity - c.bytesread)) ++
                      p.drop (c.capacity - c.bytesread)).drop n1.toNat) s3 with
                | error f => rw [hrec] at h; simp at h
                | ok r =>
                  obtain ⟨⟨p2, nn, ee⟩, m3, s4⟩ := r
                  rw [hrec] at h
                  simp only [Except.ok.injEq, Prod.mk.injEq] at h
                  obtain ⟨⟨hb2, hn, _⟩, hm2, _⟩ := h
                  obtain ⟨g1, g2, g3, g4, g5, g6, g7⟩ :=
                    ih _ _ _ p2 nn ee m3 s4 h1 hrec
                  subst hm2
                  simp only [List.length_drop, hp1] at g3 g7
                  refine ⟨g1, by omega, by omega, by omega, by omega, by omega, ?_⟩
                  rw [← hb2]
                  simp only [List.length_append, List.length_take, hp1, g7]
                  omega

end ReadSide

section ReadSide
variable {W P : Type} {I : ReaderPooler W P}

theorem MultiReader.Reachable.reader_inv (hI : ReaderPoolOK I) {m : MultiReader W P}
    (h : MultiReader.Reachable I m) : m.Inv := by
  induction h with
  | fresh p =>
    refine ⟨by simp [NewMultiReader], by simp [NewMultiReader], ?_, ?_, ?_, ?_⟩ <;>
      simp [NewMultiReader]
  | add m r capacity _ hr hcap ih =>
    apply ih.ext
    refine ⟨rfl, [{ r := r, capacity := capacity, bytesread := 0 }], rfl, ?_⟩
    intro c hc
    simp only [List.mem_singleton] at hc
    subst hc
    exact ⟨rfl, hcap, hr⟩
  | fromPool m s _ ih => exact ih.ext (MultiReader.addFromPool_ext hI m s).1
  | read m fuel p s res m2 s2 _ hread ih =>
    obtain ⟨buf, n, e⟩ := res
    exact (MultiReader.Read_spec hI fuel m p s buf n e m2 s2 ih hread).1

end ReadSide

section Simulation
variable {W P : Type} {I : WriterPooler W P}

theorem overlay_nil (p : List Byte) : overlay [] p = p := by
  simp [overlay]

theorem map_modify_comm {α β : Type} (φ : α → β) (f : α → α) (g : β → β)
    (h : ∀ a, φ (f a) = g (φ a)) :
    ∀ (l : List α) (i : Nat), (l.modify f i).map φ = (l.map φ).modify g i := by
  intro l
  induction l with
  | nil => intro i; simp
  | cons a l ih =>
    intro i
    cases i with
    | zero => simp [h]
    | succ i => simp [ih i]

theorem MultiWriter.asReader_addFromPool (m : MultiWriter W P) (s : W) :
    m.asReader.AddConstrainedReaderFromPool I.asReader s =
      ((m.AddConstrainedWriterFromPool I s).1, (m.AddConstrainedWriterFromPool I s).2.1.asReader,
        (m.AddConstrainedWriterFromPool I s).2.2) := by
  unfold MultiReader.AddConstrainedReaderFromPool MultiWriter.AddConstrainedWriterFromPool
  cases hp : m.pool with
  | none => simp [MultiWriter.asReader, hp]
  | some pool =>
    simp only [MultiWriter.asReader, hp, WriterPooler.asReader]
    rcases hnew : I.NewConstrainedWriter pool s with ⟨r, pool2, s2⟩
    cases r with
    | error err => simp
    | ok c => simp

theorem MultiWriter.asReader_acquire (m : MultiWriter W P) (s : W) :
    m.asReader.acquire I.asReader s =
      match m.acquire I s with
      | .inl (r, m2, s2) => .inl (r, m2.asReader, s2)
      | .inr (m2, s2) => .inr (m2.asReader, s2) := by
  unfold MultiReader.acquire MultiWriter.acquire
  simp only
  have hlen : ∀ x : MultiWriter W P, x.asReader.crs.length = x.cws.length := by
    intro x; simp [MultiWriter.asReader]
  have hidx : ∀ x : MultiWriter W P, x.asReader.index = x.index := fun _ => rfl
  have hfirst : (if m.asReader.crs.length = 0 then
        m.asReader.AddConstrainedReaderFromPool I.asReader s else (none, m.asReader, s)) =
      ((if m.cws.length = 0 then m.AddConstrainedWriterFromPool I s else (none, m, s)).1,
       (if m.cws.length = 0 then m.AddConstrainedWriterFromPool I s else (none, m, s)).2.1.asReader,
       (if m.cws.length = 0 then m.AddConstrainedWriterFromPool I s else (none, m, s)).2.2) := by
    rw [hlen]
    split
    · exact MultiWriter.asReader_addFromPool m s
    · rfl
  rw [hfirst]
  generalize (if m.cws.length = 0 then m.AddConstrainedWriterFromPool I s
    else (none, m, s)) = first
  obtain ⟨err1, m1, s1⟩ := first
  cases err1 with
  | some err => rfl
  | none =>
    simp only [hlen, hidx]
    split
    · rfl
    · split
      · rw [MultiWriter.asReader_addFromPool]
        generalize m1.AddConstrainedWriterFromPool I s1 = second
        obtain ⟨err2, m3, s3⟩ := second
        cases err2 with
        | some err => rfl
        | none =>
          simp only [hlen, hidx]
          split <;> rfl
      · rfl

theorem MultiWriter.asReader_addRead (m : MultiWriter W P) (n : Int) :
    m.asReader.addRead n = (m.addWritten n).asReader := by
  simp only [MultiReader.addRead, MultiWriter.addWritten, MultiWriter.asReader]
  congr 1
  symm
  apply map_modify_comm
  intro a
  rfl

theorem MultiWriter.asReader_advance (m : MultiWriter W P) :
    m.asReader.advance = m.advance.asReader := by
  simp only [MultiReader.advance, MultiWriter.advance, MultiWriter.asReader,
    List.getElem?_map]
  cases h : m.cws[m.index.toNat]? with
  | none => simp
  | some c =>
    simp only [Option.map_some', ConstrainedWriter.asReader]
    split <;> rfl

/-- `Write` is `Read` on the stream of writers seen as readers, and the buffer is
returned as it was given. -/
theorem MultiWriter.asReader_Read :
    ∀ (fuel : Nat) (m : MultiWriter W P) (p : List Byte) (s : W),
      m.asReader.Read I.asReader fuel p s =
        match m.Write I fuel p s with
        | .error f => .error f
        | .ok ((n, e), m2, s2) => .ok ((p, n, e), m2.asReader, s2) := by
  intro fuel
  induction fuel with
  | zero => intro m p s; rfl
  | succ fuel ih =>
    intro m p s
    rw [MultiReader.Read, MultiWriter.Write, MultiWriter.asReader_acquire]
    cases hacq : m.acquire I s with
    | inl r => rfl
    | inr r =>
      obtain ⟨m1, s1⟩ := r
      simp only
      have hget : m1.asReader.crs[m1.asReader.index.toNat]? =
          (m1.cws[m1.index.toNat]?).map ConstrainedWriter.asReader := by
        simp [MultiWriter.asReader]
      rw [hget]
      cases hc : m1.cws[m1.index.toNat]? with
      | none => rfl
      | some c =>
        simp only [Option.map_some']
        have hcap : c.asReader.capacity = c.capacity := rfl
        have hbr : c.asReader.bytesread = c.byteswritten := rfl
        rw [hcap, hbr]
        split
        · simp only [ConstrainedWriter.asReader, Writer.asReader, overlay_nil,
            MultiWriter.asReader_addRead]
        · split
          · simp only [ConstrainedWriter.asReader, Writer.asReader, overlay_nil,
              MultiWriter.asReader_addRead, MultiWriter.asReader_advance]
          · rcases hw : c.w.Write (List.take (u64sub c.capacity c.byteswritten) p) s1 with
              ⟨⟨n1, err⟩, s3⟩
            have hr : c.asReader.r.Read (List.take (u64sub c.capacity c.byteswritten) p) s1 =
                (([], n1, err), s3) := by
              simp [ConstrainedWriter.asReader, Writer.asReader, hw]
            rw [hr]
            cases err with
            | some err =>
              simp only [overlay_nil, List.take_append_drop, MultiWriter.asReader_addRead,
                MultiWriter.asReader_advance]
            | none =>
              simp only [overlay_nil, List.take_append_drop, MultiWriter.asReader_addRead,
                MultiWriter.asReader_advance]
              split
              · rfl
              · rw [ih]
                cases hrec : MultiWriter.Write I fuel (m1.addWritten n1).advance
                    (List.drop n1.toNat p) s3 with
                | error f => rfl
                | ok r =>
                  obtain ⟨⟨nn, ee⟩, m3, s4⟩ := r
                  simp only [List.take_append_drop]

end Simulation

section Simulation
variable {W P : Type} {I : WriterPooler W P}

theorem writerPoolOK_asReader (h : WriterPoolOK I) : ReaderPoolOK I.asReader := by
  intro pool s c pool2 s2 hnew
  simp only [WriterPooler.asReader] at hnew
  rcases hw : I.NewConstrainedWriter pool s with ⟨r, p3, s3⟩
  rw [hw] at hnew
  cases r with
  | error err => simp at hnew
  | ok cw =>
    simp only [Prod.mk.injEq, Except.ok.injEq] at hnew
    obtain ⟨hc, _, _⟩ := hnew
    subst hc
    obtain ⟨h1, h2, h3⟩ := h pool s cw p3 s3 hw
    exact ⟨h1, h2, h3⟩

theorem MultiWriter.asReader_getElem? (m : MultiWriter W P) (i : Nat) :
    m.asReader.crs[i]? = (m.cws[i]?).map ConstrainedWriter.asReader := by
  simp [MultiWriter.asReader]

theorem MultiWriter.asReader_inv_iff (m : MultiWriter W P) : m.asReader.Inv ↔ m.Inv := by
  constructor
  · intro h
    have hlen : m.asReader.crs.length = m.cws.length := by simp [MultiWriter.asReader]
    have hg : ∀ (i : Nat) (c : ConstrainedWriter W), m.cws[i]? = some c →
        m.asReader.crs[i]? = some c.asReader := by
      intro i c hc
      rw [MultiWriter.asReader_getElem?, hc]; rfl
    refine ⟨h.nonneg, ?_, ?_, ?_, ?_, ?_⟩
    · have := h.le_len; rw [hlen] at this; exact this
    · intro i c hc; exact h.segs i _ (hg i c hc)
    · intro i c hc hlt; exact h.before i _ (hg i c hc) hlt
    · intro i c hc hlt; exact h.after i _ (hg i c hc) hlt
    · intro c hc hfull; exact h.cursor _ (hg _ c hc) hfull
  · intro h
    have hlen : m.asReader.crs.length = m.cws.length := by simp [MultiWriter.asReader]
    have hg : ∀ (i : Nat) (c : ConstrainedReader W), m.asReader.crs[i]? = some c →
        ∃ cw, m.cws[i]? = some cw ∧ c = cw.asReader := by
      intro i c hc
      rw [MultiWriter.asReader_getElem?] at hc
      cases hcw : m.cws[i]? with
      | none => rw [hcw] at hc; simp at hc
      | some cw =>
        rw [hcw] at hc
        simp only [Option.map_some', Option.some.injEq] at hc
        exact ⟨cw, rfl, hc.symm⟩
    refine ⟨h.nonneg, ?_, ?_, ?_, ?_, ?_⟩
    · rw [hlen]; exact h.le_len
    · intro i c hc
      obtain ⟨cw, h1, rfl⟩ := hg i c hc
      exact h.segs i cw h1
    · intro i c hc hlt
      obtain ⟨cw, h1, rfl⟩ := hg i c hc
      exact h.before i cw h1 hlt
    · intro i c hc hlt
      obtain ⟨cw, h1, rfl⟩ := hg i c hc
      exact h.after i cw h1 hlt
    · intro c hc hfull
      obtain ⟨cw, h1, rfl⟩ := hg _ c hc
      exact h.cursor cw h1 hfull

theorem MultiWriter.asReader_total (m : MultiWriter W P) : m.asReader.total = m.total := by
  simp only [MultiReader.total, MultiWriter.total, MultiWriter.asReader, List.map_map]
  rfl

theorem MultiWriter.Reachable.toReader {m : MultiWriter W P} (h : MultiWriter.Reachable I m) :
    MultiReader.Reachable I.asReader m.asReader := by
  induction h with
  | fresh p => exact MultiReader.Reachable.fresh p
  | add m w capacity _ hw hcap ih =>
    have : (m.AddConstrainedWriter w capacity).asReader =
        m.asReader.AddConstrainedReader w.asReader capacity := by
      simp [MultiWriter.AddConstrainedWriter, MultiReader.AddConstrainedReader,
        MultiWriter.asReader, ConstrainedWriter.asReader]
    rw [this]
    exact MultiReader.Reachable.add _ _ _ ih hw hcap
  | fromPool m s _ ih =>
    have := MultiReader.Reachable.fromPool m.asReader s ih
    rw [MultiWriter.asReader_addFromPool] at this
    exact this
  | write m fuel p s res m2 s2 _ hwrite ih =>
    obtain ⟨n, e⟩ := res
    have hsim := MultiWriter.asReader_Read (I := I) fuel m p s
    rw [hwrite] at hsim
    exact MultiReader.Reachable.read _ fuel p s (p, n, e) _ s2 ih hsim

theorem MultiWriter.Reachable.writer_inv (hI : WriterPoolOK I) {m : MultiWriter W P}
    (h : MultiWriter.Reachable I m) : m.Inv :=
  (MultiWriter.asReader_inv_iff m).1 (h.toReader.reader_inv (writerPoolOK_asReader hI))

/-- What a `Write` that returns does to a state satisfying the invariant. -/
theorem MultiWriter.Write_spec (hI : WriterPoolOK I) (fuel : Nat) (m : MultiWriter W P)
    (p : List Byte) (s : W) (n : Int) (e : Option Error) (m2 : MultiWriter W P) (s2 : W)
    (hm : m.Inv) (h : m.Write I fuel p s = .ok ((n, e), m2, s2)) :
    m2.Inv ∧ 0 ≤ n ∧ n ≤ (p.length : Int) ∧ (m2.total : Int) = m.total + n ∧
      m.index ≤ m2.index ∧ m.cws.length ≤ m2.cws.length := by
  have hsim := MultiWriter.asReader_Read (I := I) fuel m p s
  rw [h] at hsim
  obtain ⟨h1, h2, h3, h4, h5, h6, _⟩ := MultiReader.Read_spec (writerPoolOK_asReader hI) fuel m.asReader p s
    p n e m2.asReader s2 ((MultiWriter.asReader_inv_iff m).2 hm) hsim
  rw [MultiWriter.asReader_total, MultiWriter.asReader_total] at h4
  refine ⟨(MultiWriter.asReader_inv_iff m2).1 h1, h2, h3, h4, h5, ?_⟩
  simpa [MultiWriter.asReader] using h6

end Simulation

/-- A run is identified by evaluating it. -/
theorem eq_ok_of_toOption {ε α : Type} (x : Except ε α) (a : α) (h : x.toOption = some a) :
    x = .ok a := by
  cases x with
  | error e => simp [Except.toOption] at h
  | ok b => simp [Except.toOption] at h; rw [h]

theorem memWriter_ok (i : Nat) : WriterOK (memWriter i) := by
  intro p s
  simp [memWriter]

theorem memReader_ok (i : Nat) : ReaderOK (memReader i) := by
  intro p s
  simp only [memReader, List.length_take]
  omega

theorem memWriterPool_ok (cap max : Nat) : WriterPoolOK (memWriterPool cap max) := by
  intro pool s c pool2 s2 h
  simp only [memWriterPool] at h
  split at h
  · simp only [Prod.mk.injEq, Except.ok.injEq] at h
    obtain ⟨hc, _, _⟩ := h
    subst hc
    exact ⟨rfl, Nat.mod_lt _ (by norm_num), memWriter_ok _⟩
  · simp at h

theorem memReaderPool_ok (max : Nat) : ReaderPoolOK (memReaderPool max) := by
  intro pool s c pool2 s2 h
  simp only [memReaderPool] at h
  split at h
  · simp only [Prod.mk.injEq, Except.ok.injEq] at h
    obtain ⟨hc, _, _⟩ := h
    subst hc
    refine ⟨rfl, ?_, memReader_ok _⟩
    simp only [uint64]
    omega
  · simp at h

theorem demoWritten_run :
    MultiWriter.Write (memWriterPool 4 3) 3 (NewMultiWriter (some 0)) [1, 2, 3, 4, 5, 6] []
      = .ok ((6, none), demoWritten, [[1, 2, 3, 4], [5, 6]]) :=
  eq_ok_of_toOption _ _ rfl

theorem demoRead_run :
    MultiReader.Read (memReaderPool 3) 3 (NewMultiReader (some 0)) [0, 0, 0, 0, 0]
        [[1, 2, 3, 4], [5, 6]]
      = .ok (([1, 2, 3, 4, 5], 5, none), demoRead, [[], [6]]) :=
  eq_ok_of_toOption _ _ rfl

theorem demoWritten_reachable : MultiWriter.Reachable (memWriterPool 4 3) demoWritten :=
  MultiWriter.Reachable.write _ _ _ _ _ _ _ (MultiWriter.Reachable.fresh _) demoWritten_run

theorem demoRead_reachable : MultiReader.Reachable (memReaderPool 3) demoRead :=
  MultiReader.Reachable.read _ _ _ _ _ _ _ (MultiReader.Reachable.fresh _) demoRead_run

section Invariants
variable {W P V Q : Type}

/-- C3. After any sequence of segment additions, pool acquisitions and `Write`
(`Read`) calls on a new stream, with handles whose counts are between 0 and the
length of the buffer and a pool that supplies untouched segments, every segment
has `byteswritten ≤ capacity` (`bytesread ≤ capacity`), and the `uint64`
subtraction `capacity - byteswritten` is the exact difference. -/
theorem capacity_bound (IW : WriterPooler W P) (IR : ReaderPooler V Q)
    (hW : WriterPoolOK IW) (hR : ReaderPoolOK IR)
    (mw : MultiWriter W P) (mr : MultiReader V Q)
    (hw : MultiWriter.Reachable IW mw) (hr : MultiReader.Reachable IR mr) :
    (∀ c ∈ mw.cws, c.byteswritten ≤ c.capacity ∧
      ((u64sub c.capacity c.byteswritten : Nat) : Int) = (c.capacity : Int) - c.byteswritten) ∧
    (∀ c ∈ mr.crs, c.bytesread ≤ c.capacity ∧
      ((u64sub c.capacity c.bytesread : Nat) : Int) = (c.capacity : Int) - c.bytesread) := by
  constructor
  · intro c hc
    obtain ⟨i, hi⟩ := List.getElem?_of_mem hc
    obtain ⟨h1, h2, _⟩ := (hw.writer_inv hW).segs i c hi
    refine ⟨h1, ?_⟩
    rw [u64sub_eq _ _ h1 h2]
    omega
  · intro c hc
    obtain ⟨i, hi⟩ := List.getElem?_of_mem hc
    obtain ⟨h1, h2, _⟩ := (hr.reader_inv hR).segs i c hi
    refine ⟨h1, ?_⟩
    rw [u64sub_eq _ _ h1 h2]
    omega

/-- Witness of C3: the streams over the in-memory pools after one boundary-spanning
call each. -/
theorem capacity_bound_witness :
    (∀ c ∈ demoWritten.cws, c.byteswritten ≤ c.capacity ∧
      ((u64sub c.capacity c.byteswritten : Nat) : Int) = (c.capacity : Int) - c.byteswritten) ∧
    (∀ c ∈ demoRead.crs, c.bytesread ≤ c.capacity ∧
      ((u64sub c.capacity c.bytesread : Nat) : Int) = (c.capacity : Int) - c.bytesread) :=
  capacity_bound (memWriterPool 4 3) (memReaderPool 3) (memWriterPool_ok 4 3)
    (memReaderPool_ok 3) demoWritten demoRead demoWritten_reachable demoRead_reachable

/-- C4. After any sequence of segment additions, pool acquisitions and `Write`
(`Read`) calls on a new stream (handles keeping the contract), every segment
before the cursor is full, every segment after the cursor is untouched, and the
segment at the cursor is full only if its capacity is 0. -/
theorem cursor_marks_full_segments (IW : WriterPooler W P) (IR : ReaderPooler V Q)
    (hW : WriterPoolOK IW) (hR : ReaderPoolOK IR)
    (mw : MultiWriter W P) (mr : MultiReader V Q)
    (hw : MultiWriter.Reachable IW mw) (hr : MultiReader.Reachable IR mr) :
    (∀ (i : Nat) (c : ConstrainedWriter W), mw.cws[i]? = some c →
      ((i : Int) < mw.index → c.byteswritten = c.capacity) ∧
      (mw.index < (i : Int) → c.byteswritten = 0) ∧
      ((i : Int) = mw.index → c.byteswritten = c.capacity → c.capacity = 0)) ∧
    (∀ (i : Nat) (c : ConstrainedReader V), mr.crs[i]? = some c →
      ((i : Int) < mr.index → c.bytesread = c.capacity) ∧
      (mr.index < (i : Int) → c.bytesread = 0) ∧
      ((i : Int) = mr.index → c.bytesread = c.capacity → c.capacity = 0)) := by
  have h1 := hw.writer_inv hW
  have h2 := hr.reader_inv hR
  constructor
  · intro i c hc
    refine ⟨h1.before i c hc, h1.after i c hc, ?_⟩
    intro hi
    apply h1.cursor
    have : mw.index.toNat = i := by omega
    rw [this]; exact hc
  · intro i c hc
    refine ⟨h2.before i c hc, h2.after i c hc, ?_⟩
    intro hi
    apply h2.cursor
    have : mr.index.toNat = i := by omega
    rw [this]; exact hc

/-- Witness of C4 on the streams over the in-memory pools. -/
theorem cursor_marks_full_segments_witness :
    (∀ (i : Nat) (c : ConstrainedWriter Store), demoWritten.cws[i]? = some c →
      ((i : Int) < demoWritten.index → c.byteswritten = c.capacity) ∧
      (demoWritten.index < (i : Int) → c.byteswritten = 0) ∧
      ((i : Int) = demoWritten.index → c.byteswritten = c.capacity → c.capacity = 0)) ∧
    (∀ (i : Nat) (c : ConstrainedReader Store), demoRead.crs[i]? = some c →
      ((i : Int) < demoRead.index → c.bytesread = c.capacity) ∧
      (demoRead.index < (i : Int) → c.bytesread = 0) ∧
      ((i : Int) = demoRead.index → c.bytesread = c.capacity → c.capacity = 0)) :=
  cursor_marks_full_segments (memWriterPool 4 3) (memReaderPool 3) (memWriterPool_ok 4 3)
    (memReaderPool_ok 3) demoWritten demoRead demoWritten_reachable demoRead_reachable

end Invariants

section Recording
variable {W P : Type} {I : ReaderPooler (W × List Report) P}

theorem MultiReader.addFromPool_silent (hS : I.Silent) (m : MultiReader (W × List Report) P)
    (sl : W × List Report) (hrec : ∀ c ∈ m.crs, c.r.Recording) :
    (m.AddConstrainedReaderFromPool I sl).2.2.2 = sl.2 ∧
    ∀ c ∈ (m.AddConstrainedReaderFromPool I sl).2.1.crs, c.r.Recording := by
  obtain ⟨s, log⟩ := sl
  unfold MultiReader.AddConstrainedReaderFromPool
  cases hp : m.pool with
  | none => exact ⟨rfl, hrec⟩
  | some pool =>
    simp only
    have hs := hS pool s log
    rcases hnew : I.NewConstrainedReader pool (s, log) with ⟨r, pool2, s2⟩
    rw [hnew] at hs
    cases r with
    | error err => exact ⟨hs.1, hrec⟩
    | ok c =>
      refine ⟨hs.1, ?_⟩
      intro c2 hc2
      simp only [List.mem_append, List.mem_singleton] at hc2
      rcases hc2 with h | h
      · exact hrec c2 h
      · subst h; exact hs.2 c2 rfl

theorem MultiReader.acquire_silent (hS : I.Silent) (m : MultiReader (W × List Report) P)
    (sl : W × List Report) (hrec : ∀ c ∈ m.crs, c.r.Recording) :
    (∀ r m2 sl2, m.acquire I sl = .inl (r, m2, sl2) →
      sl2.2 = sl.2 ∧ (∀ c ∈ m2.crs, c.r.Recording) ∧ r.1 = 0) ∧
    (∀ m2 sl2, m.acquire I sl = .inr (m2, sl2) →
      sl2.2 = sl.2 ∧ (∀ c ∈ m2.crs, c.r.Recording)) := by
  unfold MultiReader.acquire
  simp only
  have h1 : (if m.crs.length = 0 then m.AddConstrainedReaderFromPool I sl
      else (none, m, sl)).2.2.2 = sl.2 ∧
      ∀ c ∈ (if m.crs.length = 0 then m.AddConstrainedReaderFromPool I sl
        else (none, m, sl)).2.1.crs, c.r.Recording := by
    split
    · exact MultiReader.addFromPool_silent hS m sl hrec
    · exact ⟨rfl, hrec⟩
  revert h1
  generalize (if m.crs.length = 0 then m.AddConstrainedReaderFromPool I sl
      else (none, m, sl)) = first
  obtain ⟨err1, m1, s1⟩ := first
  intro h1
  simp only at h1
  cases err1 with
  | some err =>
    constructor
    · intro r m2 sl2 h
      simp only [Sum.inl.injEq, Prod.mk.injEq] at h
      obtain ⟨hr, hm, hs⟩ := h
      subst hr hm hs
      exact ⟨h1.1, h1.2, rfl⟩
    · intro m2 sl2 h
      simp at h
  | none =>
    simp only
    by_cases hneg : m1.index < 0
    · simp only [hneg, if_true]
      constructor
      · intro r m2 sl2 h
        simp only [Sum.inl.injEq, Prod.mk.injEq] at h
        obtain ⟨hr, hm, hs⟩ := h
        subst hr hm hs
        exact ⟨h1.1, h1.2, rfl⟩
      · intro m2 sl2 h
        simp at h
    · simp only [hneg, if_false]
      by_cases hge : m1.index ≥ (m1.crs.length : Int)
      · simp only [hge, if_true]
        have h2 := MultiReader.addFromPool_silent hS m1 s1 h1.2
        revert h2
        generalize m1.AddConstrainedReaderFromPool I s1 = second
        obtain ⟨err2, m3, s3⟩ := second
        intro h2
        simp only at h2
        cases err2 with
        | some err =>
          constructor
          · intro r m2 sl2 h
            simp only [Sum.inl.injEq, Prod.mk.injEq] at h
            obtain ⟨hr, hm, hs⟩ := h
            subst hr hm hs
            exact ⟨by rw [h2.1, h1.1], h2.2, rfl⟩
          · intro m2 sl2 h
            simp at h
        | none =>
          simp only
          by_cases hge2 : m3.index ≥ (m3.crs.length : Int)
          · simp only [hge2, if_true]
            constructor
            · intro r m2 sl2 h
              simp only [Sum.inl.injEq, Prod.mk.injEq] at h
              obtain ⟨hr, hm, hs⟩ := h
              subst hr hm hs
              exact ⟨by rw [h2.1, h1.1], h2.2, rfl⟩
            · intro m2 sl2 h
              simp at h
          · simp only [hge2, if_false]
            constructor
            · intro r m2 sl2 h
              simp at h
            · intro m2 sl2 h
              simp only [Sum.inr.injEq, Prod.mk.injEq] at h
              obtain ⟨hm, hs⟩ := h
              subst hm hs
              exact ⟨by rw [h2.1, h1.1], h2.2⟩
      · simp only [hge, if_false]
        constructor
        · intro r m2 sl2 h
          simp at h
        · intro m2 sl2 h
          simp only [Sum.inr.injEq, Prod.mk.injEq] at h
          obtain ⟨hm, hs⟩ := h
          subst hm hs
          exact ⟨h1.1, h1.2⟩

theorem mem_modify_elim {α : Type} {l : List α} {f : α → α} {i : Nat} {a : α}
    (h : a ∈ l.modify f i) : a ∈ l ∨ ∃ b ∈ l, a = f b := by
  obtain ⟨j, hj⟩ := List.getElem?_of_mem h
  obtain ⟨c0, h0, hc⟩ := getElem?_modify_some hj
  have hmem := List.getElem?_mem h0
  by_cases hij : i = j
  · rw [if_pos hij] at hc
    exact Or.inr ⟨c0, hmem, hc⟩
  · rw [if_neg hij] at hc
    exact Or.inl (hc ▸ hmem)

theorem MultiReader.recording_step (m : MultiReader (W × List Report) P) (n : Int)
    (hrec : ∀ c ∈ m.crs, c.r.Recording) :
    (∀ c ∈ (m.addRead n).crs, c.r.Recording) ∧
    (∀ c ∈ ((m.addRead n).advance).crs, c.r.Recording) := by
  have h1 : ∀ c ∈ (m.addRead n).crs, c.r.Recording := by
    intro c hc
    simp only [MultiReader.addRead] at hc
    rcases mem_modify_elim hc with h | ⟨b, hb, rfl⟩
    · exact hrec c h
    · exact hrec b hb
  refine ⟨h1, ?_⟩
  unfold MultiReader.advance
  split
  · split
    · exact h1
    · exact h1
  · exact h1

/-- The reports recorded during a `Read` explain its result. `T` is any property
of streams that the steps of `Read` keep. The failed acquisition that may end
the call is the early return of the checks before a segment is used, taken in a
state with `T`, and it leaves the stream and the world as the call returns
them. -/
theorem MultiReader.Read_explained (hS : I.Silent)
    (T : MultiReader (W × List Report) P → Prop)
    (hT1 : ∀ m s m1 s1, T m → m.acquire I s = .inr (m1, s1) → T m1)
    (hT2 : ∀ m n, T m → T ((m.addRead n).advance)) :
    ∀ (fuel : Nat) (m : MultiReader (W × List Report) P) (p : List Byte) (s : W)
      (log : List Report) (buf : List Byte) (n : Int) (e : Option Error)
      (m2 : MultiReader (W × List Report) P) (s2 : W) (log2 : List Report),
      T m → (∀ c ∈ m.crs, c.r.Recording) →
      m.Read I fuel p (s, log) = .ok ((buf, n, e), m2, (s2, log2)) →
      (∀ c ∈ m2.crs, c.r.Recording) ∧
      ∃ calls, log2 = log ++ calls ∧
        Explains calls n e
          (fun e => ∃ (m0 : MultiReader (W × List Report) P) (s0 : W × List Report),
            T m0 ∧ m0.acquire I s0 = .inl ((0, e), m2, (s2, log2))) := by
  intro fuel
  induction fuel with
  | zero => intro m p s log buf n e m2 s2 log2 _ _ h; simp [MultiReader.Read] at h
  | succ fuel ih =>
    intro m p s log buf n e m2 s2 log2 hT hrec h
    rw [MultiReader.Read] at h
    have hacqs := MultiReader.acquire_silent hS m (s, log) hrec
    cases hacq : m.acquire I (s, log) with
    | inl r =>
      obtain ⟨⟨n0, e0⟩, m1, s1⟩ := r
      rw [hacq] at h
      simp only [Except.ok.injEq, Prod.mk.injEq] at h
      obtain ⟨⟨_, hn, he⟩, hm1, hs1⟩ := h
      obtain ⟨hlog, hrec1, hz⟩ := hacqs.1 _ _ _ hacq
      simp only at hz hlog
      subst hm1 hn he hz
      rw [hs1] at hlog hacq
      simp only at hlog
      refine ⟨hrec1, [], by simp [hlog], by simp, by simp,
        Or.inr ⟨by simp, m, (s, log), hT, hacq⟩⟩
    | inr r =>
      obtain ⟨m1, s1, log1⟩ := r
      rw [hacq] at h
      simp only at h
      obtain ⟨hlog, hrec1⟩ := hacqs.2 _ _ hacq
      have hT1m := hT1 _ _ _ _ hT hacq
      simp only at hlog
      subst hlog
      cases hget : m1.crs[m1.index.toNat]? with
      | none => rw [hget] at h; simp at h
      | some c =>
        rw [hget] at h
        simp only at h
        have hcrec := hrec1 c (List.getElem?_mem hget)
        split at h
        · have hr := hcrec p s1 log1
          simp only [Except.ok.injEq, Prod.mk.injEq] at h
          obtain ⟨⟨_, hn, he⟩, hm2, hsl⟩ := h
          have hlog : log2 = log1 ++ [(n, e)] := by
            rw [← hn, ← he]; exact (congrArg Prod.snd hsl).symm.trans hr
          rw [hn] at hm2
          subst hm2
          refine ⟨(MultiReader.recording_step m1 n hrec1).1, [(n, e)], hlog, by simp, by simp,
            Or.inl (by simp)⟩
        · split at h
          · have hr := hcrec p s1 log1
            simp only [Except.ok.injEq, Prod.mk.injEq] at h
            obtain ⟨⟨_, hn, he⟩, hm2, hsl⟩ := h
            have hlog : log2 = log1 ++ [(n, e)] := by
              rw [← hn, ← he]; exact (congrArg Prod.snd hsl).symm.trans hr
            rw [hn] at hm2
            subst hm2
            refine ⟨(MultiReader.recording_step m1 n hrec1).2, [(n, e)], hlog, by simp,
              by simp, Or.inl (by simp)⟩
          · have hr := hcrec (p.take (u64sub c.capacity c.bytesread)) s1 log1
            rcases hread : c.r.Read (p.take (u64sub c.capacity c.bytesread)) (s1, log1) with
              ⟨⟨d, n1, err⟩, s3, log3⟩
            rw [hread] at h hr
            simp only at hr
            cases err with
            | some err =>
              simp only [Except.ok.injEq, Prod.mk.injEq] at h
              obtain ⟨⟨_, hn, he⟩, hm2, _, hl⟩ := h
              subst hn he hm2 hl
              refine ⟨(MultiReader.recording_step m1 n1 hrec1).2, [(n1, some err)], hr,
                by simp, by simp, Or.inl (by simp)⟩
            | none =>
              simp only at h
              split at h
              · simp at h
              · cases hrec2 : MultiReader.Read I fuel (m1.addRead n1).advance
                    ((overlay d (p.take (u64sub c.capacity c.bytesread)) ++
                      p.drop (u64sub c.capacity c.bytesread)).drop n1.toNat) (s3, log3) with
                | error f => rw [hrec2] at h; simp at h
                | ok r =>
                  obtain ⟨⟨p2, nn, ee⟩, m3, s4, log4⟩ := r
                  rw [hrec2] at h
                  simp only [Except.ok.injEq, Prod.mk.injEq] at h
                  obtain ⟨⟨_, hn, he⟩, hm2, hs4, hl⟩ := h
                  subst hn he hm2 hs4 hl
                  obtain ⟨g1, calls, g2, g3, g4, g5⟩ := ih _ _ _ _ p2 nn ee m3 s4 log4
                    (hT2 _ _ hT1m) (MultiReader.recording_step m1 n1 hrec1).2 hrec2
                  refine ⟨g1, (n1, none) :: calls, ?_, ?_, ?_, ?_⟩
                  · rw [g2, hr]; simp
                  · simp [g3]
                  · intro r hr2
                    cases calls with
                    | nil => simp at hr2
                    | cons a t =>
                      simp only [List.dropLast_cons₂, List.mem_cons] at hr2
                      rcases hr2 with h0 | h0
                      · rw [h0]
                      · exact g4 r h0
                  · rcases g5 with h5 | ⟨h5, h6⟩
                    · left
                      cases calls with
                      | nil => simp at h5
                      | cons a t => simpa [List.getLast?_cons_cons] using h5
                    · right
                      refine ⟨?_, h6⟩
                      intro r hr2
                      simp only [List.mem_cons] at hr2
                      rcases hr2 with h0 | h0
                      · rw [h0]
                      · exact h5 r h0

end Recording

section RecordingWrite
variable {W P : Type} {I : WriterPooler (W × List Report) P}

theorem writerSilent_asReader (h : I.Silent) : I.asReader.Silent := by
  intro pool s log
  have hs := h pool s log
  simp only [WriterPooler.asReader]
  rcases hnew : I.NewConstrainedWriter pool (s, log) with ⟨r, pool2, s2⟩
  rw [hnew] at hs
  cases r with
  | error err => exact ⟨hs.1, by intro c hc; simp at hc⟩
  | ok cw =>
    refine ⟨hs.1, ?_⟩
    intro c hc
    simp only [Except.ok.injEq] at hc
    subst hc
    intro p s log
    exact hs.2 cw rfl p s log

end RecordingWrite

/-! ### A failing call on recorded in-memory segments -/

theorem recorded_writer_ok {W : Type} (w : Writer W) (h : WriterOK w) : WriterOK w.recorded := by
  intro p s
  exact h p s.1

theorem recorded_reader_ok {W : Type} (r : Reader W) (h : ReaderOK r) : ReaderOK r.recorded := by
  intro p s
  exact h p s.1

theorem recorded_writer_recording {W : Type} (w : Writer W) : w.recorded.Recording := by
  intro p s log
  rfl

theorem recorded_reader_recording {W : Type} (r : Reader W) : r.recorded.Recording := by
  intro p s log
  rfl

theorem limitWriter_ok (i limit : Nat) : WriterOK (limitWriter i limit) := by
  intro p s
  simp only [limitWriter, List.length_take]
  omega

theorem noWriterPool_ok {W : Type} : WriterPoolOK (noWriterPool : WriterPooler W Unit) := by
  intro pool s c pool2 s2 h
  simp [noWriterPool] at h

theorem noReaderPool_ok {W : Type} : ReaderPoolOK (noReaderPool : ReaderPooler W Unit) := by
  intro pool s c pool2 s2 h
  simp [noReaderPool] at h

theorem noWriterPool_silent {W : Type} :
    (noWriterPool : WriterPooler (W × List Report) Unit).Silent := by
  intro pool s log
  exact ⟨rfl, by intro c hc; simp [noWriterPool] at hc⟩

theorem noReaderPool_silent {W : Type} :
    (noReaderPool : ReaderPooler (W × List Report) Unit).Silent := by
  intro pool s log
  exact ⟨rfl, by intro c hc; simp [noReaderPool] at hc⟩

theorem demoLimited_inv : demoLimited.Inv :=
  MultiWriter.Reachable.writer_inv noWriterPool_ok
    (MultiWriter.Reachable.add _ _ _
      (MultiWriter.Reachable.add _ _ _ (MultiWriter.Reachable.fresh none)
        (recorded_writer_ok _ (memWriter_ok 0)) (by norm_num))
      (recorded_writer_ok _ (limitWriter_ok 1 1)) (by norm_num))

theorem demoShort_inv : demoShort.Inv :=
  MultiReader.Reachable.reader_inv noReaderPool_ok
    (MultiReader.Reachable.add _ _ _
      (MultiReader.Reachable.add _ _ _ (MultiReader.Reachable.fresh none)
        (recorded_reader_ok _ (memReader_ok 0)) (by norm_num))
      (recorded_reader_ok _ (memReader_ok 1)) (by norm_num))

theorem demoLimited_run :
    demoLimited.Write noWriterPool 3 [1, 2, 3, 4, 5, 6] ([[], []], [])
      = .ok ((5, some (.other 28)), demoLimitedAfter,
          ([[1, 2, 3, 4], [5]], [(4, none), (1, some (.other 28))])) :=
  eq_ok_of_toOption _ _ rfl

theorem demoShort_run :
    demoShort.Read noReaderPool 3 [0, 0, 0, 0, 0, 0] ([[1, 2, 3, 4], []], [])
      = .ok (([1, 2, 3, 4, 0, 0], 4, some EOF), demoShortAfter,
          ([[], []], [(4, none), (0, some EOF)])) :=
  eq_ok_of_toOption _ _ rfl

section Spread
variable {W P : Type} {I : ReaderPooler W P}

theorem modify_append_cons {α : Type} (f : α → α) (pre : List α) (c : α) (post : List α) :
    (pre ++ c :: post).modify f pre.length = pre ++ f c :: post := by
  induction pre with
  | nil => simp
  | cons a pre ih => simp [ih]

theorem getElem?_append_cons {α : Type} (pre : List α) (c : α) (post : List α) :
    (pre ++ c :: post)[pre.length]? = some c := by
  rw [List.getElem?_append_right (le_refl _)]
  simp

theorem MultiReader.acquire_of_lt (m : MultiReader W P) (s : W) (h0 : 0 ≤ m.index)
    (h1 : m.index < (m.crs.length : Int)) : m.acquire I s = .inr (m, s) := by
  unfold MultiReader.acquire
  have hlen : m.crs.length ≠ 0 := by omega
  simp only [hlen, if_false]
  rw [if_neg (by omega), if_neg (by omega)]

theorem MultiReader.addRead_mk (pre : List (ConstrainedReader W)) (c : ConstrainedReader W)
    (rest : List (ConstrainedReader W)) (pl : Option P) (n : Int) :
    ({ index := (pre.length : Int), crs := pre ++ c :: rest, pool := pl } :
        MultiReader W P).addRead n =
      { index := (pre.length : Int),
        crs := pre ++ { c with bytesread := u64add c.bytesread (uint64 n) } :: rest,
        pool := pl } := by
  simp only [MultiReader.addRead, Int.toNat_ofNat, modify_append_cons]

theorem MultiReader.advance_mk (pre : List (ConstrainedReader W)) (c : ConstrainedReader W)
    (rest : List (ConstrainedReader W)) (pl : Option P) :
    ({ index := (pre.length : Int), crs := pre ++ c :: rest, pool := pl } :
        MultiReader W P).advance =
      if c.bytesread = c.capacity then
        { index := (pre.length : Int) + 1, crs := pre ++ c :: rest, pool := pl }
      else { index := (pre.length : Int), crs := pre ++ c :: rest, pool := pl } := by
  simp only [MultiReader.advance, Int.toNat_ofNat, getElem?_append_cons]

/-- A call whose handles transfer all they are asked for is the transfer segment
by segment, and it returns as soon as the fuel covers the segments from the
cursor on. -/
theorem MultiReader.Read_spread :
    ∀ (segs pre : List (ConstrainedReader W)) (pl : Option P) (fuel : Nat) (p : List Byte)
      (s : W),
      (∀ c ∈ segs, c.bytesread ≤ c.capacity ∧ c.capacity < 2 ^ 64) →
      spreadReadOK segs p s → segs.length ≤ fuel →
      MultiReader.Read I fuel { index := (pre.length : Int), crs := pre ++ segs, pool := pl } p s
        = .ok (((spreadRead segs p s).1, (p.length : Int), none),
            { index := ((pre.length +
                filledSegments (segs.map (fun c => c.capacity - c.bytesread)) p.length : Nat) : Int),
              crs := pre ++ (spreadRead segs p s).2.1, pool := pl },
            (spreadRead segs p s).2.2) := by
  intro segs
  induction segs with
  | nil => intro pre pl fuel p s _ hok _; simp [spreadReadOK] at hok
  | cons c rest ih =>
    intro pre pl fuel p s hsegs hok hfuel
    cases fuel with
    | zero => simp at hfuel
    | succ fuel =>
      have hc := hsegs c (List.mem_cons_self _ _)
      have hb : u64sub c.capacity c.bytesread = c.capacity - c.bytesread :=
        u64sub_eq _ _ hc.1 hc.2
      rw [MultiReader.Read, MultiReader.acquire_of_lt _ _ (by simp) (by simp)]
      simp only [Int.toNat_ofNat, getElem?_append_cons, hb]
      by_cases h1 : p.length < c.capacity - c.bytesread
      · have hle : p.length ≤ c.capacity - c.bytesread := by omega
        simp only [spreadReadOK, hle, if_true] at hok
        rw [if_pos h1]
        rcases hr : c.r.Read p s with ⟨⟨d, n, err⟩, s3⟩
        rw [hr] at hok
        simp only [Prod.mk.injEq] at hok
        obtain ⟨hn, herr⟩ := hok
        subst hn herr
        simp only [spreadRead, hle, if_true, hr, MultiReader.addRead_mk, List.map_cons,
          filledSegments, h1, Nat.add_zero]
        rw [uint64_eq _ (by omega) (by omega), u64add_eq _ _ (by omega)]
        simp
      · by_cases h2 : p.length = c.capacity - c.bytesread
        · have hle : p.length ≤ c.capacity - c.bytesread := by omega
          simp only [spreadReadOK, hle, if_true] at hok
          rw [if_neg h1, if_pos h2]
          rcases hr : c.r.Read p s with ⟨⟨d, n, err⟩, s3⟩
          rw [hr] at hok
          simp only [Prod.mk.injEq] at hok
          obtain ⟨hn, herr⟩ := hok
          subst hn herr
          simp only [spreadRead, hle, if_true, hr, MultiReader.addRead_mk, List.map_cons,
            filledSegments, h1, if_false, MultiReader.advance_mk]
          rw [uint64_eq _ (by omega) (by omega), u64add_eq _ _ (by omega)]
          have hfull : c.bytesread + (p.length : Int).toNat = c.capacity := by omega
          simp [hfull, h2]
          omega
        · have hle : ¬ p.length ≤ c.capacity - c.bytesread := by omega
          simp only [spreadReadOK, hle, if_false] at hok
          rw [if_neg h1, if_neg h2]
          obtain ⟨hret, hokrest⟩ := hok
          rcases hr : c.r.Read (p.take (c.capacity - c.bytesread)) s with ⟨⟨d, n, err⟩, s3⟩
          rw [hr] at hret hokrest
          simp only [Prod.mk.injEq] at hret
          obtain ⟨hn, herr⟩ := hret
          subst hn herr
          simp only at hokrest
          have hnot : ¬ (((c.capacity - c.bytesread : Nat) : Int) < 0 ∨
              (p.length : Int) < ((c.capacity - c.bytesread : Nat) : Int)) := by omega
          simp only [hnot, if_false, MultiReader.addRead_mk, MultiReader.advance_mk]
          rw [uint64_eq _ (by omega) (by omega), u64add_eq _ _ (by omega)]
          have hfull : c.bytesread + (c.capacity - c.bytesread) = c.capacity := by omega
          simp only [Int.toNat_ofNat, hfull, if_true]
          have hdrop : (overlay d (p.take (c.capacity - c.bytesread)) ++
              p.drop (c.capacity - c.bytesread)).drop (c.capacity - c.bytesread)
              = p.drop (c.capacity - c.bytesread) := by
            rw [List.drop_append_of_le_length (by rw [overlay_length, List.length_take]; omega)]
            rw [List.drop_of_length_le (by rw [overlay_length, List.length_take]; omega)]
            simp
          have htake : (overlay d (p.take (c.capacity - c.bytesread)) ++
              p.drop (c.capacity - c.bytesread)).take (c.capacity - c.bytesread)
              = overlay d (p.take (c.capacity - c.bytesread)) := by
            rw [List.take_append_of_le_length (by rw [overlay_length, List.length_take]; omega)]
            rw [List.take_of_length_le (by rw [overlay_length, List.length_take]; omega)]
          rw [hdrop, htake]
          have hih := ih (pre ++ [{ c with bytesread := c.capacity }]) pl fuel
            (p.drop (c.capacity - c.bytesread)) s3
            (fun x hx => hsegs x (List.mem_cons_of_mem _ hx)) hokrest
            (by simp only [List.length_cons] at hfuel; omega)
          simp only [List.length_append, List.length_singleton, List.append_assoc,
            List.singleton_append, Nat.cast_add, Nat.cast_one] at hih
          rw [hih]
          simp only [spreadRead, hle, if_false, hr, List.map_cons, filledSegments, h1, h2,
            List.length_drop]
          have e1 : ((c.capacity - c.bytesread : Nat) : Int) +
              ((p.length - (c.capacity - c.bytesread) : Nat) : Int) = (p.length : Int) := by
            omega
          have e2 : ∀ k : Nat, ((pre.length : Int) + 1 + (k : Int)) =
              ((pre.length + (1 + k) : Nat) : Int) := by
            intro k; omega
          rw [e1, e2]

end Spread

section Spread
variable {W P : Type}

/-- Handles that always transfer what they are asked for, over segments with enough
room, make the transfer of `p` go through. -/
theorem spreadReadOK_of_fill :
    ∀ (segs : List (ConstrainedReader W)) (p : List Byte) (s : W), segs ≠ [] →
      (∀ x ∈ segs, ∀ q t, (x.r.Read q t).1.2 = ((q.length : Int), none)) →
      p.length ≤ (segs.map (fun c => c.capacity - c.bytesread)).sum →
      spreadReadOK segs p s := by
  intro segs
  induction segs with
  | nil => intro p s h; exact absurd rfl h
  | cons c rest ih =>
    intro p s _ hfill hroom
    simp only [spreadReadOK]
    split
    · exact hfill c (List.mem_cons_self _ _) p s
    · rename_i hlt
      refine ⟨?_, ?_⟩
      · rw [hfill c (List.mem_cons_self _ _)]
        simp only [List.length_take, Prod.mk.injEq, and_true]
        congr 1
        omega
      · simp only [List.map_cons, List.sum_cons] at hroom
        apply ih
        · intro hnil
          subst hnil
          simp at hroom
          omega
        · intro x hx
          exact hfill x (List.mem_cons_of_mem _ hx)
        · simp only [List.length_drop]
          omega

theorem takeWhile_untouched (rest : List (ConstrainedReader W))
    (h : ∀ x ∈ rest, x.bytesread = 0 ∧ 0 < x.capacity) :
    rest.takeWhile (fun c => decide (c.bytesread = c.capacity)) = [] := by
  cases rest with
  | nil => rfl
  | cons y t =>
    have hy := h y (List.mem_cons_self _ _)
    rw [List.takeWhile_cons_of_neg]
    simp only [decide_eq_true_eq]
    omega

/-- Over untouched segments of non-zero capacity, the segments that a transfer
leaves full are the ones it filled. -/
theorem takeWhile_spreadRead :
    ∀ (post : List (ConstrainedReader W)) (q : List Byte) (s : W),
      (∀ x ∈ post, x.bytesread = 0 ∧ 0 < x.capacity) →
      ((spreadRead post q s).2.1.takeWhile (fun c => decide (c.bytesread = c.capacity))).length
        = filledSegments (post.map (fun c => c.capacity - c.bytesread)) q.length := by
  intro post
  induction post with
  | nil => intro q s _; rfl
  | cons x rest ih =>
    intro q s h
    have hx := h x (List.mem_cons_self _ _)
    have hrest : ∀ y ∈ rest, y.bytesread = 0 ∧ 0 < y.capacity :=
      fun y hy => h y (List.mem_cons_of_mem _ hy)
    simp only [spreadRead, List.map_cons, filledSegments]
    by_cases h1 : q.length < x.capacity - x.bytesread
    · have hle : q.length ≤ x.capacity - x.bytesread := by omega
      simp only [hle, if_true, h1]
      rw [List.takeWhile_cons_of_neg]
      · rfl
      · simp only [decide_eq_true_eq]; omega
    · by_cases h2 : q.length = x.capacity - x.bytesread
      · have hle : q.length ≤ x.capacity - x.bytesread := by omega
        simp only [hle, if_true, h1, if_false]
        rw [if_pos h2, List.takeWhile_cons_of_pos (by simp only [decide_eq_true_eq]; omega),
          takeWhile_untouched rest hrest]
        rfl
      · have hle : ¬ q.length ≤ x.capacity - x.bytesread := by omega
        simp only [hle, if_false, h1, h2]
        rw [List.takeWhile_cons_of_pos (by simp), List.length_cons, ih _ _ hrest]
        simp only [List.length_drop]
        omega

end Spread

section Injective
variable {W P : Type}

theorem Writer.asReader_injective_handle {w1 w2 : Writer W} (h : w1.asReader = w2.asReader) : w1 = w2 := by
  cases w1 with
  | mk f =>
    cases w2 with
    | mk g =>
      simp only [Writer.asReader, Reader.mk.injEq] at h
      congr
      funext p s
      have := congrFun (congrFun h p) s
      simp only [Prod.mk.injEq, true_and] at this
      obtain ⟨⟨h1, h2⟩, h3⟩ := this
      exact Prod.ext (Prod.ext h1 h2) h3

theorem ConstrainedWriter.asReader_injective_segment :
    Function.Injective (ConstrainedWriter.asReader : ConstrainedWriter W → ConstrainedReader W) := by
  intro c1 c2 h
  cases c1
  cases c2
  simp only [ConstrainedWriter.asReader, ConstrainedReader.mk.injEq] at h
  obtain ⟨h1, h2, h3⟩ := h
  rw [Writer.asReader_injective_handle h1, h2, h3]

theorem MultiWriter.asReader_injective_stream {m1 m2 : MultiWriter W P} (h : m1.asReader = m2.asReader) :
    m1 = m2 := by
  cases m1
  cases m2
  simp only [MultiWriter.asReader, MultiReader.mk.injEq] at h
  obtain ⟨h1, h2, h3⟩ := h
  rw [h1, List.map_injective_iff.2 ConstrainedWriter.asReader_injective_segment h2, h3]

/-- The transfer segment by segment of a write is that of the read of the writers
seen as readers. -/
theorem spreadRead_asReader :
    ∀ (segs : List (ConstrainedWriter W)) (p : List Byte) (s : W),
      spreadRead (segs.map ConstrainedWriter.asReader) p s
        = (p, (spreadWrite segs p s).1.map ConstrainedWriter.asReader, (spreadWrite segs p s).2) := by
  intro segs
  induction segs with
  | nil => intro p s; rfl
  | cons c rest ih =>
    intro p s
    simp only [List.map_cons, spreadRead, spreadWrite]
    have hcap : c.asReader.capacity = c.capacity := rfl
    have hbr : c.asReader.bytesread = c.byteswritten := rfl
    have hr : ∀ q t, c.asReader.r.Read q t = (([], (c.w.Write q t).1.1, (c.w.Write q t).1.2),
        (c.w.Write q t).2) := fun _ _ => rfl
    rw [hcap, hbr]
    split
    · simp only [hr, overlay_nil, List.map_cons]
      rfl
    · simp only [hr, overlay_nil, ih, List.take_append_drop, List.map_cons]
      rfl

end Injective

section Boundary
variable {W P : Type}

theorem MultiReader.Read_boundary (I : ReaderPooler W P) (pre : List (ConstrainedReader W))
    (c : ConstrainedReader W) (post : List (ConstrainedReader W)) (pl : Option P)
    (p : List Byte) (s : W)
    (hfill : ∀ x ∈ c :: post, ∀ q t, (x.r.Read q t).1.2 = ((q.length : Int), none))
    (hc : c.bytesread ≤ c.capacity ∧ c.capacity < 2 ^ 64)
    (hpost : ∀ x ∈ post, x.bytesread = 0 ∧ x.capacity < 2 ^ 64)
    (hspan : c.capacity - c.bytesread < p.length)
    (hroom : p.length - (c.capacity - c.bytesread) ≤ (post.map (fun x => x.capacity)).sum)
    (fuel : Nat) (hfuel : post.length + 1 ≤ fuel) :
    MultiReader.Read I fuel { index := (pre.length : Int), crs := pre ++ c :: post, pool := pl }
      p s = .ok (spannedRead pre c post pl p s) := by
  have hmap : post.map (fun x => x.capacity - x.bytesread) = post.map (fun x => x.capacity) := by
    apply List.map_congr_left
    intro x hx
    rw [(hpost x hx).1]
    rfl
  have hsegs : ∀ x ∈ c :: post, x.bytesread ≤ x.capacity ∧ x.capacity < 2 ^ 64 := by
    intro x hx
    rcases List.mem_cons.1 hx with h | h
    · subst h; exact hc
    · have := hpost x h
      exact ⟨by omega, this.2⟩
  have hok : spreadReadOK (c :: post) p s := by
    apply spreadReadOK_of_fill _ _ _ (by simp) hfill
    simp only [List.map_cons, List.sum_cons, hmap]
    omega
  rw [MultiReader.Read_spread (I := I) (c :: post) pre pl fuel p s hsegs hok
    (by simp only [List.length_cons]; omega)]
  have hle : ¬ p.length ≤ c.capacity - c.bytesread := by omega
  have h1 : ¬ p.length < c.capacity - c.bytesread := by omega
  have h2 : ¬ p.length = c.capacity - c.bytesread := by omega
  simp only [spannedRead, spreadRead, hle, if_false, List.map_cons, filledSegments, h1, h2]
  have e : pre.length + (1 + filledSegments (post.map (fun x => x.capacity - x.bytesread))
      (p.length - (c.capacity - c.bytesread))) = pre.length + 1 +
      filledSegments (post.map (fun x => x.capacity - x.bytesread))
        (p.length - (c.capacity - c.bytesread)) := by omega
  rw [e]

/-- After a boundary-spanning read over following segments none of which has
capacity zero, the cursor is on the first segment that is not full. -/
theorem spannedRead_firstNotFull (pre : List (ConstrainedReader W))
    (c : ConstrainedReader W) (post : List (ConstrainedReader W)) (pl : Option P)
    (p : List Byte) (s : W)
    (hpre : ∀ x ∈ pre, x.bytesread = x.capacity)
    (hpost : ∀ x ∈ post, x.bytesread = 0 ∧ 0 < x.capacity) :
    (spannedRead pre c post pl p s).2.1.index =
      ((spannedRead pre c post pl p s).2.1.firstNotFull : Int) := by
  simp only [spannedRead, MultiReader.firstNotFull]
  rw [List.takeWhile_append_of_pos (by intro a ha; simp [hpre a ha]),
    List.takeWhile_cons_of_pos (by simp), List.length_append, List.length_cons,
    takeWhile_spreadRead _ _ _ hpost]
  simp only [List.length_drop]
  congr 1
  omega

theorem MultiWriter.Write_boundary (I : WriterPooler W P) (pre : List (ConstrainedWriter W))
    (c : ConstrainedWriter W) (post : List (ConstrainedWriter W)) (pl : Option P)
    (p : List Byte) (s : W)
    (hfill : ∀ x ∈ c :: post, ∀ q t, (x.w.Write q t).1 = ((q.length : Int), none))
    (hc : c.byteswritten ≤ c.capacity ∧ c.capacity < 2 ^ 64)
    (hpost : ∀ x ∈ post, x.byteswritten = 0 ∧ x.capacity < 2 ^ 64)
    (hspan : c.capacity - c.byteswritten < p.length)
    (hroom : p.length - (c.capacity - c.byteswritten) ≤ (post.map (fun x => x.capacity)).sum)
    (fuel : Nat) (hfuel : post.length + 1 ≤ fuel) :
    MultiWriter.Write I fuel { index := (pre.length : Int), cws := pre ++ c :: post, pool := pl }
      p s = .ok (spannedWrite pre c post pl p s) := by
  have hsim := MultiWriter.asReader_Read (I := I) fuel
    { index := (pre.length : Int), cws := pre ++ c :: post, pool := pl } p s
  have hR := MultiReader.Read_boundary I.asReader (pre.map ConstrainedWriter.asReader)
    c.asReader (post.map ConstrainedWriter.asReader) pl p s
    (by
      intro x hx q t
      rw [← List.map_cons] at hx
      obtain ⟨y, hy, rfl⟩ := List.mem_map.1 hx
      have := hfill y hy q t
      simp only [ConstrainedWriter.asReader, Writer.asReader, this])
    hc
    (by
      intro x hx
      obtain ⟨y, hy, rfl⟩ := List.mem_map.1 hx
      exact hpost y hy)
    hspan
    (by simpa [List.map_map, Function.comp, ConstrainedWriter.asReader] using hroom)
    fuel (by simpa using hfuel)
  have hstate : ({ index := (pre.length : Int), cws := pre ++ c :: post, pool := pl } :
      MultiWriter W P).asReader =
      { index := ((pre.map ConstrainedWriter.asReader).length : Int),
        crs := pre.map ConstrainedWriter.asReader ++
          c.asReader :: post.map ConstrainedWriter.asReader, pool := pl } := by
    simp [MultiWriter.asReader]
  rw [hstate, hR] at hsim
  have hspanned : spannedRead (pre.map ConstrainedWriter.asReader) c.asReader
      (post.map ConstrainedWriter.asReader) pl p s =
      ((p, (spannedWrite pre c post pl p s).1.1, (spannedWrite pre c post pl p s).1.2),
        (spannedWrite pre c post pl p s).2.1.asReader, (spannedWrite pre c post pl p s).2.2) := by
    have hcap : c.asReader.capacity = c.capacity := rfl
    have hbr : c.asReader.bytesread = c.byteswritten := rfl
    have hr : ∀ q t, c.asReader.r.Read q t = (([], (c.w.Write q t).1.1, (c.w.Write q t).1.2),
        (c.w.Write q t).2) := fun _ _ => rfl
    simp only [spannedRead, spannedWrite, hcap, hbr, hr, spreadRead_asReader, overlay_nil,
      List.take_append_drop, List.length_map, List.map_map, MultiWriter.asReader,
      List.map_append, List.map_cons]
    rfl
  rw [hspanned] at hsim
  cases hw : MultiWriter.Write I fuel
      { index := (pre.length : Int), cws := pre ++ c :: post, pool := pl } p s with
  | error f => rw [hw] at hsim; simp at hsim
  | ok r =>
    obtain ⟨⟨n, e⟩, m2, s2⟩ := r
    rw [hw] at hsim
    simp only [Except.ok.injEq, Prod.mk.injEq, true_and] at hsim
    obtain ⟨⟨hn, he⟩, hm, hs⟩ := hsim
    have hm2 := MultiWriter.asReader_injective_stream hm
    rw [← hm2, ← hs, ← hn, ← he]

theorem spannedWrite_firstNotFull (pre : List (ConstrainedWriter W))
    (c : ConstrainedWriter W) (post : List (ConstrainedWriter W)) (pl : Option P)
    (p : List Byte) (s : W)
    (hpre : ∀ x ∈ pre, x.byteswritten = x.capacity)
    (hpost : ∀ x ∈ post, x.byteswritten = 0 ∧ 0 < x.capacity) :
    (spannedWrite pre c post pl p s).2.1.index =
      ((spannedWrite pre c post pl p s).2.1.firstNotFull : Int) := by
  have key : ∀ (l : List (ConstrainedWriter W)),
      (l.takeWhile (fun c => decide (c.byteswritten = c.capacity))).length =
      ((l.map ConstrainedWriter.asReader).takeWhile
        (fun c => decide (c.bytesread = c.capacity))).length := by
    intro l
    rw [List.takeWhile_map, List.length_map]
    rfl
  have h := spannedRead_firstNotFull (pre.map ConstrainedWriter.asReader) c.asReader
    (post.map ConstrainedWriter.asReader) pl p s
    (by
      intro x hx
      obtain ⟨y, hy, rfl⟩ := List.mem_map.1 hx
      exact hpre y hy)
    (by
      intro x hx
      obtain ⟨y, hy, rfl⟩ := List.mem_map.1 hx
      exact hpost y hy)
  have hcap : c.asReader.capacity = c.capacity := rfl
  have hbr : c.asReader.bytesread = c.byteswritten := rfl
  have hr : ∀ q t, c.asReader.r.Read q t = (([], (c.w.Write q t).1.1, (c.w.Write q t).1.2),
      (c.w.Write q t).2) := fun _ _ => rfl
  simp only [spannedRead, MultiReader.firstNotFull, hcap, hbr, hr, spreadRead_asReader,
    List.length_map, List.map_map] at h
  simp only [spannedWrite, MultiWriter.firstNotFull, key, List.map_append, List.map_cons]
  exact h

end Boundary

section BoundaryClaim
variable {W P V Q : Type}

/-- C2, counterexample. Four accepting segments of capacities 1, 1, 0, 1, cursor
on the first, and a write of two bytes (more than the one byte that remains in
the cursor segment, no more than the following segments hold): the call returns
`(2, nil)` and leaves the cursor at position 2, on the segment of capacity zero,
which is full, while the first segment that is not full is at position 3. -/
theorem zero_capacity_segment_keeps_cursor :
    demoZeroCap.Write noWriterPool 4 [7, 8] [[], [], [], []]
      = .ok ((2, none), demoZeroCapAfter, [[7], [8], [], []]) ∧
    demoZeroCapAfter.index = 2 ∧ demoZeroCapAfter.firstNotFull = 3 ∧
    demoZeroCapAfter.index ≠ (demoZeroCapAfter.firstNotFull : Int) :=
  ⟨eq_ok_of_toOption _ _ rfl, rfl, by decide, by decide⟩

/-- C2, amended. Let the segment `cw` at the cursor have less room than `p` is
long, let the segments `postw` after it be untouched and hold the rest of `p`,
and let the handles accept all they are given. Then `Write(p)` returns
`(len(p), nil)`, writes exactly `p[0:remaining]` to `cw` and the rest of `p`, in
order, to the following segments, each filled before the next is used, and
leaves the cursor directly after the last segment it filled
(`spannedWrite`); when the segments before the cursor are full and no following
segment has capacity zero, that is the first segment that is not full (one past
the last segment if `p` filled them all). The same holds for `Read` with
handles that always fill the buffer. The call returns for every fuel above the
number of following segments. -/
theorem boundary_spanning (IW : WriterPooler W P) (IR : ReaderPooler V Q)
    (prew : List (ConstrainedWriter W)) (cw : ConstrainedWriter W)
    (postw : List (ConstrainedWriter W)) (plw : Option P) (p : List Byte) (s : W)
    (hfillw : ∀ x ∈ cw :: postw, ∀ q t, (x.w.Write q t).1 = ((q.length : Int), none))
    (hcw : cw.byteswritten ≤ cw.capacity ∧ cw.capacity < 2 ^ 64)
    (hpostw : ∀ x ∈ postw, x.byteswritten = 0 ∧ x.capacity < 2 ^ 64)
    (hspanw : cw.capacity - cw.byteswritten < p.length)
    (hroomw : p.length - (cw.capacity - cw.byteswritten)
      ≤ (postw.map (fun x => x.capacity)).sum)
    (fuelw : Nat) (hfuelw : postw.length + 1 ≤ fuelw)
    (prer : List (ConstrainedReader V)) (cr : ConstrainedReader V)
    (postr : List (ConstrainedReader V)) (plr : Option Q) (b : List Byte) (t : V)
    (hfillr : ∀ x ∈ cr :: postr, ∀ q u, (x.r.Read q u).1.2 = ((q.length : Int), none))
    (hcr : cr.bytesread ≤ cr.capacity ∧ cr.capacity < 2 ^ 64)
    (hpostr : ∀ x ∈ postr, x.bytesread = 0 ∧ x.capacity < 2 ^ 64)
    (hspanr : cr.capacity - cr.bytesread < b.length)
    (hroomr : b.length - (cr.capacity - cr.bytesread)
      ≤ (postr.map (fun x => x.capacity)).sum)
    (fuelr : Nat) (hfuelr : postr.length + 1 ≤ fuelr) :
    (MultiWriter.Write IW fuelw
        { index := (prew.length : Int), cws := prew ++ cw :: postw, pool := plw } p s
        = .ok (spannedWrite prew cw postw plw p s) ∧
      ((∀ x ∈ prew, x.byteswritten = x.capacity) → (∀ x ∈ postw, 0 < x.capacity) →
        (spannedWrite prew cw postw plw p s).2.1.index
          = ((spannedWrite prew cw postw plw p s).2.1.firstNotFull : Int))) ∧
    (MultiReader.Read IR fuelr
        { index := (prer.length : Int), crs := prer ++ cr :: postr, pool := plr } b t
        = .ok (spannedRead prer cr postr plr b t) ∧
      ((∀ x ∈ prer, x.bytesread = x.capacity) → (∀ x ∈ postr, 0 < x.capacity) →
        (spannedRead prer cr postr plr b t).2.1.index
          = ((spannedRead prer cr postr plr b t).2.1.firstNotFull : Int))) := by
  refine ⟨⟨?_, ?_⟩, ⟨?_, ?_⟩⟩
  · exact MultiWriter.Write_boundary IW prew cw postw plw p s hfillw hcw hpostw hspanw hroomw
      fuelw hfuelw
  · intro hpre hpos
    exact spannedWrite_firstNotFull prew cw postw plw p s hpre
      (fun x hx => ⟨(hpostw x hx).1, hpos x hx⟩)
  · exact MultiReader.Read_boundary IR prer cr postr plr b t hfillr hcr hpostr hspanr hroomr
      fuelr hfuelr
  · intro hpre hpos
    exact spannedRead_firstNotFull prer cr postr plr b t hpre
      (fun x hx => ⟨(hpostr x hx).1, hpos x hx⟩)

/-- Witness of C2: six bytes written across in-memory segments of capacity 4 and 4,
and a buffer of six bytes read across endless segments of capacity 4 and 4. -/
theorem boundary_spanning_witness :
    (MultiWriter.Write (noWriterPool : WriterPooler Store Unit) 2
        { index := (([] : List (ConstrainedWriter Store)).length : Int),
          cws := [] ++ { w := memWriter 0, capacity := 4, byteswritten := 0 } ::
            [{ w := memWriter 1, capacity := 4, byteswritten := 0 }],
          pool := none } [1, 2, 3, 4, 5, 6] [[], []]
        = .ok (spannedWrite [] { w := memWriter 0, capacity := 4, byteswritten := 0 }
            [{ w := memWriter 1, capacity := 4, byteswritten := 0 }] none [1, 2, 3, 4, 5, 6]
            [[], []]) ∧
      ((∀ x ∈ ([] : List (ConstrainedWriter Store)), x.byteswritten = x.capacity) →
        (∀ x ∈ [({ w := memWriter 1, capacity := 4, byteswritten := 0 } :
            ConstrainedWriter Store)], 0 < x.capacity) →
        (spannedWrite [] { w := memWriter 0, capacity := 4, byteswritten := 0 }
            [{ w := memWriter 1, capacity := 4, byteswritten := 0 }] (none : Option Unit)
            [1, 2, 3, 4, 5, 6] [[], []]).2.1.index
          = ((spannedWrite [] { w := memWriter 0, capacity := 4, byteswritten := 0 }
            [{ w := memWriter 1, capacity := 4, byteswritten := 0 }] (none : Option Unit)
            [1, 2, 3, 4, 5, 6] [[], []]).2.1.firstNotFull : Int))) ∧
    (MultiReader.Read (noReaderPool : ReaderPooler Unit Unit) 2
        { index := (([] : List (ConstrainedReader Unit)).length : Int),
          crs := [] ++ { r := constReader 9, capacity := 4, bytesread := 0 } ::
            [{ r := constReader 7, capacity := 4, bytesread := 0 }],
          pool := none } [0, 0, 0, 0, 0, 0] ()
        = .ok (spannedRead [] { r := constReader 9, capacity := 4, bytesread := 0 }
            [{ r := constReader 7, capacity := 4, bytesread := 0 }] none [0, 0, 0, 0, 0, 0] ()) ∧
      ((∀ x ∈ ([] : List (ConstrainedReader Unit)), x.bytesread = x.capacity) →
        (∀ x ∈ [({ r := constReader 7, capacity := 4, bytesread := 0 } :
            ConstrainedReader Unit)], 0 < x.capacity) →
        (spannedRead [] { r := constReader 9, capacity := 4, bytesread := 0 }
            [{ r := constReader 7, capacity := 4, bytesread := 0 }] (none : Option Unit)
            [0, 0, 0, 0, 0, 0] ()).2.1.index
          = ((spannedRead [] { r := constReader 9, capacity := 4, bytesread := 0 }
            [{ r := constReader 7, capacity := 4, bytesread := 0 }] (none : Option Unit)
            [0, 0, 0, 0, 0, 0] ()).2.1.firstNotFull : Int))) :=
  boundary_spanning noWriterPool noReaderPool [] _ _ none [1, 2, 3, 4, 5, 6] [[], []]
    (by intro x _ q t; simp only [List.mem_cons, List.mem_singleton, List.not_mem_nil,
          or_false] at *; rename_i hx; rcases hx with rfl | rfl <;> rfl)
    (by decide)
    (by intro x hx; simp only [List.mem_singleton] at hx; subst hx; exact ⟨rfl, by norm_num⟩)
    (by decide) (by decide) 2 (by decide)
    [] _ _ none [0, 0, 0, 0, 0, 0] ()
    (by intro x _ q t; simp only [List.mem_cons, List.mem_singleton, List.not_mem_nil,
          or_false] at *; rename_i hx; rcases hx with rfl | rfl <;> rfl)
    (by decide)
    (by intro x hx; simp only [List.mem_singleton] at hx; subst hx; exact ⟨rfl, by norm_num⟩)
    (by decide) (by decide) 2 (by decide)

/-- The results of the two calls of the witness of C2, evaluated. -/
theorem boundary_spanning_values :
    (spannedWrite [] { w := memWriter 0, capacity := 4, byteswritten := 0 }
        [{ w := memWriter 1, capacity := 4, byteswritten := 0 }] (none : Option Unit)
        [1, 2, 3, 4, 5, 6] [[], []]).2.2 = [[1, 2, 3, 4], [5, 6]] ∧
    (spannedWrite [] { w := memWriter 0, capacity := 4, byteswritten := 0 }
        [{ w := memWriter 1, capacity := 4, byteswritten := 0 }] (none : Option Unit)
        [1, 2, 3, 4, 5, 6] [[], []]).2.1.index = 1 ∧
    (spannedRead [] { r := constReader 9, capacity := 4, bytesread := 0 }
        [{ r := constReader 7, capacity := 4, bytesread := 0 }] (none : Option Unit)
        [0, 0, 0, 0, 0, 0] ()).1 = ([9, 9, 9, 9, 7, 7], 6, none) := by
  refine ⟨rfl, rfl, rfl⟩

end BoundaryClaim

section WriteSpread
variable {W P : Type}

/-- A write whose handles accept all they are given, over segments with enough
room, is the transfer segment by segment. -/
theorem MultiWriter.Write_spread (I : WriterPooler W P) (segs pre : List (ConstrainedWriter W))
    (pl : Option P) (fuel : Nat) (p : List Byte) (s : W)
    (hsegs : ∀ x ∈ segs, x.byteswritten ≤ x.capacity ∧ x.capacity < 2 ^ 64)
    (hne : segs ≠ [])
    (hfill : ∀ x ∈ segs, ∀ q t, (x.w.Write q t).1 = ((q.length : Int), none))
    (hroom : p.length ≤ (segs.map (fun x => x.capacity - x.byteswritten)).sum)
    (hfuel : segs.length ≤ fuel) :
    MultiWriter.Write I fuel { index := (pre.length : Int), cws := pre ++ segs, pool := pl } p s
      = .ok (((p.length : Int), none),
          { index := ((pre.length +
              filledSegments (segs.map (fun x => x.capacity - x.byteswritten)) p.length : Nat) : Int),
            cws := pre ++ (spreadWrite segs p s).1, pool := pl },
          (spreadWrite segs p s).2) := by
  have hsim := MultiWriter.asReader_Read (I := I) fuel
    { index := (pre.length : Int), cws := pre ++ segs, pool := pl } p s
  have hok : spreadReadOK (segs.map ConstrainedWriter.asReader) p s := by
    apply spreadReadOK_of_fill
    · simpa using hne
    · intro x hx q t
      obtain ⟨y, hy, rfl⟩ := List.mem_map.1 hx
      have := hfill y hy q t
      simp only [ConstrainedWriter.asReader, Writer.asReader, this]
    · simpa [List.map_map, Function.comp, ConstrainedWriter.asReader] using hroom
  have hR := MultiReader.Read_spread (I := I.asReader) (segs.map ConstrainedWriter.asReader)
    (pre.map ConstrainedWriter.asReader) pl fuel p s
    (by
      intro x hx
      obtain ⟨y, hy, rfl⟩ := List.mem_map.1 hx
      exact hsegs y hy)
    hok (by simpa using hfuel)
  have hstate : ({ index := (pre.length : Int), cws := pre ++ segs, pool := pl } :
      MultiWriter W P).asReader =
      { index := ((pre.map ConstrainedWriter.asReader).length : Int),
        crs := pre.map ConstrainedWriter.asReader ++ segs.map ConstrainedWriter.asReader,
        pool := pl } := by
    simp [MultiWriter.asReader]
  rw [hstate, hR, spreadRead_asReader] at hsim
  cases hw : MultiWriter.Write I fuel
      { index := (pre.length : Int), cws := pre ++ segs, pool := pl } p s with
  | error f => rw [hw] at hsim; simp at hsim
  | ok r =>
    obtain ⟨⟨n, e⟩, m2, s2⟩ := r
    rw [hw] at hsim
    simp only [Except.ok.injEq, Prod.mk.injEq, true_and] at hsim
    obtain ⟨⟨hn, he⟩, hm, hs⟩ := hsim
    have hm2 : MultiWriter.mk
        ((pre.length + filledSegments (segs.map (fun x => x.capacity - x.byteswritten))
          p.length : Nat) : Int)
        (pre ++ (spreadWrite segs p s).1) pl = m2 := by
      apply MultiWriter.asReader_injective_stream
      rw [← hm]
      simp only [MultiWriter.asReader, List.map_map, List.map_append, List.length_map]
      rfl
    rw [← hm2, ← hs, ← hn, ← he]

end WriteSpread

section Slots
variable (c : Nat)

theorem segsOfW_append : ∀ (A B : Store) (k : Nat),
    segsOfW c k (A ++ B) = segsOfW c k A ++ segsOfW c (k + A.length) B := by
  intro A
  induction A with
  | nil => intro B k; simp [segsOfW]
  | cons a A ih =>
    intro B k
    have : k + 1 + A.length = k + (A.length + 1) := by omega
    simp only [List.cons_append, segsOfW, List.length_cons, List.append_eq]
    rw [ih, this]

theorem segsOfW_length : ∀ (A : Store) (k : Nat), (segsOfW c k A).length = A.length := by
  intro A
  induction A with
  | nil => intro k; rfl
  | cons a A ih => intro k; simp [segsOfW, ih]

theorem segsOfW_room : ∀ (A : Store) (k : Nat),
    (segsOfW c k A).map (fun x => x.capacity - x.byteswritten) = A.map (fun x => c - x.length) := by
  intro A
  induction A with
  | nil => intro k; rfl
  | cons a A ih => intro k; simp [segsOfW, ih]

theorem fillSlots_length : ∀ (st : Store) (p : List Byte), (fillSlots c st p).length = st.length := by
  intro st
  induction st with
  | nil => intro p; rfl
  | cons x xs ih =>
    intro p
    simp only [fillSlots]
    split
    · rfl
    · simp [ih]

theorem fillSlots_nil : ∀ (st : Store), fillSlots c st [] = st := by
  intro st
  cases st with
  | nil => rfl
  | cons x xs => simp [fillSlots]

theorem fillSlots_le : ∀ (st : Store) (p : List Byte), (∀ x ∈ st, x.length ≤ c) →
    ∀ y ∈ fillSlots c st p, y.length ≤ c := by
  intro st
  induction st with
  | nil => intro p _ y hy; simp [fillSlots] at hy
  | cons x xs ih =>
    intro p h y hy
    have hx := h x (List.mem_cons_self _ _)
    simp only [fillSlots] at hy
    split at hy
    · rcases List.mem_cons.1 hy with rfl | h2
      · simp only [List.length_append]; omega
      · exact h y (List.mem_cons_of_mem _ h2)
    · rcases List.mem_cons.1 hy with rfl | h2
      · simp only [List.length_append, List.length_take]; omega
      · exact ih _ (fun z hz => h z (List.mem_cons_of_mem _ hz)) y h2

theorem room_fillSlots : ∀ (st : Store) (p : List Byte), (∀ x ∈ st, x.length ≤ c) →
    p.length ≤ room c st → room c (fillSlots c st p) + p.length = room c st := by
  intro st
  induction st with
  | nil => intro p _ h; simp [room] at h; simp [room, fillSlots, h]
  | cons x xs ih =>
    intro p h hp
    have hx := h x (List.mem_cons_self _ _)
    simp only [room, List.map_cons, List.sum_cons] at hp
    simp only [fillSlots]
    split
    · simp only [room, List.map_cons, List.sum_cons, List.length_append]
      omega
    · have := ih (p.drop (c - x.length)) (fun z hz => h z (List.mem_cons_of_mem _ hz))
        (by simp only [List.length_drop, room]; omega)
      simp only [room, List.map_cons, List.sum_cons, List.length_append, List.length_take,
        List.length_drop] at this ⊢
      omega

theorem fillSlots_full_front : ∀ (A tail : Store) (p : List Byte), (∀ a ∈ A, a.length = c) →
    fillSlots c (A ++ tail) p = A ++ fillSlots c tail p := by
  intro A
  induction A with
  | nil => intro tail p _; rfl
  | cons a A ih =>
    intro tail p h
    have ha := h a (List.mem_cons_self _ _)
    have hA : ∀ z ∈ A, z.length = c := fun z hz => h z (List.mem_cons_of_mem _ hz)
    simp only [List.cons_append, fillSlots, ha, Nat.sub_self]
    split
    · rename_i hp
      have : p = [] := List.eq_nil_of_length_eq_zero (by omega)
      subst this
      simp [fillSlots_nil]
    · simp [ih tail p hA]

theorem fillSlots_fillSlots : ∀ (st : Store) (p q : List Byte), (∀ x ∈ st, x.length ≤ c) →
    fillSlots c (fillSlots c st p) q = fillSlots c st (p ++ q) := by
  intro st
  induction st with
  | nil => intro p q _; rfl
  | cons x xs ih =>
    intro p q h
    have hx := h x (List.mem_cons_self _ _)
    have hxs : ∀ z ∈ xs, z.length ≤ c := fun z hz => h z (List.mem_cons_of_mem _ hz)
    by_cases hp : p.length ≤ c - x.length
    · simp only [fillSlots, hp, if_true, List.length_append]
      by_cases hq : q.length ≤ c - (x.length + p.length)
      · have hpq : p.length + q.length ≤ c - x.length := by omega
        simp [hq, hpq]
      · have hpq : ¬ p.length + q.length ≤ c - x.length := by omega
        simp only [hq, if_false, hpq]
        have e1 : (p ++ q).take (c - x.length) = p ++ q.take (c - (x.length + p.length)) := by
          rw [List.take_append_eq_append_take, List.take_of_length_le hp]
          congr 2
          omega
        have e2 : (p ++ q).drop (c - x.length) = q.drop (c - (x.length + p.length)) := by
          rw [List.drop_append_eq_append_drop, List.drop_of_length_le hp]
          simp only [List.nil_append]
          congr 1
          omega
        rw [e1, e2]
        simp
    · have hpq : ¬ (p ++ q).length ≤ c - x.length := by
        simp only [List.length_append]; omega
      have hfull : (x ++ p.take (c - x.length)).length = c := by
        simp only [List.length_append, List.length_take]; omega
      have e1 : (p ++ q).take (c - x.length) = p.take (c - x.length) := by
        rw [List.take_append_of_le_length (by omega)]
      have e2 : (p ++ q).drop (c - x.length) = p.drop (c - x.length) ++ q := by
        rw [List.drop_append_of_le_length (by omega)]
      rw [show fillSlots c (x :: xs) p = (x ++ p.take (c - x.length)) ::
          fillSlots c xs (p.drop (c - x.length)) by simp [fillSlots, hp]]
      rw [show fillSlots c (x :: xs) (p ++ q) = (x ++ (p ++ q).take (c - x.length)) ::
          fillSlots c xs ((p ++ q).drop (c - x.length)) by simp only [fillSlots, hpq, if_false]]
      rw [e1, e2, ← ih _ _ hxs]
      simp only [fillSlots, hfull, Nat.sub_self]
      split
      · rename_i hq
        have : q = [] := List.eq_nil_of_length_eq_zero (by omega)
        subst this
        simp [fillSlots_nil]
      · simp

theorem filledSegments_le : ∀ (rs : List Nat) (n : Nat), filledSegments rs n ≤ rs.length := by
  intro rs
  induction rs with
  | nil => intro n; simp [filledSegments]
  | cons r rs ih =>
    intro n
    simp only [filledSegments, List.length_cons]
    split
    · omega
    · split
      · omega
      · have := ih (n - r); omega

theorem take_filled_full : ∀ (st : Store) (p : List Byte), (∀ x ∈ st, x.length ≤ c) →
    ∀ y ∈ (fillSlots c st p).take (filledSegments (st.map (fun x => c - x.length)) p.length),
      y.length = c := by
  intro st
  induction st with
  | nil => intro p _ y hy; simp [fillSlots] at hy
  | cons x xs ih =>
    intro p h y hy
    have hx := h x (List.mem_cons_self _ _)
    have hxs : ∀ z ∈ xs, z.length ≤ c := fun z hz => h z (List.mem_cons_of_mem _ hz)
    simp only [List.map_cons, filledSegments, fillSlots] at hy
    by_cases h1 : p.length < c - x.length
    · simp [h1] at hy
    · by_cases h2 : p.length = c - x.length
      · have hle : p.length ≤ c - x.length := by omega
        rw [if_neg h1, if_pos h2, if_pos hle] at hy
        simp only [List.take_succ_cons, List.take_zero, List.mem_singleton] at hy
        subst hy
        simp only [List.length_append]; omega
      · have hle : ¬ p.length ≤ c - x.length := by omega
        rw [if_neg h1, if_neg h2, if_neg hle, Nat.add_comm, List.take_succ_cons] at hy
        rcases List.mem_cons.1 hy with rfl | h3
        · simp only [List.length_append, List.length_take]; omega
        · have := ih (p.drop (c - x.length)) hxs y
          simp only [List.length_drop] at this
          exact this h3

theorem room_replicate (N : Nat) : room c (List.replicate N []) = N * c := by
  induction N with
  | zero => simp [room]
  | succ n ih =>
    simp only [room, List.replicate_succ, List.map_cons, List.sum_cons, List.length_nil,
      Nat.sub_zero] at ih ⊢
    rw [ih, Nat.succ_mul]
    omega

theorem flatten_fillSlots_replicate : ∀ (N : Nat) (p : List Byte),
    p.length ≤ room c (List.replicate N []) →
    (fillSlots c (List.replicate N []) p).flatten = p := by
  intro N
  induction N with
  | zero =>
    intro p h
    simp [room] at h
    simp [fillSlots, h]
  | succ n ih =>
    intro p h
    simp only [room, List.replicate_succ, List.map_cons, List.sum_cons, List.length_nil,
      Nat.sub_zero] at h
    simp only [List.replicate_succ, fillSlots, List.length_nil, Nat.sub_zero, List.nil_append]
    split
    · simp
    · have := ih (p.drop c) (by simp only [room, List.length_drop]; omega)
      simp only [List.flatten_cons, this, List.take_append_drop]

/-- Writing across in-memory segments fills the slots. -/
theorem spreadWrite_mem : ∀ (tail A : Store) (p : List Byte), (∀ x ∈ tail, x.length ≤ c) →
    spreadWrite (segsOfW c A.length tail) p (A ++ tail)
      = (segsOfW c A.length (fillSlots c tail p), A ++ fillSlots c tail p) := by
  intro tail
  induction tail with
  | nil => intro A p _; rfl
  | cons x xs ih =>
    intro A p h
    have hx := h x (List.mem_cons_self _ _)
    have hxs : ∀ z ∈ xs, z.length ≤ c := fun z hz => h z (List.mem_cons_of_mem _ hz)
    simp only [segsOfW, spreadWrite, fillSlots]
    split
    · simp only [memWriter, modify_append_cons, List.length_append, segsOfW]
    · have hfull : (x ++ p.take (c - x.length)).length = c := by
        simp only [List.length_append, List.length_take]; omega
      have hw : ((memWriter A.length).Write (p.take (c - x.length)) (A ++ x :: xs)).2
          = (A ++ [x ++ p.take (c - x.length)]) ++ xs := by
        simp only [memWriter, modify_append_cons, List.append_assoc, List.singleton_append]
      have hk : A.length + 1 = (A ++ [x ++ p.take (c - x.length)]).length := by simp
      rw [hw, hk, ih _ _ hxs]
      simp only [segsOfW, hfull, List.append_assoc, List.singleton_append, List.length_append,
        List.length_singleton]

end Slots

section WriterRoundTrip
variable (c : Nat)

theorem MultiWriter.acquire_no_pool_writer {W P : Type} (I : WriterPooler W P) (m : MultiWriter W P)
    (s : W) (hp : m.pool = none) (hi : m.index = (m.cws.length : Int)) :
    m.acquire I s = .inl ((0, some .ErrPoolExhausted), m, s) := by
  unfold MultiWriter.acquire
  simp only [MultiWriter.AddConstrainedWriterFromPool, hp]
  by_cases h0 : m.cws.length = 0
  · simp [h0]
  · have h1 : ¬ m.index < 0 := by omega
    have h2 : m.index ≥ (m.cws.length : Int) := by omega
    simp [h0, h1, h2, hp]

theorem mem_segsOfW : ∀ (st : Store) (k : Nat) (z : ConstrainedWriter Store),
    z ∈ segsOfW c k st →
      ∃ i y, y ∈ st ∧ z = ConstrainedWriter.mk (memWriter i) c y.length := by
  intro st
  induction st with
  | nil => intro k z h; simp [segsOfW] at h
  | cons x xs ih =>
    intro k z h
    simp only [segsOfW, List.mem_cons] at h
    rcases h with rfl | h
    · exact ⟨k, x, List.mem_cons_self _ _, rfl⟩
    · obtain ⟨i, y, hy, rfl⟩ := ih _ _ h
      exact ⟨i, y, List.mem_cons_of_mem _ hy, rfl⟩

theorem room_append (A B : Store) : room c (A ++ B) = room c A + room c B := by
  simp [room]

theorem room_full (A : Store) (h : ∀ a ∈ A, a.length = c) : room c A = 0 := by
  simp only [room]
  apply List.sum_eq_zero
  intro x hx
  obtain ⟨a, ha, rfl⟩ := List.mem_map.1 hx
  rw [h a ha]
  omega

/-- One `Write` on the in-memory stream fills the slots with the bytes written. -/
theorem write_mem_step (hc64 : c < 2 ^ 64) (m : MultiWriter Store Unit) (st : Store)
    (p : List Byte) (fuel : Nat) (h : WriterTracks c m st) (hp : p.length ≤ room c st)
    (hfuel : st.length + 1 ≤ fuel) :
    ∃ r m2, m.Write noWriterPool fuel p st = .ok (r, m2, fillSlots c st p) ∧
      WriterTracks c m2 (fillSlots c st p) := by
  obtain ⟨A, tail, hst, hA, htail, hm⟩ := h
  subst hst hm
  rw [room_append, room_full c A hA, Nat.zero_add] at hp
  cases tail with
  | nil =>
    simp only [room, List.map_nil, List.sum_nil, Nat.le_zero] at hp
    have hp0 : p = [] := List.eq_nil_of_length_eq_zero hp
    subst hp0
    cases fuel with
    | zero => omega
    | succ fuel =>
      rw [MultiWriter.Write, MultiWriter.acquire_no_pool_writer _ _ _ rfl
        (by simp [segsOfW_length])]
      simp only [fillSlots_nil]
      exact ⟨_, _, rfl, A, [], rfl, hA, htail, rfl⟩
  | cons x xs =>
    have hsplit : segsOfW c 0 (A ++ x :: xs) = segsOfW c 0 A ++ segsOfW c A.length (x :: xs) := by
      rw [segsOfW_append, Nat.zero_add]
    have hlen : (segsOfW c 0 A).length = A.length := segsOfW_length c A 0
    have hW := MultiWriter.Write_spread (noWriterPool : WriterPooler Store Unit)
      (segsOfW c A.length (x :: xs)) (segsOfW c 0 A) none fuel p (A ++ x :: xs)
      (by
        intro z hz
        obtain ⟨i, y, hy, rfl⟩ := mem_segsOfW c _ _ z hz
        exact ⟨htail y hy, hc64⟩)
      (by simp [segsOfW])
      (by
        intro z hz q t
        obtain ⟨i, y, hy, rfl⟩ := mem_segsOfW c _ _ z hz
        rfl)
      (by rw [segsOfW_room]; exact hp)
      (by
        rw [segsOfW_length]
        simp only [List.length_append] at hfuel
        omega)
    rw [hlen, ← hsplit] at hW
    rw [spreadWrite_mem c _ _ _ htail, segsOfW_room] at hW
    rw [fillSlots_full_front c A (x :: xs) p hA]
    refine ⟨_, _, hW, A ++ (fillSlots c (x :: xs) p).take
        (filledSegments ((x :: xs).map (fun y => c - y.length)) p.length),
      (fillSlots c (x :: xs) p).drop
        (filledSegments ((x :: xs).map (fun y => c - y.length)) p.length), ?_, ?_, ?_, ?_⟩
    · rw [List.append_assoc, List.take_append_drop]
    · intro a ha
      rcases List.mem_append.1 ha with h1 | h1
      · exact hA a h1
      · exact take_filled_full c _ _ htail a h1
    · intro y hy
      exact fillSlots_le c _ _ htail y (List.mem_of_mem_drop hy)
    · have hk := filledSegments_le ((x :: xs).map (fun y => c - y.length)) p.length
      have hfl := fillSlots_length c (x :: xs) p
      simp only [List.length_map] at hk
      rw [List.append_assoc, List.take_append_drop, segsOfW_append, Nat.zero_add,
        List.length_append, List.length_take, hfl, Nat.min_eq_left hk]

theorem tracks_le {m : MultiWriter Store Unit} {st : Store} (h : WriterTracks c m st) :
    ∀ x ∈ st, x.length ≤ c := by
  obtain ⟨A, tail, hst, hA, htail, _⟩ := h
  subst hst
  intro x hx
  rcases List.mem_append.1 hx with h1 | h1
  · exact le_of_eq (hA x h1)
  · exact htail x h1

/-- Successive writes on the in-memory stream fill the slots with the
concatenation of the chunks. -/
theorem writeAll_mem (hc64 : c < 2 ^ 64) (fuel : Nat) :
    ∀ (chunks : List (List Byte)) (m : MultiWriter Store Unit) (st : Store),
      WriterTracks c m st → chunks.flatten.length ≤ room c st → st.length + 1 ≤ fuel →
      ∃ m2, MultiWriter.WriteAll noWriterPool fuel chunks m st
        = .ok (m2, fillSlots c st chunks.flatten) := by
  intro chunks
  induction chunks with
  | nil =>
    intro m st _ _ _
    exact ⟨m, by simp [MultiWriter.WriteAll, fillSlots_nil]⟩
  | cons p ps ih =>
    intro m st h hroom hfuel
    simp only [List.flatten_cons, List.length_append] at hroom
    obtain ⟨r, m2, hw, h2⟩ := write_mem_step c hc64 m st p fuel h (by omega) hfuel
    have hr := room_fillSlots c st p (tracks_le c h) (by omega)
    obtain ⟨m3, h3⟩ := ih m2 (fillSlots c st p) h2 (by omega)
      (by rw [fillSlots_length]; exact hfuel)
    refine ⟨m3, ?_⟩
    simp only [MultiWriter.WriteAll, hw, h3, List.flatten_cons]
    rw [fillSlots_fillSlots c st p ps.flatten (tracks_le c h)]

theorem addWriters_eq : ∀ (n k : Nat) (m : MultiWriter Store Unit),
    addWriters c k n m = { m with cws := m.cws ++ segsOfW c k (List.replicate n []) } := by
  intro n
  induction n with
  | zero => intro k m; simp [addWriters, segsOfW]
  | succ n ih =>
    intro k m
    simp only [addWriters, ih, MultiWriter.AddConstrainedWriter, List.replicate_succ, segsOfW,
      List.append_assoc, List.singleton_append, List.length_nil]

theorem memWriterStream_tracks (N : Nat) :
    WriterTracks c (memWriterStream N c) (List.replicate N []) := by
  refine ⟨[], List.replicate N [], rfl, by simp, ?_, ?_⟩
  · intro x hx
    rw [List.eq_of_mem_replicate hx]
    simp
  · simp [memWriterStream, addWriters_eq, NewMultiWriter]

end WriterRoundTrip

section ReaderRoundTrip

theorem segsOfR_append : ∀ (A B : List (Nat × List Byte)) (k : Nat),
    segsOfR k (A ++ B) = segsOfR k A ++ segsOfR (k + A.length) B := by
  intro A
  induction A with
  | nil => intro B k; simp [segsOfR]
  | cons a A ih =>
    intro B k
    have : k + 1 + A.length = k + (A.length + 1) := by omega
    simp only [List.cons_append, segsOfR, List.length_cons, List.append_eq]
    rw [ih, this]

theorem segsOfR_length : ∀ (A : List (Nat × List Byte)) (k : Nat),
    (segsOfR k A).length = A.length := by
  intro A
  induction A with
  | nil => intro k; rfl
  | cons a A ih => intro k; simp [segsOfR, ih]

theorem mem_segsOfR : ∀ (zs : List (Nat × List Byte)) (k : Nat) (x : ConstrainedReader Store),
    x ∈ segsOfR k zs →
      ∃ i z, z ∈ zs ∧ x = ConstrainedReader.mk (memReader i) z.1 (z.1 - z.2.length) := by
  intro zs
  induction zs with
  | nil => intro k x h; simp [segsOfR] at h
  | cons z zs ih =>
    intro k x h
    simp only [segsOfR, List.mem_cons] at h
    rcases h with rfl | h
    · exact ⟨k, z, List.mem_cons_self _ _, rfl⟩
    · obtain ⟨i, y, hy, rfl⟩ := ih _ _ h
      exact ⟨i, y, List.mem_cons_of_mem _ hy, rfl⟩

theorem segsOfR_room : ∀ (zs : List (Nat × List Byte)) (k : Nat),
    (∀ z ∈ zs, z.2.length ≤ z.1) →
    (segsOfR k zs).map (fun x => x.capacity - x.bytesread) = zs.map (fun z => z.2.length) := by
  intro zs
  induction zs with
  | nil => intro k _; rfl
  | cons z zs ih =>
    intro k h
    have hz := h z (List.mem_cons_self _ _)
    simp only [segsOfR, List.map_cons, ih (k + 1) (fun y hy => h y (List.mem_cons_of_mem _ hy))]
    congr 1
    omega

theorem drainSlots_length : ∀ (zs : List (Nat × List Byte)) (n : Nat),
    (drainSlots zs n).length = zs.length := by
  intro zs
  induction zs with
  | nil => intro n; rfl
  | cons z zs ih =>
    intro n
    simp only [drainSlots]
    split
    · rfl
    · simp [ih]

theorem drainSlots_ok : ∀ (zs : List (Nat × List Byte)) (n : Nat),
    (∀ z ∈ zs, z.2.length ≤ z.1 ∧ z.1 < 2 ^ 64) →
    ∀ y ∈ drainSlots zs n, y.2.length ≤ y.1 ∧ y.1 < 2 ^ 64 := by
  intro zs
  induction zs with
  | nil => intro n _ y hy; simp [drainSlots] at hy
  | cons z zs ih =>
    intro n h y hy
    have hz := h z (List.mem_cons_self _ _)
    simp only [drainSlots] at hy
    split at hy
    · rcases List.mem_cons.1 hy with rfl | h2
      · simp only [List.length_drop]; omega
      · exact h y (List.mem_cons_of_mem _ h2)
    · rcases List.mem_cons.1 hy with rfl | h2
      · simp only [List.length_nil]; omega
      · exact ih _ (fun w hw => h w (List.mem_cons_of_mem _ hw)) y h2

theorem drainSlots_avail : ∀ (zs : List (Nat × List Byte)) (n : Nat),
    n ≤ (zs.map (fun z => z.2.length)).sum →
    ((drainSlots zs n).map (fun z => z.2.length)).sum + n = (zs.map (fun z => z.2.length)).sum := by
  intro zs
  induction zs with
  | nil => intro n h; simp at h; simp [drainSlots, h]
  | cons z zs ih =>
    intro n h
    simp only [List.map_cons, List.sum_cons] at h
    simp only [drainSlots]
    split
    · simp only [List.map_cons, List.sum_cons, List.length_drop]
      omega
    · have := ih (n - z.2.length) (by omega)
      simp only [List.map_cons, List.sum_cons, List.length_nil]
      omega

theorem drainSlots_flatten : ∀ (zs : List (Nat × List Byte)) (n : Nat),
    n ≤ (zs.map (fun z => z.2.length)).sum →
    ((drainSlots zs n).map Prod.snd).flatten = ((zs.map Prod.snd).flatten).drop n := by
  intro zs
  induction zs with
  | nil => intro n _; simp [drainSlots]
  | cons z zs ih =>
    intro n h
    simp only [List.map_cons, List.sum_cons] at h
    simp only [drainSlots]
    split
    · rename_i hle
      simp only [List.map_cons, List.flatten_cons]
      rw [List.drop_append_of_le_length hle]
    · rename_i hle
      simp only [List.map_cons, List.flatten_cons, List.nil_append]
      have hd : z.2.drop n = [] := List.drop_of_length_le (by omega)
      rw [ih (n - z.2.length) (by omega), List.drop_append_eq_append_drop, hd,
        List.nil_append]

theorem take_filled_drained : ∀ (zs : List (Nat × List Byte)) (n : Nat),
    ∀ y ∈ (drainSlots zs n).take (filledSegments (zs.map (fun z => z.2.length)) n), y.2 = [] := by
  intro zs
  induction zs with
  | nil => intro n y hy; simp [drainSlots] at hy
  | cons z zs ih =>
    intro n y hy
    simp only [List.map_cons, filledSegments, drainSlots] at hy
    by_cases h1 : n < z.2.length
    · simp [h1] at hy
    · by_cases h2 : n = z.2.length
      · have hle : n ≤ z.2.length := by omega
        rw [if_neg h1, if_pos h2, if_pos hle] at hy
        simp only [List.take_succ_cons, List.take_zero, List.mem_singleton] at hy
        subst hy
        simp only
        exact List.drop_of_length_le (by omega)
      · have hle : ¬ n ≤ z.2.length := by omega
        rw [if_neg h1, if_neg h2, if_neg hle, Nat.add_comm, List.take_succ_cons] at hy
        rcases List.mem_cons.1 hy with rfl | h3
        · rfl
        · exact ih (n - z.2.length) y h3

theorem flatten_drained (A : List (Nat × List Byte)) (h : ∀ a ∈ A, a.2 = []) :
    (A.map Prod.snd).flatten = [] := by
  induction A with
  | nil => rfl
  | cons a A ih =>
    simp only [List.map_cons, List.flatten_cons, h a (List.mem_cons_self _ _), List.nil_append]
    exact ih (fun x hx => h x (List.mem_cons_of_mem _ hx))

theorem avail_drained (A : List (Nat × List Byte)) (h : ∀ a ∈ A, a.2 = []) :
    (A.map (fun z => z.2.length)).sum = 0 := by
  apply List.sum_eq_zero
  intro x hx
  obtain ⟨a, ha, rfl⟩ := List.mem_map.1 hx
  rw [h a ha]
  rfl

theorem memReader_read (A : List (Nat × List Byte)) (z : Nat × List Byte)
    (zs : List (Nat × List Byte)) (q : List Byte) :
    (memReader A.length).Read q ((A ++ z :: zs).map Prod.snd)
      = ((z.2.take q.length, ((z.2.take q.length).length : Int),
          if (z.2.take q.length).length = 0 ∧ 0 < q.length then some EOF else none),
         (A ++ (z.1, z.2.drop q.length) :: zs).map Prod.snd) := by
  have hget : ((A ++ z :: zs).map Prod.snd).getD A.length [] = z.2 := by
    have := getElem?_append_cons (A.map Prod.snd) z.2 (zs.map Prod.snd)
    simp only [List.length_map] at this
    simp only [List.map_append, List.map_cons, List.getD_eq_getElem?_getD, this,
      Option.getD_some]
  have hmod : ((A ++ z :: zs).map Prod.snd).modify (fun x => x.drop q.length) A.length
      = (A ++ (z.1, z.2.drop q.length) :: zs).map Prod.snd := by
    have := modify_append_cons (fun x : List Byte => x.drop q.length) (A.map Prod.snd) z.2
      (zs.map Prod.snd)
    simpa using this
  simp only [memReader, hget, hmod]

/-- Reading across in-memory segments that hold enough bytes drains the slots and
delivers the bytes in order. -/
theorem spreadRead_mem : ∀ (tail A : List (Nat × List Byte)) (p : List Byte),
    (∀ z ∈ tail, z.2.length ≤ z.1) → tail ≠ [] →
    p.length ≤ (tail.map (fun z => z.2.length)).sum →
    spreadReadOK (segsOfR A.length tail) p ((A ++ tail).map Prod.snd) ∧
    spreadRead (segsOfR A.length tail) p ((A ++ tail).map Prod.snd)
      = (((tail.map Prod.snd).flatten).take p.length,
         segsOfR A.length (drainSlots tail p.length),
         (A ++ drainSlots tail p.length).map Prod.snd) := by
  intro tail
  induction tail with
  | nil => intro A p _ h; exact absurd rfl h
  | cons z zs ih =>
    intro A p h _ hp
    have hz := h z (List.mem_cons_self _ _)
    have hzs : ∀ y ∈ zs, y.2.length ≤ y.1 := fun y hy => h y (List.mem_cons_of_mem _ hy)
    simp only [List.map_cons, List.sum_cons] at hp
    have hr : z.1 - (z.1 - z.2.length) = z.2.length := by omega
    simp only [segsOfR, spreadReadOK, spreadRead, drainSlots, hr, memReader_read]
    by_cases hle : p.length ≤ z.2.length
    · simp only [hle, if_true, List.length_take, Nat.min_eq_left hle]
      refine ⟨?_, ?_⟩
      · have : ¬ (p.length = 0 ∧ 0 < p.length) := by omega
        simp [this]
      · simp only [segsOfR, List.length_drop, List.map_cons, List.flatten_cons]
        rw [List.take_append_of_le_length hle]
        have hov : overlay (z.2.take p.length) p = z.2.take p.length := by
          simp only [overlay, List.length_take, Nat.min_eq_left hle]
          rw [List.drop_of_length_le (le_refl _), List.append_nil,
            List.take_of_length_le (by simp only [List.length_take]; omega)]
        rw [hov]
        have e : z.1 - z.2.length + p.length = z.1 - (z.2.length - p.length) := by omega
        rw [e]
    · simp only [hle, if_false, List.length_take]
      have hmin : min z.2.length p.length = z.2.length := by omega
      have hmin2 : min (min z.2.length p.length) z.2.length = z.2.length := by omega
      have htake : z.2.take (min z.2.length p.length) = z.2 := by
        rw [hmin]; exact List.take_of_length_le (le_refl _)
      have hdrop : z.2.drop (min z.2.length p.length) = [] := by
        rw [hmin]; exact List.drop_of_length_le (le_refl _)
      simp only [hmin, hmin2, htake, hdrop, Nat.min_self, List.take_length, List.drop_length]
      have hne : zs ≠ [] := by
        intro hnil
        subst hnil
        simp at hp
        omega
      have hA : A.length + 1 = (A ++ [(z.1, ([] : List Byte))]).length := by simp
      have hw : A ++ (z.1, ([] : List Byte)) :: zs = (A ++ [(z.1, [])]) ++ zs := by simp
      obtain ⟨ih1, ih2⟩ := ih (A ++ [(z.1, [])]) (p.drop z.2.length) hzs hne
        (by simp only [List.length_drop]; omega)
      rw [hw, hA]
      refine ⟨⟨?_, ih1⟩, ?_⟩
      · have : ¬ (z.2.length = 0 ∧ 0 < z.2.length) := by omega
        simp [this]
      · rw [ih2]
        simp only [segsOfR, List.length_nil, Nat.sub_zero, List.length_drop, List.map_cons,
          List.flatten_cons, List.append_assoc, List.singleton_append]
        have hov : overlay z.2 (p.take z.2.length) = z.2 := by
          simp only [overlay, List.length_take]
          rw [List.drop_of_length_le (by simp only [List.length_take]; omega), List.append_nil,
            List.take_of_length_le (by omega)]
        have ht : z.2.take p.length = z.2 := List.take_of_length_le (by omega)
        rw [hov, List.take_append_eq_append_take, ht, ← hA]

end ReaderRoundTrip

section ReaderRoundTrip

theorem MultiReader.acquire_no_pool_reader {W P : Type} (I : ReaderPooler W P) (m : MultiReader W P)
    (s : W) (hp : m.pool = none) (hi : m.index = (m.crs.length : Int)) :
    m.acquire I s = .inl ((0, some .ErrPoolExhausted), m, s) := by
  unfold MultiReader.acquire
  simp only [MultiReader.AddConstrainedReaderFromPool, hp]
  by_cases h0 : m.crs.length = 0
  · simp [h0]
  · have h1 : ¬ m.index < 0 := by omega
    have h2 : m.index ≥ (m.crs.length : Int) := by omega
    simp [h0, h1, h2, hp]

/-- One `Read` on the in-memory stream, into a buffer no longer than what is
unread, delivers the next bytes and drains the slots. -/
theorem read_mem_step (m : MultiReader Store Unit) (zs : List (Nat × List Byte)) (k fuel : Nat)
    (h : ReaderTracks m zs) (hk : k ≤ (zs.map (fun z => z.2.length)).sum)
    (hfuel : zs.length + 1 ≤ fuel) :
    ∃ buf e m2 zs2,
      m.Read noReaderPool fuel (List.replicate k 0) (zs.map Prod.snd)
        = .ok ((buf, (k : Int), e), m2, zs2.map Prod.snd) ∧
      buf.take k = ((zs.map Prod.snd).flatten).take k ∧
      ReaderTracks m2 zs2 ∧
      (zs2.map Prod.snd).flatten = ((zs.map Prod.snd).flatten).drop k ∧
      (zs2.map (fun z => z.2.length)).sum + k = (zs.map (fun z => z.2.length)).sum ∧
      zs2.length = zs.length := by
  obtain ⟨A, tail, hzs, hA, hok, hm⟩ := h
  subst hzs hm
  have hflat : ((A ++ tail).map Prod.snd).flatten = (tail.map Prod.snd).flatten := by
    rw [List.map_append, List.flatten_append, flatten_drained A hA, List.nil_append]
  have havail : ((A ++ tail).map (fun z => z.2.length)).sum
      = (tail.map (fun z => z.2.length)).sum := by
    rw [List.map_append, List.sum_append, avail_drained A hA, Nat.zero_add]
  have htail : ∀ z ∈ tail, z.2.length ≤ z.1 :=
    fun z hz => (hok z (List.mem_append_right _ hz)).1
  rw [havail] at hk
  cases tail with
  | nil =>
    simp only [List.map_nil, List.sum_nil, Nat.le_zero] at hk
    subst hk
    cases fuel with
    | zero => omega
    | succ fuel =>
      rw [MultiReader.Read, MultiReader.acquire_no_pool_reader _ _ _ rfl (by simp [segsOfR_length])]
      exact ⟨_, _, _, A ++ [], rfl, by simp, ⟨A, [], rfl, hA, hok, rfl⟩, by simp, by simp, rfl⟩
  | cons z zs' =>
    have hsplit : segsOfR 0 (A ++ z :: zs') = segsOfR 0 A ++ segsOfR A.length (z :: zs') := by
      rw [segsOfR_append, Nat.zero_add]
    have hlen : (segsOfR 0 A).length = A.length := segsOfR_length A 0
    obtain ⟨hOK, hspread⟩ := spreadRead_mem (z :: zs') A (List.replicate k 0) htail (by simp)
      (by simpa using hk)
    have hR := MultiReader.Read_spread (I := (noReaderPool : ReaderPooler Store Unit))
      (segsOfR A.length (z :: zs')) (segsOfR 0 A) none fuel (List.replicate k 0)
      ((A ++ z :: zs').map Prod.snd)
      (by
        intro x hx
        obtain ⟨i, y, hy, rfl⟩ := mem_segsOfR _ _ x hx
        have := hok y (List.mem_append_right _ hy)
        exact ⟨by simp only; omega, this.2⟩)
      hOK
      (by
        rw [segsOfR_length]
        simp only [List.length_append] at hfuel
        omega)
    rw [hlen, ← hsplit, hspread, segsOfR_room _ _ htail] at hR
    simp only [List.length_replicate] at hR
    refine ⟨_, _, _, A ++ drainSlots (z :: zs') k, hR, ?_, ?_, ?_, ?_, ?_⟩
    · rw [hflat, List.take_take, Nat.min_self]
    · refine ⟨A ++ (drainSlots (z :: zs') k).take
          (filledSegments ((z :: zs').map (fun y => y.2.length)) k),
        (drainSlots (z :: zs') k).drop
          (filledSegments ((z :: zs').map (fun y => y.2.length)) k), ?_, ?_, ?_, ?_⟩
      · rw [List.append_assoc, List.take_append_drop]
      · intro a ha
        rcases List.mem_append.1 ha with h1 | h1
        · exact hA a h1
        · exact take_filled_drained _ _ a h1
      · intro y hy
        rcases List.mem_append.1 hy with h1 | h1
        · exact hok y (List.mem_append_left _ h1)
        · exact drainSlots_ok _ _ (fun w hw => hok w (List.mem_append_right _ hw)) y h1
      · have hk2 := filledSegments_le ((z :: zs').map (fun y => y.2.length)) k
        have hfl := drainSlots_length (z :: zs') k
        simp only [List.length_map] at hk2
        rw [List.append_assoc, List.take_append_drop, segsOfR_append, Nat.zero_add,
          List.length_append, List.length_take, hfl, Nat.min_eq_left hk2]
    · rw [hflat, List.map_append, List.flatten_append, flatten_drained A hA, List.nil_append,
        drainSlots_flatten _ _ hk]
    · rw [havail, List.map_append, List.sum_append, avail_drained A hA, Nat.zero_add,
        drainSlots_avail _ _ hk]
    · simp only [List.length_append, drainSlots_length]

/-- Successive reads on the in-memory stream deliver the unread bytes in order. -/
theorem readAll_mem (fuel : Nat) :
    ∀ (sizes : List Nat) (m : MultiReader Store Unit) (zs : List (Nat × List Byte)),
      ReaderTracks m zs → sizes.sum ≤ (zs.map (fun z => z.2.length)).sum →
      zs.length + 1 ≤ fuel →
      ∃ m2 s2, MultiReader.ReadAll noReaderPool fuel sizes m (zs.map Prod.snd)
        = .ok (((zs.map Prod.snd).flatten).take sizes.sum, m2, s2) := by
  intro sizes
  induction sizes with
  | nil =>
    intro m zs _ _ _
    exact ⟨m, zs.map Prod.snd, by simp [MultiReader.ReadAll]⟩
  | cons k ks ih =>
    intro m zs h hsum hfuel
    simp only [List.sum_cons] at hsum
    obtain ⟨buf, e, m2, zs2, hread, hbuf, h2, hflat, havail, hlen⟩ :=
      read_mem_step m zs k fuel h (by omega) hfuel
    obtain ⟨m3, s3, h3⟩ := ih m2 zs2 h2 (by omega) (by omega)
    refine ⟨m3, s3, ?_⟩
    simp only [MultiReader.ReadAll, hread, h3, Int.toNat_ofNat, List.sum_cons, hbuf, hflat]
    rw [List.take_add]

theorem addReaders_eq : ∀ (st : Store) (k : Nat) (m : MultiReader Store Unit),
    addReaders k st m
      = { m with crs := m.crs ++ segsOfR k (st.map (fun x => (x.length, x))) } := by
  intro st
  induction st with
  | nil => intro k m; simp [addReaders, segsOfR]
  | cons x xs ih =>
    intro k m
    simp only [addReaders, ih, MultiReader.AddConstrainedReader, List.map_cons, segsOfR,
      List.append_assoc, List.singleton_append, Nat.sub_self]

theorem memReaderStream_tracks (st : Store) (h : ∀ x ∈ st, x.length < 2 ^ 64) :
    ReaderTracks (memReaderStream st) (st.map (fun x => (x.length, x))) := by
  refine ⟨[], st.map (fun x => (x.length, x)), (List.nil_append _).symm, by simp, ?_, ?_⟩
  · intro z hz
    obtain ⟨x, hx, rfl⟩ := List.mem_map.1 hz
    exact ⟨le_refl _, h x hx⟩
  · simp [memReaderStream, addReaders_eq, NewMultiReader]

end ReaderRoundTrip

/-- C1. Round trip. Whatever the bytes `data`, the number `N` of segments and their
capacity `c` with `len(data) ≤ N * c`, the chunks into which `data` is cut for
the successive `Write` calls and the buffer sizes of the successive `Read`
calls (their total being `len(data)`): the writes through a `MultiWriter` over
`N` in-memory segments of capacity `c` leave a store holding `data`, and the
reads through a `MultiReader` over the same segments, each with the capacity of
what it holds, return `data`. Both runs return for every fuel above `N`. -/
theorem round_trip (data : List Byte) (N c : Nat) (hc64 : c < 2 ^ 64)
    (hlen : data.length ≤ N * c) (chunks : List (List Byte)) (hchunks : chunks.flatten = data)
    (sizes : List Nat) (hsizes : sizes.sum = data.length) (fuel : Nat) (hfuel : N + 1 ≤ fuel) :
    ∃ mw st, MultiWriter.WriteAll noWriterPool fuel chunks (memWriterStream N c)
        (List.replicate N []) = .ok (mw, st) ∧
      st.flatten = data ∧
      ∃ mr st2, MultiReader.ReadAll noReaderPool fuel sizes (memReaderStream st) st
        = .ok (data, mr, st2) := by
  have hroom : chunks.flatten.length ≤ room c (List.replicate N []) := by
    rw [hchunks, room_replicate]; exact hlen
  obtain ⟨mw, hw⟩ := writeAll_mem c hc64 fuel chunks (memWriterStream N c)
    (List.replicate N []) (memWriterStream_tracks c N) hroom (by simpa using hfuel)
  have hflat : (fillSlots c (List.replicate N []) chunks.flatten).flatten = data := by
    rw [flatten_fillSlots_replicate c N _ hroom, hchunks]
  have hle : ∀ x ∈ fillSlots c (List.replicate N []) chunks.flatten, x.length ≤ c := by
    apply fillSlots_le
    intro x hx
    rw [List.eq_of_mem_replicate hx]
    simp
  refine ⟨mw, _, hw, hflat, ?_⟩
  have hsnd : ∀ st : Store, (st.map (fun x => (x.length, x))).map Prod.snd = st := by
    intro st
    rw [List.map_map]
    exact List.map_id _
  have havail : ∀ st : Store, ((st.map (fun x => (x.length, x))).map (fun z => z.2.length)).sum
      = st.flatten.length := by
    intro st
    rw [List.map_map, List.length_flatten]
    rfl
  obtain ⟨mr, s2, hr⟩ := readAll_mem fuel sizes
    (memReaderStream (fillSlots c (List.replicate N []) chunks.flatten))
    ((fillSlots c (List.replicate N []) chunks.flatten).map (fun x => (x.length, x)))
    (memReaderStream_tracks _ (fun x hx => by have := hle x hx; omega))
    (by rw [havail, hflat, hsizes])
    (by rw [List.length_map, fillSlots_length, List.length_replicate]; exact hfuel)
  rw [hsnd, hflat, hsizes, List.take_of_length_le (le_refl _)] at hr
  exact ⟨mr, s2, hr⟩

/-- Witness of C1: seven bytes through three segments of capacity 3, written as
chunks of 2, 4 and 1 bytes and read with buffers of 4, 0 and 3 bytes. -/
theorem round_trip_witness :
    ∃ mw st, MultiWriter.WriteAll noWriterPool 4 [[1, 2], [3, 4, 5, 6], [7]]
        (memWriterStream 3 3) (List.replicate 3 []) = .ok (mw, st) ∧
      st.flatten = [1, 2, 3, 4, 5, 6, 7] ∧
      ∃ mr st2, MultiReader.ReadAll noReaderPool 4 [4, 0, 3] (memReaderStream st) st
        = .ok ([1, 2, 3, 4, 5, 6, 7], mr, st2) :=
  round_trip [1, 2, 3, 4, 5, 6, 7] 3 3 (by norm_num) (by decide) [[1, 2], [3, 4, 5, 6], [7]]
    rfl [4, 0, 3] rfl 4 (by decide)

/-! ## Termination of `Read` and `Write` -/

section Termination
variable {W P : Type} {I : ReaderPooler W P}

theorem MultiReader.addFromPool_available (left : P → Nat) (m : MultiReader W P) (s : W)
    (hpool : m.pool = none ∨ (I.Finite left ∧ ReaderPoolOK I ∧ I.Progress))
    (hsegs : ∀ c ∈ m.crs, c.OK ∧ c.r.Progress)
    (h : (m.AddConstrainedReaderFromPool I s).1 = none) :
    (m.AddConstrainedReaderFromPool I s).2.1.index = m.index ∧
    (∀ c ∈ (m.AddConstrainedReaderFromPool I s).2.1.crs, c.OK ∧ c.r.Progress) ∧
    (m.AddConstrainedReaderFromPool I s).2.1.crs.length = m.crs.length + 1 ∧
    (((m.AddConstrainedReaderFromPool I s).2.1.pool.map left).getD 0) + 1
      ≤ (m.pool.map left).getD 0 ∧
    (I.Finite left ∧ ReaderPoolOK I ∧ I.Progress) := by
  unfold MultiReader.AddConstrainedReaderFromPool at h ⊢
  cases hp : m.pool with
  | none => rw [hp] at h; simp at h
  | some pool =>
    rw [hp] at h
    simp only at h ⊢
    rcases hpool with hnone | ⟨hfin, hok, hprog⟩
    · rw [hp] at hnone; simp at hnone
    · rcases hnew : I.NewConstrainedReader pool s with ⟨r, pool2, s2⟩
      rw [hnew] at h
      cases r with
      | error err => simp at h
      | ok c =>
        simp only [List.length_append, List.length_singleton, Option.map_some',
          Option.getD_some, true_and]
        have h1 := hfin pool s c pool2 s2 hnew
        have h2 := hok pool s c pool2 s2 hnew
        have h3 := hprog pool s c pool2 s2 hnew
        refine ⟨?_, by omega, hfin, hok, hprog⟩
        intro c2 hc2
        rcases List.mem_append.1 hc2 with hc2 | hc2
        · exact hsegs c2 hc2
        · simp only [List.mem_singleton] at hc2
          subst hc2
          exact ⟨⟨by rw [h2.1]; exact Nat.zero_le _, h2.2.1, h2.2.2⟩, h3⟩

theorem MultiReader.acquire_available (left : P → Nat) (m : MultiReader W P) (s : W)
    (m2 : MultiReader W P) (s2 : W)
    (hpool : m.pool = none ∨ (I.Finite left ∧ ReaderPoolOK I ∧ I.Progress))
    (hsegs : ∀ c ∈ m.crs, c.OK ∧ c.r.Progress)
    (h : m.acquire I s = .inr (m2, s2)) :
    0 ≤ m2.index ∧ m2.index < (m2.crs.length : Int) ∧
    (∀ c ∈ m2.crs, c.OK ∧ c.r.Progress) ∧
    (m2.pool = none ∨ (I.Finite left ∧ ReaderPoolOK I ∧ I.Progress)) ∧
    m2.available left ≤ m.available left := by
  unfold MultiReader.acquire at h
  simp only at h
  have h1 : (if m.crs.length = 0 then m.AddConstrainedReaderFromPool I s
        else (none, m, s)).1 = none →
      (if m.crs.length = 0 then m.AddConstrainedReaderFromPool I s
        else (none, m, s)).2.1.index = m.index ∧
      (∀ c ∈ (if m.crs.length = 0 then m.AddConstrainedReaderFromPool I s
        else (none, m, s)).2.1.crs, c.OK ∧ c.r.Progress) ∧
      ((if m.crs.length = 0 then m.AddConstrainedReaderFromPool I s
        else (none, m, s)).2.1.pool = none ∨ (I.Finite left ∧ ReaderPoolOK I ∧ I.Progress)) ∧
      (if m.crs.length = 0 then m.AddConstrainedReaderFromPool I s
        else (none, m, s)).2.1.crs.length +
        (((if m.crs.length = 0 then m.AddConstrainedReaderFromPool I s
        else (none, m, s)).2.1.pool.map left).getD 0) ≤ m.crs.length + (m.pool.map left).getD 0 := by
    split
    · intro hnone
      obtain ⟨a, b, c, d, e⟩ := MultiReader.addFromPool_available left m s hpool hsegs hnone
      exact ⟨a, b, Or.inr e, by omega⟩
    · intro _
      exact ⟨rfl, hsegs, hpool, le_refl _⟩
  revert h h1
  generalize (if m.crs.length = 0 then m.AddConstrainedReaderFromPool I s
      else (none, m, s)) = first
  obtain ⟨err1, m1, s1⟩ := first
  intro h h1
  cases err1 with
  | some err => simp at h
  | none =>
    simp only [true_implies] at h1
    obtain ⟨hi1, hs1, hp1, hl1⟩ := h1
    simp only at h
    split at h
    · simp at h
    · split at h
      · have h2 : (m1.AddConstrainedReaderFromPool I s1).1 = none → _ :=
          MultiReader.addFromPool_available left m1 s1 hp1 hs1
        revert h h2
        generalize m1.AddConstrainedReaderFromPool I s1 = second
        obtain ⟨err2, m3, s3⟩ := second
        intro h h2
        cases err2 with
        | some err => simp at h
        | none =>
          simp only [true_implies] at h2
          obtain ⟨hi2, hs2, hlen2, hl2, hG⟩ := h2
          simp only at h
          split at h
          · simp at h
          · simp only [Sum.inr.injEq, Prod.mk.injEq] at h
            obtain ⟨h3, _⟩ := h
            subst h3
            refine ⟨by omega, by omega, hs2, Or.inr hG, ?_⟩
            simp only [MultiReader.available]
            omega
      · simp only [Sum.inr.injEq, Prod.mk.injEq] at h
        obtain ⟨h3, _⟩ := h
        subst h3
        refine ⟨by omega, by omega, hs1, hp1, ?_⟩
        simp only [MultiReader.available]
        omega

/-- With more fuel than bytes to transfer and segments available, `Read`
returns. -/
theorem MultiReader.Read_returns (left : P → Nat) :
    ∀ (fuel : Nat) (m : MultiReader W P) (p : List Byte) (s : W),
      (m.pool = none ∨ (I.Finite left ∧ ReaderPoolOK I ∧ I.Progress)) →
      (∀ c ∈ m.crs, c.OK ∧ c.r.Progress) →
      p.length + m.available left < fuel →
      ∃ r, m.Read I fuel p s = .ok r := by
  intro fuel
  induction fuel with
  | zero => intro m p s _ _ h; omega
  | succ fuel ih =>
    intro m p s hpool hsegs hfuel
    simp only [MultiReader.Read]
    cases hacq : m.acquire I s with
    | inl r => exact ⟨_, rfl⟩
    | inr r =>
      obtain ⟨m1, s1⟩ := r
      simp only
      obtain ⟨hlo, hhi, hs1, hp1, hav⟩ :=
        MultiReader.acquire_available left m s m1 s1 hpool hsegs hacq
      cases hget : m1.crs[m1.index.toNat]? with
      | none =>
        rw [List.getElem?_eq_none_iff] at hget
        omega
      | some c =>
        simp only
        have hmem : c ∈ m1.crs := List.getElem?_mem hget
        obtain ⟨hok, hprog⟩ := hs1 c hmem
        have hbr := hok.1
        have hcap := hok.2.1
        have hb : u64sub c.capacity c.bytesread = c.capacity - c.bytesread :=
          u64sub_eq _ _ hok.1 hok.2.1
        rw [hb]
        split
        · exact ⟨_, rfl⟩
        · split
          · exact ⟨_, rfl⟩
          · rename_i hnlt hne
            rcases hr : c.r.Read (p.take (c.capacity - c.bytesread)) s1 with ⟨⟨d, n1, err⟩, s3⟩
            have hcontract := hok.2.2 (p.take (c.capacity - c.bytesread)) s1
            rw [hr] at hcontract
            simp only [List.length_take] at hcontract
            cases err with
            | some err => exact ⟨_, rfl⟩
            | none =>
              simp only
              rw [if_neg (by omega)]
              have hle : n1 ≤ (c.capacity : Int) - c.bytesread := by omega
              have hadv := MultiReader.advance_addRead m1 n1 c hget hcontract.1 hle hok.2.1
              have hcrs : (m1.addRead n1).crs = m1.crs.modify
                  (fun c => { c with bytesread := u64add c.bytesread (uint64 n1) })
                  m1.index.toNat := rfl
              have hbump : u64add c.bytesread (uint64 n1) = c.bytesread + n1.toNat := by
                rw [uint64_eq n1 hcontract.1 (by omega), u64add_eq _ _ (by omega)]
              have hlen : (m1.addRead n1).crs.length = m1.crs.length := by rw [hcrs]; simp
              have hsegs2 : ∀ c2 ∈ (m1.addRead n1).crs, c2.OK ∧ c2.r.Progress := by
                intro c2 hc2
                obtain ⟨j, hj⟩ := List.mem_iff_getElem?.1 hc2
                rw [hcrs] at hj
                obtain ⟨c0, hc0, hc2eq⟩ := getElem?_modify_some hj
                by_cases hij : m1.index.toNat = j
                · subst hij
                  rw [hget] at hc0
                  have := Option.some.inj hc0
                  subst this
                  rw [if_pos rfl, hbump] at hc2eq
                  subst hc2eq
                  exact ⟨⟨by simp only; omega, hcap, hok.2.2⟩, hprog⟩
                · rw [if_neg hij] at hc2eq
                  rw [hc2eq]
                  exact hs1 c0 (List.getElem?_mem hc0)
              have hp1len : (overlay d (p.take (c.capacity - c.bytesread)) ++
                  p.drop (c.capacity - c.bytesread)).length = p.length := by
                simp only [List.length_append, overlay_length, List.length_take,
                  List.length_drop]
                omega
              have hnext : ∃ r, MultiReader.Read I fuel (m1.addRead n1).advance
                  ((overlay d (p.take (c.capacity - c.bytesread)) ++
                    p.drop (c.capacity - c.bytesread)).drop n1.toNat) s3 = .ok r := by
                apply ih
                · rw [hadv]
                  split
                  · exact hp1
                  · exact hp1
                · rw [hadv]
                  split
                  · exact hsegs2
                  · exact hsegs2
                · rw [List.length_drop, hp1len, hadv]
                  by_cases hrem : c.capacity - c.bytesread = 0
                  · have hn0 : n1 = 0 := by omega
                    rw [if_pos (by omega)]
                    simp only [MultiReader.available, hlen] at hav hfuel ⊢
                    have hpp : (m1.addRead n1).pool = m1.pool := rfl
                    rw [hpp]
                    omega
                  · have hpos : 0 < n1 := by
                      have := hprog (p.take (c.capacity - c.bytesread)) s1
                        (by simp only [List.length_take]; omega)
                      rw [hr] at this
                      simpa using this
                    have hpp : (m1.addRead n1).pool = m1.pool := rfl
                    have hii : (m1.addRead n1).index = m1.index := rfl
                    split
                    · simp only [MultiReader.available, hlen, hpp, hii] at hav hfuel ⊢
                      omega
                    · simp only [MultiReader.available, hlen, hpp, hii] at hav hfuel ⊢
                      omega
              obtain ⟨⟨⟨p2, nn, ee⟩, m3, s4⟩, hrec⟩ := hnext
              rw [hrec]
              exact ⟨_, rfl⟩

end Termination

section Fuel
variable {W P : Type} {I : ReaderPooler W P}

/-- The result of `Read` does not depend on the fuel, once there is enough of
it. -/
theorem MultiReader.Read_fuel_succ :
    ∀ (fuel : Nat) (m : MultiReader W P) (p : List Byte) (s : W)
      (r : (List Byte × Int × Option Error) × MultiReader W P × W),
      m.Read I fuel p s = .ok r → m.Read I (fuel + 1) p s = .ok r := by
  intro fuel
  induction fuel with
  | zero => intro m p s r h; simp [MultiReader.Read] at h
  | succ fuel ih =>
    intro m p s r h
    rw [MultiReader.Read] at h ⊢
    cases hacq : m.acquire I s with
    | inl r0 => rw [hacq] at h; exact h
    | inr r0 =>
      obtain ⟨m1, s1⟩ := r0
      rw [hacq] at h
      simp only at h ⊢
      cases hget : m1.crs[m1.index.toNat]? with
      | none => rw [hget] at h; simp at h
      | some c =>
        rw [hget] at h
        simp only at h ⊢
        split
        · rename_i hlt
          rw [if_pos hlt] at h
          exact h
        · rename_i hnlt
          rw [if_neg hnlt] at h
          split
          · rename_i heq
            rw [if_pos heq] at h
            exact h
          · rename_i hne
            rw [if_neg hne] at h
            rcases hr : c.r.Read (p.take (u64sub c.capacity c.bytesread)) s1 with
              ⟨⟨d, n1, err⟩, s3⟩
            rw [hr] at h
            cases err with
            | some err => exact h
            | none =>
              simp only at h ⊢
              split
              · rename_i hs
                rw [if_pos hs] at h
                exact h
              · rename_i hs
                rw [if_neg hs] at h
                cases hrec : MultiReader.Read I fuel (m1.addRead n1).advance
                    ((overlay d (p.take (u64sub c.capacity c.bytesread)) ++
                      p.drop (u64sub c.capacity c.bytesread)).drop n1.toNat) s3 with
                | error f => rw [hrec] at h; simp at h
                | ok r1 =>
                  rw [hrec] at h
                  rw [ih _ _ _ r1 hrec]
                  exact h

theorem MultiReader.Read_fuel_le (fuel fuel2 : Nat) (m : MultiReader W P) (p : List Byte)
    (s : W) (r : (List Byte × Int × Option Error) × MultiReader W P × W)
    (h : m.Read I fuel p s = .ok r) (hle : fuel ≤ fuel2) : m.Read I fuel2 p s = .ok r := by
  induction hle with
  | refl => exact h
  | step _ ih => exact MultiReader.Read_fuel_succ _ m p s r ih

end Fuel

section TerminationWrite
variable {W P : Type} {I : WriterPooler W P}

theorem writerFinite_asReader (left : P → Nat)
    (h : I.Finite left ∧ WriterPoolOK I ∧ I.Progress) :
    I.asReader.Finite left ∧ ReaderPoolOK I.asReader ∧ I.asReader.Progress := by
  refine ⟨?_, writerPoolOK_asReader h.2.1, ?_⟩
  · intro pool s c pool2 s2 hnew
    simp only [WriterPooler.asReader] at hnew
    rcases hw : I.NewConstrainedWriter pool s with ⟨r, p3, s3⟩
    rw [hw] at hnew
    cases r with
    | error err => simp at hnew
    | ok cw =>
      simp only [Prod.mk.injEq, Except.ok.injEq] at hnew
      obtain ⟨_, hp, _⟩ := hnew
      subst hp
      exact h.1 pool s cw p3 s3 hw
  · intro pool s c pool2 s2 hnew
    simp only [WriterPooler.asReader] at hnew
    rcases hw : I.NewConstrainedWriter pool s with ⟨r, p3, s3⟩
    rw [hw] at hnew
    cases r with
    | error err => simp at hnew
    | ok cw =>
      simp only [Prod.mk.injEq, Except.ok.injEq] at hnew
      obtain ⟨hc, _, _⟩ := hnew
      subst hc
      exact h.2.2 pool s cw p3 s3 hw

/-- With more fuel than bytes to transfer and segments available, `Write`
returns. -/
theorem MultiWriter.Write_returns (left : P → Nat) (fuel : Nat) (m : MultiWriter W P)
    (p : List Byte) (s : W)
    (hpool : m.pool = none ∨ (I.Finite left ∧ WriterPoolOK I ∧ I.Progress))
    (hsegs : ∀ c ∈ m.cws, c.OK ∧ c.w.Progress)
    (hfuel : p.length + m.available left < fuel) :
    ∃ r, m.Write I fuel p s = .ok r := by
  have hsim := MultiWriter.asReader_Read (I := I) fuel m p s
  have hret := MultiReader.Read_returns (I := I.asReader) left fuel m.asReader p s
    (hpool.imp id (writerFinite_asReader left))
    (by
      intro c hc
      simp only [MultiWriter.asReader, List.mem_map] at hc
      obtain ⟨cw, hcw, rfl⟩ := hc
      exact hsegs cw hcw)
    (by simpa [MultiReader.available, MultiWriter.available, MultiWriter.asReader] using hfuel)
  obtain ⟨r, hr⟩ := hret
  rw [hr] at hsim
  cases hw : m.Write I fuel p s with
  | error f => rw [hw] at hsim; simp at hsim
  | ok r2 => exact ⟨r2, rfl⟩

/-- The result of `Write` does not depend on the fuel, once there is enough of
it. -/
theorem MultiWriter.Write_fuel_le (fuel fuel2 : Nat) (m : MultiWriter W P) (p : List Byte)
    (s : W) (r : (Int × Option Error) × MultiWriter W P × W)
    (h : m.Write I fuel p s = .ok r) (hle : fuel ≤ fuel2) : m.Write I fuel2 p s = .ok r := by
  obtain ⟨⟨n, e⟩, m2, s2⟩ := r
  have hsim := MultiWriter.asReader_Read (I := I) fuel m p s
  rw [h] at hsim
  have h2 := MultiReader.Read_fuel_le fuel fuel2 m.asReader p s _ hsim hle
  have hsim2 := MultiWriter.asReader_Read (I := I) fuel2 m p s
  rw [h2] at hsim2
  cases hw : m.Write I fuel2 p s with
  | error f => rw [hw] at hsim2; simp at hsim2
  | ok r2 =>
    obtain ⟨⟨n2, e2⟩, m3, s3⟩ := r2
    rw [hw] at hsim2
    simp only [Except.ok.injEq, Prod.mk.injEq] at hsim2
    obtain ⟨⟨_, hn, he⟩, hm, hs⟩ := hsim2
    rw [← hn, ← he, ← hs, MultiWriter.asReader_injective_stream hm]

end TerminationWrite

theorem fileReaderPool_finite {W : Type} (fs : FileSys W) :
    (FileReaderPool.Pooler fs).Finite FileReaderPool.left := by
  intro pool s c pool2 s2 hnew
  simp only [FileReaderPool.Pooler, FileReaderPool.NewConstrainedReader] at hnew
  split at hnew
  · simp at hnew
  · rename_i hle
    split at hnew
    · simp at hnew
    · split at hnew
      · simp at hnew
      · split at hnew
        · simp at hnew
        · simp only [Prod.mk.injEq] at hnew
          obtain ⟨_, hp, _⟩ := hnew
          subst hp
          simp only [FileReaderPool.left]
          omega

theorem fileWriterPool_finite {W : Type} (fs : FileSys W) :
    (FileWriterPool.Pooler fs).Finite FileWriterPool.left := by
  intro pool s c pool2 s2 hnew
  simp only [FileWriterPool.Pooler, FileWriterPool.NewConstrainedWriter] at hnew
  split at hnew
  · simp at hnew
  · rename_i hle
    split at hnew
    · simp at hnew
    · split at hnew
      · simp at hnew
      · split at hnew
        · simp at hnew
        · simp only [Prod.mk.injEq] at hnew
          obtain ⟨_, hp, _⟩ := hnew
          subst hp
          simp only [FileWriterPool.left]
          omega

/-! ## Cursor and segment list along the operations -/

section Grows
variable {W P : Type} {I : ReaderPooler W P}

theorem map_modify_same {α β : Type} (φ : α → β) (f : α → α) (h : ∀ a, φ (f a) = φ a) :
    ∀ (l : List α) (i : Nat), (l.modify f i).map φ = l.map φ := by
  intro l
  induction l with
  | nil => intro i; simp
  | cons a l ih =>
    intro i
    cases i with
    | zero => simp [h]
    | succ i => simp [ih i]

/-- An acquisition from the pool keeps the cursor and appends at most one
segment, exactly one when it succeeds. -/
theorem MultiReader.addFromPool_grows_reader (m : MultiReader W P) (s : W) :
    (m.AddConstrainedReaderFromPool I s).2.1.index = m.index ∧
    m.layout <+: (m.AddConstrainedReaderFromPool I s).2.1.layout ∧
    ((m.AddConstrainedReaderFromPool I s).1 = none →
      (m.AddConstrainedReaderFromPool I s).2.1.crs.length = m.crs.length + 1) ∧
    ((m.AddConstrainedReaderFromPool I s).1 ≠ none →
      (m.AddConstrainedReaderFromPool I s).2.1.crs = m.crs) := by
  unfold MultiReader.AddConstrainedReaderFromPool
  cases hp : m.pool with
  | none => simp [List.prefix_refl]
  | some pool =>
    simp only
    rcases hnew : I.NewConstrainedReader pool s with ⟨r, pool2, s2⟩
    cases r with
    | error err => simp [MultiReader.layout]
    | ok c => simp [MultiReader.layout]

/-- The state with which the prelude of `Read` ends, whether it returns early
or goes on. -/
theorem MultiReader.acquire_grows (m : MultiReader W P) (s : W) :
    (∀ r m2 s2, m.acquire I s = .inl (r, m2, s2) →
      m2.index = m.index ∧ m.layout <+: m2.layout ∧ (m.InRange → m2.InRange)) ∧
    (∀ m2 s2, m.acquire I s = .inr (m2, s2) →
      m2.index = m.index ∧ m.layout <+: m2.layout ∧
        0 ≤ m2.index ∧ m2.index < (m2.crs.length : Int)) := by
  have hlen : ∀ a b : MultiReader W P, a.layout <+: b.layout → a.crs.length ≤ b.crs.length := by
    intro a b h
    have := h.length_le
    simpa [MultiReader.layout] using this
  unfold MultiReader.acquire
  simp only
  have h1 : (if m.crs.length = 0 then m.AddConstrainedReaderFromPool I s
        else (none, m, s)).2.1.index = m.index ∧
      m.layout <+: (if m.crs.length = 0 then m.AddConstrainedReaderFromPool I s
        else (none, m, s)).2.1.layout := by
    split
    · exact ⟨(MultiReader.addFromPool_grows_reader m s).1, (MultiReader.addFromPool_grows_reader m s).2.1⟩
    · exact ⟨rfl, List.prefix_refl _⟩
  revert h1
  generalize (if m.crs.length = 0 then m.AddConstrainedReaderFromPool I s
      else (none, m, s)) = first
  obtain ⟨err1, m1, s1⟩ := first
  intro h1
  simp only at h1
  obtain ⟨hi1, hl1⟩ := h1
  have hlen1 := hlen _ _ hl1
  cases err1 with
  | some err =>
    simp only [Sum.inl.injEq, Prod.mk.injEq, reduceCtorEq, false_implies, implies_true, and_true]
    rintro r m2 s2 ⟨_, rfl, _⟩
    exact ⟨hi1, hl1, fun ⟨ha, hb⟩ => ⟨by omega, by omega⟩⟩
  | none =>
    simp only
    split
    · simp only [Sum.inl.injEq, Prod.mk.injEq, reduceCtorEq, false_implies, implies_true,
        and_true]
      rintro r m2 s2 ⟨_, rfl, _⟩
      exact ⟨hi1, hl1, fun ⟨ha, hb⟩ => ⟨by omega, by omega⟩⟩
    · split
      · obtain ⟨hi2, hl2, hs2, _⟩ := MultiReader.addFromPool_grows_reader (I := I) m1 s1
        revert hi2 hl2 hs2
        generalize m1.AddConstrainedReaderFromPool I s1 = second
        obtain ⟨err2, m3, s3⟩ := second
        intro hi2 hl2 hs2
        simp only at hi2 hl2 hs2
        have hlen2 := hlen _ _ hl2
        cases err2 with
        | some err =>
          simp only [Sum.inl.injEq, Prod.mk.injEq, reduceCtorEq, false_implies, implies_true,
            and_true]
          rintro r m2 s2 ⟨_, rfl, _⟩
          exact ⟨by omega, hl1.trans hl2, fun ⟨ha, hb⟩ => ⟨by omega, by omega⟩⟩
        | none =>
          simp only
          split
          · simp only [Sum.inl.injEq, Prod.mk.injEq, reduceCtorEq, false_implies, implies_true,
              and_true]
            rintro r m2 s2 ⟨_, rfl, _⟩
            exact ⟨by omega, hl1.trans hl2, fun ⟨ha, hb⟩ => ⟨by omega, by omega⟩⟩
          · simp only [Sum.inr.injEq, Prod.mk.injEq, reduceCtorEq, false_implies, implies_true,
              true_and]
            rintro m2 s2 ⟨rfl, _⟩
            exact ⟨by omega, hl1.trans hl2, by omega, by omega⟩
      · simp only [Sum.inr.injEq, Prod.mk.injEq, reduceCtorEq, false_implies, implies_true,
          true_and]
        rintro m2 s2 ⟨rfl, _⟩
        exact ⟨hi1, hl1, by omega, by omega⟩

/-- Counting bytes on the segment at the cursor and advancing keeps the
segments, and moves the cursor by at most one position, never past the end. -/
theorem MultiReader.step_grows (m : MultiReader W P) (n : Int) :
    (m.addRead n).layout = m.layout ∧ (m.addRead n).index = m.index ∧
    ((m.addRead n).advance).layout = m.layout ∧
    m.index ≤ ((m.addRead n).advance).index ∧
    (m.InRange → ((m.addRead n).advance).InRange) := by
  have hl : (m.addRead n).layout = m.layout := by
    simp only [MultiReader.layout, MultiReader.addRead]
    apply map_modify_same
    intro a
    rfl
  have hlen : (m.addRead n).crs.length = m.crs.length := by
    simp [MultiReader.addRead]
  have hi : (m.addRead n).index = m.index := rfl
  refine ⟨hl, hi, ?_⟩
  unfold MultiReader.advance
  cases hget : (m.addRead n).crs[(m.addRead n).index.toNat]? with
  | none =>
    simp only
    exact ⟨hl, by omega, fun ⟨ha, hb⟩ => ⟨by omega, by omega⟩⟩
  | some c =>
    simp only
    have hlt : (m.addRead n).index.toNat < (m.addRead n).crs.length := by
      by_contra hcon
      rw [List.getElem?_eq_none (by omega)] at hget
      exact absurd hget (by simp)
    split
    · refine ⟨hl, by simp only; omega, fun ⟨ha, hb⟩ => ⟨by simp only; omega, ?_⟩⟩
      simp only
      omega
    · exact ⟨hl, by omega, fun ⟨ha, hb⟩ => ⟨by omega, by omega⟩⟩

/-- Every `Read` that returns leaves the cursor where it was or further, the
segments it found in place, and the cursor in range if it was. No assumption is
made on the handles or on the pool. -/
theorem MultiReader.Read_grows :
    ∀ (fuel : Nat) (m : MultiReader W P) (p : List Byte) (s : W)
      (r : List Byte × Int × Option Error) (m2 : MultiReader W P) (s2 : W),
      m.Read I fuel p s = .ok (r, m2, s2) →
      m.index ≤ m2.index ∧ m.layout <+: m2.layout ∧ (m.InRange → m2.InRange) := by
  intro fuel
  induction fuel with
  | zero => intro m p s r m2 s2 h; simp [MultiReader.Read] at h
  | succ fuel ih =>
    intro m p s r m2 s2 h
    rw [MultiReader.Read] at h
    cases hacq : m.acquire I s with
    | inl r0 =>
      obtain ⟨⟨n0, e0⟩, m1, s1⟩ := r0
      rw [hacq] at h
      simp only [Except.ok.injEq, Prod.mk.injEq] at h
      obtain ⟨_, hm, _⟩ := h
      subst hm
      obtain ⟨h1, h2, h3⟩ := (MultiReader.acquire_grows m s).1 _ _ _ hacq
      exact ⟨by omega, h2, h3⟩
    | inr r0 =>
      obtain ⟨m1, s1⟩ := r0
      rw [hacq] at h
      simp only at h
      obtain ⟨h1, h2, h3, h4⟩ := (MultiReader.acquire_grows m s).2 _ _ hacq
      have hr1 : m1.InRange := ⟨h3, by omega⟩
      cases hget : m1.crs[m1.index.toNat]? with
      | none => rw [hget] at h; simp at h
      | some c =>
        rw [hget] at h
        simp only at h
        split at h
        · simp only [Except.ok.injEq, Prod.mk.injEq] at h
          obtain ⟨_, hm, _⟩ := h
          revert hm
          generalize (c.r.1 p s1).1.2.1 = n1
          intro hm
          subst hm
          obtain ⟨g1, g2, _, _, _⟩ := MultiReader.step_grows m1 n1
          refine ⟨by omega, by rw [g1]; exact h2, fun _ => ⟨by omega, ?_⟩⟩
          have : (m1.addRead n1).crs.length = m1.crs.length := by
            simp [MultiReader.addRead]
          omega
        · split at h
          · simp only [Except.ok.injEq, Prod.mk.injEq] at h
            obtain ⟨_, hm, _⟩ := h
            revert hm
            generalize (c.r.1 p s1).1.2.1 = n1
            intro hm
            subst hm
            obtain ⟨_, _, g3, g4, g5⟩ := MultiReader.step_grows m1 n1
            exact ⟨by omega, by rw [g3]; exact h2, fun _ => g5 hr1⟩
          · rcases hr : c.r.Read (p.take (u64sub c.capacity c.bytesread)) s1 with
              ⟨⟨d, n1, err⟩, s3⟩
            rw [hr] at h
            obtain ⟨_, _, g3, g4, g5⟩ := MultiReader.step_grows m1 n1
            cases err with
            | some err =>
              simp only [Except.ok.injEq, Prod.mk.injEq] at h
              obtain ⟨_, hm, _⟩ := h
              subst hm
              exact ⟨by omega, by rw [g3]; exact h2, fun _ => g5 hr1⟩
            | none =>
              simp only at h
              split at h
              · simp at h
              · cases hrec : MultiReader.Read I fuel (m1.addRead n1).advance
                    ((overlay d (p.take (u64sub c.capacity c.bytesread)) ++
                      p.drop (u64sub c.capacity c.bytesread)).drop n1.toNat) s3 with
                | error f => rw [hrec] at h; simp at h
                | ok r1 =>
                  obtain ⟨⟨p2, nn, ee⟩, m3, s4⟩ := r1
                  rw [hrec] at h
                  simp only [Except.ok.injEq, Prod.mk.injEq] at h
                  obtain ⟨_, hm, _⟩ := h
                  subst hm
                  obtain ⟨k1, k2, k3⟩ := ih _ _ _ _ _ _ hrec
                  rw [g3] at k2
                  exact ⟨by omega, h2.trans k2, fun _ => k3 (g5 hr1)⟩

/-- The indexing `m.crs[m.index]` of `Read` is in bounds: the checks before it
see to that. -/
theorem MultiReader.Read_index_in_bounds :
    ∀ (fuel : Nat) (m : MultiReader W P) (p : List Byte) (s : W),
      m.Read I fuel p s ≠ .error .indexOutOfRange := by
  intro fuel
  induction fuel with
  | zero => intro m p s; simp [MultiReader.Read]
  | succ fuel ih =>
    intro m p s h
    rw [MultiReader.Read] at h
    cases hacq : m.acquire I s with
    | inl r0 => rw [hacq] at h; simp at h
    | inr r0 =>
      obtain ⟨m1, s1⟩ := r0
      rw [hacq] at h
      simp only at h
      obtain ⟨h1, h2, h3, h4⟩ := (MultiReader.acquire_grows m s).2 _ _ hacq
      cases hget : m1.crs[m1.index.toNat]? with
      | none =>
        rw [List.getElem?_eq_none_iff] at hget
        omega
      | some c =>
        rw [hget] at h
        simp only at h
        split at h
        · simp at h
        · split at h
          · simp at h
          · rcases hr : c.r.Read (p.take (u64sub c.capacity c.bytesread)) s1 with
              ⟨⟨d, n1, err⟩, s3⟩
            rw [hr] at h
            cases err with
            | some err => simp at h
            | none =>
              simp only at h
              split at h
              · simp at h
              · cases hrec : MultiReader.Read I fuel (m1.addRead n1).advance
                    ((overlay d (p.take (u64sub c.capacity c.bytesread)) ++
                      p.drop (u64sub c.capacity c.bytesread)).drop n1.toNat) s3 with
                | error f =>
                  rw [hrec] at h
                  simp only [Except.error.injEq] at h
                  subst h
                  exact ih _ _ _ hrec
                | ok r1 => rw [hrec] at h; simp at h

/-- On a state whose cursor is in range the second check of the prelude is
never true. -/
theorem MultiReader.secondCheck_false_reader (m : MultiReader W P) (s : W) (hm : m.InRange) :
    m.secondCheck I s = false := by
  obtain ⟨ha, hb⟩ := hm
  unfold MultiReader.secondCheck
  simp only
  by_cases h0 : m.crs.length = 0
  · rw [if_pos h0]
    obtain ⟨hi, _, hs, _⟩ := MultiReader.addFromPool_grows_reader (I := I) m s
    revert hi hs
    generalize m.AddConstrainedReaderFromPool I s = first
    obtain ⟨err1, m1, s1⟩ := first
    intro hi hs
    simp only at hi hs
    cases err1 with
    | some err => rfl
    | none =>
      have := hs rfl
      simp only
      rw [if_neg (by omega), if_neg (by omega)]
  · rw [if_neg h0]
    simp only
    rw [if_neg (by omega)]
    split
    · obtain ⟨hi, _, hs, _⟩ := MultiReader.addFromPool_grows_reader (I := I) m s
      revert hi hs
      generalize m.AddConstrainedReaderFromPool I s = second
      obtain ⟨err2, m3, s3⟩ := second
      intro hi hs
      simp only at hi hs
      cases err2 with
      | some err => rfl
      | none =>
        have := hs rfl
        simp only [decide_eq_false_iff_not]
        omega
    · rfl

end Grows

section GrowsWrite
variable {W P : Type} {I : WriterPooler W P}

theorem prefix_of_map_injective {α β : Type} (g : α → β) (hg : Function.Injective g) :
    ∀ (l1 l2 : List α), l1.map g <+: l2.map g → l1 <+: l2 := by
  intro l1
  induction l1 with
  | nil => intro l2 _; exact List.nil_prefix
  | cons a l1 ih =>
    intro l2 h
    cases l2 with
    | nil => simp at h
    | cons b l2 =>
      simp only [List.map_cons, List.cons_prefix_cons] at h
      rw [List.cons_prefix_cons]
      exact ⟨hg h.1, ih l2 h.2⟩

theorem MultiWriter.asReader_layout (m : MultiWriter W P) :
    m.asReader.layout = m.layout.map (fun x => (x.1.asReader, x.2)) := by
  simp [MultiReader.layout, MultiWriter.layout, MultiWriter.asReader,
    ConstrainedWriter.asReader, Function.comp_def]

theorem MultiWriter.layout_prefix_of_asReader (m m2 : MultiWriter W P)
    (h : m.asReader.layout <+: m2.asReader.layout) : m.layout <+: m2.layout := by
  rw [MultiWriter.asReader_layout, MultiWriter.asReader_layout] at h
  refine prefix_of_map_injective _ ?_ _ _ h
  rintro ⟨w1, c1⟩ ⟨w2, c2⟩ h12
  simp only [Prod.mk.injEq] at h12
  rw [Writer.asReader_injective_handle h12.1, h12.2]

theorem MultiWriter.asReader_inRange (m : MultiWriter W P) : m.asReader.InRange ↔ m.InRange := by
  simp [MultiReader.InRange, MultiWriter.InRange, MultiWriter.asReader]

theorem MultiWriter.addFromPool_grows_writer (m : MultiWriter W P) (s : W) :
    (m.AddConstrainedWriterFromPool I s).2.1.index = m.index ∧
    m.layout <+: (m.AddConstrainedWriterFromPool I s).2.1.layout := by
  have h := MultiReader.addFromPool_grows_reader (I := I.asReader) m.asReader s
  rw [MultiWriter.asReader_addFromPool] at h
  exact ⟨h.1, MultiWriter.layout_prefix_of_asReader _ _ h.2.1⟩

/-- Every `Write` that returns leaves the cursor where it was or further, the
segments it found in place, and the cursor in range if it was. -/
theorem MultiWriter.Write_grows (fuel : Nat) (m : MultiWriter W P) (p : List Byte) (s : W)
    (r : Int × Option Error) (m2 : MultiWriter W P) (s2 : W)
    (h : m.Write I fuel p s = .ok (r, m2, s2)) :
    m.index ≤ m2.index ∧ m.layout <+: m2.layout ∧ (m.InRange → m2.InRange) := by
  obtain ⟨n, e⟩ := r
  have hsim := MultiWriter.asReader_Read (I := I) fuel m p s
  rw [h] at hsim
  obtain ⟨h1, h2, h3⟩ := MultiReader.Read_grows fuel m.asReader p s _ _ _ hsim
  exact ⟨h1, MultiWriter.layout_prefix_of_asReader _ _ h2,
    fun hm => (MultiWriter.asReader_inRange m2).1 (h3 ((MultiWriter.asReader_inRange m).2 hm))⟩

theorem MultiWriter.Write_index_in_bounds (fuel : Nat) (m : MultiWriter W P) (p : List Byte)
    (s : W) : m.Write I fuel p s ≠ .error .indexOutOfRange := by
  intro h
  have hsim := MultiWriter.asReader_Read (I := I) fuel m p s
  rw [h] at hsim
  exact MultiReader.Read_index_in_bounds fuel m.asReader p s hsim

theorem MultiWriter.asReader_secondCheck (m : MultiWriter W P) (s : W) :
    m.asReader.secondCheck I.asReader s = m.secondCheck I s := by
  unfold MultiReader.secondCheck MultiWriter.secondCheck
  simp only
  have hlen : ∀ x : MultiWriter W P, x.asReader.crs.length = x.cws.length := by
    intro x; simp [MultiWriter.asReader]
  have hidx : ∀ x : MultiWriter W P, x.asReader.index = x.index := fun _ => rfl
  have hfirst : (if m.asReader.crs.length = 0 then
        m.asReader.AddConstrainedReaderFromPool I.asReader s else (none, m.asReader, s)) =
      ((if m.cws.length = 0 then m.AddConstrainedWriterFromPool I s else (none, m, s)).1,
       (if m.cws.length = 0 then m.AddConstrainedWriterFromPool I s else (none, m, s)).2.1.asReader,
       (if m.cws.length = 0 then m.AddConstrainedWriterFromPool I s else (none, m, s)).2.2) := by
    rw [hlen]
    split
    · exact MultiWriter.asReader_addFromPool m s
    · rfl
  rw [hfirst]
  generalize (if m.cws.length = 0 then m.AddConstrainedWriterFromPool I s
    else (none, m, s)) = first
  obtain ⟨err1, m1, s1⟩ := first
  cases err1 with
  | some err => rfl
  | none =>
    simp only [hlen, hidx]
    split
    · rfl
    · split
      · rw [MultiWriter.asReader_addFromPool]
        generalize m1.AddConstrainedWriterFromPool I s1 = second
        obtain ⟨err2, m3, s3⟩ := second
        cases err2 with
        | some err => rfl
        | none => simp only [hlen, hidx]
      · rfl

theorem MultiWriter.secondCheck_false_writer (m : MultiWriter W P) (s : W) (hm : m.InRange) :
    m.secondCheck I s = false := by
  rw [← MultiWriter.asReader_secondCheck]
  exact MultiReader.secondCheck_false_reader _ s ((MultiWriter.asReader_inRange m).2 hm)

/-- The state with which `Write` goes on after its prelude has the cursor on a
segment, and the state of the recursive call has it in range again. -/
theorem MultiWriter.acquire_inRange_writer (m : MultiWriter W P) (s : W) (m1 : MultiWriter W P)
    (s1 : W) (h : m.acquire I s = .inr (m1, s1)) :
    0 ≤ m1.index ∧ m1.index < (m1.cws.length : Int) ∧
      ∀ n, ((m1.addWritten n).advance).InRange := by
  have hsim := MultiWriter.asReader_acquire (I := I) m s
  rw [h] at hsim
  simp only at hsim
  obtain ⟨_, _, h3, h4⟩ := (MultiReader.acquire_grows m.asReader s).2 _ _ hsim
  have hlen : m1.asReader.crs.length = m1.cws.length := by simp [MultiWriter.asReader]
  rw [hlen] at h4
  have h3w : 0 ≤ m1.index := h3
  have h4w : m1.index < (m1.cws.length : Int) := h4
  refine ⟨h3w, h4w, fun n => ?_⟩
  have := (MultiReader.step_grows m1.asReader n).2.2.2.2
    ((MultiWriter.asReader_inRange m1).2 ⟨h3w, le_of_lt h4w⟩)
  rw [MultiWriter.asReader_addRead, MultiWriter.asReader_advance] at this
  exact (MultiWriter.asReader_inRange _).1 this

end GrowsWrite

section GrowsReach
variable {W P : Type}

theorem MultiReader.acquire_inRange_reader {I : ReaderPooler W P} (m : MultiReader W P) (s : W)
    (m1 : MultiReader W P) (s1 : W) (h : m.acquire I s = .inr (m1, s1)) :
    0 ≤ m1.index ∧ m1.index < (m1.crs.length : Int) ∧
      ∀ n, ((m1.addRead n).advance).InRange := by
  obtain ⟨_, _, h3, h4⟩ := (MultiReader.acquire_grows m s).2 _ _ h
  exact ⟨h3, h4, fun n => (MultiReader.step_grows m1 n).2.2.2.2 ⟨h3, by omega⟩⟩

theorem MultiReader.Reachable.inRange_reader {I : ReaderPooler W P} {m : MultiReader W P}
    (h : MultiReader.Reachable I m) : m.InRange := by
  induction h with
  | fresh p => simp [MultiReader.InRange, NewMultiReader]
  | add m r capacity _ _ _ ih =>
    obtain ⟨ha, hb⟩ := ih
    refine ⟨ha, ?_⟩
    simp only [MultiReader.AddConstrainedReader, List.length_append, List.length_singleton]
    push_cast
    omega
  | fromPool m s _ ih =>
    obtain ⟨ha, hb⟩ := ih
    obtain ⟨h1, h2, _, _⟩ := MultiReader.addFromPool_grows_reader (I := I) m s
    have := h2.length_le
    simp only [MultiReader.layout, List.length_map] at this
    exact ⟨by omega, by omega⟩
  | read m fuel p s res m2 s2 _ hread ih =>
    exact (MultiReader.Read_grows fuel m p s res m2 s2 hread).2.2 ih

theorem MultiWriter.Reachable.inRange_writer {I : WriterPooler W P} {m : MultiWriter W P}
    (h : MultiWriter.Reachable I m) : m.InRange :=
  (MultiWriter.asReader_inRange m).1 h.toReader.inRange_reader

end GrowsReach

/-! ## Early returns of `Read` and `Write` -/

section Early
variable {W P : Type}

/-- The prelude of `Read` on a negative cursor: with a segment in the list it
returns `ErrOOC` at once; with an empty list the pool is asked first. -/
theorem MultiReader.acquire_negative_reader (I : ReaderPooler W P) (m : MultiReader W P) (s : W)
    (h : m.index < 0) :
    (m.crs ≠ [] → m.acquire I s = .inl ((0, some .ErrOOC), m, s)) ∧
    (m.crs = [] → m.acquire I s =
      .inl ((0, some ((m.AddConstrainedReaderFromPool I s).1.getD .ErrOOC)),
        (m.AddConstrainedReaderFromPool I s).2.1, (m.AddConstrainedReaderFromPool I s).2.2)) := by
  constructor
  · intro hne
    have hlen : m.crs.length ≠ 0 := by
      intro h0
      exact hne (List.length_eq_zero.1 h0)
    unfold MultiReader.acquire
    simp only [if_neg hlen, if_pos h]
  · intro he
    have hlen : m.crs.length = 0 := by rw [he]; rfl
    unfold MultiReader.acquire
    simp only [if_pos hlen]
    have hi : (m.AddConstrainedReaderFromPool I s).2.1.index = m.index := by
      unfold MultiReader.AddConstrainedReaderFromPool
      cases m.pool with
      | none => rfl
      | some pool =>
        simp only
        rcases I.NewConstrainedReader pool s with ⟨r, pool2, s2⟩
        cases r <;> rfl
    revert hi
    generalize m.AddConstrainedReaderFromPool I s = first
    obtain ⟨err1, m1, s1⟩ := first
    intro hi
    simp only at hi
    cases err1 with
    | some err => rfl
    | none =>
      simp only [Option.getD_none]
      rw [if_pos (by omega)]

theorem MultiWriter.acquire_negative_writer (I : WriterPooler W P) (m : MultiWriter W P) (s : W)
    (h : m.index < 0) :
    (m.cws ≠ [] → m.acquire I s = .inl ((0, some .ErrOOC), m, s)) ∧
    (m.cws = [] → m.acquire I s =
      .inl ((0, some ((m.AddConstrainedWriterFromPool I s).1.getD .ErrOOC)),
        (m.AddConstrainedWriterFromPool I s).2.1, (m.AddConstrainedWriterFromPool I s).2.2)) := by
  constructor
  · intro hne
    have hlen : m.cws.length ≠ 0 := by
      intro h0
      exact hne (List.length_eq_zero.1 h0)
    unfold MultiWriter.acquire
    simp only [if_neg hlen, if_pos h]
  · intro he
    have hlen : m.cws.length = 0 := by rw [he]; rfl
    unfold MultiWriter.acquire
    simp only [if_pos hlen]
    have hi : (m.AddConstrainedWriterFromPool I s).2.1.index = m.index := by
      unfold MultiWriter.AddConstrainedWriterFromPool
      cases m.pool with
      | none => rfl
      | some pool =>
        simp only
        rcases I.NewConstrainedWriter pool s with ⟨r, pool2, s2⟩
        cases r <;> rfl
    revert hi
    generalize m.AddConstrainedWriterFromPool I s = first
    obtain ⟨err1, m1, s1⟩ := first
    intro hi
    simp only at hi
    cases err1 with
    | some err => rfl
    | none =>
      simp only [Option.getD_none]
      rw [if_pos (by omega)]

/-- The prelude of `Read` with the cursor past the segments and a pool that
answers with an error and stays as it is. -/
theorem MultiReader.acquire_exhausted_reader (I : ReaderPooler W P) (m : MultiReader W P) (s : W)
    (e : Error) (hadd : m.AddConstrainedReaderFromPool I s = (some e, m, s))
    (hi : (m.crs.length : Int) ≤ m.index) :
    m.acquire I s = .inl ((0, some e), m, s) := by
  unfold MultiReader.acquire
  by_cases h0 : m.crs.length = 0
  · simp only [if_pos h0, hadd]
  · simp only [if_neg h0]
    rw [if_neg (by omega), if_pos (by omega), hadd]

theorem MultiWriter.acquire_exhausted_writer (I : WriterPooler W P) (m : MultiWriter W P) (s : W)
    (e : Error) (hadd : m.AddConstrainedWriterFromPool I s = (some e, m, s))
    (hi : (m.cws.length : Int) ≤ m.index) :
    m.acquire I s = .inl ((0, some e), m, s) := by
  unfold MultiWriter.acquire
  by_cases h0 : m.cws.length = 0
  · simp only [if_pos h0, hadd]
  · simp only [if_neg h0]
    rw [if_neg (by omega), if_pos (by omega), hadd]

/-- A stream on which every `Read` fails without a change answers every
sequence of `Read` calls with no bytes and no change. -/
theorem MultiReader.ReadAll_stuck (I : ReaderPooler W P) (fuel : Nat) (m : MultiReader W P)
    (s : W) (e : Option Error)
    (h : ∀ p, m.Read I fuel p s = .ok ((p, 0, e), m, s)) :
    ∀ ks, MultiReader.ReadAll I fuel ks m s = .ok ([], m, s) := by
  intro ks
  induction ks with
  | nil => rfl
  | cons k ks ih =>
    simp only [MultiReader.ReadAll, h, ih]
    rfl

theorem MultiWriter.WriteAll_stuck (I : WriterPooler W P) (fuel : Nat) (m : MultiWriter W P)
    (s : W) (e : Option Error)
    (h : ∀ p, m.Write I fuel p s = .ok ((0, e), m, s)) :
    ∀ ps, MultiWriter.WriteAll I fuel ps m s = .ok (m, s) := by
  intro ps
  induction ps with
  | nil => rfl
  | cons p ps ih => simp only [MultiWriter.WriteAll, h, ih]

theorem MultiReader.addFromPool_absent_reader (I : ReaderPooler W P) (m : MultiReader W P) (s : W)
    (h : m.pool = none) :
    m.AddConstrainedReaderFromPool I s = (some .ErrPoolExhausted, m, s) := by
  unfold MultiReader.AddConstrainedReaderFromPool
  rw [h]

theorem MultiWriter.addFromPool_absent_writer (I : WriterPooler W P) (m : MultiWriter W P) (s : W)
    (h : m.pool = none) :
    m.AddConstrainedWriterFromPool I s = (some .ErrPoolExhausted, m, s) := by
  unfold MultiWriter.AddConstrainedWriterFromPool
  rw [h]

end Early

section EarlyFile
variable {W : Type}

theorem FileReaderPool.acquire_at_maximum_reader (fs : FileSys W) (f : FileReaderPool) (s : W)
    (h : f.counter = f.PoolSize) :
    f.NewConstrainedReader fs s = (.error .ErrPoolExhausted, f, s) := by
  cases f
  simp only at h
  simp [FileReaderPool.NewConstrainedReader, h]

theorem FileWriterPool.acquire_at_maximum_writer (fs : FileSys W) (f : FileWriterPool) (s : W)
    (h : f.counter = f.PoolSize) :
    f.NewConstrainedWriter fs s = (.error .ErrPoolExhausted, f, s) := by
  cases f
  simp only at h
  simp [FileWriterPool.NewConstrainedWriter, h]

theorem MultiReader.addFromPool_at_maximum_reader (fs : FileSys W) (m : MultiReader W FileReaderPool)
    (s : W) (h : m.pool = none ∨ ∃ f, m.pool = some f ∧ f.counter = f.PoolSize) :
    m.AddConstrainedReaderFromPool (FileReaderPool.Pooler fs) s
      = (some .ErrPoolExhausted, m, s) := by
  rcases h with h | ⟨f, hf, hc⟩
  · exact MultiReader.addFromPool_absent_reader _ m s h
  · unfold MultiReader.AddConstrainedReaderFromPool
    rw [hf]
    simp only [FileReaderPool.Pooler, FileReaderPool.acquire_at_maximum_reader fs f s hc]
    cases m
    simp only at hf
    simp [hf]

theorem MultiWriter.addFromPool_at_maximum_writer (fs : FileSys W) (m : MultiWriter W FileWriterPool)
    (s : W) (h : m.pool = none ∨ ∃ f, m.pool = some f ∧ f.counter = f.PoolSize) :
    m.AddConstrainedWriterFromPool (FileWriterPool.Pooler fs) s
      = (some .ErrPoolExhausted, m, s) := by
  rcases h with h | ⟨f, hf, hc⟩
  · exact MultiWriter.addFromPool_absent_writer _ m s h
  · unfold MultiWriter.AddConstrainedWriterFromPool
    rw [hf]
    simp only [FileWriterPool.Pooler, FileWriterPool.acquire_at_maximum_writer fs f s hc]
    cases m
    simp only at hf
    simp [hf]

end EarlyFile

/-! ## Manual mode -/

theorem memWriter_progress (i : Nat) : (memWriter i).Progress := by
  intro p s hp
  left
  simp only [memWriter]
  exact_mod_cast hp

theorem memReader_progress (i : Nat) : (memReader i).Progress := by
  intro p s hp
  simp only [memReader]
  by_cases h : ((s.getD i []).take p.length).length = 0
  · right
    rw [if_pos ⟨h, hp⟩]
    simp
  · left
    have : 0 < ((s.getD i []).take p.length).length := Nat.pos_of_ne_zero h
    exact_mod_cast this

section Manual
variable {W P V Q : Type}

/-- C11. In manual mode (no pool, segments added by the caller) `Write` and
`Read` return without a run-time fault, given handles that keep the contract of
`io.Writer` / `io.Reader` and make progress. `Close` does not return: it calls
`Close` on the nil pool, which is a run-time fault, also right after further
segments were added by hand. -/
theorem manual_mode_close_faults (IW : WriterPooler W P) (IR : ReaderPooler V Q)
    (mw : MultiWriter W P) (mr : MultiReader V Q)
    (hw : mw.pool = none) (hr : mr.pool = none)
    (hmw : ∀ c ∈ mw.cws, c.OK ∧ c.w.Progress) (hmr : ∀ c ∈ mr.crs, c.OK ∧ c.r.Progress)
    (p : List Byte) (s : W) (q : List Byte) (t : V) :
    (∃ r, ∀ fuel, p.length + mw.cws.length < fuel → mw.Write IW fuel p s = .ok r) ∧
    (∃ r, ∀ fuel, q.length + mr.crs.length < fuel → mr.Read IR fuel q t = .ok r) ∧
    mw.Close IW s = none ∧ mr.Close IR t = none ∧
    (∀ w capacity, (mw.AddConstrainedWriter w capacity).Close IW s = none) ∧
    (∀ r capacity, (mr.AddConstrainedReader r capacity).Close IR t = none) := by
  have haw : mw.available (fun _ => 0) ≤ mw.cws.length := by
    simp only [MultiWriter.available, hw, Option.map_none', Option.getD_none]
    omega
  have har : mr.available (fun _ => 0) ≤ mr.crs.length := by
    simp only [MultiReader.available, hr, Option.map_none', Option.getD_none]
    omega
  refine ⟨?_, ?_, ?_, ?_, ?_, ?_⟩
  · obtain ⟨r, h⟩ := MultiWriter.Write_returns (I := IW) (fun _ => 0)
      (p.length + mw.cws.length + 1) mw p s (Or.inl hw) hmw (by omega)
    exact ⟨r, fun fuel hf => MultiWriter.Write_fuel_le _ fuel mw p s r h (by omega)⟩
  · obtain ⟨r, h⟩ := MultiReader.Read_returns (I := IR) (fun _ => 0)
      (q.length + mr.crs.length + 1) mr q t (Or.inl hr) hmr (by omega)
    exact ⟨r, fun fuel hf => MultiReader.Read_fuel_le _ fuel mr q t r h (by omega)⟩
  · simp [MultiWriter.Close, hw]
  · simp [MultiReader.Close, hr]
  · intro w capacity
    simp [MultiWriter.Close, MultiWriter.AddConstrainedWriter, hw]
  · intro r capacity
    simp [MultiReader.Close, MultiReader.AddConstrainedReader, hr]

end Manual

/-- Witness of C11: a write stream over four in-memory segments and a read
stream over one, both without a pool. -/
theorem manual_mode_close_faults_witness :
    (∃ r, ∀ fuel, ([7, 8, 9] : List Byte).length + demoZeroCap.cws.length < fuel →
      demoZeroCap.Write noWriterPool fuel [7, 8, 9] [[], [], [], []] = .ok r) ∧
    (∃ r, ∀ fuel, ([0, 0] : List Byte).length +
        ((NewMultiReader (none : Option Unit)).AddConstrainedReader (memReader 0) 2).crs.length
          < fuel →
      ((NewMultiReader (none : Option Unit)).AddConstrainedReader (memReader 0) 2).Read
        noReaderPool fuel [0, 0] [[1, 2]] = .ok r) ∧
    demoZeroCap.Close noWriterPool [[], [], [], []] = none ∧
    ((NewMultiReader (none : Option Unit)).AddConstrainedReader (memReader 0) 2).Close
      noReaderPool [[1, 2]] = none ∧
    (∀ w capacity,
      (demoZeroCap.AddConstrainedWriter w capacity).Close noWriterPool [[], [], [], []] = none) ∧
    (∀ r capacity,
      (((NewMultiReader (none : Option Unit)).AddConstrainedReader (memReader 0) 2).AddConstrainedReader
        r capacity).Close noReaderPool [[1, 2]] = none) :=
  manual_mode_close_faults noWriterPool noReaderPool demoZeroCap
    ((NewMultiReader (none : Option Unit)).AddConstrainedReader (memReader 0) 2) rfl rfl
    (by
      intro c hc
      simp only [demoZeroCap, List.mem_cons, List.mem_singleton, List.not_mem_nil, or_false] at hc
      rcases hc with rfl | rfl | rfl | rfl <;>
        exact ⟨⟨by decide, by norm_num, memWriter_ok _⟩, memWriter_progress _⟩)
    (by
      intro c hc
      simp only [NewMultiReader, MultiReader.AddConstrainedReader, List.nil_append,
        List.mem_singleton] at hc
      subst hc
      exact ⟨⟨by decide, by norm_num, memReader_ok _⟩, memReader_progress _⟩)
    [7, 8, 9] [[], [], [], []] [0, 0] [[1, 2]]

/-! ## One open handle per file pool -/

section Handles
variable {W : Type} {fs : FileSys W} {isOpen issued : W → File → Prop}

/-- After the previous file was closed no handle is open. -/
theorem closeActive_handles (hfs : fs.TracksHandles isOpen issued) (act : Option File) (s : W)
    (h : SingleHandle isOpen issued act s) :
    (∀ h, ¬ isOpen (closeActive fs act s) h) ∧
    (∀ h, issued (closeActive fs act s) h ↔ issued s h) := by
  cases act with
  | none =>
    refine ⟨fun x hx => ?_, fun x => Iff.rfl⟩
    have := h.1 x hx
    simp at this
  | some a =>
    simp only [closeActive]
    refine ⟨fun x hx => ?_, fun x => (hfs.close a s x).2⟩
    obtain ⟨h1, h2⟩ := (hfs.close a s x).1.1 hx
    have := h.1 x h1
    simp only [Option.some.injEq] at this
    exact h2 this.symm

/-- What `NewConstrainedReader` does to the handles. -/
theorem FileReaderPool.acquire_handles_reader (hfs : fs.TracksHandles isOpen issued)
    (f : FileReaderPool) (s : W) (hf : SingleHandle isOpen issued f.activefile s) :
    SingleHandle isOpen issued (f.NewConstrainedReader fs s).2.1.activefile
      (f.NewConstrainedReader fs s).2.2 ∧
    ∀ c, (f.NewConstrainedReader fs s).1 = .ok c →
      ∃ file, (f.NewConstrainedReader fs s).2.1.activefile = some file ∧
        c.r = ⟨fs.ReadFile file⟩ ∧ isOpen (f.NewConstrainedReader fs s).2.2 file ∧
        ∀ h0, f.activefile = some h0 →
          h0 ≠ file ∧ ¬ isOpen (f.NewConstrainedReader fs s).2.2 h0 := by
  obtain ⟨hc1, hc2⟩ := closeActive_handles hfs f.activefile s hf
  simp only [FileReaderPool.NewConstrainedReader]
  split
  · exact ⟨hf, by simp⟩
  · split
    · exact ⟨hf, by simp⟩
    · split
      · rename_i x err s2 hopen
        refine ⟨⟨fun h hh => ?_, by simp⟩, by simp⟩
        exact absurd (((hfs.open_error _ _ _ _ hopen) h).1.1 hh) (hc1 h)
      · rename_i x file s2 hopen
        obtain ⟨hfresh, hop⟩ := hfs.open_ok _ _ _ _ hopen
        have hinv : ∀ s3, (∀ h, isOpen s3 h ↔ isOpen s2 h) → (∀ h, issued s3 h ↔ issued s2 h) →
            SingleHandle isOpen issued (some file) s3 ∧ isOpen s3 file ∧
              ∀ h0, f.activefile = some h0 → h0 ≠ file ∧ ¬ isOpen s3 h0 := by
          intro s3 h3 h4
          have hone : ∀ h, isOpen s3 h → h = file := by
            intro h hh
            rcases ((hop h).1.1 ((h3 h).1 hh)) with h5 | h5
            · exact h5
            · exact absurd h5 (hc1 h)
          have hne : ∀ h0, f.activefile = some h0 → h0 ≠ file := by
            intro h0 h00 heq
            subst heq
            exact hfresh ((hc2 h0).2 (hf.2 h0 h00))
          refine ⟨⟨fun h hh => by rw [hone h hh], fun h hh => ?_⟩, ?_, fun h0 h00 => ?_⟩
          · simp only [Option.some.injEq] at hh
            subst hh
            exact (h4 _).2 ((hop _).2.2 (Or.inl rfl))
          · exact (h3 _).2 ((hop _).1.2 (Or.inl rfl))
          · exact ⟨hne h0 h00, fun hh => hne h0 h00 (hone h0 hh)⟩
        have hst := hinv (fs.Stat file s2).2 (fun h => (hfs.stat file s2 h).1)
          (fun h => (hfs.stat file s2 h).2)
        split
        · rename_i y err s3 hstat
          have : s3 = (fs.Stat file s2).2 := by rw [hstat]
          subst this
          exact ⟨hst.1, by simp⟩
        · rename_i y size s3 hstat
          have : s3 = (fs.Stat file s2).2 := by rw [hstat]
          subst this
          refine ⟨hst.1, ?_⟩
          intro c hc
          simp only [Except.ok.injEq] at hc
          subst hc
          exact ⟨file, rfl, rfl, hst.2.1, hst.2.2⟩

/-- What `NewConstrainedWriter` does to the handles. -/
theorem FileWriterPool.acquire_handles_writer (hfs : fs.TracksHandles isOpen issued)
    (f : FileWriterPool) (s : W) (hf : SingleHandle isOpen issued f.activefile s) :
    SingleHandle isOpen issued (f.NewConstrainedWriter fs s).2.1.activefile
      (f.NewConstrainedWriter fs s).2.2 ∧
    ∀ c, (f.NewConstrainedWriter fs s).1 = .ok c →
      ∃ file, (f.NewConstrainedWriter fs s).2.1.activefile = some file ∧
        c.w = ⟨fs.WriteFile file⟩ ∧ isOpen (f.NewConstrainedWriter fs s).2.2 file ∧
        ∀ h0, f.activefile = some h0 →
          h0 ≠ file ∧ ¬ isOpen (f.NewConstrainedWriter fs s).2.2 h0 := by
  simp only [FileWriterPool.NewConstrainedWriter]
  split
  · exact ⟨hf, by simp⟩
  · have hmade : SingleHandle isOpen issued f.activefile
        (if f.counter + 1 = (1 : Int) then fs.MkdirAll f.Path s else (none, s)).2 := by
      split
      · exact ⟨fun h hh => hf.1 h ((hfs.mkdirAll _ _ h).1.1 hh),
          fun h hh => (hfs.mkdirAll _ _ h).2.2 (hf.2 h hh)⟩
      · exact hf
    revert hmade
    generalize (if f.counter + 1 = (1 : Int) then fs.MkdirAll f.Path s else (none, s)) = made
    obtain ⟨merr, s1⟩ := made
    intro hmade
    simp only at hmade
    cases merr with
    | some err => exact ⟨hmade, by simp⟩
    | none =>
      simp only
      obtain ⟨hc1, hc2⟩ := closeActive_handles hfs f.activefile s1 hmade
      split
      · exact ⟨hmade, by simp⟩
      · split
        · rename_i x err s2 hopen
          refine ⟨⟨fun h hh => ?_, by simp⟩, by simp⟩
          exact absurd (((hfs.openFile_error _ _ _ _ hopen) h).1.1 hh) (hc1 h)
        · rename_i x file s2 hopen
          obtain ⟨hfresh, hop⟩ := hfs.openFile_ok _ _ _ _ hopen
          have hone : ∀ h, isOpen s2 h → h = file := by
            intro h hh
            rcases ((hop h).1.1 hh) with h5 | h5
            · exact h5
            · exact absurd h5 (hc1 h)
          have hne : ∀ h0, f.activefile = some h0 → h0 ≠ file := by
            intro h0 h00 heq
            subst heq
            exact hfresh ((hc2 h0).2 (hmade.2 h0 h00))
          refine ⟨⟨fun h hh => by rw [hone h hh], fun h hh => ?_⟩, ?_⟩
          · simp only [Option.some.injEq] at hh
            subst hh
            exact (hop _).2.2 (Or.inl rfl)
          · intro c hc
            simp only [Except.ok.injEq] at hc
            subst hc
            exact ⟨file, rfl, rfl, (hop _).1.2 (Or.inl rfl),
              fun h0 h00 => ⟨hne h0 h00, fun hh => hne h0 h00 (hone h0 hh)⟩⟩

theorem FileReaderPool.close_handles_reader (hfs : fs.TracksHandles isOpen issued)
    (f : FileReaderPool) (s : W) (hf : SingleHandle isOpen issued f.activefile s) :
    SingleHandle isOpen issued (f.Close fs s).2.1.activefile (f.Close fs s).2.2 := by
  simp only [FileReaderPool.Close]
  split
  · rename_i file hact
    exact ⟨fun h hh => hf.1 h ((hfs.close _ _ h).1.1 hh).1,
      fun h hh => (hfs.close _ _ h).2.2 (hf.2 h hh)⟩
  · exact hf

theorem FileWriterPool.close_handles_writer (hfs : fs.TracksHandles isOpen issued)
    (f : FileWriterPool) (s : W) (hf : SingleHandle isOpen issued f.activefile s) :
    SingleHandle isOpen issued (f.Close fs s).2.1.activefile (f.Close fs s).2.2 := by
  simp only [FileWriterPool.Close]
  split
  · rename_i file hact
    exact ⟨fun h hh => hf.1 h ((hfs.sync _ _ h).1.1 ((hfs.close _ _ h).1.1 hh).1),
      fun h hh => (hfs.close _ _ h).2.2 ((hfs.sync _ _ h).2.2 (hf.2 h hh))⟩
  · exact hf

theorem FileReaderPool.calls_handles_reader (hfs : fs.TracksHandles isOpen issued) :
    ∀ (cs : List PoolCall) (f : FileReaderPool) (s : W),
      SingleHandle isOpen issued f.activefile s →
      SingleHandle isOpen issued (f.calls fs cs s).1.activefile (f.calls fs cs s).2 := by
  intro cs
  induction cs with
  | nil => intro f s h; exact h
  | cons c cs ih =>
    intro f s h
    cases c with
    | acquire => exact ih _ _ (FileReaderPool.acquire_handles_reader hfs f s h).1
    | close => exact ih _ _ (FileReaderPool.close_handles_reader hfs f s h)

theorem FileWriterPool.calls_handles_writer (hfs : fs.TracksHandles isOpen issued) :
    ∀ (cs : List PoolCall) (f : FileWriterPool) (s : W),
      SingleHandle isOpen issued f.activefile s →
      SingleHandle isOpen issued (f.calls fs cs s).1.activefile (f.calls fs cs s).2 := by
  intro cs
  induction cs with
  | nil => intro f s h; exact h
  | cons c cs ih =>
    intro f s h
    cases c with
    | acquire => exact ih _ _ (FileWriterPool.acquire_handles_writer hfs f s h).1
    | close => exact ih _ _ (FileWriterPool.close_handles_writer hfs f s h)

theorem SingleHandle.at_most_one {act : Option File} {s : W}
    (h : SingleHandle isOpen issued act s) (h1 h2 : File) (ho1 : isOpen s h1)
    (ho2 : isOpen s h2) : h1 = h2 := by
  have a := h.1 h1 ho1
  have b := h.1 h2 ho2
  rw [a] at b
  exact Option.some.inj b

end Handles

theorem handleFs_tracks (fails : Nat → Bool) :
    (handleFs fails).TracksHandles (fun s h => h ∈ s.opened) (fun s h => h.fd < s.issued) := by
  constructor
  · intro path s file s2 h
    simp only [handleFs] at h
    split at h
    · simp at h
    · simp only [Prod.mk.injEq, Except.ok.injEq] at h
      obtain ⟨h1, h2⟩ := h
      subst h1 h2
      refine ⟨by simp, fun h => ⟨by simp, ?_⟩⟩
      simp only
      constructor
      · intro hh
        by_cases he : h.fd = s.issued
        · left; cases h; simp only at he; rw [he]
        · right; omega
      · rintro (rfl | hh)
        · simp
        · omega
  · intro path s e s2 h
    simp only [handleFs] at h
    split at h
    · simp only [Prod.mk.injEq] at h
      obtain ⟨_, h2⟩ := h
      subst h2
      intro h; simp
    · simp at h
  · intro path s file s2 h
    simp only [handleFs] at h
    split at h
    · simp at h
    · simp only [Prod.mk.injEq, Except.ok.injEq] at h
      obtain ⟨h1, h2⟩ := h
      subst h1 h2
      refine ⟨by simp, fun h => ⟨by simp, ?_⟩⟩
      simp only
      constructor
      · intro hh
        by_cases he : h.fd = s.issued
        · left; cases h; simp only at he; rw [he]
        · right; omega
      · rintro (rfl | hh)
        · simp
        · omega
  · intro path s e s2 h
    simp only [handleFs] at h
    split at h
    · simp only [Prod.mk.injEq] at h
      obtain ⟨_, h2⟩ := h
      subst h2
      intro h; simp
    · simp at h
  · intro file s h
    simp [handleFs]
  · intro file s h
    simp [handleFs]
  · intro file s h
    simp [handleFs]
  · intro path s h
    simp [handleFs]

section HandlesClaim
variable {W : Type}

/-- C12. The single-handle invariant. On a file system that keeps track of its
handles, a file pool that holds the only open handle (as a new pool does in a
world without open handles) still holds the only open handle after any sequence
of `NewConstrainedReader` / `NewConstrainedWriter` and `Close` calls, whatever
they return: at most one handle is open, and it is the active file of the pool.
When the next acquisition succeeds, the active file of the pool is the handle of
the new segment, it is open, and the handle that was active before is another
handle and is closed. -/
theorem single_handle_invariant (fs : FileSys W) (isOpen issued : W → File → Prop)
    (hfs : fs.TracksHandles isOpen issued)
    (f : FileReaderPool) (s : W) (hf : SingleHandle isOpen issued f.activefile s)
    (g : FileWriterPool) (t : W) (hg : SingleHandle isOpen issued g.activefile t) :
    (∀ cs,
      (∀ h1 h2, isOpen (f.calls fs cs s).2 h1 → isOpen (f.calls fs cs s).2 h2 → h1 = h2) ∧
      (∀ h, isOpen (f.calls fs cs s).2 h → (f.calls fs cs s).1.activefile = some h) ∧
      ∀ c, ((f.calls fs cs s).1.NewConstrainedReader fs (f.calls fs cs s).2).1 = .ok c →
        ∃ file,
          ((f.calls fs cs s).1.NewConstrainedReader fs (f.calls fs cs s).2).2.1.activefile
            = some file ∧
          c.r = ⟨fs.ReadFile file⟩ ∧
          isOpen ((f.calls fs cs s).1.NewConstrainedReader fs (f.calls fs cs s).2).2.2 file ∧
          ∀ h0, (f.calls fs cs s).1.activefile = some h0 →
            h0 ≠ file ∧
            ¬ isOpen ((f.calls fs cs s).1.NewConstrainedReader fs (f.calls fs cs s).2).2.2 h0) ∧
    (∀ cs,
      (∀ h1 h2, isOpen (g.calls fs cs t).2 h1 → isOpen (g.calls fs cs t).2 h2 → h1 = h2) ∧
      (∀ h, isOpen (g.calls fs cs t).2 h → (g.calls fs cs t).1.activefile = some h) ∧
      ∀ c, ((g.calls fs cs t).1.NewConstrainedWriter fs (g.calls fs cs t).2).1 = .ok c →
        ∃ file,
          ((g.calls fs cs t).1.NewConstrainedWriter fs (g.calls fs cs t).2).2.1.activefile
            = some file ∧
          c.w = ⟨fs.WriteFile file⟩ ∧
          isOpen ((g.calls fs cs t).1.NewConstrainedWriter fs (g.calls fs cs t).2).2.2 file ∧
          ∀ h0, (g.calls fs cs t).1.activefile = some h0 →
            h0 ≠ file ∧
            ¬ isOpen ((g.calls fs cs t).1.NewConstrainedWriter fs (g.calls fs cs t).2).2.2 h0) := by
  constructor
  · intro cs
    have h := FileReaderPool.calls_handles_reader hfs cs f s hf
    exact ⟨fun h1 h2 => h.at_most_one h1 h2, h.1,
      (FileReaderPool.acquire_handles_reader hfs _ _ h).2⟩
  · intro cs
    have h := FileWriterPool.calls_handles_writer hfs cs g t hg
    exact ⟨fun h1 h2 => h.at_most_one h1 h2, h.1,
      (FileWriterPool.acquire_handles_writer hfs _ _ h).2⟩

end HandlesClaim

/-- Runs on `handleFs`. When call number 1 fails (the `Stat` of the first
acquisition, after its `Open`), three acquisitions leave handle 2 as the only
open handle and as the active file, with the counter at 3. On the write side two
acquisitions and a `Close` leave no handle open. -/
theorem handleFs_run :
    (pool150.calls (handleFs (fun k => decide (k = 1)))
        [.acquire, .acquire, .acquire] ⟨0, [], 0⟩).2.opened = [⟨2⟩] ∧
    (pool150.calls (handleFs (fun k => decide (k = 1)))
        [.acquire, .acquire, .acquire] ⟨0, [], 0⟩).1.activefile = some ⟨2⟩ ∧
    (pool150.calls (handleFs (fun k => decide (k = 1)))
        [.acquire, .acquire, .acquire] ⟨0, [], 0⟩).1.counter = 3 ∧
    (wpool150.calls (handleFs (fun _ => false))
        [.acquire, .acquire, .close] ⟨0, [], 0⟩).2.opened = [] := by
  refine ⟨?_, ?_, ?_, ?_⟩ <;> rfl

/-- Witness of C12 on `handleFs`, from the new pools of the naming example and a
world without handles. -/
theorem single_handle_invariant_witness :
    (∀ cs,
      (∀ h1 h2, h1 ∈ (pool150.calls (handleFs (fun k => decide (k = 1))) cs ⟨0, [], 0⟩).2.opened →
        h2 ∈ (pool150.calls (handleFs (fun k => decide (k = 1))) cs ⟨0, [], 0⟩).2.opened →
        h1 = h2) ∧
      (∀ h, h ∈ (pool150.calls (handleFs (fun k => decide (k = 1))) cs ⟨0, [], 0⟩).2.opened →
        (pool150.calls (handleFs (fun k => decide (k = 1))) cs ⟨0, [], 0⟩).1.activefile
          = some h)) ∧
    (∀ cs,
      (∀ h1 h2, h1 ∈ (wpool150.calls (handleFs (fun k => decide (k = 1))) cs ⟨0, [], 0⟩).2.opened →
        h2 ∈ (wpool150.calls (handleFs (fun k => decide (k = 1))) cs ⟨0, [], 0⟩).2.opened →
        h1 = h2) ∧
      (∀ h, h ∈ (wpool150.calls (handleFs (fun k => decide (k = 1))) cs ⟨0, [], 0⟩).2.opened →
        (wpool150.calls (handleFs (fun k => decide (k = 1))) cs ⟨0, [], 0⟩).1.activefile
          = some h)) :=
  have h := single_handle_invariant (handleFs (fun k => decide (k = 1)))
    (fun s h => h ∈ s.opened) (fun s h => h.fd < s.issued) (handleFs_tracks _)
    pool150 ⟨0, [], 0⟩ ⟨by simp, by simp [pool150]⟩
    wpool150 ⟨0, [], 0⟩ ⟨by simp, by simp [wpool150]⟩
  ⟨fun cs => ⟨(h.1 cs).1, (h.1 cs).2.1⟩, fun cs => ⟨(h.2 cs).1, (h.2 cs).2.1⟩⟩

/-- The file system `closedFs` keeps the laws of handle tracking. -/
theorem closedFs_tracks :
    closedFs.TracksHandles (fun s h => h ∈ s.opened) (fun s h => h.fd < s.issued) := by
  constructor
  · intro path s file s2 h
    simp only [closedFs, Prod.mk.injEq, Except.ok.injEq] at h
    obtain ⟨h1, h2⟩ := h
    subst h1 h2
    refine ⟨by simp, fun h => ⟨by simp, ?_⟩⟩
    simp only
    constructor
    · intro hh
      by_cases he : h.fd = s.issued
      · left; cases h; simp only at he; rw [he]
      · right; omega
    · rintro (rfl | hh)
      · simp
      · omega
  · intro path s e s2 h
    simp [closedFs] at h
  · intro path s file s2 h
    simp only [closedFs, Prod.mk.injEq, Except.ok.injEq] at h
    obtain ⟨h1, h2⟩ := h
    subst h1 h2
    refine ⟨by simp, fun h => ⟨by simp, ?_⟩⟩
    simp only
    constructor
    · intro hh
      by_cases he : h.fd = s.issued
      · left; cases h; simp only at he; rw [he]
      · right; omega
    · rintro (rfl | hh)
      · simp
      · omega
  · intro path s e s2 h
    simp [closedFs] at h
  · intro file s h
    simp [closedFs]
  · intro file s h
    simp [closedFs]
  · intro file s h
    simp [closedFs]
  · intro path s h
    simp [closedFs]

/-- C13, counterexample. On the file system `closedFs`, from a world without
handles: the write pool of the naming example acquires its first segment
(handle 0 is open), `Close` syncs and closes it and returns nil, after which no
file is open and the pool still holds handle 0; a second `Close` does not
answer `ErrPoolExhausted` and is not free of file-system actions: it calls
`Sync` and `Close` on the closed handle and returns `ErrClosed`. The read pool
likewise: its second `Close` calls `Close` on the closed handle and returns
`ErrClosed`, not nil. -/
theorem second_close_reaches_closed_file :
    ((wpool150.NewConstrainedWriter closedFs ⟨0, [], 0⟩).2
        = ({ wpool150 with counter := 1, activefile := some ⟨0⟩ }, ⟨1, [⟨0⟩], 2⟩) ∧
      ({ wpool150 with counter := 1, activefile := some ⟨0⟩ } : FileWriterPool).Close closedFs
          ⟨1, [⟨0⟩], 2⟩
        = (none, { wpool150 with counter := 1, activefile := some ⟨0⟩ }, ⟨1, [], 4⟩) ∧
      ({ wpool150 with counter := 1, activefile := some ⟨0⟩ } : FileWriterPool).Close closedFs
          ⟨1, [], 4⟩
        = (some ErrClosed, { wpool150 with counter := 1, activefile := some ⟨0⟩ }, ⟨1, [], 6⟩) ∧
      ErrClosed ≠ .ErrPoolExhausted) ∧
    ((pool150.NewConstrainedReader closedFs ⟨0, [], 0⟩).2
        = ({ pool150 with counter := 1, activefile := some ⟨0⟩ }, ⟨1, [⟨0⟩], 2⟩) ∧
      ({ pool150 with counter := 1, activefile := some ⟨0⟩ } : FileReaderPool).Close closedFs
          ⟨1, [⟨0⟩], 2⟩
        = (none, { pool150 with counter := 1, activefile := some ⟨0⟩ }, ⟨1, [], 3⟩) ∧
      ({ pool150 with counter := 1, activefile := some ⟨0⟩ } : FileReaderPool).Close closedFs
          ⟨1, [], 3⟩
        = (some ErrClosed, { pool150 with counter := 1, activefile := some ⟨0⟩ }, ⟨1, [], 4⟩)) := by
  refine ⟨⟨rfl, rfl, rfl, by decide⟩, ⟨rfl, rfl, rfl⟩⟩

/-! ## Closing a file pool -/

/-- The calls `Close` makes on the recording file system: none when no file is
open; `sync` then `close` for the write pool, `close` alone for the read pool,
when a file is open. -/
theorem close_calls_recorded :
    wpool150.Close (logFs false 0) [] = (some .ErrPoolExhausted, wpool150, []) ∧
    pool150.Close (logFs false 0) [] = (none, pool150, []) ∧
    ({ wpool150 with activefile := some ⟨7⟩ } : FileWriterPool).Close (logFs false 0) []
      = (none, { wpool150 with activefile := some ⟨7⟩ }, ["sync", "close"]) ∧
    ({ pool150 with activefile := some ⟨7⟩ } : FileReaderPool).Close (logFs false 0) []
      = (none, { pool150 with activefile := some ⟨7⟩ }, ["close"]) := by
  refine ⟨rfl, rfl, rfl, rfl⟩

/-! ## Cursor monotonicity and append-only segments -/

section Monotone
variable {W P V Q : Type}

/-- C14. Every operation on a stream (adding a segment by hand, an acquisition
from the pool, a `Write` or a `Read` that returns) leaves the cursor at its
previous value or further, and leaves the previous segments in place: the
handles and capacities of the segments before the operation are a prefix of
those after it. No assumption is made on the state, the handles or the pool. -/
theorem cursor_monotone_append_only (IW : WriterPooler W P) (IR : ReaderPooler V Q)
    (mw : MultiWriter W P) (mr : MultiReader V Q) :
    (∀ w capacity, mw.index ≤ (mw.AddConstrainedWriter w capacity).index ∧
      mw.layout <+: (mw.AddConstrainedWriter w capacity).layout) ∧
    (∀ s, mw.index ≤ (mw.AddConstrainedWriterFromPool IW s).2.1.index ∧
      mw.layout <+: (mw.AddConstrainedWriterFromPool IW s).2.1.layout) ∧
    (∀ fuel p s r m2 s2, mw.Write IW fuel p s = .ok (r, m2, s2) →
      mw.index ≤ m2.index ∧ mw.layout <+: m2.layout) ∧
    (∀ r capacity, mr.index ≤ (mr.AddConstrainedReader r capacity).index ∧
      mr.layout <+: (mr.AddConstrainedReader r capacity).layout) ∧
    (∀ t, mr.index ≤ (mr.AddConstrainedReaderFromPool IR t).2.1.index ∧
      mr.layout <+: (mr.AddConstrainedReaderFromPool IR t).2.1.layout) ∧
    (∀ fuel q t r m2 t2, mr.Read IR fuel q t = .ok (r, m2, t2) →
      mr.index ≤ m2.index ∧ mr.layout <+: m2.layout) := by
  refine ⟨?_, ?_, ?_, ?_, ?_, ?_⟩
  · intro w capacity
    refine ⟨le_refl _, ?_⟩
    simp only [MultiWriter.layout, MultiWriter.AddConstrainedWriter, List.map_append]
    exact List.prefix_append _ _
  · intro s
    obtain ⟨h1, h2⟩ := MultiWriter.addFromPool_grows_writer (I := IW) mw s
    exact ⟨by rw [h1], h2⟩
  · intro fuel p s r m2 s2 h
    obtain ⟨h1, h2, _⟩ := MultiWriter.Write_grows fuel mw p s r m2 s2 h
    exact ⟨h1, h2⟩
  · intro r capacity
    refine ⟨le_refl _, ?_⟩
    simp only [MultiReader.layout, MultiReader.AddConstrainedReader, List.map_append]
    exact List.prefix_append _ _
  · intro t
    obtain ⟨h1, h2, _⟩ := MultiReader.addFromPool_grows_reader (I := IR) mr t
    exact ⟨by rw [h1], h2⟩
  · intro fuel q t r m2 t2 h
    obtain ⟨h1, h2, _⟩ := MultiReader.Read_grows fuel mr q t r m2 t2 h
    exact ⟨h1, h2⟩

end Monotone

/-- The runs of the examples move the cursor from 0 to 1 and extend the empty
segment list to two segments; the segments as records are not kept, their
running counts change. -/
theorem demo_runs_grow :
    (NewMultiWriter (some 0) : MultiWriter Store Nat).index = 0 ∧ demoWritten.index = 1 ∧
    (NewMultiWriter (some 0) : MultiWriter Store Nat).layout = [] ∧
    demoWritten.layout = [(memWriter 0, 4), (memWriter 1, 4)] ∧
    demoZeroCap.layout = demoZeroCapAfter.layout ∧
    (demoZeroCap.cws.map (fun c => c.byteswritten)) = [0, 0, 0, 0] ∧
    (demoZeroCapAfter.cws.map (fun c => c.byteswritten)) = [1, 1, 0, 0] := by
  refine ⟨rfl, rfl, rfl, rfl, rfl, rfl, rfl⟩

/-! ## The negative cursor -/

/-- C15, counterexample. On a state with a negative cursor and an empty segment
list the pool is asked first. Without a pool `Read` and `Write` return
`ErrPoolExhausted`, not `ErrOOC`; with a pool that supplies a segment the
segment is appended and the pool moves on before `ErrOOC` is returned. -/
theorem negative_cursor_empty_list_asks_pool :
    MultiReader.Read (noReaderPool : ReaderPooler Unit Unit) 1
        { index := -1, crs := [], pool := none } [0] ()
      = .ok (([0], 0, some .ErrPoolExhausted), { index := -1, crs := [], pool := none }, ()) ∧
    MultiWriter.Write (noWriterPool : WriterPooler Unit Unit) 1
        { index := -1, cws := [], pool := none } [0] ()
      = .ok ((0, some .ErrPoolExhausted), { index := -1, cws := [], pool := none }, ()) ∧
    MultiReader.Read (memReaderPool 3) 1 { index := -1, crs := [], pool := some 0 } [0] [[1, 2]]
      = .ok (([0], 0, some .ErrOOC),
          { index := -1, crs := [{ r := memReader 0, capacity := 2, bytesread := 0 }],
            pool := some 1 }, [[1, 2]]) ∧
    MultiWriter.Write (memWriterPool 4 3) 1 { index := -1, cws := [], pool := some 0 } [0] []
      = .ok ((0, some .ErrOOC),
          { index := -1, cws := [{ w := memWriter 0, capacity := 4, byteswritten := 0 }],
            pool := some 1 }, [[]]) :=
  ⟨rfl, rfl, rfl, rfl⟩

section Negative
variable {W P V Q : Type}

/-- C15, amended. On a state with a negative cursor and at least one segment,
`Write` and `Read` return `(0, ErrOOC)` at once: the stream, the pool in it and
the world are as before the call, for every pool and all handles, and `Read`
leaves the buffer as it was. With an empty segment list the pool is asked first:
its error is returned if it fails, and otherwise `ErrOOC` is returned with the
new segment appended. -/
theorem negative_cursor_fails (IW : WriterPooler W P) (IR : ReaderPooler V Q)
    (mw : MultiWriter W P) (mr : MultiReader V Q)
    (hw : mw.index < 0) (hr : mr.index < 0)
    (fuel : Nat) (p : List Byte) (s : W) (q : List Byte) (t : V) :
    (mw.cws ≠ [] → mw.Write IW (fuel + 1) p s = .ok ((0, some .ErrOOC), mw, s)) ∧
    (mr.crs ≠ [] → mr.Read IR (fuel + 1) q t = .ok ((q, 0, some .ErrOOC), mr, t)) ∧
    (mw.cws = [] → mw.Write IW (fuel + 1) p s =
      .ok ((0, some ((mw.AddConstrainedWriterFromPool IW s).1.getD .ErrOOC)),
        (mw.AddConstrainedWriterFromPool IW s).2.1,
        (mw.AddConstrainedWriterFromPool IW s).2.2)) ∧
    (mr.crs = [] → mr.Read IR (fuel + 1) q t =
      .ok ((q, 0, some ((mr.AddConstrainedReaderFromPool IR t).1.getD .ErrOOC)),
        (mr.AddConstrainedReaderFromPool IR t).2.1,
        (mr.AddConstrainedReaderFromPool IR t).2.2)) := by
  refine ⟨?_, ?_, ?_, ?_⟩
  · intro h
    rw [MultiWriter.Write, (MultiWriter.acquire_negative_writer IW mw s hw).1 h]
  · intro h
    rw [MultiReader.Read, (MultiReader.acquire_negative_reader IR mr t hr).1 h]
  · intro h
    rw [MultiWriter.Write, (MultiWriter.acquire_negative_writer IW mw s hw).2 h]
  · intro h
    rw [MultiReader.Read, (MultiReader.acquire_negative_reader IR mr t hr).2 h]

end Negative

/-- Witness of C15 (amended): the streams of the examples with the cursor set
to -1. -/
theorem negative_cursor_fails_witness :
    (({ demoWritten with index := -1 } : MultiWriter Store Nat).cws ≠ [] →
      ({ demoWritten with index := -1 } : MultiWriter Store Nat).Write (memWriterPool 4 3)
          (0 + 1) [1, 2] [[1, 2, 3, 4], [5, 6]]
        = .ok ((0, some .ErrOOC), { demoWritten with index := -1 }, [[1, 2, 3, 4], [5, 6]])) ∧
    (({ demoRead with index := -1 } : MultiReader Store Nat).crs ≠ [] →
      ({ demoRead with index := -1 } : MultiReader Store Nat).Read (memReaderPool 3)
          (0 + 1) [0, 0] [[], [6]]
        = .ok (([0, 0], 0, some .ErrOOC), { demoRead with index := -1 }, [[], [6]])) :=
  have h := negative_cursor_fails (memWriterPool 4 3) (memReaderPool 3)
    { demoWritten with index := -1 } { demoRead with index := -1 } (by decide) (by decide)
    0 [1, 2] [[1, 2, 3, 4], [5, 6]] [0, 0] [[], [6]]
  ⟨h.1, h.2.1⟩

/-! ## Termination of the boundary-spanning recursion -/

theorem memWriterPool_finite (cap max : Nat) :
    (memWriterPool cap max).Finite (fun k => max - k) ∧ (memWriterPool cap max).Progress := by
  constructor
  · intro pool s c pool2 s2 h
    simp only [memWriterPool] at h
    split at h
    · simp only [Prod.mk.injEq] at h
      obtain ⟨_, h2, _⟩ := h
      subst h2
      show max - (pool + 1) < max - pool
      omega
    · simp at h
  · intro pool s c pool2 s2 h
    simp only [memWriterPool] at h
    split at h
    · simp only [Prod.mk.injEq, Except.ok.injEq] at h
      obtain ⟨h1, _, _⟩ := h
      subst h1
      exact memWriter_progress _
    · simp at h

theorem memReaderPool_finite (max : Nat) :
    (memReaderPool max).Finite (fun k => max - k) ∧ (memReaderPool max).Progress := by
  constructor
  · intro pool s c pool2 s2 h
    simp only [memReaderPool] at h
    split at h
    · simp only [Prod.mk.injEq] at h
      obtain ⟨_, h2, _⟩ := h
      subst h2
      show max - (pool + 1) < max - pool
      omega
    · simp at h
  · intro pool s c pool2 s2 h
    simp only [memReaderPool] at h
    split at h
    · simp only [Prod.mk.injEq, Except.ok.injEq] at h
      obtain ⟨h1, _, _⟩ := h
      subst h1
      exact memReader_progress _
    · simp at h

section TerminationClaim
variable {W P V Q : Type}

/-- C16. Termination of `Write` and `Read`. The segments of the state keep the
capacity invariant and their handles keep the contract of `io.Writer` /
`io.Reader` and make progress; the pool is absent, or it can supply only
finitely many further segments (`left` bounds their number), each well formed
and with a handle that makes progress. Then a call returns, with one and the
same result for every amount of fuel above the number of bytes to transfer plus
the number of segments still available: each recursive call has fewer bytes to
transfer, or as many and fewer segments available. Segments of capacity zero
are not excluded. A file pool is such a pool, `PoolSize - counter` bounding the
number of segments it can still supply. -/
theorem spanning_recursion_terminates (IW : WriterPooler W P) (IR : ReaderPooler V Q)
    (leftw : P → Nat) (leftr : Q → Nat) (mw : MultiWriter W P) (mr : MultiReader V Q)
    (hmw : ∀ c ∈ mw.cws, c.OK ∧ c.w.Progress) (hmr : ∀ c ∈ mr.crs, c.OK ∧ c.r.Progress)
    (hpw : mw.pool = none ∨ (IW.Finite leftw ∧ WriterPoolOK IW ∧ IW.Progress))
    (hpr : mr.pool = none ∨ (IR.Finite leftr ∧ ReaderPoolOK IR ∧ IR.Progress))
    (p : List Byte) (s : W) (q : List Byte) (t : V) :
    (∃ r, ∀ fuel, p.length + mw.available leftw < fuel → mw.Write IW fuel p s = .ok r) ∧
    (∃ r, ∀ fuel, q.length + mr.available leftr < fuel → mr.Read IR fuel q t = .ok r) ∧
    (∀ fs : FileSys W, (FileWriterPool.Pooler fs).Finite FileWriterPool.left) ∧
    (∀ fs : FileSys V, (FileReaderPool.Pooler fs).Finite FileReaderPool.left) := by
  refine ⟨?_, ?_, fileWriterPool_finite, fileReaderPool_finite⟩
  · obtain ⟨r, h⟩ := MultiWriter.Write_returns (I := IW) leftw
      (p.length + mw.available leftw + 1) mw p s hpw hmw (by omega)
    exact ⟨r, fun fuel hf => MultiWriter.Write_fuel_le _ fuel mw p s r h (by omega)⟩
  · obtain ⟨r, h⟩ := MultiReader.Read_returns (I := IR) leftr
      (q.length + mr.available leftr + 1) mr q t hpr hmr (by omega)
    exact ⟨r, fun fuel hf => MultiReader.Read_fuel_le _ fuel mr q t r h (by omega)⟩

end TerminationClaim

/-- A call across a segment of capacity zero: three bytes written over segments
of capacities 1, 1, 0 and 1 go to the first, the second and the fourth; read
back from a stream whose second segment has capacity zero they come out
unchanged. -/
theorem zero_capacity_segment_is_crossed :
    (demoZeroCap.Write noWriterPool 5 [7, 8, 9] [[], [], [], []]).toOption.map
        (fun r => (r.1, r.2.1.index, r.2.2))
      = some ((3, none), 4, [[7], [8], [], [9]]) ∧
    (((((NewMultiReader (none : Option Unit)).AddConstrainedReader (memReader 0) 2).AddConstrainedReader
          (memReader 1) 0).AddConstrainedReader (memReader 2) 2).Read noReaderPool 5
        [0, 0, 0] [[7, 8], [], [9]]).toOption.map (fun r => (r.1, r.2.1.index, r.2.2))
      = some (([7, 8, 9], 3, none), 2, [[], [], []]) := by
  refine ⟨rfl, rfl⟩

/-- Witness of C16: the streams of the examples, each with its pool of three
in-memory segments. -/
theorem spanning_recursion_terminates_witness :
    (∃ r, ∀ fuel, ([1, 2, 3, 4, 5, 6, 7] : List Byte).length
        + demoWritten.available (fun k => 3 - k) < fuel →
      demoWritten.Write (memWriterPool 4 3) fuel [1, 2, 3, 4, 5, 6, 7] [[1, 2, 3, 4], [5, 6]]
        = .ok r) ∧
    (∃ r, ∀ fuel, ([0, 0, 0] : List Byte).length + demoRead.available (fun k => 3 - k) < fuel →
      demoRead.Read (memReaderPool 3) fuel [0, 0, 0] [[], [6]] = .ok r) :=
  have h := spanning_recursion_terminates (memWriterPool 4 3) (memReaderPool 3)
    (fun k => 3 - k) (fun k => 3 - k) demoWritten demoRead
    (by
      intro c hc
      simp only [demoWritten, List.mem_cons, List.mem_singleton, List.not_mem_nil, or_false] at hc
      rcases hc with rfl | rfl <;>
        exact ⟨⟨by decide, by norm_num, memWriter_ok _⟩, memWriter_progress _⟩)
    (by
      intro c hc
      simp only [demoRead, List.mem_cons, List.mem_singleton, List.not_mem_nil, or_false] at hc
      rcases hc with rfl | rfl <;>
        exact ⟨⟨by decide, by norm_num, memReader_ok _⟩, memReader_progress _⟩)
    (Or.inr ⟨(memWriterPool_finite 4 3).1, memWriterPool_ok 4 3, (memWriterPool_finite 4 3).2⟩)
    (Or.inr ⟨(memReaderPool_finite 3).1, memReaderPool_ok 3, (memReaderPool_finite 3).2⟩)
    [1, 2, 3, 4, 5, 6, 7] [[1, 2, 3, 4], [5, 6]] [0, 0, 0] [[], [6]]
  ⟨h.1, h.2.1⟩

/-! ## Pool exhaustion -/

section Exhaustion
variable {W V : Type}

/-- C17. Pool exhaustion is terminal and atomic. When the cursor is past all
known segments and the pool is absent or is a file pool whose counter has
reached `PoolSize`, every `Write` returns `(0, ErrPoolExhausted)` and every
`Read` returns the same and leaves the buffer as it was; the stream (cursor,
segment list, pool and its counter) and the world are as before the call, so
that no handle and no file-system primitive was called. Every later call
therefore does the same: a sequence of calls leaves the stream as it was. For an
absent pool this holds for every type of pool. -/
theorem pool_exhaustion_terminal (fsw : FileSys W) (fsr : FileSys V)
    (mw : MultiWriter W FileWriterPool) (mr : MultiReader V FileReaderPool)
    (hwi : (mw.cws.length : Int) ≤ mw.index) (hri : (mr.crs.length : Int) ≤ mr.index)
    (hwp : mw.pool = none ∨ ∃ f, mw.pool = some f ∧ f.counter = f.PoolSize)
    (hrp : mr.pool = none ∨ ∃ f, mr.pool = some f ∧ f.counter = f.PoolSize)
    (fuel : Nat) (s : W) (t : V) :
    (∀ p, mw.Write (FileWriterPool.Pooler fsw) (fuel + 1) p s
      = .ok ((0, some .ErrPoolExhausted), mw, s)) ∧
    (∀ ps, MultiWriter.WriteAll (FileWriterPool.Pooler fsw) (fuel + 1) ps mw s = .ok (mw, s)) ∧
    (∀ q, mr.Read (FileReaderPool.Pooler fsr) (fuel + 1) q t
      = .ok ((q, 0, some .ErrPoolExhausted), mr, t)) ∧
    (∀ ks, MultiReader.ReadAll (FileReaderPool.Pooler fsr) (fuel + 1) ks mr t
      = .ok ([], mr, t)) ∧
    (∀ (P : Type) (I : WriterPooler W P) (m : MultiWriter W P),
      m.pool = none → (m.cws.length : Int) ≤ m.index →
      ∀ p, m.Write I (fuel + 1) p s = .ok ((0, some .ErrPoolExhausted), m, s)) ∧
    (∀ (Q : Type) (I : ReaderPooler V Q) (m : MultiReader V Q),
      m.pool = none → (m.crs.length : Int) ≤ m.index →
      ∀ q, m.Read I (fuel + 1) q t = .ok ((q, 0, some .ErrPoolExhausted), m, t)) := by
  have hw : ∀ p, mw.Write (FileWriterPool.Pooler fsw) (fuel + 1) p s
      = .ok ((0, some .ErrPoolExhausted), mw, s) := by
    intro p
    rw [MultiWriter.Write, MultiWriter.acquire_exhausted_writer _ mw s _
      (MultiWriter.addFromPool_at_maximum_writer fsw mw s hwp) hwi]
  have hr : ∀ q, mr.Read (FileReaderPool.Pooler fsr) (fuel + 1) q t
      = .ok ((q, 0, some .ErrPoolExhausted), mr, t) := by
    intro q
    rw [MultiReader.Read, MultiReader.acquire_exhausted_reader _ mr t _
      (MultiReader.addFromPool_at_maximum_reader fsr mr t hrp) hri]
  refine ⟨hw, MultiWriter.WriteAll_stuck _ _ mw s _ hw, hr,
    MultiReader.ReadAll_stuck _ _ mr t _ hr, ?_, ?_⟩
  · intro P I m hp hi p
    rw [MultiWriter.Write, MultiWriter.acquire_exhausted_writer I m s _
      (MultiWriter.addFromPool_absent_writer I m s hp) hi]
  · intro Q I m hp hi q
    rw [MultiReader.Read, MultiReader.acquire_exhausted_reader I m t _
      (MultiReader.addFromPool_absent_reader I m t hp) hi]

end Exhaustion

/-- Witness of C17 on the recording file system: a write stream whose pool of
150 files has handed out all of them, and a read stream without a pool, both
with the cursor past their segments; the record of calls stays empty. -/
theorem pool_exhaustion_terminal_witness :
    (∀ p, MultiWriter.Write (FileWriterPool.Pooler (logFs false 0)) (0 + 1)
        { index := 0, cws := [], pool := some { wpool150 with counter := 150 } } p []
      = .ok ((0, some .ErrPoolExhausted),
          { index := 0, cws := [], pool := some { wpool150 with counter := 150 } }, [])) ∧
    (∀ ks, MultiReader.ReadAll (FileReaderPool.Pooler (logFs false 0)) (0 + 1) ks
        { index := 0, crs := [], pool := none } []
      = .ok ([], { index := 0, crs := [], pool := none }, [])) :=
  have h := pool_exhaustion_terminal (logFs false 0) (logFs false 0)
    { index := 0, cws := [], pool := some { wpool150 with counter := 150 } }
    { index := 0, crs := [], pool := none } (by decide) (by decide)
    (Or.inr ⟨_, rfl, rfl⟩) (Or.inl rfl) 0 [] []
  ⟨h.1, h.2.2.2.1⟩

/-! ## The counter of a file pool -/

section Counter
variable {W : Type}

/-- A successful `NewConstrainedReader`: the counter is one more, the file named
by `GetFileName (counter - 1)` was opened after the previous file was closed,
and it is the active file and the handle of the segment. -/
theorem FileReaderPool.acquire_ok_reader (fs : FileSys W) (f : FileReaderPool) (s : W)
    (c : ConstrainedReader W) (h : (f.NewConstrainedReader fs s).1 = .ok c) :
    (f.NewConstrainedReader fs s).2.1.counter = f.counter + 1 ∧
    ∃ fpath file,
      (f.NewConstrainedReader fs s).2.1.GetFileName fs
        ((f.NewConstrainedReader fs s).2.1.counter - 1) = .ok fpath ∧
      (fs.Open fpath (closeActive fs f.activefile s)).1 = .ok file ∧
      (f.NewConstrainedReader fs s).2.1.activefile = some file ∧
      c.r = ⟨fs.ReadFile file⟩ ∧ c.bytesread = 0 := by
  revert h
  simp only [FileReaderPool.NewConstrainedReader]
  split
  · simp
  · split
    · simp
    · rename_i x fpath hname
      split
      · simp
      · rename_i y file s2 hopen
        split
        · simp
        · intro h
          simp only [Except.ok.injEq] at h
          subst h
          refine ⟨rfl, fpath, file, ?_, by rw [hopen], rfl, rfl, rfl⟩
          simp only [FileReaderPool.GetFileName] at hname ⊢
          exact hname

theorem FileWriterPool.acquire_ok_writer (fs : FileSys W) (f : FileWriterPool) (s : W)
    (c : ConstrainedWriter W) (h : (f.NewConstrainedWriter fs s).1 = .ok c) :
    (f.NewConstrainedWriter fs s).2.1.counter = f.counter + 1 ∧
    ∃ fpath file s1,
      (f.NewConstrainedWriter fs s).2.1.GetFileName fs
        ((f.NewConstrainedWriter fs s).2.1.counter - 1) = .ok fpath ∧
      s1 = (if f.counter + 1 = 1 then (fs.MkdirAll f.Path s).2 else s) ∧
      (fs.OpenFile fpath (closeActive fs f.activefile s1)).1 = .ok file ∧
      (f.NewConstrainedWriter fs s).2.1.activefile = some file ∧
      c.w = ⟨fs.WriteFile file⟩ ∧ c.capacity = f.FileCapacity ∧ c.byteswritten = 0 := by
  revert h
  simp only [FileWriterPool.NewConstrainedWriter]
  split
  · simp
  · have hs1 : (if f.counter + 1 = (1 : Int) then fs.MkdirAll f.Path s else (none, s)).2
        = (if f.counter + 1 = 1 then (fs.MkdirAll f.Path s).2 else s) := by
      split <;> rfl
    revert hs1
    generalize (if f.counter + 1 = (1 : Int) then fs.MkdirAll f.Path s else (none, s)) = made
    obtain ⟨merr, s1⟩ := made
    intro hs1
    simp only at hs1
    cases merr with
    | some err => simp
    | none =>
      simp only
      split
      · simp
      · rename_i x fpath hname
        split
        · simp
        · rename_i y file s2 hopen
          intro h
          simp only [Except.ok.injEq] at h
          subst h
          refine ⟨rfl, fpath, file, s1, ?_, hs1, by rw [hopen], rfl, rfl, rfl, rfl⟩
          simp only [FileWriterPool.GetFileName] at hname ⊢
          exact hname

/-- The counter stays inside `[0, PoolSize]` along `NewConstrainedReader`, and
`PoolSize` stays as it is. -/
theorem FileReaderPool.acquire_counter_reader (fs : FileSys W) (f : FileReaderPool) (s : W)
    (h : 0 ≤ f.counter ∧ f.counter ≤ f.PoolSize) :
    0 ≤ (f.NewConstrainedReader fs s).2.1.counter ∧
    (f.NewConstrainedReader fs s).2.1.counter ≤ (f.NewConstrainedReader fs s).2.1.PoolSize ∧
    (f.NewConstrainedReader fs s).2.1.PoolSize = f.PoolSize := by
  obtain ⟨h0, h1⟩ := h
  simp only [FileReaderPool.NewConstrainedReader]
  split
  · exact ⟨by simp only; omega, by simp only; omega, rfl⟩
  · split
    · exact ⟨by simp only; omega, by simp only; omega, rfl⟩
    · split
      · exact ⟨by simp only; omega, by simp only; omega, rfl⟩
      · split
        · exact ⟨by simp only; omega, by simp only; omega, rfl⟩
        · exact ⟨by simp only; omega, by simp only; omega, rfl⟩

theorem FileWriterPool.acquire_counter_writer (fs : FileSys W) (f : FileWriterPool) (s : W)
    (h : 0 ≤ f.counter ∧ f.counter ≤ f.PoolSize) :
    0 ≤ (f.NewConstrainedWriter fs s).2.1.counter ∧
    (f.NewConstrainedWriter fs s).2.1.counter ≤ (f.NewConstrainedWriter fs s).2.1.PoolSize ∧
    (f.NewConstrainedWriter fs s).2.1.PoolSize = f.PoolSize := by
  obtain ⟨h0, h1⟩ := h
  simp only [FileWriterPool.NewConstrainedWriter]
  split
  · exact ⟨by simp only; omega, by simp only; omega, rfl⟩
  · split
    · exact ⟨by simp only; omega, by simp only; omega, rfl⟩
    · split
      · exact ⟨by simp only; omega, by simp only; omega, rfl⟩
      · split
        · exact ⟨by simp only; omega, by simp only; omega, rfl⟩
        · exact ⟨by simp only; omega, by simp only; omega, rfl⟩

theorem FileReaderPool.calls_counter_reader (fs : FileSys W) :
    ∀ (cs : List PoolCall) (f : FileReaderPool) (s : W),
      0 ≤ f.counter ∧ f.counter ≤ f.PoolSize →
      0 ≤ (f.calls fs cs s).1.counter ∧
      (f.calls fs cs s).1.counter ≤ (f.calls fs cs s).1.PoolSize ∧
      (f.calls fs cs s).1.PoolSize = f.PoolSize := by
  intro cs
  induction cs with
  | nil => intro f s h; exact ⟨h.1, h.2, rfl⟩
  | cons c cs ih =>
    intro f s h
    cases c with
    | acquire =>
      obtain ⟨a, b, e⟩ := FileReaderPool.acquire_counter_reader fs f s h
      obtain ⟨a2, b2, e2⟩ := ih _ (f.NewConstrainedReader fs s).2.2 ⟨a, b⟩
      exact ⟨a2, b2, by rw [← e]; exact e2⟩
    | close =>
      have hc : (f.Close fs s).2.1 = f := by
        simp only [FileReaderPool.Close]
        split <;> rfl
      have := ih (f.Close fs s).2.1 (f.Close fs s).2.2 (by rw [hc]; exact h)
      rw [hc] at this
      simp only [FileReaderPool.calls]
      rw [hc]
      exact this

theorem FileWriterPool.calls_counter_writer (fs : FileSys W) :
    ∀ (cs : List PoolCall) (f : FileWriterPool) (s : W),
      0 ≤ f.counter ∧ f.counter ≤ f.PoolSize →
      0 ≤ (f.calls fs cs s).1.counter ∧
      (f.calls fs cs s).1.counter ≤ (f.calls fs cs s).1.PoolSize ∧
      (f.calls fs cs s).1.PoolSize = f.PoolSize := by
  intro cs
  induction cs with
  | nil => intro f s h; exact ⟨h.1, h.2, rfl⟩
  | cons c cs ih =>
    intro f s h
    cases c with
    | acquire =>
      obtain ⟨a, b, e⟩ := FileWriterPool.acquire_counter_writer fs f s h
      obtain ⟨a2, b2, e2⟩ := ih _ (f.NewConstrainedWriter fs s).2.2 ⟨a, b⟩
      exact ⟨a2, b2, by rw [← e]; exact e2⟩
    | close =>
      have hc : (f.Close fs s).2.1 = f := by
        simp only [FileWriterPool.Close]
        split <;> rfl
      have := ih (f.Close fs s).2.1 (f.Close fs s).2.2 (by rw [hc]; exact h)
      rw [hc] at this
      simp only [FileWriterPool.calls]
      rw [hc]
      exact this

end Counter

/-- C18, counterexample. The constructors accept a negative pool size: the pool
they return has counter 0 above its `PoolSize`, and it stays so after a call. -/
theorem negative_pool_size_breaks_counter_bound :
    NewFileReaderPool (logFs false 0) "dir" "base" "ext" "vol" (-5)
      = .ok { Path := "dir", NameComponent := "base", Extension := "ext",
              ShortExtension := "vol", counter := 0, PoolSize := -5, FileCapacity := 0,
              digits := -9223372036854775807, activefile := none } ∧
    NewFileWriterPool (logFs false 0) "dir" "base" "ext" "vol" (-5) 1024
      = .ok { Path := "dir", NameComponent := "base", Extension := "ext",
              ShortExtension := "vol", counter := 0, PoolSize := -5, FileCapacity := 1024,
              digits := -9223372036854775807, activefile := none } ∧
    ¬ ((0 : Int) ≤ -5) ∧
    (({ Path := "dir", NameComponent := "base", Extension := "ext", ShortExtension := "vol",
        counter := 0, PoolSize := -5, FileCapacity := 0, digits := -9223372036854775807,
        activefile := none } : FileReaderPool).calls (logFs false 0) [.acquire] []).1.counter
      = 0 ∧
    ¬ (∀ (f : FileReaderPool) (path namecomponent extension shortextension : String)
        (poolsize : Int),
        NewFileReaderPool (logFs false 0) path namecomponent extension shortextension poolsize
          = .ok f → 0 ≤ f.counter ∧ f.counter ≤ f.PoolSize) := by
  have h1 : NewFileReaderPool (logFs false 0) "dir" "base" "ext" "vol" (-5)
      = .ok (FileReaderPool.mk "dir" "base" "ext" "vol" 0 (-5) 0 (-9223372036854775807) none) := rfl
  refine ⟨h1, rfl, by decide, rfl, ?_⟩
  intro h
  have := (h _ _ _ _ _ _ h1).2
  revert this
  decide

section CounterClaim
variable {W : Type}

/-- C18, amended. For the pools the constructors return for a positive pool
size, the counter satisfies `0 ≤ counter ≤ PoolSize` after every sequence of
`NewConstrainedReader` / `NewConstrainedWriter` and `Close` calls, whatever the
file-system primitives return, and `PoolSize` stays the size given. A successful
acquisition, on any pool, increases the counter by exactly one and opens the
file named by `GetFileName (counter - 1)`, which becomes the active file and
the handle of the new segment. -/
theorem pool_counter_invariant (fs : FileSys W)
    (path namecomponent extension shortextension : String) (poolsize : Int) (capacity : Nat)
    (f : FileReaderPool) (g : FileWriterPool) (hpos : 0 < poolsize)
    (hf : NewFileReaderPool fs path namecomponent extension shortextension poolsize = .ok f)
    (hg : NewFileWriterPool fs path namecomponent extension shortextension poolsize capacity
      = .ok g) :
    (∀ cs s, 0 ≤ (f.calls fs cs s).1.counter ∧
      (f.calls fs cs s).1.counter ≤ (f.calls fs cs s).1.PoolSize ∧
      (f.calls fs cs s).1.PoolSize = poolsize) ∧
    (∀ cs s, 0 ≤ (g.calls fs cs s).1.counter ∧
      (g.calls fs cs s).1.counter ≤ (g.calls fs cs s).1.PoolSize ∧
      (g.calls fs cs s).1.PoolSize = poolsize) ∧
    (∀ (f1 : FileReaderPool) (s : W) (c : ConstrainedReader W),
      (f1.NewConstrainedReader fs s).1 = .ok c →
      (f1.NewConstrainedReader fs s).2.1.counter = f1.counter + 1 ∧
      ∃ fpath file,
        (f1.NewConstrainedReader fs s).2.1.GetFileName fs
          ((f1.NewConstrainedReader fs s).2.1.counter - 1) = .ok fpath ∧
        (fs.Open fpath (closeActive fs f1.activefile s)).1 = .ok file ∧
        (f1.NewConstrainedReader fs s).2.1.activefile = some file ∧
        c.r = ⟨fs.ReadFile file⟩ ∧ c.bytesread = 0) ∧
    (∀ (g1 : FileWriterPool) (s : W) (c : ConstrainedWriter W),
      (g1.NewConstrainedWriter fs s).1 = .ok c →
      (g1.NewConstrainedWriter fs s).2.1.counter = g1.counter + 1 ∧
      ∃ fpath file s1,
        (g1.NewConstrainedWriter fs s).2.1.GetFileName fs
          ((g1.NewConstrainedWriter fs s).2.1.counter - 1) = .ok fpath ∧
        s1 = (if g1.counter + 1 = 1 then (fs.MkdirAll g1.Path s).2 else s) ∧
        (fs.OpenFile fpath (closeActive fs g1.activefile s1)).1 = .ok file ∧
        (g1.NewConstrainedWriter fs s).2.1.activefile = some file ∧
        c.w = ⟨fs.WriteFile file⟩ ∧ c.capacity = g1.FileCapacity ∧ c.byteswritten = 0) := by
  have hf0 : f.counter = 0 ∧ f.PoolSize = poolsize := by
    simp only [NewFileReaderPool] at hf
    split at hf
    · simp at hf
    · simp only [Except.ok.injEq] at hf
      subst hf
      exact ⟨rfl, rfl⟩
  have hg0 : g.counter = 0 ∧ g.PoolSize = poolsize := by
    simp only [NewFileWriterPool] at hg
    split at hg
    · simp at hg
    · simp only [Except.ok.injEq] at hg
      subst hg
      exact ⟨rfl, rfl⟩
  refine ⟨?_, ?_, FileReaderPool.acquire_ok_reader fs, FileWriterPool.acquire_ok_writer fs⟩
  · intro cs s
    obtain ⟨a, b, e⟩ := FileReaderPool.calls_counter_reader fs cs f s
      ⟨by rw [hf0.1], by rw [hf0.1, hf0.2]; omega⟩
    exact ⟨a, b, by rw [e, hf0.2]⟩
  · intro cs s
    obtain ⟨a, b, e⟩ := FileWriterPool.calls_counter_writer fs cs g s
      ⟨by rw [hg0.1], by rw [hg0.1, hg0.2]; omega⟩
    exact ⟨a, b, by rw [e, hg0.2]⟩

end CounterClaim

/-- Witness of C18 (amended): the pools of the naming example on the recording
file system and on the file system `handleFs`. -/
theorem pool_counter_invariant_witness :
    (∀ cs s, 0 ≤ (pool150.calls (logFs true 0) cs s).1.counter ∧
      (pool150.calls (logFs true 0) cs s).1.counter
        ≤ (pool150.calls (logFs true 0) cs s).1.PoolSize ∧
      (pool150.calls (logFs true 0) cs s).1.PoolSize = 150) ∧
    (∀ cs s, 0 ≤ (wpool150.calls (logFs true 0) cs s).1.counter ∧
      (wpool150.calls (logFs true 0) cs s).1.counter
        ≤ (wpool150.calls (logFs true 0) cs s).1.PoolSize ∧
      (wpool150.calls (logFs true 0) cs s).1.PoolSize = 150) :=
  have h := pool_counter_invariant (logFs true 0) "dir" "base" "ext" "vol" 150 1024
    pool150 wpool150 (by decide) rfl rfl
  ⟨h.1, h.2.1⟩

/-! ## The branch that should never occur -/

section NeverOccurs
variable {W P V Q : Type}

/-- C19. On every state reachable from a new stream the cursor satisfies
`0 ≤ index ≤ len`. On every state whose cursor is in this range the second check
`index >= len` of the prelude is never true; when the prelude goes on, the
cursor is on a segment (`0 ≤ index < len`), and the state with which `Write` /
`Read` calls itself has its cursor in range again. The indexing of the segment
list at the cursor is in bounds in every call. No assumption is made on the
handles or on the pool. -/
theorem never_occurs_branch_unreachable (IW : WriterPooler W P) (IR : ReaderPooler V Q)
    (mw : MultiWriter W P) (mr : MultiReader V Q)
    (hw : MultiWriter.Reachable IW mw) (hr : MultiReader.Reachable IR mr) :
    (mw.InRange ∧ mr.InRange) ∧
    (∀ (m : MultiWriter W P) (s : W), m.InRange →
      m.secondCheck IW s = false ∧
      ∀ m1 s1, m.acquire IW s = .inr (m1, s1) →
        0 ≤ m1.index ∧ m1.index < (m1.cws.length : Int) ∧
        ∀ n, ((m1.addWritten n).advance).InRange) ∧
    (∀ (m : MultiReader V Q) (t : V), m.InRange →
      m.secondCheck IR t = false ∧
      ∀ m1 t1, m.acquire IR t = .inr (m1, t1) →
        0 ≤ m1.index ∧ m1.index < (m1.crs.length : Int) ∧
        ∀ n, ((m1.addRead n).advance).InRange) ∧
    (∀ fuel p s, mw.Write IW fuel p s ≠ .error .indexOutOfRange) ∧
    (∀ fuel q t, mr.Read IR fuel q t ≠ .error .indexOutOfRange) := by
  refine ⟨⟨hw.inRange_writer, hr.inRange_reader⟩, ?_, ?_, ?_, ?_⟩
  · intro m s hm
    exact ⟨MultiWriter.secondCheck_false_writer m s hm, fun m1 s1 h =>
      MultiWriter.acquire_inRange_writer m s m1 s1 h⟩
  · intro m t hm
    exact ⟨MultiReader.secondCheck_false_reader m t hm, fun m1 t1 h =>
      MultiReader.acquire_inRange_reader m t m1 t1 h⟩
  · intro fuel p s
    exact MultiWriter.Write_index_in_bounds fuel mw p s
  · intro fuel q t
    exact MultiReader.Read_index_in_bounds fuel mr q t

end NeverOccurs

/-- Outside the range the second check can be true: with the cursor at 2 and
one segment, the pool supplies a second segment and the cursor is still not on
a segment. -/
theorem secondCheck_outside_range :
    MultiWriter.secondCheck (memWriterPool 4 3)
      { index := 2, cws := [{ w := memWriter 0, capacity := 4, byteswritten := 0 }],
        pool := some 1 } [[]] = true ∧
    MultiWriter.secondCheck (memWriterPool 4 3) demoWritten [[1, 2, 3, 4], [5, 6]] = false :=
  ⟨rfl, rfl⟩

/-- Witness of C19: the streams of the examples. -/
theorem never_occurs_branch_unreachable_witness :
    (demoWritten.InRange ∧ demoRead.InRange) ∧
    (∀ fuel p s, demoWritten.Write (memWriterPool 4 3) fuel p s ≠ .error .indexOutOfRange) ∧
    (∀ fuel q t, demoRead.Read (memReaderPool 3) fuel q t ≠ .error .indexOutOfRange) :=
  have h := never_occurs_branch_unreachable (memWriterPool 4 3) (memReaderPool 3)
    demoWritten demoRead demoWritten_reachable demoRead_reachable
  ⟨h.1, h.2.2.2.1, h.2.2.2.2⟩

/-! ## Distinct segment file names -/

theorem digitChar_value (d : Nat) (h : d < 10) :
    (Nat.digitChar d).isDigit = true ∧ (Nat.digitChar d).toNat - 48 = d := by
  interval_cases d <;> exact ⟨rfl, rfl⟩

theorem foldr_decimalRev :
    ∀ (fuel n : Nat), n < fuel →
      List.foldr (fun ch acc => if ch.isDigit then 10 * acc + (ch.toNat - 48) else acc) 0
        (decimalRev fuel n) = n := by
  intro fuel
  induction fuel with
  | zero => intro n h; omega
  | succ fuel ih =>
    intro n h
    obtain ⟨h1, h2⟩ := digitChar_value (n % 10) (Nat.mod_lt _ (by norm_num))
    simp only [decimalRev, List.foldr_cons, h1, if_true, h2]
    clear h1 h2
    have hdm := Nat.div_add_mod n 10
    split
    · rename_i h0
      simp only [List.foldr_nil]
      rw [h0] at hdm
      exact hdm
    · rename_i h0
      rw [ih (n / 10) (by omega)]
      exact hdm

theorem digitsValue_decimal (n : Nat) : digitsValue (decimal n) = n := by
  simp only [digitsValue, decimal, List.foldl_reverse]
  exact foldr_decimalRev (n + 1) n (by omega)

theorem foldl_digits_zeros (k : Nat) :
    List.foldl (fun acc ch => if ch.isDigit then 10 * acc + (ch.toNat - 48) else acc) 0
      (List.replicate k '0') = 0 := by
  induction k with
  | zero => rfl
  | succ k ih =>
    simp only [List.replicate_succ, List.foldl_cons]
    exact ih

theorem foldl_digits_blanks (k a : Nat) :
    List.foldl (fun acc ch => if ch.isDigit then 10 * acc + (ch.toNat - 48) else acc) a
      (List.replicate k ' ') = a := by
  induction k with
  | zero => rfl
  | succ k ih =>
    simp only [List.replicate_succ, List.foldl_cons]
    exact ih

/-- The padded number in a segment name spells the index, whatever the width. -/
theorem digitsValue_sprintfPad (digits : Int) (i : Nat) :
    digitsValue (sprintfPad digits i) = i := by
  have hd := digitsValue_decimal i
  simp only [digitsValue] at hd
  simp only [sprintfPad]
  split
  · simp only [digitsValue, List.foldl_append, foldl_digits_zeros]
    exact hd
  · simp only [digitsValue, List.foldl_append, hd, foldl_digits_blanks]

theorem string_append_cancel_left (a b c : String) (h : a ++ b = a ++ c) : b = c := by
  have := congrArg String.data h
  simp only [String.data_append] at this
  exact String.ext (List.append_cancel_left this)

/-- Two indices above zero have different names. -/
theorem segmentName_injective (N E S : String) (digits : Int) (i j : Int) (hi : 0 < i)
    (hj : 0 < j) (h : segmentName N E S digits i = segmentName N E S digits j) : i = j := by
  simp only [segmentName, if_neg (ne_of_gt hi), if_neg (ne_of_gt hj)] at h
  have h2 := string_append_cancel_left _ _ _ h
  have h3 : sprintfPad digits i.toNat = sprintfPad digits j.toNat := by
    have := congrArg String.data h2
    simpa using this
  have h4 := congrArg digitsValue h3
  rw [digitsValue_sprintfPad, digitsValue_sprintfPad] at h4
  omega

/-- The name of index 0 is the name of an index `j > 0` exactly when the
extension is the short extension followed by the padded `j`. -/
theorem segmentName_zero_eq (N E S : String) (digits : Int) (j : Int) (hj : 0 < j) :
    segmentName N E S digits 0 = segmentName N E S digits j ↔
      E = S ++ String.mk (sprintfPad digits j.toNat) := by
  simp only [segmentName, if_true, if_neg (ne_of_gt hj)]
  rw [String.append_assoc (N ++ ".") S]
  constructor
  · intro h
    exact string_append_cancel_left _ _ _ h
  · intro h
    rw [h]

/-! ## File names after `filepath.Join` -/

theorem filepath_examples :
    filepathJoin "dir" "base.ext" = "dir/base.ext" ∧
    filepathJoin "" "base.ext" = "base.ext" ∧
    filepathJoin "dir/" "base.ext" = "dir/base.ext" ∧
    filepathJoin "a/../b" "base.x/../base.vol001" = "b/base.vol001" ∧
    filepathJoin "/" ".." = "/" ∧
    filepathJoin ".." "../x" = "../../x" ∧
    filepathJoin "" "" = "" ∧
    filepathJoin "." "" = "." ∧
    filepathJoin "/a//b/./c/.." "" = "/a/b" := by
  refine ⟨?_, ?_, ?_, ?_, ?_, ?_, ?_, ?_, ?_⟩ <;> decide

/-! ### The last element of a cleaned path -/

theorem pathElements_ne_nil (p : List Char) : pathElements p ≠ [] := by
  cases p with
  | nil => simp [pathElements]
  | cons c cs =>
    simp only [pathElements]
    split
    · simp
    · split <;> simp

theorem pathElements_no_sep (x : List Char) (h : '/' ∉ x) : pathElements x = [x] := by
  induction x with
  | nil => rfl
  | cons c cs ih =>
    simp only [List.mem_cons, not_or] at h
    simp only [pathElements, if_neg (Ne.symm h.1), ih h.2]

theorem pathElements_cons_sep (cs : List Char) :
    pathElements ('/' :: cs) = [] :: pathElements cs := by
  simp [pathElements]

theorem pathElements_cons_ne (c : Char) (cs e : List Char) (es : List (List Char))
    (hc : c ≠ '/') (h : pathElements cs = e :: es) :
    pathElements (c :: cs) = (c :: e) :: es := by
  simp [pathElements, hc, h]

theorem pathElements_append_sep (a b : List Char) :
    pathElements (a ++ '/' :: b) = pathElements a ++ pathElements b := by
  induction a with
  | nil => simp [pathElements]
  | cons c cs ih =>
    rw [List.cons_append]
    by_cases hc : c = '/'
    · subst hc
      rw [pathElements_cons_sep, pathElements_cons_sep, ih]
      rfl
    · cases h : pathElements cs with
      | nil => exact absurd h (pathElements_ne_nil cs)
      | cons e es =>
        rw [pathElements_cons_ne c cs e es hc h,
          pathElements_cons_ne c (cs ++ '/' :: b) e (es ++ pathElements b) hc (by rw [ih, h]; rfl)]
        rfl

theorem baseName_cons_sep (cs : List Char) : baseName ('/' :: cs) = baseName cs := by
  simp only [baseName, pathElements_cons_sep]
  cases h : pathElements cs with
  | nil => exact absurd h (pathElements_ne_nil cs)
  | cons e es => simp [List.getLastD_cons]

theorem pathElements_append_no_sep (a x : List Char) (h : '/' ∉ x) :
    pathElements (a ++ x) = (pathElements a).dropLast ++ [baseName a ++ x] := by
  induction a with
  | nil => simp [pathElements_no_sep x h, pathElements, baseName]
  | cons c cs ih =>
    rw [List.cons_append]
    cases hcs : pathElements cs with
    | nil => exact absurd hcs (pathElements_ne_nil cs)
    | cons e es =>
      have hb : baseName cs = (e :: es).getLastD [] := by rw [baseName, hcs]
      rw [hcs, hb] at ih
      by_cases hc : c = '/'
      · subst hc
        rw [pathElements_cons_sep, pathElements_cons_sep, ih, baseName_cons_sep, hb, hcs]
        cases es with
        | nil => simp
        | cons e2 es2 => simp
      · have hbc : baseName (c :: cs) = ((c :: e) :: es).getLastD [] := by
          rw [baseName, pathElements_cons_ne c cs e es hc hcs]
        cases es with
        | nil =>
          simp only [List.dropLast_single, List.nil_append, List.getLastD_cons,
            List.getLast?_nil, Option.getD_none] at ih hbc ⊢
          rw [pathElements_cons_ne c (cs ++ x) (e ++ x) [] hc ih,
            pathElements_cons_ne c cs e [] hc hcs, hbc]
          simp
        | cons e2 es2 =>
          have ih2 : pathElements (cs ++ x) =
              e :: ((e2 :: es2).dropLast ++ [(e :: e2 :: es2).getLastD [] ++ x]) := by
            rw [ih]; simp
          rw [pathElements_cons_ne c (cs ++ x) e _ hc ih2,
            pathElements_cons_ne c cs e (e2 :: es2) hc hcs, hbc]
          simp [List.getLastD_cons]

theorem pathElements_mem_no_sep (p : List Char) : ∀ e ∈ pathElements p, '/' ∉ e := by
  induction p with
  | nil => simp [pathElements]
  | cons c cs ih =>
    by_cases hc : c = '/'
    · subst hc
      rw [pathElements_cons_sep]
      intro e he
      rcases List.mem_cons.1 he with rfl | he
      · simp
      · exact ih e he
    · cases hcs : pathElements cs with
      | nil => exact absurd hcs (pathElements_ne_nil cs)
      | cons e0 es =>
        rw [pathElements_cons_ne c cs e0 es hc hcs]
        rw [hcs] at ih
        intro e he
        rcases List.mem_cons.1 he with rfl | he
        · intro hmem
          rcases List.mem_cons.1 hmem with h | h
          · exact hc h.symm
          · exact ih e0 (List.mem_cons_self _ _) h
        · exact ih e (List.mem_cons_of_mem _ he)

/-- The elements `Clean` keeps are elements of the path: they hold no
separator. -/
theorem cleanElement_no_sep (rooted : Bool) (out : List (List Char)) (e : List Char)
    (hout : ∀ x ∈ out, '/' ∉ x) (he : '/' ∉ e) :
    ∀ x ∈ cleanElement rooted out e, '/' ∉ x := by
  unfold cleanElement
  split
  · exact hout
  · split
    · cases out with
      | nil =>
        simp only
        split
        · simp
        · intro x hx
          simp only [List.mem_singleton] at hx
          subst hx
          exact he
      | cons top rest =>
        simp only
        split
        · intro x hx
          rcases List.mem_cons.1 hx with rfl | hx
          · exact he
          · exact hout x hx
        · intro x hx
          exact hout x (List.mem_cons_of_mem _ hx)
    · intro x hx
      rcases List.mem_cons.1 hx with rfl | hx
      · exact he
      · exact hout x hx

theorem foldl_cleanElement_no_sep (rooted : Bool) :
    ∀ (es : List (List Char)) (out : List (List Char)),
      (∀ x ∈ out, '/' ∉ x) → (∀ e ∈ es, '/' ∉ e) →
      ∀ x ∈ es.foldl (cleanElement rooted) out, '/' ∉ x := by
  intro es
  induction es with
  | nil => intro out hout _; exact hout
  | cons e es ih =>
    intro out hout hes
    simp only [List.foldl_cons]
    exact ih _ (cleanElement_no_sep rooted out e hout (hes e (List.mem_cons_self _ _)))
      (fun x hx => hes x (List.mem_cons_of_mem _ hx))

theorem joinElements_append_single (l : List (List Char)) (x : List Char) :
    joinElements (l ++ [x]) = if l = [] then x else joinElements l ++ '/' :: x := by
  induction l with
  | nil => simp [joinElements]
  | cons e es ih =>
    cases es with
    | nil => simp [joinElements]
    | cons e2 es2 =>
      simp only [List.cons_append, joinElements, reduceCtorEq, if_false] at ih ⊢
      simp only [List.append_eq] at ih ⊢
      rw [ih]
      simp

theorem baseName_no_sep (x : List Char) (h : '/' ∉ x) : baseName x = x := by
  simp [baseName, pathElements_no_sep x h]

theorem baseName_append_sep (a x : List Char) (h : '/' ∉ x) :
    baseName (a ++ '/' :: x) = x := by
  simp only [baseName, pathElements_append_sep, pathElements_no_sep x h]
  simp

theorem baseName_join_last (l : List (List Char)) (x : List Char) (h : '/' ∉ x) :
    baseName (joinElements (l ++ [x])) = x := by
  rw [joinElements_append_single]
  split
  · exact baseName_no_sep x h
  · exact baseName_append_sep _ x h

theorem separators_no_sep (x : List Char) (h : '/' ∉ x) : separators x = 0 := by
  simp only [separators]
  exact List.count_eq_zero.2 h

theorem separators_join :
    ∀ (l : List (List Char)), (∀ e ∈ l, '/' ∉ e) → separators (joinElements l) = l.length - 1 := by
  intro l
  induction l with
  | nil => intro _; rfl
  | cons e es ih =>
    intro h
    cases es with
    | nil =>
      simp only [joinElements, List.length_singleton]
      exact separators_no_sep e (h e (List.mem_cons_self _ _))
    | cons e2 es2 =>
      have h1 := separators_no_sep e (h e (List.mem_cons_self _ _))
      have h2 := ih (fun x hx => h x (List.mem_cons_of_mem _ hx))
      simp only [separators, joinElements, List.count_append, List.count_cons_self,
        List.length_cons] at h1 h2 ⊢
      omega

/-- A path whose last kept element is `x` has `x` as its last element. -/
theorem baseName_render_cons (rooted : Bool) (out : List (List Char)) (x : List Char)
    (h : '/' ∉ x) (hx : x ≠ []) : baseName (renderPath rooted (x :: out)) = x := by
  have hb := baseName_join_last out.reverse x h
  have hne : joinElements (out.reverse ++ [x]) ≠ [] := by
    intro h0
    rw [h0] at hb
    simp only [baseName, pathElements] at hb
    exact hx hb.symm
  simp only [renderPath, List.reverse_cons]
  split
  · rw [baseName_cons_sep]; exact hb
  · exact hb

/-- The number of separators of a path written from its elements. -/
theorem separators_render (rooted : Bool) (out : List (List Char))
    (h : ∀ e ∈ out, '/' ∉ e) :
    separators (renderPath rooted out) = (out.length - 1) + (if rooted then 1 else 0) := by
  have hs := separators_join out.reverse (fun e he => h e (List.mem_reverse.1 he))
  simp only [List.length_reverse] at hs
  simp only [renderPath]
  split
  · simp only [separators, List.count_cons_self] at hs ⊢
    omega
  · split
    · rename_i h0
      rw [h0] at hs
      simp only [separators] at hs ⊢
      simp only [List.count_nil] at hs
      simp
      omega
    · simp only [add_zero]
      exact hs

/-! ### File names after `filepath.Join` -/

theorem decimalRev_chars :
    ∀ (fuel n : Nat), ∀ c ∈ decimalRev fuel n, ∃ d, d < 10 ∧ c = Nat.digitChar d := by
  intro fuel
  induction fuel with
  | zero => intro n c hc; simp [decimalRev] at hc
  | succ fuel ih =>
    intro n c hc
    simp only [decimalRev, List.mem_cons] at hc
    rcases hc with rfl | hc
    · exact ⟨n % 10, Nat.mod_lt _ (by norm_num), rfl⟩
    · split at hc
      · simp at hc
      · exact ih _ c hc

theorem digitChar_plain (d : Nat) (h : d < 10) :
    Nat.digitChar d ≠ '/' ∧ Nat.digitChar d ≠ '.' := by
  interval_cases d <;> exact ⟨by decide, by decide⟩

/-- The padded number of a segment name is not empty and holds neither a
separator nor a dot. -/
theorem sprintfPad_plain (digits : Int) (i : Nat) :
    sprintfPad digits i ≠ [] ∧ ∀ c ∈ sprintfPad digits i, c ≠ '/' ∧ c ≠ '.' := by
  have hdec : ∀ c ∈ decimal i, c ≠ '/' ∧ c ≠ '.' := by
    intro c hc
    simp only [decimal, List.mem_reverse] at hc
    obtain ⟨d, hd, rfl⟩ := decimalRev_chars _ _ c hc
    exact digitChar_plain d hd
  have hne : decimal i ≠ [] := by
    simp [decimal, decimalRev]
  constructor
  · simp only [sprintfPad]
    split <;> simp [hne]
  · intro c hc
    simp only [sprintfPad] at hc
    split at hc
    · rcases List.mem_append.1 hc with h | h
      · rw [List.mem_replicate] at h
        rw [h.2]
        exact ⟨by decide, by decide⟩
      · exact hdec c h
    · rcases List.mem_append.1 hc with h | h
      · exact hdec c h
      · rw [List.mem_replicate] at h
        rw [h.2]
        exact ⟨by decide, by decide⟩

/-- A path whose last element is an ordinary one keeps it when cleaned. -/
theorem filepathClean_last (q : List Char) (es : List (List Char)) (L : List Char)
    (hq : pathElements q = es ++ [L]) (h0 : L ≠ []) (h1 : L ≠ ['.']) (h2 : L ≠ ['.', '.']) :
    filepathClean q = renderPath (decide (q.head? = some '/'))
      (L :: es.foldl (cleanElement (decide (q.head? = some '/'))) []) := by
  simp only [filepathClean, hq, List.foldl_append, List.foldl_cons, List.foldl_nil]
  congr 1
  simp [cleanElement, h0, h1, h2]

/-- The last element of a cleaned path that ends in plain characters. -/
theorem baseName_clean_plain (Q pad : List Char) (hne : pad ≠ [])
    (hpad : ∀ c ∈ pad, c ≠ '/' ∧ c ≠ '.') :
    baseName (filepathClean (Q ++ pad)) = baseName Q ++ pad := by
  have hsep : '/' ∉ pad := fun h => (hpad _ h).1 rfl
  have hq := pathElements_append_no_sep Q pad hsep
  obtain ⟨c, hc⟩ := List.exists_mem_of_ne_nil pad hne
  have hcL : c ∈ baseName Q ++ pad := List.mem_append_right _ hc
  have hcdot : c ≠ '.' := (hpad c hc).2
  have hLsep : '/' ∉ baseName Q ++ pad := by
    apply pathElements_mem_no_sep (Q ++ pad)
    rw [hq]
    simp
  rw [filepathClean_last (Q ++ pad) _ _ hq]
  · exact baseName_render_cons _ _ _ hLsep (List.ne_nil_of_mem hcL)
  · exact List.ne_nil_of_mem hcL
  · intro h
    rw [h] at hcL
    simp only [List.mem_singleton] at hcL
    exact hcdot hcL
  · intro h
    rw [h] at hcL
    simp only [List.mem_cons, List.mem_singleton, List.not_mem_nil, or_false, or_self] at hcL
    exact hcdot hcL

theorem head?_append_ne_nil (Q X : List Char) (h : Q ≠ []) : (Q ++ X).head? = Q.head? := by
  cases Q with
  | nil => exact absurd rfl h
  | cons c cs => rfl

/-- Two paths that differ only after their last separator, the second ending in
an ordinary element, are cleaned to the same path only if they are the same. -/
theorem filepathClean_eq_tail (Q X Y : List Char) (hX : '/' ∉ X) (hY : '/' ∉ Y)
    (ht : baseName Q ≠ []) (hYn : ∃ c ∈ Y, c ≠ '.')
    (h : filepathClean (Q ++ X) = filepathClean (Q ++ Y)) : X = Y := by
  have hQ : Q ≠ [] := by
    intro h0
    rw [h0] at ht
    exact ht rfl
  obtain ⟨c, hcY, hcdot⟩ := hYn
  have hqX := pathElements_append_no_sep Q X hX
  have hqY := pathElements_append_no_sep Q Y hY
  have hcL : c ∈ baseName Q ++ Y := List.mem_append_right _ hcY
  have hL0 : baseName Q ++ Y ≠ [] := List.ne_nil_of_mem hcL
  have hL1 : baseName Q ++ Y ≠ ['.'] := by
    intro h1
    rw [h1] at hcL
    simp only [List.mem_singleton] at hcL
    exact hcdot hcL
  have hL2 : baseName Q ++ Y ≠ ['.', '.'] := by
    intro h1
    rw [h1] at hcL
    simp only [List.mem_cons, List.mem_singleton, List.not_mem_nil, or_false, or_self] at hcL
    exact hcdot hcL
  have hLsep : '/' ∉ baseName Q ++ Y := by
    apply pathElements_mem_no_sep (Q ++ Y)
    rw [hqY]
    simp
  have hes : ∀ e ∈ (pathElements Q).dropLast, '/' ∉ e := fun e he =>
    pathElements_mem_no_sep Q e (List.mem_of_mem_dropLast he)
  have hY2 := filepathClean_last (Q ++ Y) _ _ hqY hL0 hL1 hL2
  rw [head?_append_ne_nil Q Y hQ] at hY2
  generalize hr : decide (Q.head? = some '/') = r at hY2
  have hB := foldl_cleanElement_no_sep r (pathElements Q).dropLast [] (by simp) hes
  generalize hBdef : List.foldl (cleanElement r) [] (pathElements Q).dropLast = B at hY2 hB
  have hbaseY : baseName (filepathClean (Q ++ Y)) = baseName Q ++ Y := by
    rw [hY2]; exact baseName_render_cons _ _ _ hLsep hL0
  have hsepY : separators (filepathClean (Q ++ Y)) = B.length + (if r then 1 else 0) := by
    rw [hY2, separators_render r _ (by
      intro e he
      rcases List.mem_cons.1 he with rfl | he
      · exact hLsep
      · exact hB e he)]
    simp
  have hXc : filepathClean (Q ++ X) = renderPath r (cleanElement r B (baseName Q ++ X)) := by
    simp only [filepathClean, hqX, List.foldl_append, List.foldl_cons, List.foldl_nil,
      head?_append_ne_nil Q X hQ, hr, hBdef]
  rw [h] at hXc
  -- the last element of the first path is an ordinary one, or it is `.` or `..`
  by_cases hn : baseName Q ++ X = ['.'] ∨ baseName Q ++ X = ['.', '.']
  · exfalso
    have hdots : '/' ∉ (['.', '.'] : List Char) := by decide
    rcases hn with hn | hn
    · -- `.` is dropped
      rw [hn] at hXc
      have hce : cleanElement r B ['.'] = B := by simp [cleanElement]
      rw [hce] at hXc
      cases B with
      | nil =>
        rw [hXc] at hbaseY
        cases r
        · have : baseName (renderPath false []) = ['.'] := by decide
          rw [this] at hbaseY
          exact hL1 hbaseY.symm
        · have : baseName (renderPath true []) = [] := by decide
          rw [this] at hbaseY
          exact hL0 hbaseY.symm
      | cons b B2 =>
        rw [hXc, separators_render r _ hB] at hsepY
        simp only [List.length_cons] at hsepY
        omega
    · -- `..` removes an element, or is kept, or is dropped
      rw [hn] at hXc
      cases B with
      | nil =>
        cases r
        · have hce : cleanElement false [] ['.', '.'] = [['.', '.']] := by decide
          rw [hce] at hXc
          rw [hXc, baseName_render_cons false [] _ hdots (by decide)] at hbaseY
          exact hL2 hbaseY.symm
        · have hce : cleanElement true [] ['.', '.'] = [] := by decide
          rw [hce] at hXc
          rw [hXc] at hbaseY
          have : baseName (renderPath true []) = [] := by decide
          rw [this] at hbaseY
          exact hL0 hbaseY.symm
      | cons b B2 =>
        by_cases hb : b = ['.', '.']
        · have hce : cleanElement r (b :: B2) ['.', '.'] = ['.', '.'] :: b :: B2 := by
            simp [cleanElement, hb]
          rw [hce] at hXc
          rw [hXc, baseName_render_cons r _ _ hdots (by decide)] at hbaseY
          exact hL2 hbaseY.symm
        · have hce : cleanElement r (b :: B2) ['.', '.'] = B2 := by
            simp [cleanElement, hb]
          rw [hce] at hXc
          rw [hXc, separators_render r _ (fun e he => hB e (List.mem_cons_of_mem _ he))] at hsepY
          simp only [List.length_cons] at hsepY
          omega
  · simp only [not_or] at hn
    have hX0 : baseName Q ++ X ≠ [] := by
      intro h0
      exact ht (List.append_eq_nil.1 h0).1
    have hXsep : '/' ∉ baseName Q ++ X := by
      apply pathElements_mem_no_sep (Q ++ X)
      rw [hqX]
      simp
    have hce : cleanElement r B (baseName Q ++ X) = (baseName Q ++ X) :: B := by
      simp [cleanElement, hX0, hn.1, hn.2]
    rw [hce] at hXc
    rw [hXc, baseName_render_cons r _ _ hXsep hX0] at hbaseY
    exact List.append_cancel_left hbaseY

theorem segmentName_data_pos (N E S : String) (digits : Int) (i : Int) (hi : 0 < i) :
    (segmentName N E S digits i).data
      = (N.data ++ '.' :: S.data) ++ sprintfPad digits i.toNat := by
  simp [segmentName, ne_of_gt hi, String.data_append]

theorem segmentName_data_zero (N E S : String) (digits : Int) :
    (segmentName N E S digits 0).data = (N.data ++ ['.']) ++ E.data := by
  simp [segmentName, String.data_append]

/-- The path `filepath.Join` cleans, for a name that is not empty. -/
theorem filepathJoin_data (dir name : String) (h : name.data ≠ []) :
    (filepathJoin dir name).data
      = filepathClean ((if dir.data = [] then [] else dir.data ++ ['/']) ++ name.data) := by
  unfold filepathJoin
  split_ifs <;> simp_all

theorem baseName_append_dot (A : List Char) : baseName (A ++ ['.']) ≠ [] := by
  have := pathElements_append_no_sep A ['.'] (by decide)
  have hb : baseName (A ++ ['.']) = baseName A ++ ['.'] := by
    simp only [baseName, this]
    simp
  rw [hb]
  simp

/-- Two segments above index 0 have different paths, whatever the directory,
the name component, the extensions and the digit width. -/
theorem filepathJoin_positive_distinct (dir N E S : String) (digits : Int) (i j : Int)
    (hi : 0 < i) (hj : 0 < j)
    (h : filepathJoin dir (segmentName N E S digits i)
      = filepathJoin dir (segmentName N E S digits j)) : i = j := by
  have hpi := sprintfPad_plain digits i.toNat
  have hpj := sprintfPad_plain digits j.toNat
  have hni : (segmentName N E S digits i).data ≠ [] := by
    rw [segmentName_data_pos N E S digits i hi]
    simp [hpi.1]
  have hnj : (segmentName N E S digits j).data ≠ [] := by
    rw [segmentName_data_pos N E S digits j hj]
    simp [hpj.1]
  have h2 := congrArg String.data h
  rw [filepathJoin_data dir _ hni, filepathJoin_data dir _ hnj,
    segmentName_data_pos N E S digits i hi, segmentName_data_pos N E S digits j hj,
    (List.append_assoc _ (N.data ++ '.' :: S.data) (sprintfPad digits i.toNat)).symm,
    (List.append_assoc _ (N.data ++ '.' :: S.data) (sprintfPad digits j.toNat)).symm] at h2
  have h3 := congrArg baseName h2
  rw [baseName_clean_plain _ _ hpi.1 hpi.2, baseName_clean_plain _ _ hpj.1 hpj.2] at h3
  have h4 := congrArg digitsValue (List.append_cancel_left h3)
  rw [digitsValue_sprintfPad, digitsValue_sprintfPad] at h4
  omega

/-- The paths of segment 0 and of a segment `j > 0`, for extensions without a
separator: they are the same exactly when the extension is the short extension
followed by the padded `j`. -/
theorem filepathJoin_zero_eq (dir N E S : String) (digits : Int) (j : Int) (hj : 0 < j)
    (hE : '/' ∉ E.data) (hS : '/' ∉ S.data) :
    filepathJoin dir (segmentName N E S digits 0)
        = filepathJoin dir (segmentName N E S digits j) ↔
      E = S ++ String.mk (sprintfPad digits j.toNat) := by
  constructor
  · intro h
    have hpj := sprintfPad_plain digits j.toNat
    have hn0 : (segmentName N E S digits 0).data ≠ [] := by
      rw [segmentName_data_zero]
      simp
    have hnj : (segmentName N E S digits j).data ≠ [] := by
      rw [segmentName_data_pos N E S digits j hj]
      simp [hpj.1]
    have h2 := congrArg String.data h
    have hjd : (segmentName N E S digits j).data
        = (N.data ++ ['.']) ++ (S.data ++ sprintfPad digits j.toNat) := by
      rw [segmentName_data_pos N E S digits j hj]
      simp
    rw [filepathJoin_data dir _ hn0, filepathJoin_data dir _ hnj,
      segmentName_data_zero, hjd,
      (List.append_assoc _ (N.data ++ ['.']) E.data).symm,
      (List.append_assoc _ (N.data ++ ['.'])
        (S.data ++ sprintfPad digits j.toNat)).symm] at h2
    obtain ⟨c, hc⟩ := List.exists_mem_of_ne_nil _ hpj.1
    have := filepathClean_eq_tail
      ((if dir.data = [] then [] else dir.data ++ ['/']) ++ (N.data ++ ['.'])) E.data (S.data ++ sprintfPad digits j.toNat) hE
      (by
        intro hmem
        rcases List.mem_append.1 hmem with h5 | h5
        · exact hS h5
        · exact (hpj.2 _ h5).1 rfl)
      (by
        rw [← List.append_assoc]
        exact baseName_append_dot _)
      ⟨c, List.mem_append_right _ hc, (hpj.2 c hc).2⟩ h2
    apply String.ext
    rw [this]
    simp [String.data_append]
  · intro h
    have : segmentName N E S digits 0 = segmentName N E S digits j := by
      simp only [segmentName, if_true, if_neg (ne_of_gt hj)]
      rw [h, String.append_assoc (N ++ ".") S]
    rw [this]


theorem getFileName_eq_reader {W : Type} (fs : FileSys W) (f : FileReaderPool) (i : Int)
    (hJ : ∀ dir name, fs.Join dir name = filepathJoin dir name)
    (h0 : 0 ≤ i) (h1 : i ≤ f.PoolSize) :
    f.GetFileName fs i = .ok (filepathJoin f.Path
      (segmentName f.NameComponent f.Extension f.ShortExtension f.digits i)) := by
  simp only [FileReaderPool.GetFileName]
  rw [if_neg (by omega), hJ]

theorem getFileName_eq_writer {W : Type} (fs : FileSys W) (g : FileWriterPool) (i : Int)
    (hJ : ∀ dir name, fs.Join dir name = filepathJoin dir name)
    (h0 : 0 ≤ i) (h1 : i ≤ g.PoolSize) :
    g.GetFileName fs i = .ok (filepathJoin g.Path
      (segmentName g.NameComponent g.Extension g.ShortExtension g.digits i)) := by
  simp only [FileWriterPool.GetFileName]
  rw [if_neg (by omega), hJ]

/-- C20, counterexample. With the extension `vol001` and the short extension
`vol` the write pool of 150 files names segment 0 and segment 1 alike, and so
does the read pool: both are stored in `dir/base.vol001`. Two more pools show
that the extensions may hide the collision behind a separator, since
`filepath.Join` cleans the path: with the extension `x/../base.vol001`
(short extension `vol`), and with the extension `a001` and the short
extension `x/../base.a`, segments 0 and 1 again share one file although the
extension is not the short extension followed by `001`. -/
theorem extension_collides_with_volume_name :
    (NewFileWriterPool (logFs false 0) "dir" "base" "vol001" "vol" 150 1024
      = .ok { wpool150 with Extension := "vol001" } ∧
    ({ wpool150 with Extension := "vol001" } : FileWriterPool).GetFileName (logFs false 0) 0
      = .ok "dir/base.vol001" ∧
    ({ wpool150 with Extension := "vol001" } : FileWriterPool).GetFileName (logFs false 0) 1
      = .ok "dir/base.vol001" ∧
    NewFileReaderPool (logFs false 0) "dir" "base" "vol001" "vol" 150
      = .ok { pool150 with Extension := "vol001" } ∧
    ({ pool150 with Extension := "vol001" } : FileReaderPool).GetFileName (logFs false 0) 0
      = .ok "dir/base.vol001" ∧
    ({ pool150 with Extension := "vol001" } : FileReaderPool).GetFileName (logFs false 0) 1
      = .ok "dir/base.vol001") ∧
    (NewFileWriterPool (logFs false 0) "dir" "base" "x/../base.vol001" "vol" 150 1024
      = .ok { wpool150 with Extension := "x/../base.vol001" } ∧
    ({ wpool150 with Extension := "x/../base.vol001" } : FileWriterPool).GetFileName
        (logFs false 0) 0 = .ok "dir/base.vol001" ∧
    ({ wpool150 with Extension := "x/../base.vol001" } : FileWriterPool).GetFileName
        (logFs false 0) 1 = .ok "dir/base.vol001" ∧
    "x/../base.vol001" ≠ "vol" ++ String.mk (sprintfPad 3 1)) ∧
    (NewFileReaderPool (logFs false 0) "dir" "base" "a001" "x/../base.a" 150
      = .ok { pool150 with Extension := "a001", ShortExtension := "x/../base.a" } ∧
    ({ pool150 with Extension := "a001", ShortExtension := "x/../base.a" } :
        FileReaderPool).GetFileName (logFs false 0) 0 = .ok "dir/base.a001" ∧
    ({ pool150 with Extension := "a001", ShortExtension := "x/../base.a" } :
        FileReaderPool).GetFileName (logFs false 0) 1 = .ok "dir/base.a001" ∧
    "a001" ≠ "x/../base.a" ++ String.mk (sprintfPad 3 1)) := by
  refine ⟨⟨rfl, rfl, rfl, rfl, rfl, rfl⟩, ⟨rfl, rfl, rfl, by decide⟩, ⟨rfl, rfl, rfl, by decide⟩⟩

/-- C20, amended. On a file system whose `Join` is `filepath.Join` (Unix
separator), for a read pool and a write pool and indices `0 ≤ i < j ≤
PoolSize - 1`: if `0 < i` the two file names differ, whatever the directory,
the name component, the extensions and the digit width (as `sprintfPad` pads
it); if `i = 0` and the extension is the short extension followed by the padded
`j`, the two names are the same; if `i = 0` and neither extension contains a
separator, the two names are the same only in that case. -/
theorem segment_names_distinct {W : Type} (fs : FileSys W) (f : FileReaderPool)
    (g : FileWriterPool)
    (hJ : ∀ dir name, fs.Join dir name = filepathJoin dir name)
    (i j : Int) (hi : 0 ≤ i) (hij : i < j) :
    (j ≤ f.PoolSize - 1 →
      (0 < i → f.GetFileName fs i ≠ f.GetFileName fs j) ∧
      (i = 0 → f.Extension = f.ShortExtension ++ String.mk (sprintfPad f.digits j.toNat) →
        f.GetFileName fs i = f.GetFileName fs j) ∧
      (i = 0 → '/' ∉ f.Extension.data → '/' ∉ f.ShortExtension.data →
        (f.GetFileName fs i = f.GetFileName fs j ↔
          f.Extension = f.ShortExtension ++ String.mk (sprintfPad f.digits j.toNat)))) ∧
    (j ≤ g.PoolSize - 1 →
      (0 < i → g.GetFileName fs i ≠ g.GetFileName fs j) ∧
      (i = 0 → g.Extension = g.ShortExtension ++ String.mk (sprintfPad g.digits j.toNat) →
        g.GetFileName fs i = g.GetFileName fs j) ∧
      (i = 0 → '/' ∉ g.Extension.data → '/' ∉ g.ShortExtension.data →
        (g.GetFileName fs i = g.GetFileName fs j ↔
          g.Extension = g.ShortExtension ++ String.mk (sprintfPad g.digits j.toNat)))) := by
  constructor
  · intro hj
    rw [getFileName_eq_reader fs f i hJ hi (by omega),
      getFileName_eq_reader fs f j hJ (by omega) (by omega)]
    refine ⟨?_, ?_, ?_⟩
    · intro hpos h
      simp only [Except.ok.injEq] at h
      have := filepathJoin_positive_distinct _ _ _ _ _ i j hpos (by omega) h
      omega
    · intro h0 hE
      subst h0
      have : segmentName f.NameComponent f.Extension f.ShortExtension f.digits 0
          = segmentName f.NameComponent f.Extension f.ShortExtension f.digits j := by
        simp only [segmentName, if_true, if_neg (ne_of_gt hij)]
        rw [String.append_assoc (f.NameComponent ++ ".") f.ShortExtension, ← hE]
      rw [this]
    · intro h0 hE hS
      subst h0
      simp only [Except.ok.injEq]
      exact filepathJoin_zero_eq _ _ _ _ _ j hij hE hS
  · intro hj
    rw [getFileName_eq_writer fs g i hJ hi (by omega),
      getFileName_eq_writer fs g j hJ (by omega) (by omega)]
    refine ⟨?_, ?_, ?_⟩
    · intro hpos h
      simp only [Except.ok.injEq] at h
      have := filepathJoin_positive_distinct _ _ _ _ _ i j hpos (by omega) h
      omega
    · intro h0 hE
      subst h0
      have : segmentName g.NameComponent g.Extension g.ShortExtension g.digits 0
          = segmentName g.NameComponent g.Extension g.ShortExtension g.digits j := by
        simp only [segmentName, if_true, if_neg (ne_of_gt hij)]
        rw [String.append_assoc (g.NameComponent ++ ".") g.ShortExtension, ← hE]
      rw [this]
    · intro h0 hE hS
      subst h0
      simp only [Except.ok.injEq]
      exact filepathJoin_zero_eq _ _ _ _ _ j hij hE hS

/-- Witness of C20 (amended): in the pools of the naming example segments 1 and
2 have different names, and so have segments 0 and 1. -/
theorem segment_names_distinct_witness :
    (pool150.GetFileName (logFs false 0) 1 ≠ pool150.GetFileName (logFs false 0) 2 ∧
      wpool150.GetFileName (logFs false 0) 1 ≠ wpool150.GetFileName (logFs false 0) 2) ∧
    (pool150.GetFileName (logFs false 0) 0 ≠ pool150.GetFileName (logFs false 0) 1 ∧
      wpool150.GetFileName (logFs false 0) 0 ≠ wpool150.GetFileName (logFs false 0) 1) :=
  ⟨⟨((segment_names_distinct (logFs false 0) pool150 wpool150 (fun _ _ => rfl) 1 2
        (by decide) (by decide)).1 (by decide)).1 (by decide),
    ((segment_names_distinct (logFs false 0) pool150 wpool150 (fun _ _ => rfl) 1 2
        (by decide) (by decide)).2 (by decide)).1 (by decide)⟩,
   ⟨fun h => absurd
      (((((segment_names_distinct (logFs false 0) pool150 wpool150 (fun _ _ => rfl) 0 1
        (by decide) (by decide)).1 (by decide)).2.2 rfl (by decide) (by decide)).1 h))
      (by decide),
    fun h => absurd
      (((((segment_names_distinct (logFs false 0) pool150 wpool150 (fun _ _ => rfl) 0 1
        (by decide) (by decide)).2 (by decide)).2.2 rfl (by decide) (by decide)).1 h))
      (by decide)⟩⟩

/-! ## Closing a file pool: the active-file field -/

/-- C13, amended. `Close` of a file pool looks at the active-file field, not at
whether a file is open. With the field nil (as in every pool the constructors
return) the write pool answers `ErrPoolExhausted` and the read pool answers
success, and in both cases the world and the pool are as before the call. With
the field set the write pool calls `Sync` and then `Close` on that file, the read
pool calls `Close` on it, and each returns what `Close` of the file returned.
`Close` never changes the pool, so it never clears the field: a successful
acquisition sets it, and on a file system that keeps track of its handles no
file is open after `Close` while the field keeps the closed handle, which the
next `Close` syncs and closes again. -/
theorem close_with_nothing_open {W : Type} (fs : FileSys W) (f : FileWriterPool) (g : FileReaderPool)
    (s : W) :
    (f.activefile = none → f.Close fs s = (some .ErrPoolExhausted, f, s)) ∧
    (g.activefile = none → g.Close fs s = (none, g, s)) ∧
    (∀ file, f.activefile = some file →
      f.Close fs s =
        ((fs.Close file (fs.Sync file s).2).1, f, (fs.Close file (fs.Sync file s).2).2)) ∧
    (∀ file, g.activefile = some file →
      g.Close fs s = ((fs.Close file s).1, g, (fs.Close file s).2)) ∧
    ((f.Close fs s).2.1 = f ∧ (g.Close fs s).2.1 = g) ∧
    (∀ path n e se ps cap p, NewFileWriterPool fs path n e se ps cap = .ok p →
      p.activefile = none) ∧
    (∀ path n e se ps p, NewFileReaderPool fs path n e se ps = .ok p → p.activefile = none) ∧
    (∀ c f2 s2, f.NewConstrainedWriter fs s = (.ok c, f2, s2) →
      ∃ file, f2.activefile = some file) ∧
    (∀ c g2 s2, g.NewConstrainedReader fs s = (.ok c, g2, s2) →
      ∃ file, g2.activefile = some file) ∧
    (∀ isOpen issued, fs.TracksHandles isOpen issued →
      (SingleHandle isOpen issued f.activefile s → ∀ h, ¬ isOpen (f.Close fs s).2.2 h) ∧
      (SingleHandle isOpen issued g.activefile s → ∀ h, ¬ isOpen (g.Close fs s).2.2 h)) := by
  refine ⟨?_, ?_, ?_, ?_, ⟨?_, ?_⟩, ?_, ?_, ?_, ?_, ?_⟩
  · intro h
    simp [FileWriterPool.Close, h]
  · intro h
    simp [FileReaderPool.Close, h]
  · intro file h
    simp [FileWriterPool.Close, h]
  · intro file h
    simp [FileReaderPool.Close, h]
  · simp only [FileWriterPool.Close]
    split <;> rfl
  · simp only [FileReaderPool.Close]
    split <;> rfl
  · intro path n e se ps cap p h
    simp only [NewFileWriterPool] at h
    split at h
    · cases h
    · cases h
      rfl
  · intro path n e se ps p h
    simp only [NewFileReaderPool] at h
    split at h
    · cases h
    · cases h
      rfl
  · intro c f2 s2 h
    obtain ⟨-, fpath, file, s1, -, -, -, h1, -⟩ :=
      FileWriterPool.acquire_ok_writer fs f s c (by rw [h])
    rw [h] at h1
    exact ⟨file, h1⟩
  · intro c g2 s2 h
    obtain ⟨-, fpath, file, -, -, h1, -⟩ :=
      FileReaderPool.acquire_ok_reader fs g s c (by rw [h])
    rw [h] at h1
    exact ⟨file, h1⟩
  · intro isOpen issued hfs
    constructor
    · intro hs x hx
      have hx2 : isOpen s x ∧ (∀ file, f.activefile = some file → x ≠ file) := by
        revert hx
        simp only [FileWriterPool.Close]
        split
        · rename_i file hact
          intro hx
          obtain ⟨h1, h2⟩ := (hfs.close file _ x).1.1 hx
          refine ⟨(hfs.sync file s x).1.1 h1, fun file2 h3 => ?_⟩
          rw [hact] at h3
          cases h3
          exact h2
        · rename_i hact
          intro hx
          exact ⟨hx, fun file2 h3 => by rw [hact] at h3; cases h3⟩
      exact hx2.2 x (hs.1 x hx2.1) rfl
    · intro hs x hx
      have hx2 : isOpen s x ∧ (∀ file, g.activefile = some file → x ≠ file) := by
        revert hx
        simp only [FileReaderPool.Close]
        split
        · rename_i file hact
          intro hx
          obtain ⟨h1, h2⟩ := (hfs.close file _ x).1.1 hx
          refine ⟨h1, fun file2 h3 => ?_⟩
          rw [hact] at h3
          cases h3
          exact h2
        · rename_i hact
          intro hx
          exact ⟨hx, fun file2 h3 => by rw [hact] at h3; cases h3⟩
      exact hx2.2 x (hs.1 x hx2.1) rfl

/-! ## The count of a call and the reports of its handles -/

section Pinned
variable {W P : Type}

/-- Under a cursor in range, the checks before a segment is used return early
only when the cursor is past the last segment and the pool gives no further
segment: the early return is the failure of `AddConstrainedReaderFromPool`. -/
theorem MultiReader.acquire_failed_reader {I : ReaderPooler W P} (m : MultiReader W P) (s : W)
    (hm : m.InRange) (r : Int × Option Error) (m1 : MultiReader W P) (s1 : W)
    (h : m.acquire I s = .inl (r, m1, s1)) :
    r.1 = 0 ∧ r.2 ≠ none ∧ m.index = (m.crs.length : Int) ∧
      m.AddConstrainedReaderFromPool I s = (r.2, m1, s1) ∧
      m1.crs = m.crs ∧ m1.index = m.index := by
  have hg := MultiReader.addFromPool_grows_reader (I := I) m s
  unfold MultiReader.acquire at h
  simp only at h
  obtain ⟨hm0, hm1⟩ := hm
  rcases hadd : m.AddConstrainedReaderFromPool I s with ⟨err, m', s'⟩
  rw [hadd] at hg h
  simp only at hg
  obtain ⟨hg1, -, hg3, hg4⟩ := hg
  by_cases hlen : m.crs.length = 0
  · rw [if_pos hlen] at h
    cases err with
    | some e =>
      simp only [Sum.inl.injEq, Prod.mk.injEq] at h
      obtain ⟨rfl, rfl, rfl⟩ := h
      exact ⟨rfl, by simp, by omega, rfl, hg4 (by simp), hg1⟩
    | none =>
      simp only at h
      have h2 := hg3 rfl
      rw [if_neg (by omega), if_neg (by omega)] at h
      cases h
  · rw [if_neg hlen] at h
    simp only at h
    rw [if_neg (by omega)] at h
    by_cases hge : m.index ≥ (m.crs.length : Int)
    · rw [if_pos hge, hadd] at h
      cases err with
      | some e =>
        simp only [Sum.inl.injEq, Prod.mk.injEq] at h
        obtain ⟨rfl, rfl, rfl⟩ := h
        exact ⟨rfl, by simp, by omega, rfl, hg4 (by simp), hg1⟩
      | none =>
        have h2 := hg3 rfl
        simp only at h
        rw [if_neg (by omega)] at h
        cases h
    · rw [if_neg hge] at h
      cases h

theorem MultiWriter.acquire_failed_writer {I : WriterPooler W P} (m : MultiWriter W P) (s : W)
    (hm : m.InRange) (r : Int × Option Error) (m1 : MultiWriter W P) (s1 : W)
    (h : m.acquire I s = .inl (r, m1, s1)) :
    r.1 = 0 ∧ r.2 ≠ none ∧ m.index = (m.cws.length : Int) ∧
      m.AddConstrainedWriterFromPool I s = (r.2, m1, s1) ∧
      m1.cws = m.cws ∧ m1.index = m.index := by
  have hsim := MultiWriter.asReader_acquire (I := I) m s
  rw [h] at hsim
  simp only at hsim
  obtain ⟨h1, h2, h3, h4, h5, h6⟩ := MultiReader.acquire_failed_reader m.asReader s
    ((MultiWriter.asReader_inRange m).2 hm) r m1.asReader s1 hsim
  rw [MultiWriter.asReader_addFromPool] at h4
  simp only [Prod.mk.injEq] at h4
  obtain ⟨h41, h42, h43⟩ := h4
  have hm1 := MultiWriter.asReader_injective_stream h42
  refine ⟨h1, h2, ?_, ?_, ?_, h6⟩
  · simpa [MultiWriter.asReader] using h3
  · rw [← h41, ← hm1, ← h43]
  · simp only [MultiWriter.asReader] at h5
    exact List.map_injective_iff.2 ConstrainedWriter.asReader_injective_segment h5

theorem MultiReader.addFromPool_record_reader {I : ReaderPooler (W × List Report) P} (hS : I.Silent)
    (m : MultiReader (W × List Report) P) (sl : W × List Report) :
    (m.AddConstrainedReaderFromPool I sl).2.2.2 = sl.2 := by
  obtain ⟨s, log⟩ := sl
  unfold MultiReader.AddConstrainedReaderFromPool
  cases hp : m.pool with
  | none => rfl
  | some pool =>
    simp only
    have hs := (hS pool s log).1
    rcases hnew : I.NewConstrainedReader pool (s, log) with ⟨r, pool2, s2⟩
    rw [hnew] at hs
    cases r <;> exact hs

theorem MultiWriter.addFromPool_record_writer {I : WriterPooler (W × List Report) P} (hS : I.Silent)
    (m : MultiWriter (W × List Report) P) (sl : W × List Report) :
    (m.AddConstrainedWriterFromPool I sl).2.2.2 = sl.2 := by
  obtain ⟨s, log⟩ := sl
  unfold MultiWriter.AddConstrainedWriterFromPool
  cases hp : m.pool with
  | none => rfl
  | some pool =>
    simp only
    have hs := (hS pool s log).1
    rcases hnew : I.NewConstrainedWriter pool (s, log) with ⟨r, pool2, s2⟩
    rw [hnew] at hs
    cases r <;> exact hs

/-- The reports recorded during a `Write` explain its result. -/
theorem MultiWriter.Write_explained {I : WriterPooler (W × List Report) P} (hS : I.Silent)
    (fuel : Nat)
    (m : MultiWriter (W × List Report) P) (p : List Byte) (s : W) (log : List Report)
    (n : Int) (e : Option Error) (m2 : MultiWriter (W × List Report) P) (s2 : W)
    (log2 : List Report) (hin : m.InRange) (hrec : ∀ c ∈ m.cws, c.w.Recording)
    (h : m.Write I fuel p (s, log) = .ok ((n, e), m2, (s2, log2))) :
    ∃ calls, log2 = log ++ calls ∧
      Explains calls n e
        (fun e => ∃ (m0 : MultiWriter (W × List Report) P) (s0 : W × List Report),
          m0.InRange ∧ m0.acquire I s0 = .inl ((0, e), m2, (s2, log2))) := by
  have hsim := MultiWriter.asReader_Read (I := I) fuel m p (s, log)
  rw [h] at hsim
  have hrec2 : ∀ c ∈ m.asReader.crs, c.r.Recording := by
    intro c hc
    simp only [MultiWriter.asReader, List.mem_map] at hc
    obtain ⟨cw, hcw, rfl⟩ := hc
    intro p s log
    exact hrec cw hcw p s log
  obtain ⟨_, calls, h1, h2, h3, h4⟩ := MultiReader.Read_explained (writerSilent_asReader hS)
    (fun mr => ∃ mw : MultiWriter (W × List Report) P, mr = mw.asReader ∧ mw.InRange)
    (by
      rintro mr s1 m1 s3 ⟨mw, rfl, _⟩ hacq
      rw [MultiWriter.asReader_acquire] at hacq
      cases hw : mw.acquire I s1 with
      | inl r => rw [hw] at hacq; simp at hacq
      | inr r =>
        obtain ⟨mw1, s4⟩ := r
        rw [hw] at hacq
        simp only [Sum.inr.injEq, Prod.mk.injEq] at hacq
        obtain ⟨g1, g2, _⟩ := MultiWriter.acquire_inRange_writer mw s1 mw1 s4 hw
        exact ⟨mw1, hacq.1.symm, g1, le_of_lt g2⟩)
    (by
      rintro mr n1 ⟨mw, rfl, hmw⟩
      refine ⟨(mw.addWritten n1).advance, by
        rw [MultiWriter.asReader_addRead, MultiWriter.asReader_advance], ?_⟩
      have := (MultiReader.step_grows mw.asReader n1).2.2.2.2
        ((MultiWriter.asReader_inRange mw).2 hmw)
      rw [MultiWriter.asReader_addRead, MultiWriter.asReader_advance] at this
      exact (MultiWriter.asReader_inRange _).1 this)
    fuel m.asReader p s log p n e m2.asReader s2 log2 ⟨m, rfl, hin⟩ hrec2 hsim
  refine ⟨calls, h1, h2, h3, ?_⟩
  rcases h4 with h4 | ⟨h4, mr0, s0, ⟨mw0, rfl, hin0⟩, hacq⟩
  · exact Or.inl h4
  · right
    refine ⟨h4, mw0, s0, hin0, ?_⟩
    rw [MultiWriter.asReader_acquire] at hacq
    cases hw : mw0.acquire I s0 with
    | inr r => rw [hw] at hacq; simp at hacq
    | inl r =>
      obtain ⟨r0, mw1, s4⟩ := r
      rw [hw] at hacq
      simp only [Sum.inl.injEq, Prod.mk.injEq] at hacq
      obtain ⟨g1, g2, g3⟩ := hacq
      rw [g1, MultiWriter.asReader_injective_stream g2, g3]

end Pinned

/-- C5, counterexample. A handle that reports the count -1 (with no error): a
`Write` of 2 bytes to one segment of capacity 4 returns the count -1, the count
the handle reported, while `byteswritten` of the segment goes from 0 to
`2^64 - 1`, since the count is added as a `uint64`; the same for `Read` and
`bytesread`. The count returned is not the increase of the counters. -/
theorem negative_count_breaks_total :
    (demoMinusOne.Write noWriterPool 1 [1, 2] ([[]], [])
        = .ok ((-1, none), demoMinusOneAfter, ([[]], [(-1, none)])) ∧
      demoMinusOne.total = 0 ∧ demoMinusOneAfter.total = 18446744073709551615 ∧
      (demoMinusOneAfter.total : Int) ≠ demoMinusOne.total + (-1)) ∧
    (demoMinusOneRead.Read noReaderPool 1 [0, 0] ([[]], [])
        = .ok (([0, 0], -1, none), demoMinusOneReadAfter, ([[]], [(-1, none)])) ∧
      demoMinusOneRead.total = 0 ∧ demoMinusOneReadAfter.total = 18446744073709551615 ∧
      (demoMinusOneReadAfter.total : Int) ≠ demoMinusOneRead.total + (-1)) :=
  ⟨⟨eq_ok_of_toOption _ _ rfl, rfl, rfl, by decide⟩,
    ⟨eq_ok_of_toOption _ _ rfl, rfl, rfl, by decide⟩⟩

/-- A call that ends in a failed acquisition: 6 bytes written to one segment of
capacity 4 without a pool. The segment takes 4 bytes and reports no error; the
call returns the count 4 with `ErrPoolExhausted`, the error that
`AddConstrainedWriterFromPool` returns on the stream as the call leaves it. -/
theorem full_stream_reports_exhausted :
    demoFull.Write noWriterPool 3 [1, 2, 3, 4, 5, 6] ([[]], [])
      = .ok ((4, some .ErrPoolExhausted), demoFullAfter, ([[1, 2, 3, 4]], [(4, none)])) ∧
    demoFullAfter.index = (demoFullAfter.cws.length : Int) ∧
    demoFullAfter.AddConstrainedWriterFromPool noWriterPool ([[1, 2, 3, 4]], [(4, none)])
      = (some .ErrPoolExhausted, demoFullAfter, ([[1, 2, 3, 4]], [(4, none)])) :=
  ⟨eq_ok_of_toOption _ _ rfl, rfl, rfl⟩

section Counts
variable {W P V Q : Type}

/-- C5, amended. For a `Write` (`Read`) that returns, with or without an error,
on a state satisfying the invariant, with handles that keep the contract
`0 ≤ n ≤ len(p)` and record their reports: the count `n` is the increase of the
total of `byteswritten` (`bytesread`) over all segments and the total of the
counts the handles reported during the call; every handle call but the last
reported no error, and the error returned is the one the last handle call
reported, unless no handle reported an error and the call ended in a failed
acquisition. In that case the cursor is past the last segment and the error is
the one that `AddConstrainedWriterFromPool` (`AddConstrainedReaderFromPool`)
returned on the segments and the cursor with which the call returns, leaving
the pool and the world as the call returns them. -/
theorem count_is_transferred_total
    (IW : WriterPooler (W × List Report) P) (IR : ReaderPooler (V × List Report) Q)
    (hW : WriterPoolOK IW) (hWs : IW.Silent) (hR : ReaderPoolOK IR) (hRs : IR.Silent)
    (mw : MultiWriter (W × List Report) P) (mr : MultiReader (V × List Report) Q)
    (hmw : mw.Inv) (hmwr : ∀ c ∈ mw.cws, c.w.Recording)
    (hmr : mr.Inv) (hmrr : ∀ c ∈ mr.crs, c.r.Recording)
    (fuel : Nat) (p : List Byte) (s : W) (log : List Report) (n : Int) (e : Option Error)
    (mw2 : MultiWriter (W × List Report) P) (s2 : W) (log2 : List Report)
    (hwrite : mw.Write IW fuel p (s, log) = .ok ((n, e), mw2, (s2, log2)))
    (fuelr : Nat) (q : List Byte) (t : V) (logr : List Report) (buf : List Byte) (k : Int)
    (er : Option Error) (mr2 : MultiReader (V × List Report) Q) (t2 : V)
    (logr2 : List Report)
    (hread : mr.Read IR fuelr q (t, logr) = .ok ((buf, k, er), mr2, (t2, logr2))) :
    ((mw2.total : Int) = mw.total + n ∧
      ∃ calls, log2 = log ++ calls ∧
        Explains calls n e
          (fun e => e ≠ none ∧ mw2.index = (mw2.cws.length : Int) ∧
            ∃ (pool0 : Option P) (s0 : W),
              ({ mw2 with pool := pool0 } :
                  MultiWriter (W × List Report) P).AddConstrainedWriterFromPool IW (s0, log2)
                = (e, mw2, (s2, log2)))) ∧
    ((mr2.total : Int) = mr.total + k ∧
      ∃ calls, logr2 = logr ++ calls ∧
        Explains calls k er
          (fun e => e ≠ none ∧ mr2.index = (mr2.crs.length : Int) ∧
            ∃ (pool0 : Option Q) (t0 : V),
              ({ mr2 with pool := pool0 } :
                  MultiReader (V × List Report) Q).AddConstrainedReaderFromPool IR (t0, logr2)
                = (e, mr2, (t2, logr2)))) := by
  refine ⟨⟨?_, ?_⟩, ⟨?_, ?_⟩⟩
  · exact (MultiWriter.Write_spec hW fuel mw p (s, log) n e mw2 (s2, log2) hmw hwrite).2.2.2.1
  · obtain ⟨calls, h1, h2, h3, h4⟩ := MultiWriter.Write_explained hWs fuel mw p s log n e mw2
      s2 log2 ⟨hmw.nonneg, hmw.le_len⟩ hmwr hwrite
    refine ⟨calls, h1, h2, h3, ?_⟩
    rcases h4 with h4 | ⟨h4, m0, s0, hin0, hacq⟩
    · exact Or.inl h4
    · right
      obtain ⟨-, g2, g3, g4, g5, g6⟩ :=
        MultiWriter.acquire_failed_writer m0 s0 hin0 (0, e) mw2 (s2, log2) hacq
      have hlog := MultiWriter.addFromPool_record_writer hWs m0 s0
      rw [g4] at hlog
      simp only at hlog g2 g4
      refine ⟨h4, g2, by rw [g6, g5]; exact g3, m0.pool, s0.1, ?_⟩
      have hm0 : ({ mw2 with pool := m0.pool } : MultiWriter (W × List Report) P) = m0 := by
        cases m0
        cases mw2
        simp only at g5 g6
        simp [g5, g6]
      have hs0 : (s0.1, log2) = s0 := by
        rw [hlog]
      rw [hm0, hs0, g4]
  · exact (MultiReader.Read_spec hR fuelr mr q (t, logr) buf k er mr2 (t2, logr2) hmr
      hread).2.2.2.1
  · obtain ⟨_, calls, h1, h2, h3, h4⟩ := MultiReader.Read_explained hRs
      (fun m => m.InRange)
      (fun m s m1 s1 _ hacq =>
        ⟨(MultiReader.acquire_inRange_reader m s m1 s1 hacq).1,
          le_of_lt (MultiReader.acquire_inRange_reader m s m1 s1 hacq).2.1⟩)
      (fun m n hm => (MultiReader.step_grows m n).2.2.2.2 hm)
      fuelr mr q t logr buf k er mr2 t2 logr2 ⟨hmr.nonneg, hmr.le_len⟩ hmrr hread
    refine ⟨calls, h1, h2, h3, ?_⟩
    rcases h4 with h4 | ⟨h4, m0, s0, hin0, hacq⟩
    · exact Or.inl h4
    · right
      obtain ⟨-, g2, g3, g4, g5, g6⟩ :=
        MultiReader.acquire_failed_reader m0 s0 hin0 (0, er) mr2 (t2, logr2) hacq
      have hlog := MultiReader.addFromPool_record_reader hRs m0 s0
      rw [g4] at hlog
      simp only at hlog g2 g4
      refine ⟨h4, g2, by rw [g6, g5]; exact g3, m0.pool, s0.1, ?_⟩
      have hm0 : ({ mr2 with pool := m0.pool } : MultiReader (V × List Report) Q) = m0 := by
        cases m0
        cases mr2
        simp only at g5 g6
        simp [g5, g6]
      have hs0 : (s0.1, logr2) = s0 := by
        rw [hlog]
      rw [hm0, hs0, g4]

end Counts

/-- Witness of C5 (amended): a write of 6 bytes whose second segment takes one
byte and fails (count 5 with the error of that segment), and a read of 6 bytes
whose second segment is empty (count 4 with `io.EOF`). -/
theorem count_is_transferred_total_witness :
    ((demoLimitedAfter.total : Int) = demoLimited.total + 5 ∧
      ∃ calls, [(4, none), (1, some (.other 28))] = [] ++ calls ∧
        Explains calls 5 (some (.other 28))
          (fun e => e ≠ none ∧ demoLimitedAfter.index = (demoLimitedAfter.cws.length : Int) ∧
            ∃ (pool0 : Option Unit) (s0 : Store),
              ({ demoLimitedAfter with pool := pool0 } :
                  MultiWriter (Store × List Report) Unit).AddConstrainedWriterFromPool
                    noWriterPool (s0, [(4, none), (1, some (.other 28))])
                = (e, demoLimitedAfter,
                    ([[1, 2, 3, 4], [5]], [(4, none), (1, some (.other 28))])))) ∧
    ((demoShortAfter.total : Int) = demoShort.total + 4 ∧
      ∃ calls, [(4, none), (0, some EOF)] = [] ++ calls ∧
        Explains calls 4 (some EOF)
          (fun e => e ≠ none ∧ demoShortAfter.index = (demoShortAfter.crs.length : Int) ∧
            ∃ (pool0 : Option Unit) (t0 : Store),
              ({ demoShortAfter with pool := pool0 } :
                  MultiReader (Store × List Report) Unit).AddConstrainedReaderFromPool
                    noReaderPool (t0, [(4, none), (0, some EOF)])
                = (e, demoShortAfter, ([[], []], [(4, none), (0, some EOF)])))) :=
  count_is_transferred_total noWriterPool noReaderPool noWriterPool_ok noWriterPool_silent
    noReaderPool_ok noReaderPool_silent demoLimited demoShort demoLimited_inv
    (by
      intro c hc
      simp only [demoLimited, MultiWriter.AddConstrainedWriter, NewMultiWriter,
        List.nil_append, List.cons_append, List.mem_cons, List.mem_singleton,
        List.not_mem_nil, or_false] at hc
      rcases hc with rfl | rfl <;> exact recorded_writer_recording _)
    demoShort_inv
    (by
      intro c hc
      simp only [demoShort, MultiReader.AddConstrainedReader, NewMultiReader,
        List.nil_append, List.cons_append, List.mem_cons, List.mem_singleton,
        List.not_mem_nil, or_false] at hc
      rcases hc with rfl | rfl <;> exact recorded_reader_recording _)
    3 [1, 2, 3, 4, 5, 6] [[], []] [] 5 (some (.other 28)) demoLimitedAfter [[1, 2, 3, 4], [5]]
    [(4, none), (1, some (.other 28))] demoLimited_run
    3 [0, 0, 0, 0, 0, 0] [[1, 2, 3, 4], []] [] [1, 2, 3, 4, 0, 0] 4 (some EOF) demoShortAfter
    [[], []] [(4, none), (0, some EOF)] demoShort_run

end Multifile
